import Mathlib

/-!
# deag: multi-objective ranking (fitness vectors, non-dominated sorting, NSGA-II selection)

A shallow embedding of `base/fitness.go`, `utility/list/static_linked_list.go` and
`tools/emo/nsga2.go`.

Modelling conventions.
* `float64` is modelled by `ℚ`: the embedded code only compares, multiplies, subtracts and
  divides, and the values are taken to be finite and the arithmetic exact.  `+Inf`, which
  the crowding distance uses, is a constructor of `Dist`.  A division by a zero weight is
  outside this model.  NaN and the infinities are covered by a second embedding of the
  comparisons of `base/fitness.go` and of the sorter over `Float64` (namespace `IEEE`),
  which agrees with this one wherever no weighted value is NaN (`comparisons_squash`,
  `sortNondominated_squash`).
* A Go slice is a `List`; `nil` and the empty slice are both `[]`.
* A run-time panic (index out of range, slice bounds out of range, explicit `panic`) is
  `Outcome.panic`.  The one unbounded loop of the code (front peeling) takes a fuel argument
  and yields `Outcome.outOfFuel` when the fuel is used up.
* An individual is represented by the fitness that `GetFitness()` returns: the sorter and the
  selector never read the chromosome.  A reference to an individual, and the `*Fitness`
  pointer it owns, is the position of that individual in the `individuals` slice paired
  with the fitness found there (`Ref`).
-/

namespace Deag

/-! ## Results of fallible code -/

/-- Result of running a piece of Go code: a value, a run-time panic, or fuel used up. -/
inductive Outcome (α : Type) where
  | ok : α → Outcome α
  | panic : Outcome α
  | outOfFuel : Outcome α
deriving DecidableEq, Repr

namespace Outcome

/-- Sequencing: a panic or an exhausted fuel aborts the rest. -/
def bind {α β : Type} (x : Outcome α) (f : α → Outcome β) : Outcome β :=
  match x with
  | ok a => f a
  | panic => panic
  | outOfFuel => outOfFuel

instance : Monad Outcome where
  pure := Outcome.ok
  bind := Outcome.bind

end Outcome

/-- Go slice indexing `xs[i]` with an `int` index: panics outside `0 ≤ i < len(xs)`. -/
def index {α : Type} (xs : List α) (i : Int) : Outcome α :=
  if i < 0 then Outcome.panic
  else match xs.get? i.toNat with
    | some x => Outcome.ok x
    | none => Outcome.panic

/-! ## base/fitness.go -/

/-- Struct `Fitness`: weights, cached weighted values, raw values, validity flag. -/
structure Fitness where
  weights : List ℚ
  wvalues : List ℚ
  values : List ℚ
  valid : Bool
deriving DecidableEq

namespace Fitness

/-- Method `GetWValues`: a copy of the weighted values, `nil` when there are no weights. -/
def GetWValues (fitness : Fitness) : List ℚ :=
  if fitness.weights = [] then [] else fitness.wvalues

/-- Loop of `GetValues` from position `i`: `values[i] = wvalues[i] / weights[i]`.  A zero
weight is outside the model: Go yields NaN or an infinity there. -/
def getValuesFrom (wvalues : List ℚ) : List ℚ → Nat → Outcome (List ℚ)
  | [], _ => Outcome.ok []
  | w :: ws, i =>
    match wvalues.get? i with
    | none => Outcome.panic
    | some wv =>
      match getValuesFrom wvalues ws (i + 1) with
      | Outcome.ok rest => Outcome.ok (wv / w :: rest)
      | Outcome.panic => Outcome.panic
      | Outcome.outOfFuel => Outcome.outOfFuel

/-- Method `GetValues`: the raw values recomputed from the weighted values. -/
def GetValues (fitness : Fitness) : Outcome (List ℚ) :=
  getValuesFrom fitness.wvalues fitness.weights 0

/-- Method `Len`: the number of objectives, `len(fitness.values)`. -/
def Len (fitness : Fitness) : Nat := fitness.values.length

/-- Loop of `Dominates` for `obj == nil`: ranges over the receiver's weighted values from
position `i`, reading `other.wvalues[i]`. -/
def dominatesAll (other : List ℚ) : List ℚ → Nat → Bool → Outcome Bool
  | [], _, notEqual => Outcome.ok notEqual
  | wv :: rest, i, notEqual =>
    match other.get? i with
    | none => Outcome.panic
    | some o =>
      if wv > o then dominatesAll other rest (i + 1) true
      else if wv < o then Outcome.ok false
      else dominatesAll other rest (i + 1) notEqual

/-- Loop of `Dominates` for a non-nil `obj`: ranges over the listed indices. -/
def dominatesObj (mine other : List ℚ) : List Int → Bool → Outcome Bool
  | [], notEqual => Outcome.ok notEqual
  | i :: rest, notEqual =>
    match index mine i with
    | Outcome.ok m =>
      match index other i with
      | Outcome.ok o =>
        if m > o then dominatesObj mine other rest true
        else if m < o then Outcome.ok false
        else dominatesObj mine other rest notEqual
      | Outcome.panic => Outcome.panic
      | Outcome.outOfFuel => Outcome.outOfFuel
    | Outcome.panic => Outcome.panic
    | Outcome.outOfFuel => Outcome.outOfFuel

/-- Method `Dominates`; `obj = none` is Go's `nil` index list. -/
def Dominates (fitness other : Fitness) (obj : Option (List Int)) : Outcome Bool :=
  match obj with
  | none => dominatesAll other.wvalues fitness.wvalues 0 false
  | some idxs => dominatesObj fitness.wvalues other.wvalues idxs false

/-- Loop of `Equal` from position `i`. -/
def equalFrom (other : List ℚ) : List ℚ → Nat → Outcome Bool
  | [], _ => Outcome.ok true
  | fit :: rest, i =>
    match other.get? i with
    | none => Outcome.panic
    | some o => if o ≠ fit then Outcome.ok false else equalFrom other rest (i + 1)

/-- Method `Equal`: elementwise equality of the weighted values. -/
def Equal (fitness other : Fitness) : Outcome Bool :=
  equalFrom other.wvalues fitness.wvalues 0

end Fitness

/-! ## utility/list/static_linked_list.go -/

/-- Go map read `v, ok := m[k]` on a map with `int` values. -/
def mapGet {κ : Type} [DecidableEq κ] : List (κ × Int) → κ → Option Int
  | [], _ => none
  | (k', v) :: rest, k => if k' = k then some v else mapGet rest k

/-- Go map read `m[k]`: the zero value when the key is absent. -/
def mapGetD {κ : Type} [DecidableEq κ] (m : List (κ × Int)) (k : κ) : Int :=
  match mapGet m k with
  | some v => v
  | none => 0

/-- Go map write `m[k] = v`. -/
def mapSet {κ : Type} [DecidableEq κ] : List (κ × Int) → κ → Int → List (κ × Int)
  | [], k, v => [(k, v)]
  | (k', v') :: rest, k, v =>
    if k' = k then (k', v) :: rest else (k', v') :: mapSet rest k v

/-- Struct `StaticLinkedList`, for bucket keys of type `κ`. -/
structure StaticLinkedList (κ : Type) where
  head : List (κ × Int)
  size : List (κ × Int)
  datas : List Int
  next : List Int
  total : Nat
  cap : Nat
deriving DecidableEq

namespace StaticLinkedList

variable {κ : Type} [DecidableEq κ]

/-- Method `Reset`: fresh bucket maps, insertion counter back to zero. -/
def Reset (list : StaticLinkedList κ) : StaticLinkedList κ :=
  { list with head := [], size := [], total := 0 }

/-- Method `Add`: the updated list and whether an error was returned. -/
def Add (list : StaticLinkedList κ) (headID : κ) (elemIndex : Int) :
    StaticLinkedList κ × Bool :=
  if list.cap ≤ list.total then (list, true)
  else
    let newIndex := list.total
    let nx : Int := (mapGet list.head headID).getD (-1)
    ({ head := mapSet list.head headID newIndex
       size := mapSet list.size headID (mapGetD list.size headID + 1)
       datas := list.datas.set newIndex elemIndex
       next := list.next.set newIndex nx
       total := list.total + 1
       cap := list.cap }, false)

/-- Method `GetFirstDataIndex`. -/
def GetFirstDataIndex (list : StaticLinkedList κ) (headID : κ) : Int × Bool :=
  match mapGet list.head headID with
  | some idx => (idx, true)
  | none => (0, false)

/-- Method `GetData`: `(0, -1)` for an index that does not exist. -/
def GetData (list : StaticLinkedList κ) (idx : Int) : Int × Int :=
  if idx < 0 ∨ idx ≥ list.total ∨ idx ≥ list.cap then (0, -1)
  else (list.datas.getD idx.toNat 0, list.next.getD idx.toNat 0)

/-- Method `GetSize`. -/
def GetSize (list : StaticLinkedList κ) (headID : κ) : Int × Bool :=
  match mapGet list.size headID with
  | some amount => (amount, true)
  | none => (0, false)

/-- Method `GetHead`: a copy of the head map. -/
def GetHead (list : StaticLinkedList κ) : List (κ × Int) := list.head

end StaticLinkedList

/-- Function `NewStaticLinkedList`. -/
def NewStaticLinkedList {κ : Type} (capacity : Nat) : StaticLinkedList κ :=
  { head := [], size := [], datas := List.replicate capacity 0,
    next := List.replicate capacity 0, total := 0, cap := capacity }

/-! ## Go standard library: package sort -/

/-- Inner loop of insertion sort, `for j := i; j > a && Less(j, j-1); j-- { Swap(j, j-1) }`:
the element `x` moves left while `less x y` holds for its left neighbour `y`.  The prefix
already sorted is given in reverse (nearest neighbour first) and so is the result. -/
def insertSorted {α : Type} (less : α → α → Outcome Bool) (x : α) : List α → Outcome (List α)
  | [] => Outcome.ok [x]
  | y :: ys =>
    (less x y).bind fun b =>
      if b then (insertSorted less x ys).bind fun r => Outcome.ok (y :: r)
      else Outcome.ok (x :: y :: ys)

/-- Outer loop of insertion sort over the elements not yet placed. -/
def insertionSort {α : Type} (less : α → α → Outcome Bool) : List α → List α → Outcome (List α)
  | [], done => Outcome.ok done.reverse
  | x :: rest, done => (insertSorted less x done).bind fun d => insertionSort less rest d

/-- Library function `sort.Sort`, as insertion sort: that is the algorithm the library runs
on slices of at most 12 elements.  Longer slices are sorted by the library's quicksort,
which is not modelled; for a `Less` that is a strict weak order its result differs from the
one here at most in the order of elements that compare equal.  `less x y` is `Less(i, j)`
for `x` at `i`, `y` at `j`; an element of the list stands for everything `Swap` moves
together. -/
def sortSort {α : Type} (less : α → α → Outcome Bool) (data : List α) : Outcome (List α) :=
  insertionSort less data []

/-- Loop of the library function `sort.Search`: binary search on `[i, j)`. -/
def searchLoop (f : Nat → Outcome Bool) : Nat → Nat → Nat → Outcome Nat
  | 0, i, _ => Outcome.ok i
  | fuel + 1, i, j =>
    if i < j then
      let h := (i + j) / 2
      (f h).bind fun b => if !b then searchLoop f fuel (h + 1) j else searchLoop f fuel i h
    else Outcome.ok i

/-- Library function `sort.Search`; the interval shrinks at every step, so `n` steps reach
`i = j`. -/
def sortSearch (n : Nat) (f : Nat → Outcome Bool) : Outcome Nat :=
  searchLoop f n 0 n

/-! ## tools/emo/nsga2.go -/

/-- Reference to an individual of the population, and likewise the `*Fitness` pointer that
individual owns: the position in the `individuals` slice together with the fitness found
there (the sorter never writes to a fitness). -/
abbrev Ref := Nat × Fitness

/-- Loop of `fitnessSorter.Less` from position `k` of `valI`. -/
def fitnessLessFrom (valJ : List ℚ) : List ℚ → Nat → Outcome Bool
  | [], _ => Outcome.ok true
  | vi :: rest, k =>
    match valJ.get? k with
    | none => Outcome.panic
    | some vj => if vi ≠ vj then Outcome.ok (decide (vi < vj)) else fitnessLessFrom valJ rest (k + 1)

/-- Method `fitnessSorter.Less`, on the two elements compared. -/
def fitnessSorterLess (x y : Ref) : Outcome Bool :=
  fitnessLessFrom y.2.GetWValues x.2.GetWValues 0

/-- Deduplication loop of `uniqueByFitness`: `cur` is `fits[current]`, the list holds
`fits[i], fits[i+1], ...`; the result is `fits[current:]` as finally written. -/
def uniqueFrom (cur : Ref) : List Ref → Outcome (List Ref)
  | [] => Outcome.ok [cur]
  | x :: rest =>
    (cur.2.Equal x.2).bind fun e =>
      if !e then (uniqueFrom x rest).bind fun r => Outcome.ok (cur :: r)
      else uniqueFrom cur rest

/-- Positions paired with the elements: `for i, x := range xs`. -/
def enumFrom {α : Type} : Nat → List α → List (Nat × α)
  | _, [] => []
  | i, x :: xs => (i, x) :: enumFrom (i + 1) xs

/-- Function `uniqueByFitness`. `fits[:current+1]` panics on an empty population. -/
def uniqueByFitness (individuals : List Fitness) : Outcome (List Ref) :=
  (sortSort fitnessSorterLess (enumFrom 0 individuals)).bind fun fits =>
    match fits with
    | [] => Outcome.panic
    | x :: rest => uniqueFrom x rest

/-- State of the pairwise pass of `sortNondominated`. -/
structure DomState where
  dominatingFits : List (Nat × Int)
  dominatedFits : StaticLinkedList Nat
  currentFront : List Ref
deriving DecidableEq

/-- Inner loop `for j, fitJ := range fits[i+1:]` of the pairwise pass. -/
def domInner (fitI : Ref) (i : Nat) : List Ref → Nat → DomState → Outcome DomState
  | [], _, st => Outcome.ok st
  | fitJ :: rest, j, st =>
    (fitI.2.Dominates fitJ.2 none).bind fun d1 =>
      if d1 then
        domInner fitI i rest (j + 1)
          { st with
            dominatingFits := mapSet st.dominatingFits fitJ.1 (mapGetD st.dominatingFits fitJ.1 + 1)
            dominatedFits := (st.dominatedFits.Add fitI.1 j).1 }
      else
        (fitJ.2.Dominates fitI.2 none).bind fun d2 =>
          if d2 then
            domInner fitI i rest (j + 1)
              { st with
                dominatingFits :=
                  mapSet st.dominatingFits fitI.1 (mapGetD st.dominatingFits fitI.1 + 1)
                dominatedFits := (st.dominatedFits.Add fitJ.1 i).1 }
          else domInner fitI i rest (j + 1) st

/-- Outer loop `for i, fitI := range fits` of the pairwise pass. -/
def domOuter : List Ref → Nat → DomState → Outcome DomState
  | [], _, st => Outcome.ok st
  | fitI :: rest, i, st =>
    (domInner fitI i rest 0 st).bind fun st1 =>
      domOuter rest (i + 1)
        (if mapGetD st1.dominatingFits fitI.1 = 0
          then { st1 with currentFront := st1.currentFront ++ [fitI] }
          else st1)

/-- Predicate handed to `sort.Search` in `mapIndividualsByFitness`, from position `k` of
the weighted values of `uniqueFitness[j]`. -/
def searchPredFrom (indWValues : List ℚ) : List ℚ → Nat → Outcome Bool
  | [], _ => Outcome.ok true
  | wv :: rest, k =>
    match indWValues.get? k with
    | none => Outcome.panic
    | some iv => if wv ≠ iv then Outcome.ok (decide (wv > iv)) else searchPredFrom indWValues rest (k + 1)

/-- Loop `for i, ind := range individuals` of `mapIndividualsByFitness`. -/
def mapLoop (uniqueFitness : List Ref) :
    List Fitness → Nat → StaticLinkedList Nat → Outcome (StaticLinkedList Nat)
  | [], _, mapping => Outcome.ok mapping
  | indFit :: rest, i, mapping =>
    (sortSearch uniqueFitness.length fun j =>
        (index uniqueFitness j).bind fun u =>
          searchPredFrom indFit.GetWValues u.2.GetWValues 0).bind fun loc =>
      match uniqueFitness.get? loc with
      | none => Outcome.panic
      | some u =>
        (u.2.Equal indFit).bind fun e =>
          if e then mapLoop uniqueFitness rest (i + 1) (mapping.Add u.1 i).1
          else Outcome.panic

/-- Function `mapIndividualsByFitness`. -/
def mapIndividualsByFitness (uniqueFitness : List Ref) (individuals : List Fitness) :
    Outcome (StaticLinkedList Nat) :=
  mapLoop uniqueFitness individuals 0 (NewStaticLinkedList individuals.length)

/-- Loop `for next != -1` of the closure `extends`.  A chain of a list built by `Add`
descends strictly, so `total + 1` steps always reach `-1`. -/
def extendsLoop (mapFitInd : StaticLinkedList Nat) (frontIndex : Nat) :
    Nat → Int → StaticLinkedList Nat → Outcome (StaticLinkedList Nat)
  | 0, next, fronts => if next = -1 then Outcome.ok fronts else Outcome.outOfFuel
  | steps + 1, next, fronts =>
    if next = -1 then Outcome.ok fronts
    else
      extendsLoop mapFitInd frontIndex steps (mapFitInd.GetData next).2
        (fronts.Add frontIndex (mapFitInd.GetData next).1).1

/-- Closure `extends` of `sortNondominated` (a reserved word in Lean, hence the name):
appends the individuals mapped to `fit` to the front `frontIndex`. -/
def extendFront (mapFitInd : StaticLinkedList Nat) (frontIndex : Nat) (fit : Ref)
    (fronts : StaticLinkedList Nat) : Outcome (StaticLinkedList Nat) :=
  if (mapFitInd.GetFirstDataIndex fit.1).2 then
    extendsLoop mapFitInd frontIndex (mapFitInd.total + 1)
      (mapFitInd.GetFirstDataIndex fit.1).1 fronts
  else Outcome.ok fronts

/-- Loop `for _, fit := range currentFront { extends(fit) }`. -/
def extendAll (mapFitInd : StaticLinkedList Nat) (frontIndex : Nat) :
    List Ref → StaticLinkedList Nat → Outcome (StaticLinkedList Nat)
  | [], fronts => Outcome.ok fronts
  | fit :: rest, fronts =>
    (extendFront mapFitInd frontIndex fit fronts).bind fun f => extendAll mapFitInd frontIndex rest f

/-- Variables the peeling loop of `sortNondominated` updates. -/
structure PeelState where
  dominatingFits : List (Nat × Int)
  nextFront : List Ref
  paretoSorted : Int
  fronts : StaticLinkedList Nat
deriving DecidableEq

/-- Loop `for next != -1` of the peeling step: `fitDIdx, next` are the values last read by
`dominatedFits.GetData`. -/
def peelChain (fits : List Ref) (mapFitInd dominatedFits : StaticLinkedList Nat)
    (frontIndex : Nat) : Nat → Int → Int → PeelState → Outcome PeelState
  | 0, _, next, st => if next = -1 then Outcome.ok st else Outcome.outOfFuel
  | steps + 1, fitDIdx, next, st =>
    if next = -1 then Outcome.ok st
    else
      (index fits fitDIdx).bind fun fitD =>
        let count := mapGetD st.dominatingFits fitD.1 - 1
        let counts := mapSet st.dominatingFits fitD.1 count
        (if count = 0 then
            (extendFront mapFitInd frontIndex fitD st.fronts).bind fun fr =>
              Outcome.ok
                { dominatingFits := counts
                  nextFront := st.nextFront ++ [fitD]
                  paretoSorted := st.paretoSorted + (mapFitInd.GetSize fitD.1).1
                  fronts := fr }
          else Outcome.ok { st with dominatingFits := counts }).bind fun st1 =>
          peelChain fits mapFitInd dominatedFits frontIndex steps
            (dominatedFits.GetData next).1 (dominatedFits.GetData next).2 st1

/-- Loop `for _, fitP := range currentFront` of the peeling step. -/
def peelFront (fits : List Ref) (mapFitInd dominatedFits : StaticLinkedList Nat)
    (frontIndex : Nat) : List Ref → PeelState → Outcome PeelState
  | [], st => Outcome.ok st
  | fitP :: rest, st =>
    (if (dominatedFits.GetFirstDataIndex fitP.1).2 then
        peelChain fits mapFitInd dominatedFits frontIndex (dominatedFits.total + 1)
          (dominatedFits.GetData (dominatedFits.GetFirstDataIndex fitP.1).1).1
          (dominatedFits.GetData (dominatedFits.GetFirstDataIndex fitP.1).1).2 st
      else Outcome.ok st).bind fun st1 =>
      peelFront fits mapFitInd dominatedFits frontIndex rest st1

/-- Loop `for paretoSorted < N` of `sortNondominated`; one unit of fuel per iteration. -/
def peelLoop (fits : List Ref) (mapFitInd dominatedFits : StaticLinkedList Nat)
    (frontIndex : Nat) (N : Int) : Nat → List Ref → PeelState → Outcome PeelState
  | 0, _, st => if st.paretoSorted < N then Outcome.outOfFuel else Outcome.ok st
  | fuel + 1, currentFront, st =>
    if st.paretoSorted < N then
      (peelFront fits mapFitInd dominatedFits frontIndex currentFront st).bind fun st1 =>
        peelLoop fits mapFitInd dominatedFits frontIndex N fuel st1.nextFront
          { st1 with nextFront := [] }
    else Outcome.ok st

/-- Loop `for next != -1` of `staticLinkedList2Slice`: the front read off one chain. -/
def frontChain (fronts : StaticLinkedList Nat) (individuals : List Fitness) :
    Nat → Int → Outcome (List Ref)
  | 0, next => if next = -1 then Outcome.ok [] else Outcome.outOfFuel
  | steps + 1, next =>
    if next = -1 then Outcome.ok []
    else
      (index individuals (fronts.GetData next).1).bind fun ind =>
        (frontChain fronts individuals steps (fronts.GetData next).2).bind fun rest =>
          Outcome.ok (((fronts.GetData next).1.toNat, ind) :: rest)

/-- Loop `for i := 0; i < headSize; i++` of `staticLinkedList2Slice`, with `todo` rounds
left. -/
def frontsFrom (fronts : StaticLinkedList Nat) (individuals : List Fitness) :
    Nat → Nat → Outcome (List (List Ref))
  | 0, _ => Outcome.ok []
  | todo + 1, i =>
    (if (fronts.GetFirstDataIndex i).2 then
        frontChain fronts individuals (fronts.total + 1) (fronts.GetFirstDataIndex i).1
      else Outcome.ok []).bind fun front =>
      (frontsFrom fronts individuals todo (i + 1)).bind fun rest => Outcome.ok (front :: rest)

/-- Function `staticLinkedList2Slice`. -/
def staticLinkedList2Slice (fronts : StaticLinkedList Nat) (individuals : List Fitness) :
    Outcome (List (List Ref)) :=
  frontsFrom fronts individuals fronts.GetHead.length 0

/-- Function `sortNondominated`.  `fuel` bounds the iterations of the peeling loop. -/
def sortNondominated (fuel : Nat) (individuals : List Fitness) (k : Int)
    (firstFrontOnly : Bool) : Outcome (List (List Ref)) :=
  if k = 0 then Outcome.ok []
  else
    (uniqueByFitness individuals).bind fun fits =>
      let cap := individuals.length
      (domOuter fits 0
          { dominatingFits := []
            dominatedFits := NewStaticLinkedList (cap * (cap - 1) / 2)
            currentFront := [] }).bind fun dom =>
        (mapIndividualsByFitness fits individuals).bind fun mapFitInd =>
          (extendAll mapFitInd 0 dom.currentFront (NewStaticLinkedList cap)).bind fun fronts0 =>
            let paretoSorted := (fronts0.GetSize 0).1
            (if !firstFrontOnly then
                let N : Int := if (cap : Int) < k then (cap : Int) else k
                (peelLoop fits mapFitInd dom.dominatedFits 1 N fuel dom.currentFront
                    { dominatingFits := dom.dominatingFits
                      nextFront := []
                      paretoSorted := paretoSorted
                      fronts := fronts0 }).bind fun st => Outcome.ok st.fronts
              else Outcome.ok fronts0).bind fun fronts =>
              staticLinkedList2Slice fronts individuals

/-- Crowding distance: a finite `float64` or `+Inf`. -/
inductive Dist where
  | fin : ℚ → Dist
  | inf : Dist
deriving DecidableEq

namespace Dist

/-- Comparison `a < b` of two distances. -/
def lt : Dist → Dist → Bool
  | fin a, fin b => decide (a < b)
  | fin _, inf => true
  | inf, _ => false

/-- Update `d += q` with a finite `q`: `+Inf` absorbs it. -/
def add : Dist → ℚ → Dist
  | fin a, q => fin (a + q)
  | inf, _ => inf

end Dist

/-- Method `crowdingDistSorter.Less` for `Loc = loc`; an element is a row of `ValuesSlice`
with the entry of `I` that `Swap` moves along with it. -/
def crowdingDistSorterLess (loc : Nat) (x y : List ℚ × Nat) : Outcome Bool :=
  (index x.1 loc).bind fun a => (index y.1 loc).bind fun b => Outcome.ok (decide (a < b))

/-- Loop `for prev = range crowd.ValuesSlice[:popSize-2]` of `assignCrowdingDist`, over the
remaining rows starting at `prev`. -/
def addInterior (i : Nat) (norm : ℚ) : List (List ℚ × Nat) → List Dist → Outcome (List Dist)
  | prev :: cur :: next :: rest, distances =>
    (index next.1 i).bind fun nv =>
      (index prev.1 i).bind fun pv =>
        addInterior i norm (cur :: next :: rest)
          (distances.set cur.2 ((distances.getD cur.2 (Dist.fin 0)).add ((nv - pv) / norm)))
  | _, distances => Outcome.ok distances

/-- Loop `for i := 0; i < nobJ; i++` of `assignCrowdingDist`, with `todo` rounds left. -/
def crowdObjectives (popSize nobJ : Nat) :
    Nat → Nat → List (List ℚ × Nat) → List Dist → Outcome (List Dist)
  | 0, _, _, distances => Outcome.ok distances
  | todo + 1, i, crowd, distances =>
    (sortSort (crowdingDistSorterLess i) crowd).bind fun sorted =>
      match sorted.head?, sorted.getLast? with
      | some first, some last =>
        let marked := (distances.set first.2 Dist.inf).set last.2 Dist.inf
        (index last.1 i).bind fun hi =>
          (index first.1 i).bind fun lo =>
            let diff := hi - lo
            if diff = 0 then crowdObjectives popSize nobJ todo (i + 1) sorted marked
            else if popSize < 2 then Outcome.panic
            else
              (addInterior i ((nobJ : ℚ) * diff) sorted marked).bind fun d =>
                crowdObjectives popSize nobJ todo (i + 1) sorted d
      | _, _ => Outcome.panic

/-- Loop filling `crowd.ValuesSlice` and `crowd.I` in `assignCrowdingDist`. -/
def crowdRows : List Ref → Nat → Outcome (List (List ℚ × Nat))
  | [], _ => Outcome.ok []
  | ind :: rest, i =>
    ind.2.GetValues.bind fun vs =>
      (crowdRows rest (i + 1)).bind fun rows => Outcome.ok ((vs, i) :: rows)

/-- Function `assignCrowdingDist`. -/
def assignCrowdingDist (individuals : List Ref) : Outcome (List Dist) :=
  match individuals with
  | [] => Outcome.ok []
  | first :: _ =>
    (crowdRows individuals 0).bind fun crowd =>
      crowdObjectives individuals.length first.2.Len first.2.Len 0 crowd
        (List.replicate individuals.length (Dist.fin 0))

/-- Loop `for _, front := range paretoFronts` of `SelNSGA2`. -/
def crowdingDistAll : List (List Ref) → Outcome (List (List Dist))
  | [] => Outcome.ok []
  | front :: rest =>
    (assignCrowdingDist front).bind fun cd =>
      (crowdingDistAll rest).bind fun cds => Outcome.ok (cd :: cds)

/-- Method `Less` of `sort.Reverse(sorter)` for a `crowdingDistIndividualSorter`: the
arguments of `crowdingDistIndividualSorter.Less` swapped; an element is an individual with
its crowding distance. -/
def crowdingDistIndividualSorterLessReverse (x y : Ref × Dist) : Outcome Bool :=
  Outcome.ok (Dist.lt y.2 x.2)

/-- Function `SelNSGA2`.  `fuel` bounds the peeling loop of the sorter. -/
def SelNSGA2 (fuel : Nat) (individuals : List Fitness) (k : Int) : Outcome (List Ref) :=
  (sortNondominated fuel individuals k false).bind fun paretoFronts =>
    (crowdingDistAll paretoFronts).bind fun crowdingDist =>
      let paretoFrontSize := paretoFronts.length
      if paretoFrontSize = 0 then Outcome.panic
      else
        let firsts := paretoFronts.take (paretoFrontSize - 1)
        let chosenSize : Int := ((firsts.map List.length).sum : Nat)
        let k1 := k - chosenSize
        let chosen := firsts.flatten
        if k1 > 0 then
          match paretoFronts.getLast?, crowdingDist.getLast? with
          | some inds, some cd =>
            (sortSort crowdingDistIndividualSorterLessReverse (inds.zip cd)).bind fun sorted =>
              if k1 > sorted.length then Outcome.panic
              else Outcome.ok (chosen ++ (sorted.map Prod.fst).take k1.toNat)
          | _, _ => Outcome.panic
        else Outcome.ok chosen

end Deag

namespace Deag

/-! ## Specification vocabulary -/

/-- Payloads of the bucket `k` in a log of additions, most recent first. -/
def bucket {κ : Type} [DecidableEq κ] (log : List (κ × Int)) (k : κ) : List Int :=
  (log.filter fun e => e.1 = k).map Prod.snd

/-- The list `l` is what `NewStaticLinkedList` followed by the successful additions of
`log` (most recent first) produces. -/
inductive Built {κ : Type} [DecidableEq κ] : StaticLinkedList κ → List (κ × Int) → Prop
  | new (capacity : Nat) : Built (NewStaticLinkedList capacity) []
  | add {l : StaticLinkedList κ} {log : List (κ × Int)} (k : κ) (d : Int) :
      Built l log → l.total < l.cap → Built (l.Add k d).1 ((k, d) :: log)

/-- Following `next` from index `idx` visits the payloads `ds` and ends at `-1`. -/
inductive Chain {κ : Type} [DecidableEq κ] (l : StaticLinkedList κ) : Int → List Int → Prop
  | nil : Chain l (-1) []
  | cons {idx : Int} {ds : List Int} : 0 ≤ idx → idx < l.total →
      (l.GetData idx).2 < idx → Chain l (l.GetData idx).2 ds →
      Chain l idx ((l.GetData idx).1 :: ds)

/-- Log after one more `Add` on a list of capacity `cap`: a full list ignores it. -/
def addLog {κ : Type} (cap : Nat) (log : List (κ × Int)) (k : κ) (d : Int) : List (κ × Int) :=
  if log.length < cap then (k, d) :: log else log

/-- Log after adding the payloads `ds`, in order, to bucket `k`. -/
def addAllLog {κ : Type} (cap : Nat) (k : κ) : List Int → List (κ × Int) → List (κ × Int)
  | [], log => log
  | d :: ds, log => addAllLog cap k ds (addLog cap log k d)

/-- The list after adding the payloads `ds`, in order, to bucket `k`. -/
def addAll {κ : Type} [DecidableEq κ] (k : κ) :
    List Int → StaticLinkedList κ → StaticLinkedList κ
  | [], l => l
  | d :: ds, l => addAll k ds (l.Add k d).1

/-- The front that the payloads `ds` of a chain denote: the individuals at those positions. -/
def collect (individuals : List Fitness) : List Int → Outcome (List Ref)
  | [] => Outcome.ok []
  | d :: ds =>
    (index individuals d).bind fun ind =>
      (collect individuals ds).bind fun rest => Outcome.ok ((d.toNat, ind) :: rest)

/-- Comparisons that respect a transitive relation `le` on the elements being sorted:
`less x y` answering yes means `le x y`, answering no means `le y x`. -/
def Respects {α : Type} (less : α → α → Outcome Bool) (le : α → α → Prop) (l : List α) :
    Prop :=
  ∀ x ∈ l, ∀ y ∈ l, ∀ b, less x y = Outcome.ok b →
    (b = true → le x y) ∧ (b = false → le y x)

/-- Pareto dominance of the weighted values `a` over the weighted values `b`: nowhere
worse, somewhere strictly better. -/
def Dom (a b : List ℚ) : Prop :=
  (∀ i, i < a.length → b.getD i 0 ≤ a.getD i 0) ∧ ∃ i, i < a.length ∧ b.getD i 0 < a.getD i 0

/-- Answer of `Dominates(_, nil)` on two vectors of weighted values, false on a panic. -/
def domB (a b : List ℚ) : Bool :=
  match Fitness.dominatesAll b a 0 false with
  | Outcome.ok r => r
  | _ => false

/-- A fitness with `M` objectives as the constructors and `SetValues` leave it: one weight
and one weighted value per objective. -/
def Fitness.Evaluated (M : Nat) (f : Fitness) : Prop :=
  f.weights.length = M ∧ f.wvalues.length = M

/-- What `uniqueByFitness` returns on a population of evaluated fitness: pointers into the
population, no address twice, weighted values strictly ascending in the lexicographic
order, every weighted-value vector of the population present. -/
structure UniqueFits (individuals : List Fitness) (fits : List Ref) : Prop where
  mem : ∀ u ∈ fits, individuals.get? u.1 = some u.2
  nodup : (fits.map Prod.fst).Nodup
  strict : fits.Pairwise fun a b => a.2.wvalues < b.2.wvalues
  cover : ∀ f ∈ individuals, ∃ u ∈ fits, u.2.wvalues = f.wvalues

/-- Log of `mapIndividualsByFitness` after filing the individuals at positions `i, i+1, ...`
under the pointers `us`. -/
def mapLog : List Ref → Nat → List (Nat × Int) → List (Nat × Int)
  | [], _, log => log
  | u :: us, i, log => mapLog us (i + 1) ((u.1, (i : Int)) :: log)

/-- Invariant of the peeling loop of `sortNondominated`, for the log `mlog` of the
fitness-to-individuals map and the payloads `B0` of front 0: the fronts list is built from
a log with keys 0 and 1 whose bucket 0 is `B0`; its payloads come, in order, from the
buckets of pairwise distinct placed fitness addresses; a placed fitness has a domination
count of at most zero. -/
def PeelInv (mlog : List (Nat × Int)) (B0 : List Int) (st : PeelState) : Prop :=
  ∃ (flog : List (Nat × Int)) (placed : List Nat),
    Built st.fronts flog ∧ (∀ e ∈ flog, e.1 < 2) ∧ bucket flog 0 = B0 ∧ placed.Nodup ∧
    (flog.map Prod.snd).reverse.Sublist (placed.flatMap fun a => bucket mlog a) ∧
    ∀ a ∈ placed, mapGetD st.dominatingFits a ≤ 0

end Deag

namespace Deag

instance (M : Nat) (f : Fitness) : Decidable (f.Evaluated M) :=
  inferInstanceAs (Decidable (_ ∧ _))

/-- Criterion for a peeling loop that cannot end: the phases before the loop complete, the
loop is entered, and its first round ends with an empty next front and the count still
below the target; every later round then walks an empty front. -/
def peelStuck (individuals : List Fitness) (k : Int) : Bool :=
  match uniqueByFitness individuals with
  | Outcome.ok fits =>
    match domOuter fits 0
        { dominatingFits := []
          dominatedFits :=
            NewStaticLinkedList (individuals.length * (individuals.length - 1) / 2)
          currentFront := [] } with
    | Outcome.ok dom =>
      match mapIndividualsByFitness fits individuals with
      | Outcome.ok mapFitInd =>
        match extendAll mapFitInd 0 dom.currentFront
            (NewStaticLinkedList individuals.length) with
        | Outcome.ok fronts0 =>
          match peelFront fits mapFitInd dom.dominatedFits 1 dom.currentFront
              { dominatingFits := dom.dominatingFits
                nextFront := []
                paretoSorted := (fronts0.GetSize 0).1
                fronts := fronts0 } with
          | Outcome.ok st1 =>
            decide ((fronts0.GetSize 0).1 <
              (if (individuals.length : Int) < k then (individuals.length : Int) else k)) &&
            decide (st1.nextFront = []) &&
            decide (st1.paretoSorted <
              (if (individuals.length : Int) < k then (individuals.length : Int) else k))
          | _ => false
        | _ => false
      | _ => false
    | _ => false
  | _ => false

/-! ## Example populations -/

/-- Individual `A = (1, 5)` of the two-objective minimisation example, weights `(-1, -1)`. -/
def fitA : Fitness := { weights := [-1, -1], wvalues := [-1, -5], values := [1, 5], valid := true }

/-- Individual `B = (2, 3)` of the two-objective minimisation example. -/
def fitB : Fitness := { weights := [-1, -1], wvalues := [-2, -3], values := [2, 3], valid := true }

/-- Individual `C = (4, 4)` of the two-objective minimisation example. -/
def fitC : Fitness := { weights := [-1, -1], wvalues := [-4, -4], values := [4, 4], valid := true }

/-- The population `[A, B, C]`. -/
def popABC : List Fitness := [fitA, fitB, fitC]

/-- A single-objective fitness to be maximised (weight 1) with value `v`. -/
def fitMax (v : ℚ) : Fitness := { weights := [1], wvalues := [v], values := [v], valid := true }

/-- A two-objective fitness to be minimised (weights `(-1, -1)`) with values `(a, b)`. -/
def fitMin2 (a b : ℚ) : Fitness :=
  { weights := [-1, -1], wvalues := [-a, -b], values := [a, b], valid := true }

/-- A population of eight two-objective individuals: positions 0 to 4 are mutually
non-dominated, position 5 is dominated by all others, positions 6 and 7 by some. -/
def popEight : List Fitness :=
  [fitMin2 1 9, fitMin2 2 7, fitMin2 3 6, fitMin2 5 4, fitMin2 8 1, fitMin2 9 9, fitMin2 2 8,
    fitMin2 6 6]

/-- The single-objective population with values 1, 2, 3, 4, to be maximised. -/
def popFour : List Fitness := [fitMax 1, fitMax 2, fitMax 3, fitMax 4]

end Deag

namespace Deag

/-! ## base/fitness.go: comparisons, `SetValues`, copies

A `*Fitness` that may be `nil` is an `Option Fitness`. -/

namespace Fitness

/-- Loop of `LessEqual` from position `i`: ranges over the receiver's weighted values,
reading `other.wvalues[i]`. -/
def lessEqualFrom (other : List ℚ) : List ℚ → Nat → Outcome Bool
  | [], _ => Outcome.ok true
  | fit :: rest, i =>
    match other.get? i with
    | none => Outcome.panic
    | some o => if o < fit then Outcome.ok false else lessEqualFrom other rest (i + 1)

/-- Method `LessEqual`. -/
def LessEqual (fitness other : Fitness) : Outcome Bool :=
  lessEqualFrom other.wvalues fitness.wvalues 0

/-- Loop of `Less` from position `i`. -/
def lessFrom (other : List ℚ) : List ℚ → Nat → Outcome Bool
  | [], _ => Outcome.ok true
  | fit :: rest, i =>
    match other.get? i with
    | none => Outcome.panic
    | some o => if o ≤ fit then Outcome.ok false else lessFrom other rest (i + 1)

/-- Method `Less`. -/
def Less (fitness other : Fitness) : Outcome Bool :=
  lessFrom other.wvalues fitness.wvalues 0

/-- Method `Greater`: `!fitness.LessEqual(other)`. -/
def Greater (fitness other : Fitness) : Outcome Bool :=
  (fitness.LessEqual other).bind fun b => Outcome.ok (!b)

/-- Method `GreaterEqual`: `!fitness.Less(other)`. -/
def GreaterEqual (fitness other : Fitness) : Outcome Bool :=
  (fitness.Less other).bind fun b => Outcome.ok (!b)

/-- Constructor `NewFitness`; `none` is the `nil` it returns when there are no weights. -/
def NewFitness (weights : List ℚ) : Option Fitness :=
  if weights.length > 0 then
    some { weights := weights, wvalues := [], values := [], valid := false }
  else none

/-- Loop of `SetValues` from position `i` over the values still to store; the state is the
pair `(wvalues, values)` of the receiver. -/
def setValuesFrom (weights : List ℚ) : List ℚ → Nat → List ℚ × List ℚ → Outcome (List ℚ × List ℚ)
  | [], _, st => Outcome.ok st
  | value :: rest, i, st =>
    match weights.get? i with
    | none => Outcome.panic
    | some w =>
      if i < st.1.length ∧ i < st.2.length then
        setValuesFrom weights rest (i + 1) (st.1.set i (value * w), st.2.set i value)
      else Outcome.panic

/-- Method `SetValues`: allocates both vectors when there are no weighted values yet, then
stores `value * weight` and `value` position by position. -/
def SetValues (fitness : Fitness) (values : List ℚ) : Outcome Fitness :=
  let start : List ℚ × List ℚ :=
    if fitness.wvalues = [] then
      (List.replicate fitness.weights.length 0, List.replicate fitness.weights.length 0)
    else (fitness.wvalues, fitness.values)
  (setValuesFrom fitness.weights values 0 start).bind fun st =>
    Outcome.ok { weights := fitness.weights, wvalues := st.1, values := st.2, valid := true }

/-- Constructor `NewFitnessWithValues`; `none` is the `nil` it returns when the lengths
differ or are zero. -/
def NewFitnessWithValues (weights values : List ℚ) : Outcome (Option Fitness) :=
  if values.length = weights.length ∧ values.length > 0 then
    (SetValues
      { weights := weights, wvalues := List.replicate values.length 0, values := values,
        valid := true } values).bind fun f => Outcome.ok (some f)
  else Outcome.ok none

/-- Method `Clone`: a fitness rebuilt from copies of the weights and of the raw values. -/
def Clone (fitness : Fitness) : Outcome (Option Fitness) :=
  if fitness.values ≠ [] then NewFitnessWithValues fitness.weights fitness.values
  else Outcome.ok (NewFitness fitness.weights)

end Fitness

/-- Call `a.LessEqual(b)` on two pointers: a `nil` receiver panics, a `nil` argument panics
as soon as the loop body reads it. -/
def ptrLessEqual (a b : Option Fitness) : Outcome Bool :=
  match a, b with
  | none, _ => Outcome.panic
  | some f, some g => f.LessEqual g
  | some f, none => if f.wvalues = [] then Outcome.ok true else Outcome.panic

/-- Call `a.Less(b)` on two pointers. -/
def ptrLess (a b : Option Fitness) : Outcome Bool :=
  match a, b with
  | none, _ => Outcome.panic
  | some f, some g => f.Less g
  | some f, none => if f.wvalues = [] then Outcome.ok true else Outcome.panic

/-- Call `a.Greater(b)` on two pointers. -/
def ptrGreater (a b : Option Fitness) : Outcome Bool :=
  (ptrLessEqual a b).bind fun r => Outcome.ok (!r)

/-! ## base/individual_float64.go -/

/-- Struct `Float64Individual`: a chromosome and a fitness pointer. -/
structure Float64Individual where
  chromosome : List ℚ
  fitness : Option Fitness
deriving DecidableEq

namespace Float64Individual

/-- Method `Clone`: copies the chromosome and clones the fitness; a `nil` fitness panics. -/
def Clone (ind : Float64Individual) : Outcome Float64Individual :=
  match ind.fitness with
  | none => Outcome.panic
  | some f => f.Clone.bind fun c => Outcome.ok { chromosome := ind.chromosome, fitness := c }

/-- Loop of `IsEqual` from position `i` over the receiver's genes. -/
def isEqualFrom (chrom : List ℚ) : List ℚ → Nat → Bool
  | [], _ => true
  | c :: rest, i =>
    if |chrom.getD i 0 - c| > 1 / 100000000000000 then false else isEqualFrom chrom rest (i + 1)

/-- Method `IsEqual`: same length and every gene within `1E-14`; `other = none` is a `nil`
interface value, for which the type assertion fails. -/
def IsEqual (ind : Float64Individual) (other : Option Float64Individual) : Bool :=
  match other with
  | none => false
  | some o =>
    if o.chromosome.length = ind.chromosome.length then
      isEqualFrom o.chromosome ind.chromosome 0
    else false

end Float64Individual

/-! ## tools/support/halloffame.go

The individuals are `*Float64Individual`s; an entry of `items` that was never written is
the `nil` interface value `none`.  The hall of fame for individuals of every representation
is `Iface.DefaultHallOfFame`. -/

/-- Assignment `xs[i] = v` with an `int` index. -/
def setIndex {α : Type} (xs : List α) (i : Int) (v : α) : Outcome (List α) :=
  if i < 0 then Outcome.panic
  else if i.toNat < xs.length then Outcome.ok (xs.set i.toNat v) else Outcome.panic

/-- Call `it.GetFitness()` on an entry of `items`: a `nil` entry panics. -/
def getFitness (it : Option Float64Individual) : Outcome (Option Fitness) :=
  match it with
  | none => Outcome.panic
  | some x => Outcome.ok x.fitness

/-- Struct `DefaultHallOfFame`. -/
structure DefaultHallOfFame where
  maxsize : Int
  size : Int
  items : List (Option Float64Individual)
  similar : Float64Individual → Option Float64Individual → Bool

namespace DefaultHallOfFame

/-- Constructor `NewDefaultHallOfFame`; `similar = none` is the `nil` function, replaced by
`IsEqual`.  `make` panics on a negative length. -/
def NewDefaultHallOfFame (maxsize : Int)
    (similar : Option (Float64Individual → Option Float64Individual → Bool)) :
    Outcome DefaultHallOfFame :=
  if maxsize < 0 then Outcome.panic
  else Outcome.ok
    { maxsize := maxsize
      size := 0
      items := List.replicate maxsize.toNat none
      similar := similar.getD fun x y => x.IsEqual y }

/-- Loop `for i := hof.size - 1; i > index; i--` of `Insert`, entered with `i`. -/
def insertShift (index : Nat) :
    Nat → List (Option Float64Individual) → Outcome (List (Option Float64Individual))
  | 0, items => Outcome.ok items
  | i + 1, items =>
    if i + 1 > index then
      (Deag.index items (i : Int)).bind fun v =>
        (setIndex items ((i : Int) + 1) v).bind fun items1 => insertShift index i items1
    else Outcome.ok items

/-- Method `Insert`. -/
def Insert (hof : DefaultHallOfFame) (ind : Float64Individual) : Outcome DefaultHallOfFame :=
  ind.Clone.bind fun c =>
    (sortSearch hof.size.toNat fun i =>
        (Deag.index hof.items (i : Int)).bind fun it =>
          (getFitness it).bind fun f => ptrLess f c.fitness).bind fun idx =>
      let size1 := if hof.size < hof.maxsize then hof.size + 1 else hof.size
      (insertShift idx (size1 - 1).toNat hof.items).bind fun items1 =>
        (setIndex items1 (idx : Int) (some c)).bind fun items2 =>
          Outcome.ok { hof with size := size1, items := items2 }

/-- Loop `for i := index; i < hof.size; i++` of `Remove`: `n` rounds starting at `i`. -/
def removeShift :
    Nat → Int → List (Option Float64Individual) → Outcome (List (Option Float64Individual))
  | 0, _, items => Outcome.ok items
  | n + 1, i, items =>
    (Deag.index items (i + 1)).bind fun v =>
      (setIndex items i v).bind fun items1 => removeShift n (i + 1) items1

/-- Method `Remove`. -/
def Remove (hof : DefaultHallOfFame) (index : Int) : Outcome DefaultHallOfFame :=
  if hof.size ≠ 0 then
    (removeShift (hof.size - 1 - index).toNat index hof.items).bind fun items1 =>
      Outcome.ok { hof with size := hof.size - 1, items := items1 }
  else Outcome.ok hof

/-- Method `Clear`. -/
def Clear (hof : DefaultHallOfFame) : DefaultHallOfFame := { hof with size := 0 }

/-- Method `Len`. -/
def Len (hof : DefaultHallOfFame) : Int := hof.size

/-- Method `Get`; `none` inside is a `nil` entry. -/
def Get (hof : DefaultHallOfFame) (index : Int) : Outcome (Option Float64Individual) :=
  Deag.index hof.items index

/-- Condition of the outer `if` in `Update`:
`ind.GetFitness().Greater(hof.items[hof.size-1].GetFitness()) || hof.size < hof.maxsize`. -/
def updateCond (hof : DefaultHallOfFame) (ind : Float64Individual) : Outcome Bool :=
  (Deag.index hof.items (hof.size - 1)).bind fun it =>
    (getFitness it).bind fun worst =>
      (ptrGreater ind.fitness worst).bind fun g =>
        Outcome.ok (g || decide (hof.size < hof.maxsize))

/-- Loop `for _, ind := range individuals` of `Update`. -/
def updateLoop : List Float64Individual → DefaultHallOfFame → Outcome DefaultHallOfFame
  | [], hof => Outcome.ok hof
  | ind :: rest, hof =>
    (updateCond hof ind).bind fun c =>
      if c then
        if hof.items.any (hof.similar ind) then updateLoop rest hof
        else
          (if hof.size ≥ hof.maxsize then hof.Remove hof.maxsize
            else Outcome.ok hof).bind fun hof1 =>
            (hof1.Insert ind).bind fun hof2 => updateLoop rest hof2
      else updateLoop rest hof

/-- Method `Update`. -/
def Update (hof : DefaultHallOfFame) (individuals : List Float64Individual) :
    Outcome DefaultHallOfFame :=
  (match individuals with
    | first :: _ =>
      if hof.size = 0 ∧ hof.maxsize ≠ 0 then hof.Insert first else Outcome.ok hof
    | [] => Outcome.ok hof).bind fun hof1 => updateLoop individuals hof1

end DefaultHallOfFame

/-! ## Vocabulary for the hall of fame -/

/-- A fitness with `M ≥ 1` objectives as `NewFitnessWithValues`, or `NewFitness` followed by
`SetValues` on `M` values, leaves it: one weight and one raw value per objective, the
weighted values their products, the validity flag set. -/
def Fitness.Scored (M : Nat) (f : Fitness) : Prop :=
  0 < M ∧ f.weights.length = M ∧ f.values.length = M ∧
    f.wvalues = List.zipWith (fun v w => v * w) f.values f.weights ∧ f.valid = true

instance (M : Nat) (f : Fitness) : Decidable (f.Scored M) :=
  inferInstanceAs (Decidable (_ ∧ _ ∧ _ ∧ _ ∧ _))

/-- Weighted values of an individual, empty for a `nil` fitness. -/
def Float64Individual.wvalues (ind : Float64Individual) : List ℚ :=
  match ind.fitness with
  | some f => f.wvalues
  | none => []

/-- First weighted value of an individual: its weighted value when there is one objective. -/
def Float64Individual.wvalue (ind : Float64Individual) : ℚ := ind.wvalues.getD 0 0

/-- An individual that carries a scored fitness with `M` objectives. -/
def Float64Individual.Scored (M : Nat) (ind : Float64Individual) : Prop :=
  ∃ f, ind.fitness = some f ∧ f.Scored M

instance (M : Nat) (ind : Float64Individual) : Decidable (ind.Scored M) :=
  match h : ind.fitness with
  | some f =>
    if hf : f.Scored M then isTrue ⟨f, h, hf⟩
    else isFalse fun ⟨g, hg, hs⟩ => hf (by rw [h] at hg; cases hg; exact hs)
  | none => isFalse fun ⟨g, hg, _⟩ => by rw [h] at hg; cases hg

/-- The hall of fame holds exactly the individuals `l`, best first, and every entry of
`items` behind them is still `nil`: the state between two calls of `Update` on a hall of
fame that was only ever updated. -/
def DefaultHallOfFame.Fresh (hof : DefaultHallOfFame) (l : List Float64Individual) : Prop :=
  hof.size = (l.length : Int) ∧ (l.length : Int) ≤ hof.maxsize ∧
    hof.items = l.map some ++ List.replicate (hof.maxsize.toNat - l.length) none

/-- The predicate that `Insert` hands to `sort.Search` when the hall of fame holds `l`:
whether the item at position `i` is `Less` than the new individual. -/
def lessPred (l : List Float64Individual) (ind : Float64Individual) (i : Nat) : Outcome Bool :=
  match l.get? i with
  | some x => ptrLess x.fitness ind.fitness
  | none => Outcome.panic

/-- Whether the scan of `Update` over all entries of `items` finds one similar to `ind`,
when the hall of fame of capacity `maxsize` holds `l`. -/
def similarAny (similar : Float64Individual → Option Float64Individual → Bool) (maxsize : Int)
    (l : List Float64Individual) (ind : Float64Individual) : Bool :=
  (l.map some ++ List.replicate (maxsize.toNat - l.length) none).any (similar ind)

/-- One round of the loop of `Update`, as a relation between the list `l` held before and
the list `l1` held after: `ind` is passed over because it is not `Greater` than the worst
item of a full hall or because an entry is similar to it, or else it is inserted at the
position `sort.Search` returns, into `l` without its last item when the hall is full. -/
def Round (similar : Float64Individual → Option Float64Individual → Bool) (maxsize : Int)
    (l : List Float64Individual) (ind : Float64Individual) (l1 : List Float64Individual) :
    Prop :=
  ∃ (worst : Float64Individual) (g : Bool), l.getLast? = some worst ∧
    ptrGreater ind.fitness worst.fitness = Outcome.ok g ∧
    ((l1 = l ∧ ((g = false ∧ (l.length : Int) = maxsize) ∨
        similarAny similar maxsize l ind = true)) ∨
      ((g = true ∨ (l.length : Int) < maxsize) ∧ similarAny similar maxsize l ind = false ∧
        ∃ (idx : Nat) (base : List Float64Individual),
          base = (if (l.length : Int) < maxsize then l else l.dropLast) ∧
          idx ≤ base.length ∧ sortSearch base.length (lessPred base ind) = Outcome.ok idx ∧
          l1 = base.take idx ++ ind :: base.drop idx))

/-- The rounds of the loop of `Update` over a population. -/
inductive Rounds (similar : Float64Individual → Option Float64Individual → Bool)
    (maxsize : Int) : List Float64Individual → List Float64Individual →
    List Float64Individual → Prop where
  | done (l : List Float64Individual) : Rounds similar maxsize l [] l
  | round (l l1 l2 : List Float64Individual) (ind : Float64Individual)
      (rest : List Float64Individual) :
      Round similar maxsize l ind l1 → Rounds similar maxsize l1 rest l2 →
      Rounds similar maxsize l (ind :: rest) l2

/-- A call of `Update` as a relation between the lists held before and after: an empty
hall is first seeded with the first individual, then the rounds run over the whole
population. -/
def Updated (similar : Float64Individual → Option Float64Individual → Bool) (maxsize : Int)
    (l : List Float64Individual) (individuals : List Float64Individual)
    (l2 : List Float64Individual) : Prop :=
  (individuals = [] ∧ l2 = l) ∨
    ∃ (first : Float64Individual) (rest : List Float64Individual),
      individuals = first :: rest ∧
        Rounds similar maxsize (if l = [] then [first] else l) individuals l2

/-- What a single-objective hall of fame keeps true of the list `l` it holds, with respect
to the individuals `seen` so far, all taken from `U`: the items are scored, in
non-increasing order of weighted value, taken from `U`, and every individual seen is
matched or beaten by some item. -/
def BestInv (U seen l : List Float64Individual) : Prop :=
  (∀ x ∈ l, x.Scored 1) ∧ (l.Pairwise fun a b => b.wvalue ≤ a.wvalue) ∧ (∀ x ∈ l, x ∈ U) ∧
    ∀ y ∈ seen, ∃ x ∈ l, y.wvalue ≤ x.wvalue

/-- What a single-objective hall of fame of capacity `m` keeps true of the list `l` it
holds after the individuals `done` have gone through the loop of `Update`: the items are
scored and in non-increasing order, and together with the individuals `others` that were
passed over or dropped they make up `done`, none of `others` having a larger weighted
value than any item; the hall is full unless everything is kept. -/
def TopInv (m : Int) (done l : List Float64Individual) : Prop :=
  (∀ x ∈ l, x.Scored 1) ∧ (l.Pairwise fun a b => b.wvalue ≤ a.wvalue) ∧
    (l.length : Int) ≤ m ∧
    ∃ others : List Float64Individual, (l ++ others).Perm done ∧
      (∀ x ∈ l, ∀ y ∈ others, y.wvalue ≤ x.wvalue) ∧
      ((l.length : Int) = m ∨ others = [])

/-- A call of one of the four mutating methods of the hall of fame. -/
inductive HofCall where
  | update : List Float64Individual → HofCall
  | insert : Float64Individual → HofCall
  | remove : Int → HofCall
  | clear : HofCall

/-- Runs one call. -/
def DefaultHallOfFame.call (hof : DefaultHallOfFame) : HofCall → Outcome DefaultHallOfFame
  | HofCall.update individuals => hof.Update individuals
  | HofCall.insert ind => hof.Insert ind
  | HofCall.remove i => hof.Remove i
  | HofCall.clear => Outcome.ok hof.Clear

/-- Runs a sequence of calls, first to last. -/
def DefaultHallOfFame.run : DefaultHallOfFame → List HofCall → Outcome DefaultHallOfFame
  | hof, [] => Outcome.ok hof
  | hof, c :: rest => (hof.call c).bind fun hof1 => hof1.run rest

/-- Runs `Update` on a sequence of populations, first to last. -/
def DefaultHallOfFame.updates :
    DefaultHallOfFame → List (List Float64Individual) → Outcome DefaultHallOfFame
  | hof, [] => Outcome.ok hof
  | hof, p :: rest => (hof.Update p).bind fun hof1 => hof1.updates rest

/-- What an observer sees of a hall of fame: `Len()` and the entries of `items`. -/
def DefaultHallOfFame.view (hof : DefaultHallOfFame) : Int × List (Option Float64Individual) :=
  (hof.size, hof.items)

/-- A single-objective individual with weight `w`, raw value `v` and chromosome `c`. -/
def indOne (w v : ℚ) (c : List ℚ) : Float64Individual :=
  { chromosome := c
    fitness := some { weights := [w], wvalues := [v * w], values := [v], valid := true } }

/-- A two-objective individual to be maximised with raw values `(a, b)` and chromosome `c`. -/
def indTwo (a b : ℚ) (c : List ℚ) : Float64Individual :=
  { chromosome := c
    fitness := some { weights := [1, 1], wvalues := [a * 1, b * 1], values := [a, b],
                      valid := true } }

/-! ## Vocabulary for the crowding distance -/

/-- Row of raw objective values that `assignCrowdingDist` stores for the individual at
position `p` of the front: the result of `GetValues` on its fitness. -/
def objRow (front : List Ref) (p : Nat) : List ℚ :=
  match front.get? p with
  | some x =>
    match x.2.GetValues with
    | Outcome.ok vs => vs
    | _ => []
  | none => []

/-- Raw value of objective `m` of the individual at position `p` of the front. -/
def objValue (front : List Ref) (m p : Nat) : ℚ := (objRow front p).getD m 0

/-- Raw values of objective `m` over the front, in input order. -/
def objColumn (front : List Ref) (m : Nat) : List ℚ :=
  (List.range front.length).map (objValue front m)

/-- A fitness with `M` objectives whose raw values are finite: one weight, one weighted
value and one raw value per objective, and no zero weight (`GetValues` divides by the
weights). -/
def Fitness.Finite (M : Nat) (f : Fitness) : Prop :=
  f.Evaluated M ∧ f.values.length = M ∧ ∀ w ∈ f.weights, w ≠ 0

instance (M : Nat) (f : Fitness) : Decidable (f.Finite M) :=
  inferInstanceAs (Decidable (_ ∧ _ ∧ _))

/-- The rows that `assignCrowdingDist` starts from: for each position its raw values and
the position itself (`crowd.ValuesSlice[i]`, `crowd.I[i]`). -/
def crowdStart (front : List Ref) : List (List ℚ × Nat) :=
  (List.range front.length).map fun p => (objRow front p, p)

/-- The value `x` is the smallest of the column. -/
def IsMinOf (col : List ℚ) (x : ℚ) : Prop := x ∈ col ∧ ∀ y ∈ col, x ≤ y

/-- The value `x` is the largest of the column. -/
def IsMaxOf (col : List ℚ) (x : ℚ) : Prop := x ∈ col ∧ ∀ y ∈ col, y ≤ x

/-- The value `x` is the next smaller value than `v` in the column. -/
def IsNextBelow (col : List ℚ) (v x : ℚ) : Prop := x ∈ col ∧ x < v ∧ ∀ y ∈ col, y < v → y ≤ x

/-- The value `x` is the next larger value than `v` in the column. -/
def IsNextAbove (col : List ℚ) (v x : ℚ) : Prop := x ∈ col ∧ v < x ∧ ∀ y ∈ col, v < y → x ≤ y

instance (col : List ℚ) (x : ℚ) : Decidable (IsMinOf col x) :=
  inferInstanceAs (Decidable (_ ∧ _))

instance (col : List ℚ) (x : ℚ) : Decidable (IsMaxOf col x) :=
  inferInstanceAs (Decidable (_ ∧ _))

instance (col : List ℚ) (v x : ℚ) : Decidable (IsNextBelow col v x) :=
  inferInstanceAs (Decidable (_ ∧ _ ∧ _))

instance (col : List ℚ) (v x : ℚ) : Decidable (IsNextAbove col v x) :=
  inferInstanceAs (Decidable (_ ∧ _ ∧ _))

/-- A two-objective fitness to be maximised (weights `(1, 1)`) with values `(a, b)`. -/
def fitMax2 (a b : ℚ) : Fitness :=
  { weights := [1, 1], wvalues := [a, b], values := [a, b], valid := true }

/-- A front of three individuals whose first objective is constant. -/
def frontFlat : List Ref := [(0, fitMax2 7 2), (1, fitMax2 7 1), (2, fitMax2 7 3)]

/-- A front of five individuals with pairwise distinct values in both objectives. -/
def frontFive : List Ref :=
  [(0, fitMax2 1 2), (1, fitMax2 3 1), (2, fitMax2 2 3), (3, fitMax2 4 5), (4, fitMax2 0 0)]

end Deag

namespace Deag

/-! ## base/fitness.go: validity and calls through pointers -/

/-- Method `Valid`: the flag is set and there are weighted values. -/
def Fitness.Valid (fitness : Fitness) : Bool :=
  fitness.valid && decide (fitness.wvalues ≠ []) && decide (fitness.wvalues.length ≠ 0)

/-- Call `a.Dominates(b, nil)` on two pointers: a `nil` receiver panics, a `nil` argument
panics as soon as the loop body reads it. -/
def ptrDominates (a b : Option Fitness) : Outcome Bool :=
  match a, b with
  | none, _ => Outcome.panic
  | some f, some g => f.Dominates g none
  | some f, none => if f.wvalues = [] then Outcome.ok false else Outcome.panic

/-- Call `a.Equal(b)` on two pointers. -/
def ptrEqual (a b : Option Fitness) : Outcome Bool :=
  match a, b with
  | none, _ => Outcome.panic
  | some f, some g => f.Equal g
  | some f, none => if f.wvalues = [] then Outcome.ok true else Outcome.panic

/-- Call `f.GetValues()` on a pointer. -/
def ptrGetValues (a : Option Fitness) : Outcome (List ℚ) :=
  match a with
  | none => Outcome.panic
  | some f => f.GetValues

/-! ## tools/support/pareto_front.go -/

/-- Struct `DefaultParetoFront`: the embedded `DefaultHallOfFame`. -/
structure DefaultParetoFront where
  hall : DefaultHallOfFame

/-- Local variables of `Update` that the scan of the archive reads and writes. -/
structure ScanState where
  isDominated : Bool
  dominatesOne : Bool
  hasTwin : Bool
  toRemove : List Int
  count : Int

namespace DefaultParetoFront

/-- Constructor `NewDefaultParetoFront`: wraps `NewDefaultHallOfFame(0, similar)`. -/
def NewDefaultParetoFront
    (similar : Option (Float64Individual → Option Float64Individual → Bool)) :
    Outcome DefaultParetoFront :=
  (DefaultHallOfFame.NewDefaultHallOfFame 0 similar).bind fun hof =>
    Outcome.ok { hall := hof }

/-- Loop `for i, hofer := range pf.items` of `Update`, over the entries from position `i`
on. -/
def scanItems (similar : Float64Individual → Option Float64Individual → Bool)
    (ind : Float64Individual) :
    List (Option Float64Individual) → Int → ScanState → Outcome ScanState
  | [], _, st => Outcome.ok st
  | hofer :: rest, i, st =>
    (getFitness hofer).bind fun hofFitness =>
      (if st.dominatesOne then Outcome.ok false
        else ptrDominates hofFitness ind.fitness).bind fun c1 =>
        if c1 then Outcome.ok { st with isDominated := true }
        else
          (ptrDominates ind.fitness hofFitness).bind fun c2 =>
            if c2 then
              (setIndex st.toRemove st.count i).bind fun marked =>
                scanItems similar ind rest (i + 1)
                  { st with dominatesOne := true, toRemove := marked, count := st.count + 1 }
            else
              (ptrEqual ind.fitness hofFitness).bind fun c3 =>
                if c3 && similar ind hofer then Outcome.ok { st with hasTwin := true }
                else scanItems similar ind rest (i + 1) st

/-- Loop `for i := count - 1; i >= 0; i--` of `Update`, entered with `i + 1` rounds left. -/
def removeMarked (toRemove : List Int) : Nat → DefaultHallOfFame → Outcome DefaultHallOfFame
  | 0, hof => Outcome.ok hof
  | i + 1, hof =>
    (index toRemove (i : Int)).bind fun r =>
      (hof.Remove r).bind fun hof1 => removeMarked toRemove i hof1

/-- Loop `for _, ind := range individuals` of `Update`; `toRemove` is the slice made before
the loop. -/
def updateLoop : List Float64Individual → List Int → DefaultHallOfFame →
    Outcome DefaultHallOfFame
  | [], _, hof => Outcome.ok hof
  | ind :: rest, toRemove, hof =>
    (scanItems hof.similar ind hof.items 0
        { isDominated := false, dominatesOne := false, hasTwin := false,
          toRemove := toRemove, count := 0 }).bind fun st =>
      (removeMarked st.toRemove st.count.toNat hof).bind fun hof1 =>
        (if !st.isDominated && !st.hasTwin then hof1.Insert ind
          else Outcome.ok hof1).bind fun hof2 => updateLoop rest st.toRemove hof2

/-- Method `Update`; `make([]int, 0, len(individuals))` is a slice of length zero. -/
def Update (pf : DefaultParetoFront) (individuals : List Float64Individual) :
    Outcome DefaultParetoFront :=
  (updateLoop individuals [] pf.hall).bind fun hof => Outcome.ok { hall := hof }

/-- Runs `Update` on a sequence of populations, first to last. -/
def updates : DefaultParetoFront → List (List Float64Individual) → Outcome DefaultParetoFront
  | pf, [] => Outcome.ok pf
  | pf, p :: rest => (pf.Update p).bind fun pf1 => pf1.updates rest

end DefaultParetoFront

/-! ## Vocabulary for the static linked list, with `Reset` -/

/-- The list `l` is what construction or a `Reset`, followed by the successful additions
of `log` (most recent first), produces. -/
inductive Reached {κ : Type} [DecidableEq κ] : StaticLinkedList κ → List (κ × Int) → Prop
  | new (capacity : Nat) : Reached (NewStaticLinkedList capacity) []
  | reset {l : StaticLinkedList κ} {log : List (κ × Int)} : Reached l log → Reached l.Reset []
  | add {l : StaticLinkedList κ} {log : List (κ × Int)} (k : κ) (d : Int) :
      Reached l log → l.total < l.cap → Reached (l.Add k d).1 ((k, d) :: log)

/-- Index of the most recent addition under key `k` in a log (most recent first), `-1`
when there is none: the addition with `n` additions before it has index `n`. -/
def lastIndexOf {κ : Type} [DecidableEq κ] : List (κ × Int) → κ → Int
  | [], _ => -1
  | (k', _) :: rest, k => if k' = k then (rest.length : Int) else lastIndexOf rest k

/-- Loop `for next != -1 { data, next = list.GetData(next) }` by which the callers (the
closure `extends`, `staticLinkedList2Slice`) walk a chain, collecting the payloads. -/
def chainPayloads {κ : Type} [DecidableEq κ] (list : StaticLinkedList κ) :
    Nat → Int → Outcome (List Int)
  | 0, next => if next = -1 then Outcome.ok [] else Outcome.outOfFuel
  | steps + 1, next =>
    if next = -1 then Outcome.ok []
    else
      (chainPayloads list steps (list.GetData next).2).bind fun rest =>
        Outcome.ok ((list.GetData next).1 :: rest)

end Deag

namespace Deag

/-! ## base/individual_float64.go, base/individual_int.go: the individuals with strategies -/

/-- Struct `Float64ESIndividual`: the embedded `Float64Individual` and the strategies. -/
structure Float64ESIndividual where
  toFloat64Individual : Float64Individual
  strategies : List ℚ
deriving DecidableEq

/-- Struct `IntIndividual`. -/
structure IntIndividual where
  chromosome : List Int
  fitness : Option Fitness
deriving DecidableEq

/-- Struct `IntESIndividual`: the embedded `IntIndividual` and the strategies. -/
structure IntESIndividual where
  toIntIndividual : IntIndividual
  strategies : List ℚ
deriving DecidableEq

/-- Struct `BoolIndividual`. -/
structure BoolIndividual where
  chromosome : List Bool
  fitness : Option Fitness
deriving DecidableEq

/-- A value of the interface `Individual`: `nil`, or a pointer to one of the five
representations of package `base`. -/
inductive Individual where
  | nil : Individual
  | float64 : Float64Individual → Individual
  | float64ES : Float64ESIndividual → Individual
  | int : IntIndividual → Individual
  | intES : IntESIndividual → Individual
  | bool : BoolIndividual → Individual
deriving DecidableEq

/-- Method `Float64ESIndividual.IsEqual`: the loop over the genes returns false at the
first gene that differs by more than `1E-14`; every other path, a failed type assertion and
a different length included, reaches the final `return true`. -/
def Float64ESIndividual.IsEqual (ind : Float64ESIndividual) (other : Individual) : Bool :=
  match other with
  | Individual.float64ES otherInd =>
    if otherInd.toFloat64Individual.chromosome.length =
        ind.toFloat64Individual.chromosome.length then
      Float64Individual.isEqualFrom otherInd.toFloat64Individual.chromosome
        ind.toFloat64Individual.chromosome 0
    else true
  | _ => true

/-- Loop of `IntIndividual.IsEqual` and `IntESIndividual.IsEqual` from position `i` over
the receiver's genes. -/
def intEqualFrom (chrom : List Int) : List Int → Nat → Bool
  | [], _ => true
  | c :: rest, i => if chrom.getD i 0 ≠ c then false else intEqualFrom chrom rest (i + 1)

/-- Method `IntIndividual.IsEqual`: a failed type assertion or a different length gives
false. -/
def IntIndividual.IsEqual (ind : IntIndividual) (other : Individual) : Bool :=
  match other with
  | Individual.int otherInd =>
    if otherInd.chromosome.length = ind.chromosome.length then
      intEqualFrom otherInd.chromosome ind.chromosome 0
    else false
  | _ => false

/-- Method `IntESIndividual.IsEqual`: false at the first gene that differs; every other
path reaches the final `return true`. -/
def IntESIndividual.IsEqual (ind : IntESIndividual) (other : Individual) : Bool :=
  match other with
  | Individual.intES otherInd =>
    if otherInd.toIntIndividual.chromosome.length = ind.toIntIndividual.chromosome.length then
      intEqualFrom otherInd.toIntIndividual.chromosome ind.toIntIndividual.chromosome 0
    else true
  | _ => true

/-- Whether `a` and `b` have the same length and every gene of `b` is within `1E-14` of the
gene of `a` at the same position. -/
def GenesWithin (a b : List ℚ) : Prop :=
  a.length = b.length ∧ ∀ i, i < a.length → |b.getD i 0 - a.getD i 0| ≤ 1 / 100000000000000

/-- A `Float64ESIndividual` with chromosome `c` and strategies `s`, fitness weight `-1`. -/
def esInd (c s : List ℚ) : Float64ESIndividual :=
  { toFloat64Individual := { chromosome := c, fitness := Fitness.NewFitness [-1] }
    strategies := s }

/-- An `IntESIndividual` with chromosome `c` and strategies `s`, fitness weight `-1`. -/
def intEsInd (c : List Int) (s : List ℚ) : IntESIndividual :=
  { toIntIndividual := { chromosome := c, fitness := Fitness.NewFitness [-1] }
    strategies := s }

/-! ## Vocabulary for the static linked list under arbitrary calls -/

/-- The list `l` is what `NewStaticLinkedList(capacity)` followed by any sequence of `Add`
and `Reset` calls produces; an `Add` may be one that returns an error. -/
inductive Called {κ : Type} [DecidableEq κ] (capacity : Nat) : StaticLinkedList κ → Prop
  | new : Called capacity (NewStaticLinkedList capacity)
  | add {l : StaticLinkedList κ} (k : κ) (d : Int) : Called capacity l →
      Called capacity (l.Add k d).1
  | reset {l : StaticLinkedList κ} : Called capacity l → Called capacity l.Reset

/-- A list of capacity 2 after three `Add` calls, the third of which returns an error, a
`Reset` and one more `Add`. -/
def listAfterCalls : StaticLinkedList Nat :=
  ((((((NewStaticLinkedList 2 : StaticLinkedList Nat).Add 7 5).1.Add 8 6).1.Add 9 1).1.Reset).Add
    7 3).1

/-! ## Vocabulary for the additions of `sortNondominated` -/

/-- The additions to `dominatedFits` that the inner loop of the pairwise pass attempts, put
in front of `log` (most recent first): one per pair in which one fitness dominates the
other, as the code writes it, the key being the address of the first argument of `Add`. -/
def edgesInner (fitI : Ref) (i : Nat) : List Ref → Nat → List (Nat × Int) → List (Nat × Int)
  | [], _, log => log
  | fitJ :: rest, j, log =>
    if domB fitI.2.wvalues fitJ.2.wvalues then
      edgesInner fitI i rest (j + 1) ((fitI.1, (j : Int)) :: log)
    else if domB fitJ.2.wvalues fitI.2.wvalues then
      edgesInner fitI i rest (j + 1) ((fitJ.1, (i : Int)) :: log)
    else edgesInner fitI i rest (j + 1) log

/-- The additions to `dominatedFits` that the pairwise pass attempts. -/
def edgesOuter : List Ref → Nat → List (Nat × Int) → List (Nat × Int)
  | [], _, log => log
  | fitI :: rest, i, log => edgesOuter rest (i + 1) (edgesInner fitI i rest 0 log)

/-- The peeling loop of `sortNondominated` stopped after at most `n` rounds: the front it
is about to walk and its variables at that point, also when the loop has not ended. -/
def peelRounds (fits : List Ref) (mapFitInd dominatedFits : StaticLinkedList Nat)
    (frontIndex : Nat) (N : Int) : Nat → List Ref → PeelState → Outcome (List Ref × PeelState)
  | 0, currentFront, st => Outcome.ok (currentFront, st)
  | n + 1, currentFront, st =>
    if st.paretoSorted < N then
      (peelFront fits mapFitInd dominatedFits frontIndex currentFront st).bind fun st1 =>
        peelRounds fits mapFitInd dominatedFits frontIndex N n st1.nextFront
          { st1 with nextFront := [] }
    else Outcome.ok (currentFront, st)

/-- Invariant of the fronts list of `sortNondominated`, for the log `mlog` of the
fitness-to-individuals map: the list is built from a log that holds every addition
attempted so far, namely the payloads of the buckets of the pairwise distinct fitness
addresses `placed`, in order; a placed fitness has a domination count of at most zero. -/
def FrontsFull (mlog : List (Nat × Int)) (counts : List (Nat × Int))
    (fronts : StaticLinkedList Nat) : Prop :=
  ∃ (flog : List (Nat × Int)) (placed : List Nat),
    Built fronts flog ∧ (∀ e ∈ flog, e.1 < 2) ∧ placed.Nodup ∧
    (flog.map Prod.snd).reverse = (placed.flatMap fun a => bucket mlog a) ∧
    ∀ a ∈ placed, mapGetD counts a ≤ 0

/-- What `uniqueByFitness` returns on the population `[A, B, C]`. -/
def fitsABC : List Ref := [(2, fitC), (1, fitB), (0, fitA)]

/-- State of the pairwise pass of `sortNondominated` on `[A, B, C]` when it ends: `B`
dominates `C`, recorded under the address of `B` with the index 0 of `C` in `fitsABC`. -/
def domABC : DomState :=
  { dominatingFits := [(2, 1)]
    dominatedFits :=
      { head := [(1, 0)], size := [(1, 1)], datas := [0, 0, 0], next := [-1, 0, 0],
        total := 1, cap := 3 }
    currentFront := [(1, fitB), (0, fitA)] }

/-- The fitness-to-individuals map of `sortNondominated` on `[A, B, C]`. -/
def mapABC : StaticLinkedList Nat :=
  { head := [(0, 0), (1, 1), (2, 2)], size := [(0, 1), (1, 1), (2, 1)], datas := [0, 1, 2],
    next := [-1, -1, -1], total := 3, cap := 3 }

/-! ## Example individuals for the hall of fame -/

/-- A single-objective individual to be maximised with raw value `v` and chromosome `[v]`. -/
def indVal (v : ℚ) : Float64Individual := indOne 1 v [v]

end Deag

namespace Deag

/-! ## tools/support/logbook.go, tools/support/statistics.go

A `Dict` (`map[string]interface{}`) is kept as a list of entries with distinct keys; a value
that is itself a `Dict` makes a `chapter`, any other value is a number. -/

/-- A value of a `Dict` that is not a `Dict`: an `int` or a `float64`. -/
inductive DictValue where
  | int : Int → DictValue
  | float : ℚ → DictValue
deriving DecidableEq

/-- Type `Dict`. -/
inductive Dict where
  | empty : Dict
  | entry (key : String) (val : DictValue) (rest : Dict) : Dict
  | chapter (key : String) (val : Dict) (rest : Dict) : Dict
deriving DecidableEq

/-- Go map write `d[key] = val` with a value that is not a `Dict`. -/
def Dict.set : Dict → String → DictValue → Dict
  | Dict.empty, key, val => Dict.entry key val Dict.empty
  | Dict.entry k v rest, key, val =>
    if k = key then Dict.entry k val rest else Dict.entry k v (rest.set key val)
  | Dict.chapter k d rest, key, val =>
    if k = key then Dict.entry k val rest else Dict.chapter k d (rest.set key val)

/-- Constant `GEN`. -/
def GEN : String := "gen"

/-- Constant `FES`. -/
def FES : String := "FES"

/-- Struct `DefaultLogbook`; `chapters` is the map from names to sub-logbooks. -/
inductive DefaultLogbook where
  | mk (buffer : List Dict) (count : Int) (chapters : List (String × DefaultLogbook))
      (header : List String) (LogHeader : Bool) : DefaultLogbook

/-- The logbook `NewDefaultLogbook` returns: nothing recorded, no chapter. -/
def DefaultLogbook.fresh : DefaultLogbook := DefaultLogbook.mk [] 0 [] [] true

/-- Constructor `NewDefaultLogbook`: `make([]Dict, 0, size)` panics on a negative `size`;
`cSize` is a size hint for the chapter map and has no effect. -/
def NewDefaultLogbook (size _cSize : Int) : Outcome DefaultLogbook :=
  if size < 0 then Outcome.panic else Outcome.ok DefaultLogbook.fresh

/-- Go map write `chapters[key] = chapter`. -/
def setChapter : List (String × DefaultLogbook) → String → DefaultLogbook →
    List (String × DefaultLogbook)
  | [], key, chapter => [(key, chapter)]
  | (k, c) :: rest, key, chapter =>
    if k = key then (k, chapter) :: rest else (k, c) :: setChapter rest key chapter

/-- Go map read `chapter, ok := chapters[key]`. -/
def getChapter : List (String × DefaultLogbook) → String → Option DefaultLogbook
  | [], _ => none
  | (k, c) :: rest, key => if k = key then some c else getChapter rest key

/-- Loop of `Record` over the entries of `info` still to visit, `noChapter` being the
record collected so far; at the end the record is appended to the buffer.  A value that is
a `Dict` is recorded in the chapter of its key, made by `NewDefaultLogbook(0, 0)` when
there is none. -/
def DefaultLogbook.recordInto : Dict → Dict → DefaultLogbook → DefaultLogbook
  | Dict.empty, noChapter, DefaultLogbook.mk buffer count chapters header logHeader =>
    DefaultLogbook.mk (buffer ++ [noChapter]) (count + 1) chapters header logHeader
  | Dict.entry key val rest, noChapter, logbook =>
    DefaultLogbook.recordInto rest (noChapter.set key val) logbook
  | Dict.chapter key v rest, noChapter,
      DefaultLogbook.mk buffer count chapters header logHeader =>
    DefaultLogbook.recordInto rest noChapter
      (DefaultLogbook.mk buffer count
        (setChapter chapters key
          (DefaultLogbook.recordInto v Dict.empty
            ((getChapter chapters key).getD DefaultLogbook.fresh)))
        header logHeader)

/-- Method `Record`. -/
def DefaultLogbook.Record (logbook : DefaultLogbook) (info : Dict) : DefaultLogbook :=
  DefaultLogbook.recordInto info Dict.empty logbook

/-- Method `Len`. -/
def DefaultLogbook.Len : DefaultLogbook → Nat
  | DefaultLogbook.mk buffer _ _ _ _ => buffer.length

/-! ## Package math/rand

The random numbers a run draws are supplied as a list of draws, used up in order.  A run
that needs a draw the list does not supply (none left, or one of another kind or out of
range) yields `Outcome.outOfFuel`. -/

/-- One random draw: the result of `rand.Perm`, `rand.Intn` or `rand.Float64`. -/
inductive Draw where
  | perm : List Nat → Draw
  | intn : Int → Draw
  | float : ℚ → Draw
deriving DecidableEq

/-- Whether `p` is a permutation of `0, ..., n-1`. -/
def isPermOfRange (p : List Nat) (n : Nat) : Bool :=
  decide (p.length = n) && (List.range n).all fun i => p.contains i

/-- Library function `rand.Perm(n)` for `n ≥ 0`. -/
def randPerm (n : Nat) : List Draw → Outcome (List Nat × List Draw)
  | Draw.perm p :: rest => if isPermOfRange p n then Outcome.ok (p, rest) else Outcome.outOfFuel
  | _ => Outcome.outOfFuel

/-- Library function `rand.Intn(n)`: panics for `n ≤ 0`. -/
def randIntn (n : Int) (src : List Draw) : Outcome (Int × List Draw) :=
  if n ≤ 0 then Outcome.panic
  else
    match src with
    | Draw.intn v :: rest => if 0 ≤ v ∧ v < n then Outcome.ok (v, rest) else Outcome.outOfFuel
    | _ => Outcome.outOfFuel

/-- Library function `rand.Float64()`: a number in `[0, 1)`. -/
def randFloat64 : List Draw → Outcome (ℚ × List Draw)
  | Draw.float x :: rest => if 0 ≤ x ∧ x < 1 then Outcome.ok (x, rest) else Outcome.outOfFuel
  | _ => Outcome.outOfFuel

/-! ## Calls through interfaces and pointers

The hall of fame of a control loop is a value of the interface `HallOfFame`: `none` is the
`nil` interface, `some` a `*DefaultHallOfFame`.  An entry of a population is a value of the
interface `Individual`: `none` is `nil`. -/

/-- Call `hof.Len()` through the interface. -/
def hofLen (hof : Option DefaultHallOfFame) : Outcome Int :=
  match hof with
  | none => Outcome.panic
  | some h => Outcome.ok h.Len

/-- Call `hof.Get(index)` through the interface. -/
def hofGet (hof : Option DefaultHallOfFame) (index : Int) :
    Outcome (Option Float64Individual) :=
  match hof with
  | none => Outcome.panic
  | some h => h.Get index

/-- The individuals of a population, unless one of its entries is `nil`. -/
def nonNil {α : Type} : List (Option α) → Option (List α)
  | [] => some []
  | none :: _ => none
  | some x :: rest => (nonNil rest).map fun r => x :: r

/-- Call `hof.Update(population)` through the interface: on a `nil` entry of the
population `Update` panics, since it calls `GetFitness` on every entry. -/
def hofUpdate (hof : Option DefaultHallOfFame) (population : List (Option Float64Individual)) :
    Outcome DefaultHallOfFame :=
  match hof with
  | none => Outcome.panic
  | some h =>
    match nonNil population with
    | none => Outcome.panic
    | some individuals => h.Update individuals

/-- Call `f.SetValues(values)` on a pointer. -/
def ptrSetValues (f : Option Fitness) (values : List ℚ) : Outcome Fitness :=
  match f with
  | none => Outcome.panic
  | some fit => fit.SetValues values

/-- Call `ind.GetChromosome().([]float64)` on an entry of a population. -/
def chromOf (ind : Option Float64Individual) : Outcome (List ℚ) :=
  match ind with
  | none => Outcome.panic
  | some x => Outcome.ok x.chromosome

/-- Call `make(base.Individuals, size)`: `size` `nil` entries, a panic when negative. -/
def makeIndividuals {α : Type} (size : Int) : Outcome (List (Option α)) :=
  if size < 0 then Outcome.panic else Outcome.ok (List.replicate size.toNat none)

/-- Call `stat.Compile(population)` when `stat` is not `nil`, `make(Dict, 3)` otherwise. -/
def compileStat {α : Type} (stat : Option (List α → Outcome Dict)) (population : List α) :
    Outcome Dict :=
  match stat with
  | some compile => compile population
  | none => Outcome.ok Dict.empty

/-- The statements `datas[GEN] = gen; datas[FES] = size; logbook.Record(datas)` of the
methods `log`: a `nil` logbook panics. -/
def logRecord (datas : Dict) (gen size : Int) (logbook : Option DefaultLogbook) :
    Outcome DefaultLogbook :=
  match logbook with
  | none => Outcome.panic
  | some lb =>
    Outcome.ok (lb.Record ((datas.set GEN (DictValue.int gen)).set FES (DictValue.int size)))

/-! ## algorithms/de/de_rand_1.go, algorithms/de/de_best_1.go, algorithms/pso/pso.go

The individuals of a population are taken to be distinct objects, each with a fitness of
its own: the comparison `agent != evol.population[x]` of two interface values is the
comparison of their positions, and `SetValues` on the fitness of one individual changes no
other.  The populations of `Rand1` and `Best1` hold `*Float64Individual`s (`evaluate`
asserts that type), those of `PSO` hold `*Particle`s. -/

/-- Body that `Rand1.IsTerminated`, `Best1.IsTerminated` and `PSO.IsTerminated` share word
for word. -/
def isTerminated (gen maxGen maxFES currentFES size : Int) (hof : Option DefaultHallOfFame) :
    Outcome Bool :=
  let flag := decide (gen ≥ maxGen)
  let flag1 := flag || (decide (maxFES > 0) && decide (currentFES + size > maxFES))
  if flag1 then Outcome.ok true
  else
    (hofLen hof).bind fun n =>
      if n > 0 then
        (hofGet hof 0).bind fun best =>
          (getFitness best).bind fun f =>
            (ptrGetValues f).bind fun values =>
              (index values 0).bind fun v => Outcome.ok (decide (v < 1 / 100000000000000))
      else Outcome.ok false

/-- Loop of `Rand1.evaluate` and `Best1.evaluate` over the population. -/
def evaluateFrom (evaluator : Float64Individual → Outcome (List ℚ)) :
    List (Option Float64Individual) → Outcome (List (Option Float64Individual))
  | [] => Outcome.ok []
  | none :: _ => Outcome.panic
  | some fInd :: rest =>
    (evaluator fInd).bind fun fit =>
      (ptrSetValues fInd.fitness fit).bind fun f1 =>
        (evaluateFrom evaluator rest).bind fun r =>
          Outcome.ok (some { fInd with fitness := some f1 } :: r)

/-- Loop `for _, x := range inds` of `Evolve`: collects into `rChroms` the chromosomes of
the individuals other than the agent at position `i`, until there are `rAmounts` of them;
`acc` is `rChroms[:rLoc]`. -/
def pickOthers (population : List (Option Float64Individual)) (i rAmounts : Nat) :
    List Nat → List (List ℚ) → Outcome (List (List ℚ))
  | [], acc => Outcome.ok acc
  | x :: rest, acc =>
    if x ≠ i then
      (index population (x : Int)).bind fun other =>
        (chromOf other).bind fun c =>
          if (acc ++ [c]).length = rAmounts then Outcome.ok (acc ++ [c])
          else pickOthers population i rAmounts rest (acc ++ [c])
    else pickOthers population i rAmounts rest acc

/-- Mutation loop of `Evolve` from position `j`: `tChrom[j] = x + f*(a[j] - b[j])` for the
entries `x` of the slice ranged over. -/
def mutateFrom (f : ℚ) (a b : List ℚ) : List ℚ → Nat → List ℚ → Outcome (List ℚ)
  | [], _, tChrom => Outcome.ok tChrom
  | x :: rest, j, tChrom =>
    (index a (j : Int)).bind fun aj =>
      (index b (j : Int)).bind fun bj =>
        (setIndex tChrom (j : Int) (x + f * (aj - bj))).bind fun t1 =>
          mutateFrom f a b rest (j + 1) t1

/-- Crossover loop of `Evolve` from position `j` over the genes of the agent:
`if index == j || rand.Float64() < cr { tChrom[j] = value }`. -/
def crossFrom (cr : ℚ) (idx : Int) :
    List ℚ → Nat → List ℚ → List Draw → Outcome (List ℚ × List Draw)
  | [], _, tChrom, src => Outcome.ok (tChrom, src)
  | value :: rest, j, tChrom, src =>
    if idx = (j : Int) then
      (setIndex tChrom (j : Int) value).bind fun t1 => crossFrom cr idx rest (j + 1) t1 src
    else
      (randFloat64 src).bind fun r =>
        if r.1 < cr then
          (setIndex tChrom (j : Int) value).bind fun t1 =>
            crossFrom cr idx rest (j + 1) t1 r.2
        else crossFrom cr idx rest (j + 1) tChrom r.2

/-- Tail of the loop body of `Rand1.Evolve` and `Best1.Evolve`, from the crossover on:
draws the index, crosses, evaluates the trial `t` and selects between it and a clone of
the agent. -/
def crossAndSelect (cr : ℚ) (evaluator : Float64Individual → Outcome (List ℚ))
    (agent t : Float64Individual) (tChrom : List ℚ) (src : List Draw) :
    Outcome (Float64Individual × List Draw) :=
  (randIntn (agent.chromosome.length : Int) src).bind fun r =>
    (crossFrom cr r.1 agent.chromosome 0 tChrom r.2).bind fun c =>
      (evaluator { t with chromosome := c.1 }).bind fun fit =>
        (ptrSetValues t.fitness fit).bind fun f1 =>
          (ptrGreater (some f1) agent.fitness).bind fun g =>
            if g then Outcome.ok ({ chromosome := c.1, fitness := some f1 }, c.2)
            else agent.Clone.bind fun cl => Outcome.ok (cl, c.2)

/-- Struct `Rand1`. -/
structure Rand1 where
  population : List (Option Float64Individual)
  f : ℚ
  cr : ℚ
  stat : Option (List (Option Float64Individual) → Outcome Dict)
  hof : Option DefaultHallOfFame
  logbook : Option DefaultLogbook
  size : Int
  maxFES : Int
  currentFES : Int
  gen : Int
  maxGen : Int
  evaluator : Float64Individual → Outcome (List ℚ)

namespace Rand1

/-- Constructor `NewDERand1`. -/
def NewDERand1 (f cr : ℚ) (maxGen maxFES : Int)
    (stat : Option (List (Option Float64Individual) → Outcome Dict))
    (hof : Option DefaultHallOfFame) (evaluator : Float64Individual → Outcome (List ℚ)) :
    Rand1 :=
  { population := [], f := f, cr := cr, stat := stat, hof := hof, logbook := none, size := 0,
    maxFES := maxFES, currentFES := 0, gen := 0, maxGen := maxGen, evaluator := evaluator }

/-- Method `Rand1.IsTerminated`. -/
def IsTerminated (evol : Rand1) : Outcome Bool :=
  isTerminated evol.gen evol.maxGen evol.maxFES evol.currentFES evol.size evol.hof

/-- Method `Rand1.evaluate`. -/
def evaluate (evol : Rand1) : Outcome Rand1 :=
  (evaluateFrom evol.evaluator evol.population).bind fun pop =>
    Outcome.ok { evol with population := pop, currentFES := evol.currentFES + evol.size }

/-- Method `Rand1.log`. -/
def log (evol : Rand1) : Outcome Rand1 :=
  (compileStat evol.stat evol.population).bind fun datas =>
    (logRecord datas evol.gen evol.size evol.logbook).bind fun lb =>
      (hofUpdate evol.hof evol.population).bind fun h =>
        Outcome.ok { evol with logbook := some lb, hof := some h }

/-- Method `Rand1.Init`. -/
def Init (evol : Rand1) (population : List (Option Float64Individual)) : Outcome Rand1 :=
  (NewDefaultLogbook evol.maxGen 0).bind fun lb =>
    (if evol.hof.isNone then
        (DefaultHallOfFame.NewDefaultHallOfFame 1 none).bind fun h => Outcome.ok (some h)
      else Outcome.ok evol.hof).bind fun hof1 =>
      (isTerminated 0 evol.maxGen evol.maxFES 0 (population.length : Int) hof1).bind fun t =>
        if !t then
          (evaluate
            { evol with
              currentFES := 0, gen := 0, logbook := some lb, population := population,
              size := (population.length : Int), hof := hof1 }).bind fun evol1 => evol1.log
        else
          Outcome.ok
            { evol with
              currentFES := 0, gen := 0, logbook := some lb, population := population,
              size := (population.length : Int), hof := hof1 }

/-- Body of the loop `for i, agent := range evol.population` of `Rand1.Evolve`: the
individual stored in `offsprings[i]` and the draws left; a `nil` agent panics at
`agent.Clone()`. -/
def offspring (evol : Rand1) (i : Nat) (agentRef : Option Float64Individual)
    (src : List Draw) : Outcome (Float64Individual × List Draw) :=
  (randPerm evol.population.length src).bind fun p =>
    (pickOthers evol.population i 3 p.1 []).bind fun rChroms =>
      match agentRef with
      | none => Outcome.panic
      | some agent =>
        agent.Clone.bind fun t =>
          (mutateFrom evol.f (rChroms.getD 1 []) (rChroms.getD 2 []) (rChroms.getD 0 []) 0
              t.chromosome).bind fun tChrom =>
            crossAndSelect evol.cr evol.evaluator agent t tChrom p.2

/-- Loop `for i, agent := range evol.population` of `Rand1.Evolve`, over the agents from
position `i` on. -/
def evolveFrom (evol : Rand1) :
    List (Option Float64Individual) → Nat → List (Option Float64Individual) → List Draw →
      Outcome (List (Option Float64Individual) × List Draw)
  | [], _, offsprings, src => Outcome.ok (offsprings, src)
  | agentRef :: rest, i, offsprings, src =>
    (evol.offspring i agentRef src).bind fun o =>
      (setIndex offsprings (i : Int) (some o.1)).bind fun offs1 =>
        evolveFrom evol rest (i + 1) offs1 o.2

/-- Method `Rand1.Evolve`: the state it leaves and the generation number it returns. -/
def Evolve (evol : Rand1) (src : List Draw) : Outcome (Rand1 × Int) :=
  (isTerminated (evol.gen + 1) evol.maxGen evol.maxFES evol.currentFES evol.size
      evol.hof).bind fun t =>
    if !t then
      (makeIndividuals evol.size).bind fun offsprings =>
        (evolveFrom { evol with gen := evol.gen + 1 } evol.population 0 offsprings src).bind
          fun r =>
          (log
            { evol with
              gen := evol.gen + 1, population := r.1,
              currentFES := evol.currentFES + evol.size }).bind fun evol1 =>
            Outcome.ok (evol1, evol1.gen)
    else Outcome.ok ({ evol with gen := evol.gen + 1 }, evol.gen + 1)

end Rand1

/-- Struct `Best1`. -/
structure Best1 where
  population : List (Option Float64Individual)
  f : ℚ
  cr : ℚ
  stat : Option (List (Option Float64Individual) → Outcome Dict)
  hof : Option DefaultHallOfFame
  logbook : Option DefaultLogbook
  size : Int
  maxFES : Int
  currentFES : Int
  gen : Int
  maxGen : Int
  evaluator : Float64Individual → Outcome (List ℚ)

namespace Best1

/-- Constructor `NewDEBest1`. -/
def NewDEBest1 (f cr : ℚ) (maxGen maxFES : Int)
    (stat : Option (List (Option Float64Individual) → Outcome Dict))
    (hof : Option DefaultHallOfFame) (evaluator : Float64Individual → Outcome (List ℚ)) :
    Best1 :=
  { population := [], f := f, cr := cr, stat := stat, hof := hof, logbook := none, size := 0,
    maxFES := maxFES, currentFES := 0, gen := 0, maxGen := maxGen, evaluator := evaluator }

/-- Method `Best1.IsTerminated`. -/
def IsTerminated (evol : Best1) : Outcome Bool :=
  isTerminated evol.gen evol.maxGen evol.maxFES evol.currentFES evol.size evol.hof

/-- Method `Best1.evaluate`. -/
def evaluate (evol : Best1) : Outcome Best1 :=
  (evaluateFrom evol.evaluator evol.population).bind fun pop =>
    Outcome.ok { evol with population := pop, currentFES := evol.currentFES + evol.size }

/-- Method `Best1.log`. -/
def log (evol : Best1) : Outcome Best1 :=
  (compileStat evol.stat evol.population).bind fun datas =>
    (logRecord datas evol.gen evol.size evol.logbook).bind fun lb =>
      (hofUpdate evol.hof evol.population).bind fun h =>
        Outcome.ok { evol with logbook := some lb, hof := some h }

/-- Method `Best1.Init`. -/
def Init (evol : Best1) (population : List (Option Float64Individual)) : Outcome Best1 :=
  (NewDefaultLogbook evol.maxGen 0).bind fun lb =>
    (if evol.hof.isNone then
        (DefaultHallOfFame.NewDefaultHallOfFame 1 none).bind fun h => Outcome.ok (some h)
      else Outcome.ok evol.hof).bind fun hof1 =>
      (isTerminated 0 evol.maxGen evol.maxFES 0 (population.length : Int) hof1).bind fun t =>
        if !t then
          (evaluate
            { evol with
              currentFES := 0, gen := 0, logbook := some lb, population := population,
              size := (population.length : Int), hof := hof1 }).bind fun evol1 => evol1.log
        else
          Outcome.ok
            { evol with
              currentFES := 0, gen := 0, logbook := some lb, population := population,
              size := (population.length : Int), hof := hof1 }

/-- Body of the loop `for i, agent := range evol.population` of `Best1.Evolve`; `xBest` is
the entry `evol.hof.Get(0)` read before the loop. -/
def offspring (evol : Best1) (xBest : Option Float64Individual) (i : Nat)
    (agentRef : Option Float64Individual) (src : List Draw) :
    Outcome (Float64Individual × List Draw) :=
  (randPerm evol.population.length src).bind fun p =>
    (pickOthers evol.population i 2 p.1 []).bind fun rChroms =>
      match agentRef with
      | none => Outcome.panic
      | some agent =>
        agent.Clone.bind fun t =>
          (chromOf xBest).bind fun xChrom =>
            (mutateFrom evol.f (rChroms.getD 0 []) (rChroms.getD 1 []) xChrom 0
                t.chromosome).bind fun tChrom =>
              crossAndSelect evol.cr evol.evaluator agent t tChrom p.2

/-- Loop `for i, agent := range evol.population` of `Best1.Evolve`, over the agents from
position `i` on. -/
def evolveFrom (evol : Best1) (xBest : Option Float64Individual) :
    List (Option Float64Individual) → Nat → List (Option Float64Individual) → List Draw →
      Outcome (List (Option Float64Individual) × List Draw)
  | [], _, offsprings, src => Outcome.ok (offsprings, src)
  | agentRef :: rest, i, offsprings, src =>
    (evol.offspring xBest i agentRef src).bind fun o =>
      (setIndex offsprings (i : Int) (some o.1)).bind fun offs1 =>
        evolveFrom evol xBest rest (i + 1) offs1 o.2

/-- Method `Best1.Evolve`: the state it leaves and the generation number it returns. -/
def Evolve (evol : Best1) (src : List Draw) : Outcome (Best1 × Int) :=
  (isTerminated (evol.gen + 1) evol.maxGen evol.maxFES evol.currentFES evol.size
      evol.hof).bind fun t =>
    if !t then
      (makeIndividuals evol.size).bind fun offsprings =>
        (hofGet evol.hof 0).bind fun xBest =>
          (evolveFrom { evol with gen := evol.gen + 1 } xBest evol.population 0 offsprings
              src).bind fun r =>
            (log
              { evol with
                gen := evol.gen + 1, population := r.1,
                currentFES := evol.currentFES + evol.size }).bind fun evol1 =>
              Outcome.ok (evol1, evol1.gen)
    else Outcome.ok ({ evol with gen := evol.gen + 1 }, evol.gen + 1)

end Best1

/-! ### algorithms/pso/particle.go, algorithms/pso/pso.go

The pointer `pbest` of a particle is represented by what is read through it, the embedded
`Float64Individual` of the particle pointed to, as it is when the pointer is set: no
particle is written to after a pointer to it has been stored.  The hall of fame receives
clones of particles; it reads their embedded `Float64Individual`s only, and these are what
its entries hold here.  Its similarity predicate is the one the caller gave it, applied to
particles. -/

/-- Struct `Particle`. -/
structure Particle where
  toFloat64Individual : Float64Individual
  speed : List ℚ
  pbest : Option Float64Individual
  smin : ℚ
  smax : ℚ
deriving DecidableEq

/-- Method `Particle.Clone`: the embedded individual is cloned, the speed copied, the
pointer `pbest` kept. -/
def Particle.Clone (part : Particle) : Outcome Particle :=
  part.toFloat64Individual.Clone.bind fun c =>
    Outcome.ok { part with toFloat64Individual := c }

/-- Call `ind.Clone().(*Particle)` on an entry of a population of particles. -/
def cloneParticle (ind : Option Particle) : Outcome Particle :=
  match ind with
  | none => Outcome.panic
  | some p => p.Clone

/-- Method `Particle.SetSpeed` with the particle's own speed slice as argument: every entry
is clamped to `[smin, smax]`. -/
def Particle.SetSpeed (part : Particle) (speed : List ℚ) : Outcome Particle :=
  if speed.length ≠ part.speed.length then Outcome.panic
  else
    Outcome.ok
      { part with
        speed := speed.map fun v =>
          if v < part.smin then part.smin else if v > part.smax then part.smax else v }

/-- The embedded individuals of a population of particles, entry by entry. -/
def embedded (population : List (Option Particle)) : List (Option Float64Individual) :=
  population.map fun p => p.map fun q => q.toFloat64Individual

/-- Loop `for j := range speed` of `PSO.Evolve` from position `j`, `n` rounds to go; the
state is the pair `(speed, chrom)` of the clone. -/
def flyFrom (c1 c2 : ℚ) (pChrom gChrom : List ℚ) :
    Nat → Nat → List ℚ × List ℚ → List Draw → Outcome ((List ℚ × List ℚ) × List Draw)
  | 0, _, st, src => Outcome.ok (st, src)
  | n + 1, j, st, src =>
    (index pChrom (j : Int)).bind fun pj =>
      (index st.2 (j : Int)).bind fun xj =>
        (index gChrom (j : Int)).bind fun gj =>
          (index st.1 (j : Int)).bind fun sj =>
            (randFloat64 src).bind fun r1 =>
              (randFloat64 r1.2).bind fun r2 =>
                (setIndex st.1 (j : Int)
                    (sj + (c1 * r1.1 * (pj - xj) + c2 * r2.1 * (gj - xj)))).bind fun speed1 =>
                  (setIndex st.2 (j : Int)
                      (xj + (sj + (c1 * r1.1 * (pj - xj) + c2 * r2.1 * (gj - xj))))).bind
                    fun chrom1 => flyFrom c1 c2 pChrom gChrom n (j + 1) (speed1, chrom1) r2.2

/-- Loop of `PSO.evaluate` over the population. -/
def evaluateParticles (evaluator : Float64Individual → Outcome (List ℚ)) :
    List (Option Particle) → Outcome (List (Option Particle))
  | [] => Outcome.ok []
  | none :: _ => Outcome.panic
  | some fInd :: rest =>
    (evaluator fInd.toFloat64Individual).bind fun fit =>
      (ptrSetValues fInd.toFloat64Individual.fitness fit).bind fun f1 =>
        (evaluateParticles evaluator rest).bind fun r =>
          Outcome.ok
            (some
              { fInd with
                toFloat64Individual := { fInd.toFloat64Individual with fitness := some f1 }
                pbest := some { fInd.toFloat64Individual with fitness := some f1 } } :: r)

/-- Struct `PSO`. -/
structure PSO where
  population : List (Option Particle)
  c1 : ℚ
  c2 : ℚ
  gbest : Option Particle
  stat : Option (List (Option Particle) → Outcome Dict)
  hof : Option DefaultHallOfFame
  logbook : Option DefaultLogbook
  size : Int
  maxFES : Int
  currentFES : Int
  gen : Int
  maxGen : Int
  evaluator : Float64Individual → Outcome (List ℚ)

namespace PSO

/-- Constructor `NewPSO`. -/
def NewPSO (c1 c2 : ℚ) (maxGen maxFES : Int)
    (stat : Option (List (Option Particle) → Outcome Dict))
    (hof : Option DefaultHallOfFame) (evaluator : Float64Individual → Outcome (List ℚ)) :
    PSO :=
  { population := [], c1 := c1, c2 := c2, gbest := none, stat := stat, hof := hof,
    logbook := none, size := 0, maxFES := maxFES, currentFES := 0, gen := 0, maxGen := maxGen,
    evaluator := evaluator }

/-- Method `PSO.IsTerminated`. -/
def IsTerminated (evol : PSO) : Outcome Bool :=
  isTerminated evol.gen evol.maxGen evol.maxFES evol.currentFES evol.size evol.hof

/-- Method `PSO.evaluate`. -/
def evaluate (evol : PSO) : Outcome PSO :=
  (evaluateParticles evol.evaluator evol.population).bind fun pop =>
    Outcome.ok { evol with population := pop, currentFES := evol.currentFES + evol.size }

/-- Method `PSO.log`. -/
def log (evol : PSO) : Outcome PSO :=
  (compileStat evol.stat evol.population).bind fun datas =>
    (logRecord datas evol.gen evol.size evol.logbook).bind fun lb =>
      (hofUpdate evol.hof (embedded evol.population)).bind fun h =>
        Outcome.ok { evol with logbook := some lb, hof := some h }

/-- Method `PSO.Init`: unlike `Rand1.Init` and `Best1.Init` it does not make a hall of fame
when there is none. -/
def Init (evol : PSO) (population : List (Option Particle)) : Outcome PSO :=
  (NewDefaultLogbook evol.maxGen 0).bind fun lb =>
    (isTerminated 0 evol.maxGen evol.maxFES 0 (population.length : Int) evol.hof).bind fun t =>
      if !t then
        (evaluate
          { evol with
            currentFES := 0, gen := 0, logbook := some lb, population := population,
            size := (population.length : Int) }).bind fun evol1 => evol1.log
      else
        Outcome.ok
          { evol with
            currentFES := 0, gen := 0, logbook := some lb, population := population,
            size := (population.length : Int) }

/-- Body of the loop `for i, ind := range evol.population` of `PSO.Evolve`: the particle
stored in `offsprings[i]`, the new value of `tGBest` and the draws left. -/
def offspring (evol : PSO) (gBest tGBest : Option Float64Individual) (ind : Option Particle)
    (src : List Draw) : Outcome ((Particle × Option Float64Individual) × List Draw) :=
  (cloneParticle ind).bind fun cInd =>
    (chromOf cInd.pbest).bind fun pChrom =>
      (chromOf gBest).bind fun gChrom =>
        (flyFrom evol.c1 evol.c2 pChrom gChrom cInd.speed.length 0
            (cInd.speed, cInd.toFloat64Individual.chromosome) src).bind fun r =>
          (Particle.SetSpeed { cInd with speed := r.1.1 } r.1.1).bind fun cInd1 =>
            (evol.evaluator { cInd.toFloat64Individual with chromosome := r.1.2 }).bind
              fun fit =>
              (ptrSetValues cInd.toFloat64Individual.fitness fit).bind fun f1 =>
                (ptrGreater (some f1) ((ind.bind fun q =>
                    q.toFloat64Individual.fitness))).bind fun g =>
                  if g then
                    (getFitness cInd.pbest).bind fun pf =>
                      (ptrGreater (some f1) pf).bind fun g1 =>
                        if g1 then
                          (getFitness tGBest).bind fun tf =>
                            (ptrGreater (some f1) tf).bind fun g2 =>
                              Outcome.ok
                                (({ cInd1 with
                                    toFloat64Individual :=
                                      { chromosome := r.1.2, fitness := some f1 }
                                    pbest := some { chromosome := r.1.2, fitness := some f1 } },
                                  if g2 then some { chromosome := r.1.2, fitness := some f1 }
                                  else tGBest), r.2)
                        else
                          Outcome.ok
                            (({ cInd1 with
                                toFloat64Individual :=
                                  { chromosome := r.1.2, fitness := some f1 } }, tGBest), r.2)
                  else (cloneParticle ind).bind fun cl => Outcome.ok ((cl, tGBest), r.2)

/-- Loop `for i, ind := range evol.population` of `PSO.Evolve`, over the particles from
position `i` on. -/
def evolveFrom (evol : PSO) (gBest : Option Float64Individual) :
    List (Option Particle) → Nat → Option Float64Individual → List (Option Particle) →
      List Draw → Outcome (List (Option Particle) × List Draw)
  | [], _, _, offsprings, src => Outcome.ok (offsprings, src)
  | ind :: rest, i, tGBest, offsprings, src =>
    (evol.offspring gBest tGBest ind src).bind fun o =>
      (setIndex offsprings (i : Int) (some o.1.1)).bind fun offs1 =>
        evolveFrom evol gBest rest (i + 1) o.1.2 offs1 o.2

/-- Method `PSO.Evolve`: the state it leaves and the generation number it returns. -/
def Evolve (evol : PSO) (src : List Draw) : Outcome (PSO × Int) :=
  (isTerminated (evol.gen + 1) evol.maxGen evol.maxFES evol.currentFES evol.size
      evol.hof).bind fun t =>
    if !t then
      (makeIndividuals evol.size).bind fun offsprings =>
        (hofGet evol.hof 0).bind fun gBest =>
          (evolveFrom { evol with gen := evol.gen + 1 } gBest evol.population 0 gBest
              offsprings src).bind fun r =>
            (log
              { evol with
                gen := evol.gen + 1, population := r.1,
                currentFES := evol.currentFES + evol.size }).bind fun evol1 =>
              Outcome.ok (evol1, evol1.gen)
    else Outcome.ok ({ evol with gen := evol.gen + 1 }, evol.gen + 1)

end PSO

/-! ## Vocabulary for the control loops -/

/-- The states of a `Rand1` that `NewDERand1` followed by calls of `Init` and `Evolve` that
return can leave. -/
inductive Rand1.Reachable : Rand1 → Prop
  | new (f cr : ℚ) (maxGen maxFES : Int)
      (stat : Option (List (Option Float64Individual) → Outcome Dict))
      (hof : Option DefaultHallOfFame) (evaluator : Float64Individual → Outcome (List ℚ)) :
      Rand1.Reachable (Rand1.NewDERand1 f cr maxGen maxFES stat hof evaluator)
  | init {evol evol1 : Rand1} (population : List (Option Float64Individual)) :
      Rand1.Reachable evol → evol.Init population = Outcome.ok evol1 → Rand1.Reachable evol1
  | evolve {evol evol1 : Rand1} {g : Int} (src : List Draw) :
      Rand1.Reachable evol → evol.Evolve src = Outcome.ok (evol1, g) → Rand1.Reachable evol1

/-- The states of a `Best1` that `NewDEBest1` followed by calls of `Init` and `Evolve` that
return can leave. -/
inductive Best1.Reachable : Best1 → Prop
  | new (f cr : ℚ) (maxGen maxFES : Int)
      (stat : Option (List (Option Float64Individual) → Outcome Dict))
      (hof : Option DefaultHallOfFame) (evaluator : Float64Individual → Outcome (List ℚ)) :
      Best1.Reachable (Best1.NewDEBest1 f cr maxGen maxFES stat hof evaluator)
  | init {evol evol1 : Best1} (population : List (Option Float64Individual)) :
      Best1.Reachable evol → evol.Init population = Outcome.ok evol1 → Best1.Reachable evol1
  | evolve {evol evol1 : Best1} {g : Int} (src : List Draw) :
      Best1.Reachable evol → evol.Evolve src = Outcome.ok (evol1, g) → Best1.Reachable evol1

/-- The states of a `PSO` that `NewPSO` followed by calls of `Init` and `Evolve` that
return can leave. -/
inductive PSO.Reachable : PSO → Prop
  | new (c1 c2 : ℚ) (maxGen maxFES : Int)
      (stat : Option (List (Option Particle) → Outcome Dict))
      (hof : Option DefaultHallOfFame) (evaluator : Float64Individual → Outcome (List ℚ)) :
      PSO.Reachable (PSO.NewPSO c1 c2 maxGen maxFES stat hof evaluator)
  | init {evol evol1 : PSO} (population : List (Option Particle)) :
      PSO.Reachable evol → evol.Init population = Outcome.ok evol1 → PSO.Reachable evol1
  | evolve {evol evol1 : PSO} {g : Int} (src : List Draw) :
      PSO.Reachable evol → evol.Evolve src = Outcome.ok (evol1, g) → PSO.Reachable evol1

/-- A population entry that `Init` can evaluate to a fitness of `M` objectives: it is not
`nil`, its fitness has `M` weights and no weighted values yet or one weighted and one raw
value per weight, and the evaluator returns `M` values on it. -/
def Evaluable (evaluator : Float64Individual → Outcome (List ℚ)) (M : Nat)
    (x : Option Float64Individual) : Prop :=
  ∃ (ind : Float64Individual) (f : Fitness) (v : List ℚ),
    x = some ind ∧ ind.fitness = some f ∧ f.weights.length = M ∧
      (f.wvalues = [] ∨ (f.wvalues.length = M ∧ f.values.length = M)) ∧
      evaluator ind = Outcome.ok v ∧ v.length = M

/-! ## Example control loops -/

/-- The sphere function, the sum of the squares of the genes, as an evaluator. -/
def sphere (ind : Float64Individual) : Outcome (List ℚ) :=
  Outcome.ok [(ind.chromosome.map fun x => x * x).sum]

/-- An individual with one gene `x` and a fitness to be minimised, not yet evaluated. -/
def indNew (x : ℚ) : Option Float64Individual :=
  some { chromosome := [x], fitness := Fitness.NewFitness [-1] }

/-- A `Rand1` as `NewDERand1(0.5, 0.5, 10, 100, nil, nil, sphere)` makes it. -/
def rand1Start : Rand1 := Rand1.NewDERand1 (1 / 2) (1 / 2) 10 100 none none sphere

/-- A population of four individuals with the genes 1, 2, 3 and 4. -/
def popQuad : List (Option Float64Individual) := [indNew 1, indNew 2, indNew 3, indNew 4]

/-- A population of two individuals with the genes 1 and 2. -/
def popPair : List (Option Float64Individual) := [indNew 1, indNew 2]

/-- Draws for one generation on a population of four individuals with one gene: for each
agent a permutation and the crossover index 0. -/
def drawsQuad : List Draw :=
  [Draw.perm [0, 1, 2, 3], Draw.intn 0, Draw.perm [3, 2, 1, 0], Draw.intn 0,
    Draw.perm [1, 0, 3, 2], Draw.intn 0, Draw.perm [2, 3, 0, 1], Draw.intn 0]

/-- The state that `Init` leaves on `rand1Start` and the population of two. -/
def rand1Pair : Rand1 :=
  match rand1Start.Init popPair with
  | Outcome.ok evol => evol
  | _ => rand1Start

/-- The state that `Init` leaves on `rand1Start` and the population of four. -/
def rand1Quad : Rand1 :=
  match rand1Start.Init popQuad with
  | Outcome.ok evol => evol
  | _ => rand1Start

/-- A hall of fame that holds one individual to be minimised with raw value 5. -/
def hallRunning : DefaultHallOfFame :=
  DefaultHallOfFame.mk 1 1 [some (indOne (-1) 5 [0])] fun x y => x.IsEqual y

/-- A loop state with no generation or evaluation limit reached, whose hall of fame is
`hallRunning`. -/
def rand1Running : Rand1 :=
  { population := [some (indOne (-1) 5 [0])], f := 1 / 2, cr := 1 / 2, stat := none
    hof := some hallRunning, logbook := none, size := 1, maxFES := 0, currentFES := 0, gen := 0
    maxGen := 10, evaluator := sphere }

end Deag

namespace Deag

/-! ## `float64` with NaN and infinities

The definitions above take the `float64` values to be finite numbers.  The comparisons of
`base/fitness.go` and the sorter of `tools/emo/nsga2.go` are embedded here a second time
over `Float64`, which has NaN and the two infinities: these functions only compare values,
so nothing but the comparison operators of Go has to be modelled.  Where no weighted value
is NaN the two embeddings agree (`Float64.squash` carries one to the other). -/

/-- A value of Go's `float64` as the comparison operators see it: a finite number (`-0` and
`+0` compare alike and are both `fin 0`), `+Inf`, `-Inf` or NaN. -/
inductive Float64 where
  | fin : ℚ → Float64
  | posInf : Float64
  | negInf : Float64
  | nan : Float64
deriving DecidableEq

namespace Float64

/-- Operator `a < b`: false when either side is NaN. -/
def lt : Float64 → Float64 → Bool
  | fin a, fin b => decide (a < b)
  | fin _, posInf => true
  | negInf, fin _ => true
  | negInf, posInf => true
  | _, _ => false

/-- Operator `a > b`. -/
def gt (a b : Float64) : Bool := lt b a

/-- Operator `a == b`: false when either side is NaN. -/
def eq : Float64 → Float64 → Bool
  | fin a, fin b => decide (a = b)
  | posInf, posInf => true
  | negInf, negInf => true
  | _, _ => false

/-- Operator `a != b`: true when either side is NaN. -/
def ne (a b : Float64) : Bool := !eq a b

/-- Operator `a <= b`: false when either side is NaN. -/
def le (a b : Float64) : Bool := lt a b || eq a b

/-- Operator `a >= b`. -/
def ge (a b : Float64) : Bool := le b a

/-- An order embedding of the values other than NaN into the rationals: the finite values
go into the open interval between `-1` and `1`, the infinities to its ends. -/
def squash : Float64 → ℚ
  | fin q => q / (1 + |q|)
  | posInf => 1
  | negInf => -1
  | nan => 0

end Float64

/-- The outcome with the value, if there is one, replaced by its image under `g`. -/
def Outcome.map {α β : Type} (g : α → β) (x : Outcome α) : Outcome β :=
  x.bind fun a => Outcome.ok (g a)

namespace IEEE

/-! ### base/fitness.go over `Float64` -/

/-- Struct `Fitness`, the values being `Float64`. -/
structure Fitness where
  weights : List Float64
  wvalues : List Float64
  values : List Float64
  valid : Bool
deriving DecidableEq

namespace Fitness

/-- Method `GetWValues`: a copy of the weighted values, `nil` when there are no weights. -/
def GetWValues (fitness : Fitness) : List Float64 :=
  if fitness.weights = [] then [] else fitness.wvalues

/-- Loop of `Dominates` for `obj == nil`: ranges over the receiver's weighted values from
position `i`, reading `other.wvalues[i]`. -/
def dominatesAll (other : List Float64) : List Float64 → Nat → Bool → Outcome Bool
  | [], _, notEqual => Outcome.ok notEqual
  | wv :: rest, i, notEqual =>
    match other.get? i with
    | none => Outcome.panic
    | some o =>
      if Float64.gt wv o then dominatesAll other rest (i + 1) true
      else if Float64.lt wv o then Outcome.ok false
      else dominatesAll other rest (i + 1) notEqual

/-- Loop of `Dominates` for a non-nil `obj`: ranges over the listed indices. -/
def dominatesObj (mine other : List Float64) : List Int → Bool → Outcome Bool
  | [], notEqual => Outcome.ok notEqual
  | i :: rest, notEqual =>
    (index mine i).bind fun m =>
      (index other i).bind fun o =>
        if Float64.gt m o then dominatesObj mine other rest true
        else if Float64.lt m o then Outcome.ok false
        else dominatesObj mine other rest notEqual

/-- Method `Dominates`; `obj = none` is Go's `nil` index list. -/
def Dominates (fitness other : Fitness) (obj : Option (List Int)) : Outcome Bool :=
  match obj with
  | none => dominatesAll other.wvalues fitness.wvalues 0 false
  | some idxs => dominatesObj fitness.wvalues other.wvalues idxs false

/-- Loop of `Equal` from position `i`. -/
def equalFrom (other : List Float64) : List Float64 → Nat → Outcome Bool
  | [], _ => Outcome.ok true
  | fit :: rest, i =>
    match other.get? i with
    | none => Outcome.panic
    | some o => if Float64.ne o fit then Outcome.ok false else equalFrom other rest (i + 1)

/-- Method `Equal`: elementwise `==` of the weighted values. -/
def Equal (fitness other : Fitness) : Outcome Bool :=
  equalFrom other.wvalues fitness.wvalues 0

/-- Loop of `LessEqual` from position `i`: ranges over the receiver's weighted values,
reading `other.wvalues[i]`. -/
def lessEqualFrom (other : List Float64) : List Float64 → Nat → Outcome Bool
  | [], _ => Outcome.ok true
  | fit :: rest, i =>
    match other.get? i with
    | none => Outcome.panic
    | some o => if Float64.lt o fit then Outcome.ok false else lessEqualFrom other rest (i + 1)

/-- Method `LessEqual`. -/
def LessEqual (fitness other : Fitness) : Outcome Bool :=
  lessEqualFrom other.wvalues fitness.wvalues 0

/-- Loop of `Less` from position `i`. -/
def lessFrom (other : List Float64) : List Float64 → Nat → Outcome Bool
  | [], _ => Outcome.ok true
  | fit :: rest, i =>
    match other.get? i with
    | none => Outcome.panic
    | some o => if Float64.le o fit then Outcome.ok false else lessFrom other rest (i + 1)

/-- Method `Less`. -/
def Less (fitness other : Fitness) : Outcome Bool :=
  lessFrom other.wvalues fitness.wvalues 0

/-- Method `Greater`: `!fitness.LessEqual(other)`. -/
def Greater (fitness other : Fitness) : Outcome Bool :=
  (fitness.LessEqual other).bind fun b => Outcome.ok (!b)

/-- Method `GreaterEqual`: `!fitness.Less(other)`. -/
def GreaterEqual (fitness other : Fitness) : Outcome Bool :=
  (fitness.Less other).bind fun b => Outcome.ok (!b)

/-- A fitness with `M` objectives as the constructors and `SetValues` leave it: one weight
and one weighted value per objective. -/
def Evaluated (M : Nat) (f : Fitness) : Prop :=
  f.weights.length = M ∧ f.wvalues.length = M

instance (M : Nat) (f : Fitness) : Decidable (f.Evaluated M) :=
  inferInstanceAs (Decidable (_ ∧ _))

/-- No weighted value of the fitness is NaN. -/
def NoNaN (f : Fitness) : Prop := ∀ v ∈ f.wvalues, v ≠ Float64.nan

instance (f : Fitness) : Decidable f.NoNaN :=
  inferInstanceAs (Decidable (∀ v ∈ f.wvalues, v ≠ Float64.nan))

/-- The fitness over the rationals that compares like `f` when no value is NaN. -/
def squash (f : Fitness) : Deag.Fitness :=
  { weights := f.weights.map Float64.squash
    wvalues := f.wvalues.map Float64.squash
    values := f.values.map Float64.squash
    valid := f.valid }

end Fitness

/-! ### tools/emo/nsga2.go over `Float64`

The sorter, function by function as above, with the `float64` comparisons of
`fitnessSorter.Less`, `Equal`, `Dominates` and the predicate of `mapIndividualsByFitness`
taken over `Float64`.  The list functions, `sort.Sort`, `sort.Search` and the closure loop
`extendsLoop` do not read a fitness and are the ones above. -/

/-- Reference to an individual of the population and to the `*Fitness` it owns: its
position in the `individuals` slice together with the fitness found there. -/
abbrev Ref := Nat × Fitness

/-- Loop of `fitnessSorter.Less` from position `k` of `valI`. -/
def fitnessLessFrom (valJ : List Float64) : List Float64 → Nat → Outcome Bool
  | [], _ => Outcome.ok true
  | vi :: rest, k =>
    match valJ.get? k with
    | none => Outcome.panic
    | some vj =>
      if Float64.ne vi vj then Outcome.ok (Float64.lt vi vj)
      else fitnessLessFrom valJ rest (k + 1)

/-- Method `fitnessSorter.Less`, on the two elements compared. -/
def fitnessSorterLess (x y : Ref) : Outcome Bool :=
  fitnessLessFrom y.2.GetWValues x.2.GetWValues 0

/-- Deduplication loop of `uniqueByFitness`: `cur` is `fits[current]`, the list holds
`fits[i], fits[i+1], ...`; the result is `fits[current:]` as finally written. -/
def uniqueFrom (cur : Ref) : List Ref → Outcome (List Ref)
  | [] => Outcome.ok [cur]
  | x :: rest =>
    (cur.2.Equal x.2).bind fun e =>
      if !e then (uniqueFrom x rest).bind fun r => Outcome.ok (cur :: r)
      else uniqueFrom cur rest

/-- Function `uniqueByFitness`. `fits[:current+1]` panics on an empty population. -/
def uniqueByFitness (individuals : List Fitness) : Outcome (List Ref) :=
  (sortSort fitnessSorterLess (enumFrom 0 individuals)).bind fun fits =>
    match fits with
    | [] => Outcome.panic
    | x :: rest => uniqueFrom x rest

/-- State of the pairwise pass of `sortNondominated`. -/
structure DomState where
  dominatingFits : List (Nat × Int)
  dominatedFits : StaticLinkedList Nat
  currentFront : List Ref
deriving DecidableEq

/-- Inner loop `for j, fitJ := range fits[i+1:]` of the pairwise pass. -/
def domInner (fitI : Ref) (i : Nat) : List Ref → Nat → DomState → Outcome DomState
  | [], _, st => Outcome.ok st
  | fitJ :: rest, j, st =>
    (fitI.2.Dominates fitJ.2 none).bind fun d1 =>
      if d1 then
        domInner fitI i rest (j + 1)
          { st with
            dominatingFits := mapSet st.dominatingFits fitJ.1 (mapGetD st.dominatingFits fitJ.1 + 1)
            dominatedFits := (st.dominatedFits.Add fitI.1 j).1 }
      else
        (fitJ.2.Dominates fitI.2 none).bind fun d2 =>
          if d2 then
            domInner fitI i rest (j + 1)
              { st with
                dominatingFits :=
                  mapSet st.dominatingFits fitI.1 (mapGetD st.dominatingFits fitI.1 + 1)
                dominatedFits := (st.dominatedFits.Add fitJ.1 i).1 }
          else domInner fitI i rest (j + 1) st

/-- Outer loop `for i, fitI := range fits` of the pairwise pass. -/
def domOuter : List Ref → Nat → DomState → Outcome DomState
  | [], _, st => Outcome.ok st
  | fitI :: rest, i, st =>
    (domInner fitI i rest 0 st).bind fun st1 =>
      domOuter rest (i + 1)
        (if mapGetD st1.dominatingFits fitI.1 = 0
          then { st1 with currentFront := st1.currentFront ++ [fitI] }
          else st1)

/-- Predicate handed to `sort.Search` in `mapIndividualsByFitness`, from position `k` of
the weighted values of `uniqueFitness[j]`. -/
def searchPredFrom (indWValues : List Float64) : List Float64 → Nat → Outcome Bool
  | [], _ => Outcome.ok true
  | wv :: rest, k =>
    match indWValues.get? k with
    | none => Outcome.panic
    | some iv =>
      if Float64.ne wv iv then Outcome.ok (Float64.gt wv iv)
      else searchPredFrom indWValues rest (k + 1)

/-- Loop `for i, ind := range individuals` of `mapIndividualsByFitness`. -/
def mapLoop (uniqueFitness : List Ref) :
    List Fitness → Nat → StaticLinkedList Nat → Outcome (StaticLinkedList Nat)
  | [], _, mapping => Outcome.ok mapping
  | indFit :: rest, i, mapping =>
    (sortSearch uniqueFitness.length fun j =>
        (index uniqueFitness j).bind fun u =>
          searchPredFrom indFit.GetWValues u.2.GetWValues 0).bind fun loc =>
      match uniqueFitness.get? loc with
      | none => Outcome.panic
      | some u =>
        (u.2.Equal indFit).bind fun e =>
          if e then mapLoop uniqueFitness rest (i + 1) (mapping.Add u.1 i).1
          else Outcome.panic

/-- Function `mapIndividualsByFitness`. -/
def mapIndividualsByFitness (uniqueFitness : List Ref) (individuals : List Fitness) :
    Outcome (StaticLinkedList Nat) :=
  mapLoop uniqueFitness individuals 0 (NewStaticLinkedList individuals.length)

/-- Closure `extends` of `sortNondominated` (a reserved word in Lean, hence the name):
appends the individuals mapped to `fit` to the front `frontIndex`. -/
def extendFront (mapFitInd : StaticLinkedList Nat) (frontIndex : Nat) (fit : Ref)
    (fronts : StaticLinkedList Nat) : Outcome (StaticLinkedList Nat) :=
  if (mapFitInd.GetFirstDataIndex fit.1).2 then
    extendsLoop mapFitInd frontIndex (mapFitInd.total + 1)
      (mapFitInd.GetFirstDataIndex fit.1).1 fronts
  else Outcome.ok fronts

/-- Loop `for _, fit := range currentFront { extends(fit) }`. -/
def extendAll (mapFitInd : StaticLinkedList Nat) (frontIndex : Nat) :
    List Ref → StaticLinkedList Nat → Outcome (StaticLinkedList Nat)
  | [], fronts => Outcome.ok fronts
  | fit :: rest, fronts =>
    (extendFront mapFitInd frontIndex fit fronts).bind fun f =>
      extendAll mapFitInd frontIndex rest f

/-- Variables the peeling loop of `sortNondominated` updates. -/
structure PeelState where
  dominatingFits : List (Nat × Int)
  nextFront : List Ref
  paretoSorted : Int
  fronts : StaticLinkedList Nat
deriving DecidableEq

/-- Loop `for next != -1` of the peeling step: `fitDIdx, next` are the values last read by
`dominatedFits.GetData`. -/
def peelChain (fits : List Ref) (mapFitInd dominatedFits : StaticLinkedList Nat)
    (frontIndex : Nat) : Nat → Int → Int → PeelState → Outcome PeelState
  | 0, _, next, st => if next = -1 then Outcome.ok st else Outcome.outOfFuel
  | steps + 1, fitDIdx, next, st =>
    if next = -1 then Outcome.ok st
    else
      (index fits fitDIdx).bind fun fitD =>
        let count := mapGetD st.dominatingFits fitD.1 - 1
        let counts := mapSet st.dominatingFits fitD.1 count
        (if count = 0 then
            (extendFront mapFitInd frontIndex fitD st.fronts).bind fun fr =>
              Outcome.ok
                { dominatingFits := counts
                  nextFront := st.nextFront ++ [fitD]
                  paretoSorted := st.paretoSorted + (mapFitInd.GetSize fitD.1).1
                  fronts := fr }
          else Outcome.ok { st with dominatingFits := counts }).bind fun st1 =>
          peelChain fits mapFitInd dominatedFits frontIndex steps
            (dominatedFits.GetData next).1 (dominatedFits.GetData next).2 st1

/-- Loop `for _, fitP := range currentFront` of the peeling step. -/
def peelFront (fits : List Ref) (mapFitInd dominatedFits : StaticLinkedList Nat)
    (frontIndex : Nat) : List Ref → PeelState → Outcome PeelState
  | [], st => Outcome.ok st
  | fitP :: rest, st =>
    (if (dominatedFits.GetFirstDataIndex fitP.1).2 then
        peelChain fits mapFitInd dominatedFits frontIndex (dominatedFits.total + 1)
          (dominatedFits.GetData (dominatedFits.GetFirstDataIndex fitP.1).1).1
          (dominatedFits.GetData (dominatedFits.GetFirstDataIndex fitP.1).1).2 st
      else Outcome.ok st).bind fun st1 =>
      peelFront fits mapFitInd dominatedFits frontIndex rest st1

/-- Loop `for paretoSorted < N` of `sortNondominated`; one unit of fuel per iteration. -/
def peelLoop (fits : List Ref) (mapFitInd dominatedFits : StaticLinkedList Nat)
    (frontIndex : Nat) (N : Int) : Nat → List Ref → PeelState → Outcome PeelState
  | 0, _, st => if st.paretoSorted < N then Outcome.outOfFuel else Outcome.ok st
  | fuel + 1, currentFront, st =>
    if st.paretoSorted < N then
      (peelFront fits mapFitInd dominatedFits frontIndex currentFront st).bind fun st1 =>
        peelLoop fits mapFitInd dominatedFits frontIndex N fuel st1.nextFront
          { st1 with nextFront := [] }
    else Outcome.ok st

/-- Loop `for next != -1` of `staticLinkedList2Slice`: the front read off one chain. -/
def frontChain (fronts : StaticLinkedList Nat) (individuals : List Fitness) :
    Nat → Int → Outcome (List Ref)
  | 0, next => if next = -1 then Outcome.ok [] else Outcome.outOfFuel
  | steps + 1, next =>
    if next = -1 then Outcome.ok []
    else
      (index individuals (fronts.GetData next).1).bind fun ind =>
        (frontChain fronts individuals steps (fronts.GetData next).2).bind fun rest =>
          Outcome.ok (((fronts.GetData next).1.toNat, ind) :: rest)

/-- Loop `for i := 0; i < headSize; i++` of `staticLinkedList2Slice`, with `todo` rounds
left. -/
def frontsFrom (fronts : StaticLinkedList Nat) (individuals : List Fitness) :
    Nat → Nat → Outcome (List (List Ref))
  | 0, _ => Outcome.ok []
  | todo + 1, i =>
    (if (fronts.GetFirstDataIndex i).2 then
        frontChain fronts individuals (fronts.total + 1) (fronts.GetFirstDataIndex i).1
      else Outcome.ok []).bind fun front =>
      (frontsFrom fronts individuals todo (i + 1)).bind fun rest => Outcome.ok (front :: rest)

/-- Function `staticLinkedList2Slice`. -/
def staticLinkedList2Slice (fronts : StaticLinkedList Nat) (individuals : List Fitness) :
    Outcome (List (List Ref)) :=
  frontsFrom fronts individuals fronts.GetHead.length 0

/-- Function `sortNondominated`.  `fuel` bounds the iterations of the peeling loop. -/
def sortNondominated (fuel : Nat) (individuals : List Fitness) (k : Int)
    (firstFrontOnly : Bool) : Outcome (List (List Ref)) :=
  if k = 0 then Outcome.ok []
  else
    (uniqueByFitness individuals).bind fun fits =>
      let cap := individuals.length
      (domOuter fits 0
          { dominatingFits := []
            dominatedFits := NewStaticLinkedList (cap * (cap - 1) / 2)
            currentFront := [] }).bind fun dom =>
        (mapIndividualsByFitness fits individuals).bind fun mapFitInd =>
          (extendAll mapFitInd 0 dom.currentFront (NewStaticLinkedList cap)).bind fun fronts0 =>
            let paretoSorted := (fronts0.GetSize 0).1
            (if !firstFrontOnly then
                let N : Int := if (cap : Int) < k then (cap : Int) else k
                (peelLoop fits mapFitInd dom.dominatedFits 1 N fuel dom.currentFront
                    { dominatingFits := dom.dominatingFits
                      nextFront := []
                      paretoSorted := paretoSorted
                      fronts := fronts0 }).bind fun st => Outcome.ok st.fronts
              else Outcome.ok fronts0).bind fun fronts =>
              staticLinkedList2Slice fronts individuals

/-! ### Examples -/

/-- A fitness with weights all `1` whose weighted values, equal to the raw values, are
`vs`. -/
def fitOf (vs : List Float64) : Fitness :=
  { weights := vs.map fun _ => Float64.fin 1, wvalues := vs, values := vs, valid := true }

/-- The weighted values `(2, +Inf)`. -/
def fitTwo : Fitness := fitOf [Float64.fin 2, Float64.posInf]

/-- The weighted values `(1, +Inf)`. -/
def fitOne : Fitness := fitOf [Float64.fin 1, Float64.posInf]

/-- A population of one individual whose weighted value is NaN. -/
def popNaN : List Fitness := [fitOf [Float64.nan]]

/-- A population of three two-objective individuals without NaN: `(1, +Inf)` and
`(-Inf, 3)` are not dominated, `(0, 7)` is dominated by the first. -/
def popInf : List Fitness :=
  [fitOf [Float64.fin 1, Float64.posInf], fitOf [Float64.fin 0, Float64.fin 7],
    fitOf [Float64.negInf, Float64.fin 3]]

/-- The reference to an individual over the rationals that compares like `r`. -/
def Ref.squash (r : Ref) : Deag.Ref := (r.1, r.2.squash)

/-- The state of the pairwise pass over the rationals that corresponds to `st`. -/
def DomState.squash (st : DomState) : Deag.DomState :=
  { dominatingFits := st.dominatingFits
    dominatedFits := st.dominatedFits
    currentFront := st.currentFront.map Ref.squash }

/-- The variables of the peeling loop over the rationals that correspond to `st`. -/
def PeelState.squash (st : PeelState) : Deag.PeelState :=
  { dominatingFits := st.dominatingFits
    nextFront := st.nextFront.map Ref.squash
    paretoSorted := st.paretoSorted
    fronts := st.fronts }

end IEEE

/-! ## Vocabulary for the Pareto front archive -/

/-- No member of the archive dominates another member: for the entries `x`, `y` at two
different positions below `Len()`, `x.GetFitness().Dominates(y.GetFitness(), nil)` is not
true. -/
def DefaultParetoFront.NoDomination (pf : DefaultParetoFront) : Prop :=
  ∀ (i j : Int) (x y : Float64Individual), 0 ≤ i → i < pf.hall.Len → 0 ≤ j →
    j < pf.hall.Len → i ≠ j → pf.hall.Get i = Outcome.ok (some x) →
    pf.hall.Get j = Outcome.ok (some y) → ptrDominates x.fitness y.fitness ≠ Outcome.ok true

/-- A front whose archive has room for two entries, both written earlier and no longer
counted: the state of
`pf := DefaultParetoFront{DefaultHallOfFame: *NewDefaultHallOfFame(2, nil)}` after
`pf.DefaultHallOfFame.Update` with the individuals `(5, 1)` and `(1, 5)` and `pf.Clear()`. -/
def frontCleared : DefaultParetoFront :=
  { hall :=
      match (DefaultHallOfFame.NewDefaultHallOfFame 2 none).bind fun h =>
          (h.Update [indTwo 5 1 [0], indTwo 1 5 [1]]).bind fun h1 => Outcome.ok h1.Clear with
      | Outcome.ok h => h
      | _ => { maxsize := 2, size := 0, items := [], similar := fun x y => x.IsEqual y } }

/-! ## tools/support/halloffame.go for every representation of an individual

Above, the entries of the hall of fame are `*Float64Individual`s.  Here they are values of
the interface `base.Individual` of any dynamic type, and the default similarity predicate
calls the method `IsEqual` of the dynamic type of its first argument. -/

/-- A value of the interface `base.Individual`: one of package `base`, `nil` included, or a
`*pso.Particle`. -/
inductive Member where
  | base : Individual → Member
  | particle : Particle → Member
deriving DecidableEq

/-- Call `f.Clone()` on a fitness pointer: a `nil` pointer panics. -/
def ptrClone (f : Option Fitness) : Outcome (Option Fitness) :=
  match f with
  | none => Outcome.panic
  | some g => g.Clone

/-- Loop of `BoolIndividual.IsEqual` from position `i` over the receiver's genes. -/
def boolEqualFrom (chrom : List Bool) : List Bool → Nat → Bool
  | [], _ => true
  | c :: rest, i => if chrom.getD i false ≠ c then false else boolEqualFrom chrom rest (i + 1)

/-- Method `BoolIndividual.IsEqual`: a failed type assertion or a different length gives
false. -/
def BoolIndividual.IsEqual (ind : BoolIndividual) (other : Individual) : Bool :=
  match other with
  | Individual.bool otherInd =>
    if otherInd.chromosome.length = ind.chromosome.length then
      boolEqualFrom otherInd.chromosome ind.chromosome 0
    else false
  | _ => false

namespace Member

/-- Method `GetFitness` called through the interface: a `nil` interface value panics. -/
def GetFitness : Member → Outcome (Option Fitness)
  | base Individual.nil => Outcome.panic
  | base (Individual.float64 x) => Outcome.ok x.fitness
  | base (Individual.float64ES x) => Outcome.ok x.toFloat64Individual.fitness
  | base (Individual.int x) => Outcome.ok x.fitness
  | base (Individual.intES x) => Outcome.ok x.toIntIndividual.fitness
  | base (Individual.bool x) => Outcome.ok x.fitness
  | particle p => Outcome.ok p.toFloat64Individual.fitness

/-- Method `Clone` called through the interface, the result asserted to be an
`Individual`: every representation copies its slices and clones the fitness. -/
def Clone : Member → Outcome Member
  | base Individual.nil => Outcome.panic
  | base (Individual.float64 x) =>
    x.Clone.bind fun c => Outcome.ok (base (Individual.float64 c))
  | base (Individual.float64ES x) =>
    x.toFloat64Individual.Clone.bind fun c =>
      Outcome.ok (base (Individual.float64ES { x with toFloat64Individual := c }))
  | base (Individual.int x) =>
    (ptrClone x.fitness).bind fun f =>
      Outcome.ok (base (Individual.int { chromosome := x.chromosome, fitness := f }))
  | base (Individual.intES x) =>
    (ptrClone x.toIntIndividual.fitness).bind fun f =>
      Outcome.ok (base (Individual.intES
        { x with toIntIndividual := { chromosome := x.toIntIndividual.chromosome, fitness := f } }))
  | base (Individual.bool x) =>
    (ptrClone x.fitness).bind fun f =>
      Outcome.ok (base (Individual.bool { chromosome := x.chromosome, fitness := f }))
  | particle p => p.Clone.bind fun c => Outcome.ok (particle c)

/-- Method `IsEqual` called through the interface, `x.IsEqual(other)`: the method of the
dynamic type of `x` runs.  A `*pso.Particle` has no `IsEqual` of its own: the method of
the embedded `Float64Individual` is promoted, and its type assertion
`other.(*Float64Individual)` fails on another particle. -/
def IsEqual : Member → Member → Outcome Bool
  | base Individual.nil, _ => Outcome.panic
  | base (Individual.float64 x), base (Individual.float64 o) => Outcome.ok (x.IsEqual (some o))
  | base (Individual.float64 _), _ => Outcome.ok false
  | base (Individual.float64ES x), base o => Outcome.ok (x.IsEqual o)
  | base (Individual.float64ES _), particle _ => Outcome.ok true
  | base (Individual.int x), base o => Outcome.ok (x.IsEqual o)
  | base (Individual.int _), particle _ => Outcome.ok false
  | base (Individual.intES x), base o => Outcome.ok (x.IsEqual o)
  | base (Individual.intES _), particle _ => Outcome.ok true
  | base (Individual.bool x), base o => Outcome.ok (x.IsEqual o)
  | base (Individual.bool _), particle _ => Outcome.ok false
  | particle p, base (Individual.float64 o) =>
    Outcome.ok (p.toFloat64Individual.IsEqual (some o))
  | particle _, _ => Outcome.ok false

end Member

namespace Iface

/-- Struct `DefaultHallOfFame`, the entries of `items` being interface values. -/
structure DefaultHallOfFame where
  maxsize : Int
  size : Int
  items : List Member
  similar : Member → Member → Outcome Bool

namespace DefaultHallOfFame

/-- Constructor `NewDefaultHallOfFame`; `similar = none` is the `nil` function, replaced by
`func(x, y base.Individual) bool { return x.IsEqual(y) }`.  `make` panics on a negative
length and fills the slice with `nil`. -/
def NewDefaultHallOfFame (maxsize : Int) (similar : Option (Member → Member → Outcome Bool)) :
    Outcome DefaultHallOfFame :=
  if maxsize < 0 then Outcome.panic
  else Outcome.ok
    { maxsize := maxsize
      size := 0
      items := List.replicate maxsize.toNat (Member.base Individual.nil)
      similar := similar.getD fun x y => x.IsEqual y }

/-- Loop `for i := hof.size - 1; i > index; i--` of `Insert`, entered with `i`. -/
def insertShift (index : Nat) : Nat → List Member → Outcome (List Member)
  | 0, items => Outcome.ok items
  | i + 1, items =>
    if i + 1 > index then
      (Deag.index items (i : Int)).bind fun v =>
        (setIndex items ((i : Int) + 1) v).bind fun items1 => insertShift index i items1
    else Outcome.ok items

/-- Method `Insert`. -/
def Insert (hof : DefaultHallOfFame) (ind : Member) : Outcome DefaultHallOfFame :=
  ind.Clone.bind fun c =>
    c.GetFitness.bind fun indFitness =>
      (sortSearch hof.size.toNat fun i =>
          (Deag.index hof.items (i : Int)).bind fun it =>
            it.GetFitness.bind fun f => ptrLess f indFitness).bind fun idx =>
        let size1 := if hof.size < hof.maxsize then hof.size + 1 else hof.size
        (insertShift idx (size1 - 1).toNat hof.items).bind fun items1 =>
          (setIndex items1 (idx : Int) c).bind fun items2 =>
            Outcome.ok { hof with size := size1, items := items2 }

/-- Loop `for i := index; i < hof.size; i++` of `Remove`: `n` rounds starting at `i`. -/
def removeShift : Nat → Int → List Member → Outcome (List Member)
  | 0, _, items => Outcome.ok items
  | n + 1, i, items =>
    (Deag.index items (i + 1)).bind fun v =>
      (setIndex items i v).bind fun items1 => removeShift n (i + 1) items1

/-- Method `Remove`. -/
def Remove (hof : DefaultHallOfFame) (index : Int) : Outcome DefaultHallOfFame :=
  if hof.size ≠ 0 then
    (removeShift (hof.size - 1 - index).toNat index hof.items).bind fun items1 =>
      Outcome.ok { hof with size := hof.size - 1, items := items1 }
  else Outcome.ok hof

/-- Method `Len`. -/
def Len (hof : DefaultHallOfFame) : Int := hof.size

/-- Method `Get`. -/
def Get (hof : DefaultHallOfFame) (index : Int) : Outcome Member :=
  Deag.index hof.items index

/-- Condition of the outer `if` in `Update`:
`ind.GetFitness().Greater(hof.items[hof.size-1].GetFitness()) || hof.size < hof.maxsize`. -/
def updateCond (hof : DefaultHallOfFame) (ind : Member) : Outcome Bool :=
  ind.GetFitness.bind fun fit =>
    (Deag.index hof.items (hof.size - 1)).bind fun it =>
      it.GetFitness.bind fun worst =>
        (ptrGreater fit worst).bind fun g =>
          Outcome.ok (g || decide (hof.size < hof.maxsize))

/-- Loop `for _, hofer := range hof.items` of `Update`: the value of `flag` when it ends,
false as soon as an entry, `nil` entries included, is similar to the individual. -/
def similarScan (similar : Member → Member → Outcome Bool) (ind : Member) :
    List Member → Outcome Bool
  | [] => Outcome.ok true
  | hofer :: rest =>
    (similar ind hofer).bind fun s =>
      if s then Outcome.ok false else similarScan similar ind rest

/-- Loop `for _, ind := range individuals` of `Update`. -/
def updateLoop : List Member → DefaultHallOfFame → Outcome DefaultHallOfFame
  | [], hof => Outcome.ok hof
  | ind :: rest, hof =>
    (updateCond hof ind).bind fun c =>
      if c then
        (similarScan hof.similar ind hof.items).bind fun flag =>
          if flag then
            (if hof.size ≥ hof.maxsize then hof.Remove hof.maxsize
              else Outcome.ok hof).bind fun hof1 =>
              (hof1.Insert ind).bind fun hof2 => updateLoop rest hof2
          else updateLoop rest hof
      else updateLoop rest hof

/-- Method `Update`. -/
def Update (hof : DefaultHallOfFame) (individuals : List Member) : Outcome DefaultHallOfFame :=
  (match individuals with
    | first :: _ =>
      if hof.size = 0 ∧ hof.maxsize ≠ 0 then hof.Insert first else Outcome.ok hof
    | [] => Outcome.ok hof).bind fun hof1 => updateLoop individuals hof1

/-- What an observer sees of a hall of fame: `Len()` and the entries of `items`. -/
def view (hof : DefaultHallOfFame) : Int × List Member := (hof.size, hof.items)

end DefaultHallOfFame

/-- The interface value that an entry of a hall of `*Float64Individual`s is. -/
def entry : Option Float64Individual → Member
  | none => Member.base Individual.nil
  | some x => Member.base (Individual.float64 x)

/-- The hall of fame with the default similarity predicate whose entries are those of the
hall `hof` of `*Float64Individual`s. -/
def lift (hof : Deag.DefaultHallOfFame) : DefaultHallOfFame :=
  { maxsize := hof.maxsize
    size := hof.size
    items := hof.items.map entry
    similar := fun x y => x.IsEqual y }

/-- A `*pso.Particle` with one objective to be minimised (weight `-1`), raw value `v` and
chromosome `c`. -/
def particleOf (v : ℚ) (c : List ℚ) : Member :=
  Member.particle
    { toFloat64Individual := indOne (-1) v c, speed := [0], pbest := none, smin := -1, smax := 1 }

/-- A `*Float64ESIndividual` with one objective to be minimised, raw value `v` and
chromosome `c`. -/
def strategyOf (v : ℚ) (c : List ℚ) : Member :=
  Member.base (Individual.float64ES { toFloat64Individual := indOne (-1) v c, strategies := [0] })

/-- A `*Float64Individual` with one objective to be minimised, raw value `v` and
chromosome `c`. -/
def plainOf (v : ℚ) (c : List ℚ) : Member :=
  Member.base (Individual.float64 (indOne (-1) v c))

end Iface

end Deag

namespace Deag

/-! ## Dominance -/

theorem index_natCast_some {α : Type} (xs : List α) (i : Nat) (x : α)
    (h : xs.get? i = some x) : index xs (i : Int) = Outcome.ok x := by
  have : ¬ ((i : Int) < 0) := by omega
  simp only [index, this, if_false, Int.toNat_ofNat, h]

theorem index_natCast_none {α : Type} (xs : List α) (i : Nat)
    (h : xs.get? i = none) : index xs (i : Int) = Outcome.panic := by
  have : ¬ ((i : Int) < 0) := by omega
  simp only [index, this, if_false, Int.toNat_ofNat, h]

theorem forall_lt_cons {α : Type} (x : α) (xs : List α) (P : Nat → Prop) :
    (∀ j, j < (x :: xs).length → P j) ↔ (P 0 ∧ ∀ j, j < xs.length → P (j + 1)) := by
  constructor
  · intro hP; exact ⟨hP 0 (by simp), fun j hj => hP (j + 1) (by simpa using hj)⟩
  · rintro ⟨h0, hs⟩ j hj
    cases j with
    | zero => exact h0
    | succ j => exact hs j (by simpa using hj)

theorem exists_lt_cons {α : Type} (x : α) (xs : List α) (P : Nat → Prop) :
    (∃ j, j < (x :: xs).length ∧ P j) ↔ (P 0 ∨ ∃ j, j < xs.length ∧ P (j + 1)) := by
  constructor
  · rintro ⟨j, hj, hP⟩
    cases j with
    | zero => exact Or.inl hP
    | succ j => exact Or.inr ⟨j, by simpa using hj, hP⟩
  · rintro (h0 | ⟨j, hj, hP⟩)
    · exact ⟨0, by simp, h0⟩
    · exact ⟨j + 1, by simpa using hj, hP⟩

theorem dominatesAll_spec (other : List ℚ) :
    ∀ (rest : List ℚ) (i : Nat) (ne : Bool), i + rest.length = other.length →
      ∃ r, Fitness.dominatesAll other rest i ne = Outcome.ok r ∧
        (r = true ↔
          ((∀ j, j < rest.length → other.getD (i + j) 0 ≤ rest.getD j 0) ∧
            (ne = true ∨ ∃ j, j < rest.length ∧ other.getD (i + j) 0 < rest.getD j 0))) := by
  intro rest
  induction rest with
  | nil => intro i ne _; exact ⟨ne, by simp [Fitness.dominatesAll]⟩
  | cons wv rest ih =>
    intro i ne h
    have hi : i < other.length := by simp at h; omega
    have hget : other.get? i = some (other.getD i 0) := by
      rw [List.getD_eq_getElem _ _ hi]; simp [List.getElem?_eq_getElem hi]
    have hlen : (i + 1) + rest.length = other.length := by simp at h; omega
    have e1 : ∀ j, other.getD (i + (j + 1)) 0 = other.getD (i + 1 + j) 0 := by
      intro j; congr 1; omega
    rw [Fitness.dominatesAll, hget]
    dsimp only
    rw [forall_lt_cons, exists_lt_cons]
    simp only [List.getD_cons_zero, List.getD_cons_succ, Nat.add_zero, e1]
    by_cases h1 : wv > other.getD i 0
    · rw [if_pos h1]
      obtain ⟨r, hr, hiff⟩ := ih (i + 1) true hlen
      refine ⟨r, hr, hiff.trans ?_⟩
      constructor
      · rintro ⟨ha, _⟩; exact ⟨⟨le_of_lt h1, ha⟩, Or.inr (Or.inl h1)⟩
      · rintro ⟨⟨_, ha⟩, _⟩; exact ⟨ha, Or.inl rfl⟩
    · rw [if_neg h1]
      by_cases h2 : wv < other.getD i 0
      · rw [if_pos h2]
        refine ⟨false, rfl, ?_⟩
        constructor
        · intro hf; cases hf
        · rintro ⟨⟨h0, _⟩, _⟩
          exact absurd h2 (not_lt.mpr h0)
      · rw [if_neg h2]
        obtain ⟨r, hr, hiff⟩ := ih (i + 1) ne hlen
        refine ⟨r, hr, hiff.trans ?_⟩
        constructor
        · rintro ⟨ha, hb⟩
          refine ⟨⟨not_lt.mp h2, ha⟩, ?_⟩
          rcases hb with hb | hb
          · exact Or.inl hb
          · exact Or.inr (Or.inr hb)
        · rintro ⟨⟨_, ha⟩, hb⟩
          refine ⟨ha, ?_⟩
          rcases hb with hb | hb | hb
          · exact Or.inl hb
          · exact absurd hb h1
          · exact Or.inr hb

theorem index_inRange (xs : List ℚ) (i : Int) (h0 : 0 ≤ i) (h1 : i < xs.length) :
    index xs i = Outcome.ok (xs.getD i.toNat 0) := by
  have hlt : i.toNat < xs.length := by omega
  have : ¬ (i < 0) := by omega
  simp [index, this, List.getD_eq_getElem _ _ hlt, List.getElem?_eq_getElem hlt]

theorem dominatesObj_spec (mine other : List ℚ) (hlen : mine.length = other.length) :
    ∀ (obj : List Int) (ne : Bool), (∀ i ∈ obj, 0 ≤ i ∧ i < mine.length) →
      ∃ r, Fitness.dominatesObj mine other obj ne = Outcome.ok r ∧
        (r = true ↔
          ((∀ i ∈ obj, other.getD i.toNat 0 ≤ mine.getD i.toNat 0) ∧
            (ne = true ∨ ∃ i ∈ obj, other.getD i.toNat 0 < mine.getD i.toNat 0))) := by
  intro obj
  induction obj with
  | nil => intro ne _; exact ⟨ne, by simp [Fitness.dominatesObj]⟩
  | cons i rest ih =>
    intro ne hr
    have hi := hr i (by simp)
    have hrest : ∀ j ∈ rest, 0 ≤ j ∧ j < mine.length := fun j hj => hr j (by simp [hj])
    rw [Fitness.dominatesObj, index_inRange mine i hi.1 hi.2,
      index_inRange other i hi.1 (hlen ▸ hi.2)]
    simp only [List.forall_mem_cons, List.exists_mem_cons_iff]
    by_cases h1 : mine.getD i.toNat 0 > other.getD i.toNat 0
    · rw [if_pos h1]
      obtain ⟨r, hr, hiff⟩ := ih true hrest
      refine ⟨r, hr, hiff.trans ?_⟩
      constructor
      · rintro ⟨ha, _⟩; exact ⟨⟨le_of_lt h1, ha⟩, Or.inr (Or.inl h1)⟩
      · rintro ⟨⟨_, ha⟩, _⟩; exact ⟨ha, Or.inl rfl⟩
    · rw [if_neg h1]
      by_cases h2 : mine.getD i.toNat 0 < other.getD i.toNat 0
      · rw [if_pos h2]
        refine ⟨false, rfl, ?_⟩
        constructor
        · intro hf; cases hf
        · rintro ⟨⟨h0, _⟩, _⟩
          exact absurd h2 (not_lt.mpr h0)
      · rw [if_neg h2]
        obtain ⟨r, hr, hiff⟩ := ih ne hrest
        refine ⟨r, hr, hiff.trans ?_⟩
        constructor
        · rintro ⟨ha, hb⟩
          refine ⟨⟨not_lt.mp h2, ha⟩, ?_⟩
          rcases hb with hb | hb
          · exact Or.inl hb
          · exact Or.inr (Or.inr hb)
        · rintro ⟨⟨_, ha⟩, hb⟩
          refine ⟨ha, ?_⟩
          rcases hb with hb | hb | hb
          · exact Or.inl hb
          · exact absurd hb h1
          · exact Or.inr hb

/-- Dominance over finite weighted values: for fitness vectors with the same number of
weighted values, `a.Dominates(b, nil)` returns (without panic) true exactly when every
weighted value of `a` is at least the corresponding one of `b` and one is strictly greater;
with an index list whose entries are valid objective indices the same holds restricted to
the listed indices. -/
theorem Dominates_iff_pareto (a b : Fitness) (h : a.wvalues.length = b.wvalues.length) :
    (∃ r, a.Dominates b none = Outcome.ok r ∧
      (r = true ↔
        (∀ i, i < a.wvalues.length → b.wvalues.getD i 0 ≤ a.wvalues.getD i 0) ∧
          ∃ i, i < a.wvalues.length ∧ b.wvalues.getD i 0 < a.wvalues.getD i 0)) ∧
    ∀ obj : List Int, (∀ i ∈ obj, 0 ≤ i ∧ i < a.wvalues.length) →
      ∃ r, a.Dominates b (some obj) = Outcome.ok r ∧
        (r = true ↔
          (∀ i ∈ obj, b.wvalues.getD i.toNat 0 ≤ a.wvalues.getD i.toNat 0) ∧
            ∃ i ∈ obj, b.wvalues.getD i.toNat 0 < a.wvalues.getD i.toNat 0) := by
  constructor
  · obtain ⟨r, hr, hiff⟩ := dominatesAll_spec b.wvalues a.wvalues 0 false (by simpa using h)
    refine ⟨r, hr, ?_⟩
    simpa using hiff
  · intro obj hobj
    obtain ⟨r, hr, hiff⟩ := dominatesObj_spec a.wvalues b.wvalues h obj false hobj
    refine ⟨r, hr, ?_⟩
    simpa using hiff

end Deag

namespace Deag

/-! ## Maps -/

section Maps
variable {κ : Type} [DecidableEq κ]

theorem mapGet_mapSet (m : List (κ × Int)) (k k' : κ) (v : Int) :
    mapGet (mapSet m k v) k' = if k = k' then some v else mapGet m k' := by
  induction m with
  | nil => simp [mapSet, mapGet]
  | cons e m ih =>
    obtain ⟨a, b⟩ := e
    by_cases h : a = k
    · subst h
      by_cases h' : a = k' <;> simp [mapSet, mapGet, h']
    · by_cases h' : k = k'
      · subst h'
        simp [mapSet, mapGet, h, ih]
      · simp [mapSet, mapGet, h, ih, h']

theorem mapGetD_mapSet (m : List (κ × Int)) (k k' : κ) (v : Int) :
    mapGetD (mapSet m k v) k' = if k = k' then v else mapGetD m k' := by
  unfold mapGetD
  rw [mapGet_mapSet]
  by_cases h : k = k' <;> simp [h]

theorem mapSet_keys (m : List (κ × Int)) (k : κ) (v : Int) :
    (mapSet m k v).map Prod.fst =
      if k ∈ m.map Prod.fst then m.map Prod.fst else m.map Prod.fst ++ [k] := by
  induction m with
  | nil => simp [mapSet]
  | cons e m ih =>
    obtain ⟨a, b⟩ := e
    by_cases h : a = k
    · subst h; simp [mapSet]
    · have h' : ¬ k = a := fun e => h e.symm
      by_cases hm : k ∈ m.map Prod.fst
      · simp only [mapSet, h, if_false, List.map_cons, ih, hm, if_true, List.mem_cons, or_true]
      · simp only [mapSet, h, if_false, List.map_cons, ih, hm, List.mem_cons, h', or_self,
          List.cons_append]

theorem mapGet_isSome_iff (m : List (κ × Int)) (k : κ) :
    (mapGet m k).isSome = true ↔ k ∈ m.map Prod.fst := by
  induction m with
  | nil => simp [mapGet]
  | cons e m ih =>
    obtain ⟨a, b⟩ := e
    by_cases h : a = k
    · simp [mapGet, h]
    · have h' : ¬ k = a := fun e => h e.symm
      simp [mapGet, h, h', ih]

end Maps

end Deag

namespace Deag

/-! ## Static linked list -/

section SLL
variable {κ : Type} [DecidableEq κ]

theorem Add_of_lt (l : StaticLinkedList κ) (k : κ) (d : Int) (h : l.total < l.cap) :
    (l.Add k d).1 =
      { head := mapSet l.head k l.total
        size := mapSet l.size k (mapGetD l.size k + 1)
        datas := l.datas.set l.total d
        next := l.next.set l.total
          ((mapGet l.head k).getD (-1))
        total := l.total + 1
        cap := l.cap } := by
  have : ¬ l.cap ≤ l.total := by omega
  simp [StaticLinkedList.Add, this]

theorem Add_of_full (l : StaticLinkedList κ) (k : κ) (d : Int) (h : l.cap ≤ l.total) :
    (l.Add k d).1 = l := by
  simp [StaticLinkedList.Add, h]

theorem Add_cap (l : StaticLinkedList κ) (k : κ) (d : Int) : (l.Add k d).1.cap = l.cap := by
  by_cases h : l.cap ≤ l.total
  · rw [Add_of_full l k d h]
  · rw [Add_of_lt l k d (by omega)]

theorem Built.basic {l : StaticLinkedList κ} {log : List (κ × Int)} (h : Built l log) :
    l.total = log.length ∧ l.total ≤ l.cap ∧ l.datas.length = l.cap ∧ l.next.length = l.cap := by
  induction h with
  | new capacity => simp [NewStaticLinkedList]
  | add k d _ hlt ih =>
    rw [Add_of_lt _ k d hlt]
    obtain ⟨h1, h2, h3, h4⟩ := ih
    refine ⟨by simp [h1], ?_, by simp [h3], by simp [h4]⟩
    dsimp only
    omega

theorem GetData_Add_old (l : StaticLinkedList κ) (k : κ) (d : Int) (hlt : l.total < l.cap)
    (idx : Int) (h0 : 0 ≤ idx) (h1 : idx < l.total) :
    (l.Add k d).1.GetData idx = l.GetData idx := by
  rw [Add_of_lt l k d hlt]
  have hne : l.total ≠ idx.toNat := by omega
  have c1 : ¬ (idx < 0 ∨ idx ≥ ((l.total + 1 : Nat) : Int) ∨ idx ≥ (l.cap : Int)) := by
    push_cast; omega
  have c2 : ¬ (idx < 0 ∨ idx ≥ (l.total : Int) ∨ idx ≥ (l.cap : Int)) := by omega
  simp only [StaticLinkedList.GetData, c1, c2, if_false]
  simp only [List.getD_eq_getElem?_getD, List.getElem?_set_ne hne]

theorem GetData_Add_new (l : StaticLinkedList κ) (k : κ) (d : Int) (hlt : l.total < l.cap)
    (hd : l.datas.length = l.cap) (hn : l.next.length = l.cap) :
    (l.Add k d).1.GetData l.total =
      (d, (mapGet l.head k).getD (-1)) := by
  rw [Add_of_lt l k d hlt]
  have c1 : ¬ ((l.total : Int) < 0 ∨ (l.total : Int) ≥ ((l.total + 1 : Nat) : Int) ∨
      (l.total : Int) ≥ (l.cap : Int)) := by
    push_cast; omega
  simp only [StaticLinkedList.GetData, c1, if_false, Int.toNat_ofNat]
  have h1 : l.total < l.datas.length := by omega
  have h2 : l.total < l.next.length := by omega
  simp [List.getD_eq_getElem?_getD, List.getElem?_set_self, h1, h2]

theorem Chain.bounds {l : StaticLinkedList κ} {idx : Int} {ds : List Int} (h : Chain l idx ds) :
    idx = -1 ∨ (0 ≤ idx ∧ idx < l.total) := by
  cases h with
  | nil => exact Or.inl rfl
  | cons h0 h1 _ _ => exact Or.inr ⟨h0, h1⟩

theorem Chain.length_le {l : StaticLinkedList κ} {idx : Int} {ds : List Int}
    (h : Chain l idx ds) : (ds.length : Int) ≤ idx + 1 := by
  induction h with
  | nil => simp
  | cons h0 h1 h2 _ ih => simp only [List.length_cons]; push_cast; omega

theorem Chain.add {l : StaticLinkedList κ} {idx : Int} {ds : List Int} (h : Chain l idx ds)
    (k : κ) (d : Int) (hlt : l.total < l.cap) : Chain (l.Add k d).1 idx ds := by
  induction h with
  | nil => exact Chain.nil
  | @cons idx ds h0 h1 h2 _ ih =>
    have e := GetData_Add_old l k d hlt idx h0 h1
    have ht : (l.Add k d).1.total = l.total + 1 := by rw [Add_of_lt l k d hlt]
    have : Chain (l.Add k d).1 idx (((l.Add k d).1.GetData idx).1 :: ds) := by
      apply Chain.cons h0
      · rw [ht]; push_cast; omega
      · rw [e]; exact h2
      · rw [e]; exact ih
    rw [e] at this
    exact this

theorem bucket_cons_eq (log : List (κ × Int)) (k : κ) (d : Int) :
    bucket ((k, d) :: log) k = d :: bucket log k := by
  simp [bucket]

theorem bucket_cons_ne (log : List (κ × Int)) (k k' : κ) (d : Int) (h : k ≠ k') :
    bucket ((k, d) :: log) k' = bucket log k' := by
  simp [bucket, h]

/-- The head map of a built list points, for every key, to a chain holding exactly the
payloads logged for that key (most recent first). -/
theorem Built.chain {l : StaticLinkedList κ} {log : List (κ × Int)} (h : Built l log)
    (k : κ) :
    (mapGet l.head k = none ∧ bucket log k = []) ∨
      ∃ idx, mapGet l.head k = some idx ∧ Chain l idx (bucket log k) ∧ bucket log k ≠ [] ∧
        0 ≤ idx ∧ idx < l.total := by
  induction h with
  | new capacity => left; simp [NewStaticLinkedList, mapGet, bucket]
  | @add l log k0 d hb hlt ih =>
    obtain ⟨_, _, hd, hn⟩ := hb.basic
    have hnew := GetData_Add_new l k0 d hlt hd hn
    have ht : (l.Add k0 d).1.total = l.total + 1 := by rw [Add_of_lt l k0 d hlt]
    have hh : (l.Add k0 d).1.head = mapSet l.head k0 l.total := by rw [Add_of_lt l k0 d hlt]
    by_cases hk : k0 = k
    · subst hk
      right
      refine ⟨l.total, by rw [hh, mapGet_mapSet]; simp, ?_, by simp [bucket_cons_eq],
        by omega, by rw [ht]; push_cast; omega⟩
      rw [bucket_cons_eq]
      have hc : Chain (l.Add k0 d).1 (l.total : Int)
          (((l.Add k0 d).1.GetData l.total).1 :: bucket log k0) := by
        apply Chain.cons (by omega) (by rw [ht]; push_cast; omega)
        · rw [hnew]
          rcases ih with ⟨hnone, _⟩ | ⟨idx, hsome, _, _, _, hlt'⟩
          · simp only [hnone, Option.getD_none]; omega
          · simp only [hsome, Option.getD_some]; exact hlt'
        · rw [hnew]
          rcases ih with ⟨hnone, hnil⟩ | ⟨idx, hsome, hch, _, _, _⟩
          · simp only [hnone, hnil, Option.getD_none]; exact Chain.nil
          · simp only [hsome, Option.getD_some]; exact hch.add k0 d hlt
      rw [hnew] at hc
      exact hc
    · rw [bucket_cons_ne _ _ _ _ hk]
      rcases ih with ⟨hnone, hnil⟩ | ⟨idx, hsome, hch, hne, h0, h1⟩
      · left
        exact ⟨by rw [hh, mapGet_mapSet]; simp [hk, hnone], hnil⟩
      · right
        exact ⟨idx, by rw [hh, mapGet_mapSet]; simp [hk, hsome], hch.add k0 d hlt, hne, h0,
          by rw [ht]; push_cast; omega⟩

end SLL

end Deag

namespace Deag

theorem addAllLog_append {κ : Type} (cap : Nat) (k : κ) (xs ys : List Int) (log : List (κ × Int)) :
    addAllLog cap k (xs ++ ys) log = addAllLog cap k ys (addAllLog cap k xs log) := by
  induction xs generalizing log with
  | nil => rfl
  | cons x xs ih => simp [addAllLog, ih]

/-- Without overflow the log simply grows by the added payloads. -/
theorem addAllLog_of_le {κ : Type} (cap : Nat) (k : κ) (ds : List Int) (log : List (κ × Int))
    (h : log.length + ds.length ≤ cap) :
    addAllLog cap k ds log = (ds.map fun d => (k, d)).reverse ++ log := by
  induction ds generalizing log with
  | nil => simp [addAllLog]
  | cons d ds ih =>
    have h1 : log.length < cap := by simp at h; omega
    simp only [addAllLog, Deag.addLog, h1, if_true]
    rw [ih _ (by simp at h ⊢; omega)]
    simp

/-- In any case the log grows by a prefix of the added payloads. -/
theorem addAllLog_take {κ : Type} (cap : Nat) (k : κ) (ds : List Int) (log : List (κ × Int)) :
    ∃ n, addAllLog cap k ds log = ((ds.take n).map fun d => (k, d)).reverse ++ log := by
  induction ds generalizing log with
  | nil => exact ⟨0, by simp [addAllLog]⟩
  | cons d ds ih =>
    by_cases h1 : log.length < cap
    · obtain ⟨n, hn⟩ := ih ((k, d) :: log)
      refine ⟨n + 1, ?_⟩
      simp only [addAllLog, Deag.addLog, h1, if_true, hn]
      simp
    · refine ⟨0, ?_⟩
      simp only [addAllLog, Deag.addLog, h1, if_false]
      have hfull : ∀ (ds : List Int), addAllLog cap k ds log = log := by
        intro ds
        induction ds with
        | nil => rfl
        | cons e es ihe => simp only [addAllLog, Deag.addLog, h1, if_false, ihe]
      simp [hfull]

section SLL
variable {κ : Type} [DecidableEq κ]

theorem Built.addLog {l : StaticLinkedList κ} {log : List (κ × Int)} (h : Built l log)
    (k : κ) (d : Int) : Built (l.Add k d).1 (addLog l.cap log k d) := by
  obtain ⟨ht, _, _, _⟩ := h.basic
  unfold Deag.addLog
  by_cases hlt : log.length < l.cap
  · rw [if_pos hlt]; exact Built.add k d h (by omega)
  · rw [if_neg hlt, Add_of_full l k d (by omega)]; exact h

theorem Built.addAll {l : StaticLinkedList κ} {log : List (κ × Int)} (h : Built l log)
    (k : κ) (ds : List Int) :
    Built (addAll k ds l) (addAllLog l.cap k ds log) ∧ (addAll k ds l).cap = l.cap := by
  induction ds generalizing l log with
  | nil => exact ⟨h, rfl⟩
  | cons d ds ih =>
    have := ih (h.addLog k d)
    rw [Add_cap] at this
    exact this

theorem addAll_append (k : κ) (xs ys : List Int) (l : StaticLinkedList κ) :
    addAll k (xs ++ ys) l = addAll k ys (addAll k xs l) := by
  induction xs generalizing l with
  | nil => rfl
  | cons x xs ih => simp [addAll, ih]

end SLL

/-! ## Chain walks of the sorter -/

theorem extendsLoop_chain (m : StaticLinkedList Nat) (frontIndex : Nat) {idx : Int}
    {ds : List Int} (h : Chain m idx ds) :
    ∀ (steps : Nat) (fronts : StaticLinkedList Nat), ds.length ≤ steps →
      extendsLoop m frontIndex steps idx fronts = Outcome.ok (addAll frontIndex ds fronts) := by
  induction h with
  | nil =>
    intro steps fronts _
    cases steps <;> simp [extendsLoop, addAll]
  | @cons idx ds h0 h1 h2 hc ih =>
    intro steps fronts hs
    cases steps with
    | zero => simp at hs
    | succ steps =>
      have hne : idx ≠ -1 := by omega
      simp only [extendsLoop, hne, if_false, addAll]
      exact ih steps _ (by simpa using hs)

theorem extendFront_built {m : StaticLinkedList Nat} {mlog : List (Nat × Int)}
    (hm : Built m mlog) (frontIndex : Nat) (fit : Ref) (fronts : StaticLinkedList Nat) :
    extendFront m frontIndex fit fronts =
      Outcome.ok (addAll frontIndex (bucket mlog fit.1) fronts) := by
  rcases hm.chain fit.1 with ⟨hnone, hnil⟩ | ⟨idx, hsome, hch, _, h0, h1⟩
  · simp [extendFront, StaticLinkedList.GetFirstDataIndex, hnone, hnil, addAll]
  · simp only [extendFront, StaticLinkedList.GetFirstDataIndex, hsome, if_true]
    apply extendsLoop_chain m frontIndex hch
    have := hch.length_le
    omega

theorem extendAll_built {m : StaticLinkedList Nat} {mlog : List (Nat × Int)}
    (hm : Built m mlog) (frontIndex : Nat) (fits : List Ref) (fronts : StaticLinkedList Nat) :
    extendAll m frontIndex fits fronts =
      Outcome.ok (addAll frontIndex (fits.flatMap fun u => bucket mlog u.1) fronts) := by
  induction fits generalizing fronts with
  | nil => simp [extendAll, addAll]
  | cons u fits ih =>
    simp only [extendAll, extendFront_built hm, Outcome.bind, ih, List.flatMap_cons,
      addAll_append]

theorem frontChain_chain (fronts : StaticLinkedList Nat) (individuals : List Fitness)
    {idx : Int} {ds : List Int} (h : Chain fronts idx ds) :
    ∀ (steps : Nat), ds.length ≤ steps →
      frontChain fronts individuals steps idx = collect individuals ds := by
  induction h with
  | nil =>
    intro steps _
    cases steps <;> simp [frontChain, collect]
  | @cons idx ds h0 h1 h2 hc ih =>
    intro steps hs
    cases steps with
    | zero => simp at hs
    | succ steps =>
      have hne : idx ≠ -1 := by omega
      simp only [frontChain, hne, if_false, collect]
      rw [ih steps (by simpa using hs)]

/-- One front read back from a built list: the individuals of its bucket. -/
theorem frontOf_built {fronts : StaticLinkedList Nat} {flog : List (Nat × Int)}
    (hf : Built fronts flog) (individuals : List Fitness) (i : Nat) :
    (if (fronts.GetFirstDataIndex i).2 then
        frontChain fronts individuals (fronts.total + 1) (fronts.GetFirstDataIndex i).1
      else Outcome.ok []) = collect individuals (bucket flog i) := by
  rcases hf.chain i with ⟨hnone, hnil⟩ | ⟨idx, hsome, hch, _, h0, h1⟩
  · simp [StaticLinkedList.GetFirstDataIndex, hnone, hnil, collect]
  · simp only [StaticLinkedList.GetFirstDataIndex, hsome, if_true]
    apply frontChain_chain fronts individuals hch
    have := hch.length_le
    omega

end Deag

namespace Deag

/-! ## Outcome -/

theorem Outcome.bind_eq_ok {α β : Type} {x : Outcome α} {f : α → Outcome β} {b : β}
    (h : x.bind f = Outcome.ok b) : ∃ a, x = Outcome.ok a ∧ f a = Outcome.ok b := by
  cases x with
  | ok a => exact ⟨a, rfl, h⟩
  | panic => cases h
  | outOfFuel => cases h

theorem Outcome.ok_bind {α β : Type} (a : α) (f : α → Outcome β) :
    (Outcome.ok a).bind f = f a := rfl

theorem Outcome.panic_bind {α β : Type} (f : α → Outcome β) :
    (Outcome.panic : Outcome α).bind f = Outcome.panic := rfl

theorem Outcome.outOfFuel_bind {α β : Type} (f : α → Outcome β) :
    (Outcome.outOfFuel : Outcome α).bind f = Outcome.outOfFuel := rfl

/-! ## Insertion sort -/

section Sorting
variable {α : Type}

theorem insertSorted_perm (less : α → α → Outcome Bool) (x : α) :
    ∀ (done r : List α), insertSorted less x done = Outcome.ok r → r.Perm (x :: done) := by
  intro done
  induction done with
  | nil =>
    intro r h
    simp only [insertSorted, Outcome.ok.injEq] at h
    subst h; exact List.Perm.refl _
  | cons y ys ih =>
    intro r h
    simp only [insertSorted] at h
    obtain ⟨b, _, h⟩ := Outcome.bind_eq_ok h
    cases b with
    | true =>
      simp only [if_true] at h
      obtain ⟨r', hr', h⟩ := Outcome.bind_eq_ok h
      simp only [Outcome.ok.injEq] at h
      subst h
      exact ((ih r' hr').cons y).trans (List.Perm.swap x y ys)
    | false =>
      simp only [Bool.false_eq_true, if_false, Outcome.ok.injEq] at h
      subst h; exact List.Perm.refl _

theorem insertionSort_perm (less : α → α → Outcome Bool) :
    ∀ (l done r : List α), insertionSort less l done = Outcome.ok r → r.Perm (done ++ l) := by
  intro l
  induction l with
  | nil =>
    intro done r h
    simp only [insertionSort, Outcome.ok.injEq] at h
    subst h; simp
  | cons x rest ih =>
    intro done r h
    simp only [insertionSort] at h
    obtain ⟨d, hd, h⟩ := Outcome.bind_eq_ok h
    have h1 := ih d r h
    have h2 := insertSorted_perm less x done d hd
    refine h1.trans ?_
    refine (List.Perm.append_right rest h2).trans ?_
    simp only [List.cons_append]
    exact (List.perm_middle).symm

/-- Whatever the comparisons return, a sort that completes permutes its input. -/
theorem sortSort_perm (less : α → α → Outcome Bool) (l r : List α)
    (h : sortSort less l = Outcome.ok r) : r.Perm l := by
  simpa using insertionSort_perm less l [] r h

theorem insertSorted_sorted (less : α → α → Outcome Bool) (le : α → α → Prop)
    (htrans : ∀ a b c, le a b → le b c → le a c) (x : α) :
    ∀ (done r : List α),
      (∀ y ∈ done, ∀ b, less x y = Outcome.ok b → (b = true → le x y) ∧ (b = false → le y x)) →
      done.Pairwise (fun a b => le b a) →
      insertSorted less x done = Outcome.ok r → r.Pairwise (fun a b => le b a) := by
  intro done
  induction done with
  | nil =>
    intro r _ _ h
    simp only [insertSorted, Outcome.ok.injEq] at h
    subst h; simp
  | cons y ys ih =>
    intro r hresp hsorted h
    simp only [insertSorted] at h
    obtain ⟨b, hb, h⟩ := Outcome.bind_eq_ok h
    have hxy := hresp y (by simp) b hb
    rw [List.pairwise_cons] at hsorted
    cases b with
    | true =>
      simp only [if_true] at h
      obtain ⟨r', hr', h⟩ := Outcome.bind_eq_ok h
      simp only [Outcome.ok.injEq] at h
      subst h
      have hperm := insertSorted_perm less x ys r' hr'
      rw [List.pairwise_cons]
      refine ⟨?_, ih r' (fun z hz => hresp z (by simp [hz])) hsorted.2 hr'⟩
      intro z hz
      rcases List.mem_cons.mp (hperm.subset hz) with hzx | hzy
      · subst hzx; exact hxy.1 rfl
      · exact hsorted.1 z hzy
    | false =>
      simp only [Bool.false_eq_true, if_false, Outcome.ok.injEq] at h
      subst h
      rw [List.pairwise_cons]
      refine ⟨?_, List.pairwise_cons.mpr hsorted⟩
      intro z hz
      rcases List.mem_cons.mp hz with hzy | hzys
      · subst hzy; exact hxy.2 rfl
      · exact htrans _ _ _ (hsorted.1 z hzys) (hxy.2 rfl)

theorem insertionSort_sorted (less : α → α → Outcome Bool) (le : α → α → Prop)
    (htrans : ∀ a b c, le a b → le b c → le a c) :
    ∀ (l done r : List α), Respects less le (done ++ l) →
      done.Pairwise (fun a b => le b a) →
      insertionSort less l done = Outcome.ok r → r.Pairwise le := by
  intro l
  induction l with
  | nil =>
    intro done r _ hsorted h
    simp only [insertionSort, Outcome.ok.injEq] at h
    subst h
    exact List.pairwise_reverse.mpr hsorted
  | cons x rest ih =>
    intro done r hresp hsorted h
    simp only [insertionSort] at h
    obtain ⟨d, hd, h⟩ := Outcome.bind_eq_ok h
    have hperm := insertSorted_perm less x done d hd
    apply ih d r ?_ ?_ h
    · intro a ha b hb
      apply hresp
      · rcases List.mem_append.mp ha with ha | ha
        · rcases List.mem_cons.mp (hperm.subset ha) with ha | ha
          · subst ha; simp
          · simp [ha]
        · simp [ha]
      · rcases List.mem_append.mp hb with hb | hb
        · rcases List.mem_cons.mp (hperm.subset hb) with hb | hb
          · subst hb; simp
          · simp [hb]
        · simp [hb]
    · exact insertSorted_sorted less le htrans x done d
        (fun y hy => hresp x (by simp) y (by simp [hy])) hsorted hd

/-- A sort that completes with comparisons respecting `le` returns a list ordered by `le`. -/
theorem sortSort_sorted (less : α → α → Outcome Bool) (le : α → α → Prop)
    (htrans : ∀ a b c, le a b → le b c → le a c) (l r : List α)
    (hresp : Respects less le l) (h : sortSort less l = Outcome.ok r) : r.Pairwise le :=
  insertionSort_sorted less le htrans l [] r (by simpa using hresp) List.Pairwise.nil h

theorem insertSorted_total (less : α → α → Outcome Bool) (x : α) :
    ∀ (done : List α), (∀ y ∈ done, ∃ b, less x y = Outcome.ok b) →
      ∃ r, insertSorted less x done = Outcome.ok r := by
  intro done
  induction done with
  | nil => intro _; exact ⟨[x], rfl⟩
  | cons y ys ih =>
    intro h
    obtain ⟨b, hb⟩ := h y (by simp)
    obtain ⟨r', hr'⟩ := ih (fun z hz => h z (by simp [hz]))
    cases b with
    | true => exact ⟨y :: r', by simp [insertSorted, hb, hr', Outcome.bind]⟩
    | false => exact ⟨x :: y :: ys, by simp [insertSorted, hb, Outcome.bind]⟩

theorem insertionSort_total (less : α → α → Outcome Bool) :
    ∀ (l done : List α), (∀ x ∈ done ++ l, ∀ y ∈ done ++ l, ∃ b, less x y = Outcome.ok b) →
      ∃ r, insertionSort less l done = Outcome.ok r := by
  intro l
  induction l with
  | nil => intro done _; exact ⟨done.reverse, rfl⟩
  | cons x rest ih =>
    intro done h
    obtain ⟨d, hd⟩ := insertSorted_total less x done
      (fun y hy => h x (by simp) y (by simp [hy]))
    have hperm := insertSorted_perm less x done d hd
    have hsub : ∀ a ∈ d ++ rest, a ∈ done ++ x :: rest := by
      intro a ha
      rcases List.mem_append.mp ha with ha | ha
      · rcases List.mem_cons.mp (hperm.subset ha) with ha | ha
        · subst ha; simp
        · simp [ha]
      · simp [ha]
    obtain ⟨r, hr⟩ := ih d (fun a ha b hb => h a (hsub a ha) b (hsub b hb))
    exact ⟨r, by simp [insertionSort, hd, hr, Outcome.bind]⟩

/-- A sort whose comparisons never panic completes. -/
theorem sortSort_total (less : α → α → Outcome Bool) (l : List α)
    (h : ∀ x ∈ l, ∀ y ∈ l, ∃ b, less x y = Outcome.ok b) :
    ∃ r, sortSort less l = Outcome.ok r :=
  insertionSort_total less l [] (by simpa using h)

end Sorting

end Deag

namespace Deag

/-! ## Comparisons of weighted values of equal length -/

theorem cons_lt_cons_iff (a b : ℚ) (as bs : List ℚ) :
    a :: as < b :: bs ↔ a < b ∨ (a = b ∧ as < bs) := by
  constructor
  · intro h
    change List.Lex (· < ·) _ _ at h
    cases h with
    | cons h => right; exact ⟨rfl, h⟩
    | rel h => left; exact h
  · rintro (h | ⟨rfl, h⟩)
    · exact List.Lex.rel h
    · exact List.Lex.cons h

theorem cons_le_cons_iff (a b : ℚ) (as bs : List ℚ) :
    a :: as ≤ b :: bs ↔ a < b ∨ (a = b ∧ as ≤ bs) := by
  rw [le_iff_lt_or_eq, cons_lt_cons_iff, le_iff_lt_or_eq]
  constructor
  · rintro ((h | ⟨h1, h2⟩) | h)
    · exact Or.inl h
    · exact Or.inr ⟨h1, Or.inl h2⟩
    · simp only [List.cons.injEq] at h
      exact Or.inr ⟨h.1, Or.inr h.2⟩
  · rintro (h | ⟨h1, h2 | h2⟩)
    · exact Or.inl (Or.inl h)
    · exact Or.inl (Or.inr ⟨h1, h2⟩)
    · exact Or.inr (by rw [h1, h2])

theorem drop_eq_cons (xs : List ℚ) (k : Nat) (h : k < xs.length) :
    xs.get? k = some (xs.getD k 0) ∧ xs.drop k = xs.getD k 0 :: xs.drop (k + 1) := by
  rw [List.getD_eq_getElem _ _ h]
  exact ⟨by simp [List.getElem?_eq_getElem h], List.drop_eq_getElem_cons h⟩

theorem fitnessLessFrom_spec (valJ : List ℚ) :
    ∀ (rest : List ℚ) (k : Nat), k + rest.length = valJ.length →
      ∃ r, fitnessLessFrom valJ rest k = Outcome.ok r ∧ (r = true ↔ rest ≤ valJ.drop k) := by
  intro rest
  induction rest with
  | nil => intro k _; exact ⟨true, rfl, by simp⟩
  | cons vi rest ih =>
    intro k h
    have hk : k < valJ.length := by simp at h; omega
    obtain ⟨hget, hdrop⟩ := drop_eq_cons valJ k hk
    generalize valJ.getD k 0 = o at hget hdrop
    rw [fitnessLessFrom, hget, hdrop, cons_le_cons_iff]
    dsimp only
    by_cases hne : vi = o
    · obtain ⟨r, hr, hiff⟩ := ih (k + 1) (by simp at h; omega)
      refine ⟨r, by simp [hne, hr], hiff.trans ?_⟩
      simp [hne]
    · refine ⟨decide (vi < o), by simp [hne], ?_⟩
      simp [hne]

theorem searchPredFrom_spec (ind : List ℚ) :
    ∀ (rest : List ℚ) (k : Nat), k + rest.length = ind.length →
      ∃ r, searchPredFrom ind rest k = Outcome.ok r ∧ (r = true ↔ ind.drop k ≤ rest) := by
  intro rest
  induction rest with
  | nil =>
    intro k h
    refine ⟨true, rfl, ?_⟩
    have : ind.drop k = [] := by
      apply List.drop_eq_nil_of_le; simp at h; omega
    simp [this]
  | cons wv rest ih =>
    intro k h
    have hk : k < ind.length := by simp at h; omega
    obtain ⟨hget, hdrop⟩ := drop_eq_cons ind k hk
    generalize ind.getD k 0 = o at hget hdrop
    rw [searchPredFrom, hget, hdrop, cons_le_cons_iff]
    dsimp only
    by_cases hne : wv = o
    · obtain ⟨r, hr, hiff⟩ := ih (k + 1) (by simp at h; omega)
      refine ⟨r, by simp [hne, hr], hiff.trans ?_⟩
      simp [hne]
    · refine ⟨decide (wv > o), by simp [hne], ?_⟩
      have hne' : ¬ o = wv := fun e => hne e.symm
      simp [hne']

theorem equalFrom_spec (other : List ℚ) :
    ∀ (rest : List ℚ) (k : Nat), k + rest.length = other.length →
      ∃ r, Fitness.equalFrom other rest k = Outcome.ok r ∧ (r = true ↔ rest = other.drop k) := by
  intro rest
  induction rest with
  | nil =>
    intro k h
    refine ⟨true, rfl, ?_⟩
    have : other.drop k = [] := by
      apply List.drop_eq_nil_of_le; simp at h; omega
    simp [this]
  | cons fit rest ih =>
    intro k h
    have hk : k < other.length := by simp at h; omega
    obtain ⟨hget, hdrop⟩ := drop_eq_cons other k hk
    generalize other.getD k 0 = o at hget hdrop
    rw [Fitness.equalFrom, hget, hdrop]
    dsimp only
    by_cases hne : o = fit
    · obtain ⟨r, hr, hiff⟩ := ih (k + 1) (by simp at h; omega)
      refine ⟨r, by simp [hne, hr], hiff.trans ?_⟩
      simp [hne]
    · refine ⟨false, by simp [hne], ?_⟩
      have hne' : ¬ fit = o := fun e => hne e.symm
      simp [hne']

theorem Fitness.Evaluated.getWValues {M : Nat} {f : Fitness} (h : f.Evaluated M) :
    f.GetWValues = f.wvalues := by
  unfold Fitness.GetWValues
  split
  · rename_i hw
    have : f.wvalues.length = 0 := by rw [h.2, ← h.1, hw]; rfl
    exact (List.length_eq_zero.mp this).symm
  · rfl

/-- On evaluated fitness of equal objective count `fitnessSorter.Less` is the lexicographic
`≤` of the weighted values. -/
theorem fitnessSorterLess_spec {M : Nat} (x y : Ref) (hx : x.2.Evaluated M)
    (hy : y.2.Evaluated M) :
    ∃ r, fitnessSorterLess x y = Outcome.ok r ∧ (r = true ↔ x.2.wvalues ≤ y.2.wvalues) := by
  unfold fitnessSorterLess
  rw [hx.getWValues, hy.getWValues]
  simpa using fitnessLessFrom_spec y.2.wvalues x.2.wvalues 0 (by simp [hx.2, hy.2])

theorem Equal_spec {M : Nat} (f g : Fitness) (hf : f.Evaluated M) (hg : g.Evaluated M) :
    ∃ r, f.Equal g = Outcome.ok r ∧ (r = true ↔ f.wvalues = g.wvalues) := by
  simpa [Fitness.Equal] using equalFrom_spec g.wvalues f.wvalues 0 (by simp [hf.2, hg.2])

theorem Dominates_spec {M : Nat} (f g : Fitness) (hf : f.Evaluated M) (hg : g.Evaluated M) :
    f.Dominates g none = Outcome.ok (domB f.wvalues g.wvalues) ∧
      (domB f.wvalues g.wvalues = true ↔ Dom f.wvalues g.wvalues) := by
  obtain ⟨r, hr, hiff⟩ := dominatesAll_spec g.wvalues f.wvalues 0 false (by simp [hf.2, hg.2])
  have : domB f.wvalues g.wvalues = r := by simp [domB, hr]
  rw [this]
  exact ⟨hr, by simpa [Dom] using hiff⟩

/-- Dominance forces the lexicographic order: a dominated vector is lexicographically
smaller. -/
theorem Dom.lex_lt : ∀ (a b : List ℚ), a.length = b.length → Dom a b → b < a := by
  intro a
  induction a with
  | nil => intro b _ h; obtain ⟨_, i, hi, _⟩ := h; simp at hi
  | cons x a ih =>
    intro b hlen h
    cases b with
    | nil => simp at hlen
    | cons y b =>
      unfold Dom at h
      rw [forall_lt_cons, exists_lt_cons] at h
      simp only [List.getD_cons_zero, List.getD_cons_succ] at h
      rw [cons_lt_cons_iff]
      rcases lt_or_eq_of_le h.1.1 with hlt | heq
      · exact Or.inl hlt
      · right
        refine ⟨heq, ih b (by simpa using hlen) ⟨h.1.2, ?_⟩⟩
        rcases h.2 with h0 | h1
        · exact absurd h0 (by rw [heq]; exact lt_irrefl _)
        · exact h1

theorem Dom.asymm {a b : List ℚ} (hlen : a.length = b.length) (h : Dom a b) : ¬ Dom b a :=
  fun h' => lt_asymm (Dom.lex_lt a b hlen h) (Dom.lex_lt b a hlen.symm h')

end Deag

namespace Deag

/-! ## uniqueByFitness -/

theorem mem_enumFrom {α : Type} (l : List α) :
    ∀ (i p : Nat) (x : α), (p, x) ∈ enumFrom i l ↔ ∃ j, p = i + j ∧ l.get? j = some x := by
  induction l with
  | nil => intro i p x; simp [enumFrom]
  | cons a l ih =>
    intro i p x
    simp only [enumFrom, List.mem_cons, Prod.mk.injEq, ih]
    constructor
    · rintro (⟨h1, h2⟩ | ⟨j, h1, h2⟩)
      · exact ⟨0, by simp [h1], by simp [h2]⟩
      · exact ⟨j + 1, by omega, by simpa using h2⟩
    · rintro ⟨j, h1, h2⟩
      cases j with
      | zero => left; simp at h2; exact ⟨by simpa using h1, h2.symm⟩
      | succ j => right; exact ⟨j, by omega, by simpa using h2⟩

theorem enumFrom_map_fst {α : Type} (l : List α) :
    ∀ (i : Nat), (enumFrom i l).map Prod.fst = List.range' i l.length := by
  induction l with
  | nil => intro i; simp [enumFrom]
  | cons a l ih => intro i; simp [enumFrom, ih, List.range'_succ]

theorem enumFrom_map_snd {α : Type} (l : List α) :
    ∀ (i : Nat), (enumFrom i l).map Prod.snd = l := by
  induction l with
  | nil => intro i; simp [enumFrom]
  | cons a l ih => intro i; simp [enumFrom, ih]

theorem uniqueFrom_sublist :
    ∀ (rest : List Ref) (cur : Ref) (r : List Ref),
      uniqueFrom cur rest = Outcome.ok r → r.Sublist (cur :: rest) := by
  intro rest
  induction rest with
  | nil =>
    intro cur r h
    simp only [uniqueFrom, Outcome.ok.injEq] at h
    subst h; exact List.Sublist.refl _
  | cons x rest ih =>
    intro cur r h
    simp only [uniqueFrom] at h
    obtain ⟨e, _, h⟩ := Outcome.bind_eq_ok h
    cases e with
    | false =>
      simp only [Bool.not_false, if_true] at h
      obtain ⟨r', hr', h⟩ := Outcome.bind_eq_ok h
      simp only [Outcome.ok.injEq] at h
      subst h
      exact (ih x r' hr').cons₂ cur
    | true =>
      simp only [Bool.not_true, Bool.false_eq_true, if_false] at h
      exact ((ih cur r h).trans ((List.sublist_cons_self x rest).cons₂ cur))

theorem uniqueFrom_spec {M : Nat} :
    ∀ (rest : List Ref) (cur : Ref), (∀ x ∈ cur :: rest, x.2.Evaluated M) →
      (cur :: rest).Pairwise (fun a b => a.2.wvalues ≤ b.2.wvalues) →
      ∃ r, uniqueFrom cur rest = Outcome.ok r ∧
        r.Pairwise (fun a b => a.2.wvalues < b.2.wvalues) ∧
        ∀ x ∈ cur :: rest, ∃ u ∈ r, u.2.wvalues = x.2.wvalues := by
  intro rest
  induction rest with
  | nil =>
    intro cur _ _
    exact ⟨[cur], rfl, by simp, by simp⟩
  | cons x rest ih =>
    intro cur hwf hsorted
    obtain ⟨e, he, hiff⟩ := Equal_spec cur.2 x.2 (hwf cur (by simp)) (hwf x (by simp))
    rw [List.pairwise_cons] at hsorted
    cases e with
    | true =>
      have heq : cur.2.wvalues = x.2.wvalues := hiff.mp rfl
      have hs' : (cur :: rest).Pairwise (fun a b => a.2.wvalues ≤ b.2.wvalues) :=
        List.pairwise_cons.mpr
          ⟨fun b hb => hsorted.1 b (by simp [hb]), (List.pairwise_cons.mp hsorted.2).2⟩
      obtain ⟨r, hr, hstrict, hcover⟩ := ih cur
        (fun y hy => hwf y (by
          rcases List.mem_cons.mp hy with h | h
          · simp [h]
          · simp [h])) hs'
      refine ⟨r, by simp [uniqueFrom, he, Outcome.bind, hr], hstrict, ?_⟩
      intro y hy
      rcases List.mem_cons.mp hy with h | h
      · exact hcover y (by simp [h])
      · rcases List.mem_cons.mp h with h | h
        · obtain ⟨u, hu, huv⟩ := hcover cur (by simp)
          exact ⟨u, hu, by rw [huv, h, heq]⟩
        · exact hcover y (by simp [h])
    | false =>
      have hne : cur.2.wvalues ≠ x.2.wvalues := fun h => by
        have := hiff.mpr h; cases this
      have hlt : cur.2.wvalues < x.2.wvalues := lt_of_le_of_ne (hsorted.1 x (by simp)) hne
      obtain ⟨r, hr, hstrict, hcover⟩ := ih x (fun y hy => hwf y (by simp [hy])) hsorted.2
      refine ⟨cur :: r, by simp [uniqueFrom, he, Outcome.bind, hr], ?_, ?_⟩
      · rw [List.pairwise_cons]
        refine ⟨?_, hstrict⟩
        intro u hu
        have hmem := (uniqueFrom_sublist rest x r hr).subset hu
        rcases List.mem_cons.mp hmem with h | h
        · rw [h]; exact hlt
        · exact lt_of_lt_of_le hlt ((List.pairwise_cons.mp hsorted.2).1 u h)
      · intro y hy
        rcases List.mem_cons.mp hy with h | h
        · exact ⟨cur, by simp, by rw [h]⟩
        · obtain ⟨u, hu, huv⟩ := hcover y h
          exact ⟨u, by simp [hu], huv⟩

/-- On a non-empty population of evaluated fitness `uniqueByFitness` returns. -/
theorem uniqueByFitness_spec {M : Nat} (individuals : List Fitness) (hne : individuals ≠ [])
    (hwf : ∀ f ∈ individuals, f.Evaluated M) :
    ∃ fits, uniqueByFitness individuals = Outcome.ok fits ∧ UniqueFits individuals fits ∧
      fits ≠ [] := by
  have henum : ∀ x ∈ enumFrom 0 individuals, individuals.get? x.1 = some x.2 := by
    rintro ⟨p, f⟩ hx
    obtain ⟨j, h1, h2⟩ := (mem_enumFrom individuals 0 p f).mp hx
    simp only [Nat.zero_add] at h1
    subst h1; exact h2
  have hwf' : ∀ x ∈ enumFrom 0 individuals, x.2.Evaluated M := by
    intro x hx
    have := henum x hx
    exact hwf x.2 (List.get?_mem this)
  obtain ⟨sorted, hsorted⟩ := sortSort_total fitnessSorterLess (enumFrom 0 individuals)
    (fun x hx y hy => by
      obtain ⟨r, hr, _⟩ := fitnessSorterLess_spec x y (hwf' x hx) (hwf' y hy)
      exact ⟨r, hr⟩)
  have hperm := sortSort_perm _ _ _ hsorted
  have hord : sorted.Pairwise (fun a b => a.2.wvalues ≤ b.2.wvalues) := by
    apply sortSort_sorted fitnessSorterLess (fun a b => a.2.wvalues ≤ b.2.wvalues)
      (fun a b c => le_trans) _ _ _ hsorted
    intro x hx y hy b hb
    obtain ⟨r, hr, hiff⟩ := fitnessSorterLess_spec x y (hwf' x hx) (hwf' y hy)
    rw [hr] at hb
    simp only [Outcome.ok.injEq] at hb
    subst hb
    constructor
    · intro h; exact hiff.mp h
    · intro h
      rcases le_total x.2.wvalues y.2.wvalues with h' | h'
      · have := hiff.mpr h'; rw [h] at this; cases this
      · exact h'
  cases hs : sorted with
  | nil =>
    exfalso
    have h1 := hperm.length_eq
    rw [hs] at h1
    have h2 : (enumFrom 0 individuals).length = individuals.length := by
      rw [← List.length_map (enumFrom 0 individuals) Prod.snd, enumFrom_map_snd]
    rw [h2] at h1
    exact hne (List.length_eq_zero.mp h1.symm)
  | cons cur rest =>
    rw [hs] at hperm hord
    obtain ⟨r, hr, hstrict, hcover⟩ := uniqueFrom_spec rest cur
      (fun x hx => hwf' x (hperm.subset hx)) hord
    have hsub := uniqueFrom_sublist rest cur r hr
    refine ⟨r, by simp [uniqueByFitness, hsorted, hs, Outcome.bind, hr], ⟨?_, ?_, hstrict, ?_⟩, ?_⟩
    · intro u hu
      exact henum u (hperm.subset (hsub.subset hu))
    · have h1 : (r.map Prod.fst).Sublist ((cur :: rest).map Prod.fst) := hsub.map _
      have h2 : ((cur :: rest).map Prod.fst).Perm (List.range' 0 individuals.length) := by
        rw [← enumFrom_map_fst]; exact hperm.map _
      exact (h2.nodup_iff.mpr (List.nodup_range' _ _)).sublist h1
    · intro f hf
      obtain ⟨j, hj⟩ := List.get?_of_mem hf
      have : (j, f) ∈ enumFrom 0 individuals :=
        (mem_enumFrom individuals 0 j f).mpr ⟨j, by simp, hj⟩
      exact hcover (j, f) (hperm.symm.subset this)
    · intro h
      obtain ⟨u, hu, _⟩ := hcover cur (by simp)
      rw [h] at hu; cases hu

end Deag

namespace Deag

/-! ## The pairwise pass -/

theorem domB_asymm {M : Nat} (f g : Fitness) (hf : f.Evaluated M) (hg : g.Evaluated M)
    (h : domB f.wvalues g.wvalues = true) : domB g.wvalues f.wvalues = false := by
  have h1 := (Dominates_spec f g hf hg).2.mp h
  have h2 := (Dominates_spec g f hg hf).2
  cases hb : domB g.wvalues f.wvalues with
  | false => rfl
  | true => exact absurd (h2.mp hb) (Dom.asymm (by rw [hf.2, hg.2]) h1)

theorem domInner_spec {M : Nat} (fitI : Ref) (i : Nat) (hI : fitI.2.Evaluated M) :
    ∀ (rest : List Ref) (j : Nat) (st : DomState), (∀ x ∈ rest, x.2.Evaluated M) →
      ∃ st', domInner fitI i rest j st = Outcome.ok st' ∧
        st'.currentFront = st.currentFront ∧
        ∀ a, mapGetD st'.dominatingFits a =
          mapGetD st.dominatingFits a +
            (rest.countP fun J => decide (J.1 = a) && domB fitI.2.wvalues J.2.wvalues) +
            (if fitI.1 = a then (rest.countP fun J => domB J.2.wvalues fitI.2.wvalues : Int)
              else 0) := by
  intro rest
  induction rest with
  | nil =>
    intro j st _
    exact ⟨st, rfl, rfl, by intro a; simp⟩
  | cons fitJ rest ih =>
    intro j st hwf
    have hJ := hwf fitJ (by simp)
    have hrest : ∀ x ∈ rest, x.2.Evaluated M := fun x hx => hwf x (by simp [hx])
    have h1 := (Dominates_spec fitI.2 fitJ.2 hI hJ).1
    have h2 := (Dominates_spec fitJ.2 fitI.2 hJ hI).1
    simp only [domInner, h1, h2, Outcome.bind]
    cases hd1 : domB fitI.2.wvalues fitJ.2.wvalues with
    | true =>
      have hd2 := domB_asymm fitI.2 fitJ.2 hI hJ hd1
      simp only [if_true]
      obtain ⟨st', hst', hcf, hcnt⟩ := ih (j + 1)
        { st with
          dominatingFits := mapSet st.dominatingFits fitJ.1 (mapGetD st.dominatingFits fitJ.1 + 1)
          dominatedFits := (st.dominatedFits.Add fitI.1 j).1 } hrest
      refine ⟨st', hst', hcf, ?_⟩
      intro a
      rw [hcnt a, mapGetD_mapSet]
      simp only [List.countP_cons, hd1, hd2, Bool.and_true, Bool.false_eq_true, if_false,
        Nat.add_zero, decide_eq_true_eq]
      by_cases hja : fitJ.1 = a
      · subst hja; simp only [if_true]; push_cast; split <;> omega
      · simp only [hja, if_false]; push_cast; split <;> omega
    | false =>
      simp only [Bool.false_eq_true, if_false]
      cases hd2 : domB fitJ.2.wvalues fitI.2.wvalues with
      | true =>
        simp only [if_true]
        obtain ⟨st', hst', hcf, hcnt⟩ := ih (j + 1)
          { st with
            dominatingFits :=
              mapSet st.dominatingFits fitI.1 (mapGetD st.dominatingFits fitI.1 + 1)
            dominatedFits := (st.dominatedFits.Add fitJ.1 i).1 } hrest
        refine ⟨st', hst', hcf, ?_⟩
        intro a
        rw [hcnt a, mapGetD_mapSet]
        simp only [List.countP_cons, hd1, hd2, Bool.and_false, Bool.false_eq_true, if_false,
          Nat.add_zero, if_true]
        by_cases hia : fitI.1 = a
        · subst hia; simp only [if_true]; push_cast; omega
        · simp only [hia, if_false]
          try omega
      | false =>
        simp only [Bool.false_eq_true, if_false]
        obtain ⟨st', hst', hcf, hcnt⟩ := ih (j + 1) st hrest
        refine ⟨st', hst', hcf, ?_⟩
        intro a
        rw [hcnt a]
        simp only [List.countP_cons, hd1, hd2, Bool.and_false, Bool.false_eq_true, if_false,
          Nat.add_zero]

theorem countP_addr_eq_zero (a : Nat) (p : Ref → Bool) (rest : List Ref)
    (h : a ∉ rest.map Prod.fst) :
    (rest.countP fun J => decide (J.1 = a) && p J) = 0 := by
  rw [List.countP_eq_zero]
  intro J hJ
  have : J.1 ≠ a := fun e => h (e ▸ List.mem_map_of_mem Prod.fst hJ)
  simp [this]

theorem countP_addr_mem (x : Ref) (p : Ref → Bool) :
    ∀ (rest : List Ref), x ∈ rest → (rest.map Prod.fst).Nodup →
      (rest.countP fun J => decide (J.1 = x.1) && p J) = if p x then 1 else 0 := by
  intro rest
  induction rest with
  | nil => intro h; cases h
  | cons y rest ih =>
    intro hx hnd
    simp only [List.map_cons, List.nodup_cons] at hnd
    rw [List.countP_cons]
    rcases List.mem_cons.mp hx with h | h
    · subst h
      rw [countP_addr_eq_zero x.1 p rest hnd.1]
      simp
    · have hne : y.1 ≠ x.1 := fun e => hnd.1 (e ▸ List.mem_map_of_mem Prod.fst h)
      rw [ih h hnd.2]
      simp [hne]

/-- The pairwise pass on evaluated fitness with distinct addresses: it completes, every
domination count ends as the number of dominating vectors in the list, and the current
front collects, in order, the vectors whose count is zero. -/
theorem domOuter_spec {M : Nat} :
    ∀ (L : List Ref) (i : Nat) (st : DomState), (∀ x ∈ L, x.2.Evaluated M) →
      (L.map Prod.fst).Nodup →
      ∃ st', domOuter L i st = Outcome.ok st' ∧
        st'.currentFront = st.currentFront ++
          L.filter (fun x => decide (mapGetD st.dominatingFits x.1 +
            (L.countP fun y => domB y.2.wvalues x.2.wvalues : Int) = 0)) ∧
        (∀ x ∈ L, mapGetD st'.dominatingFits x.1 = mapGetD st.dominatingFits x.1 +
            (L.countP fun y => domB y.2.wvalues x.2.wvalues : Int)) ∧
        (∀ a, a ∉ L.map Prod.fst → mapGetD st'.dominatingFits a = mapGetD st.dominatingFits a) := by
  intro L
  induction L with
  | nil =>
    intro i st _ _
    exact ⟨st, rfl, by simp, by simp, by simp⟩
  | cons fitI rest ih =>
    intro i st hwf hnd
    have hI := hwf fitI (by simp)
    have hrest : ∀ x ∈ rest, x.2.Evaluated M := fun x hx => hwf x (by simp [hx])
    simp only [List.map_cons, List.nodup_cons] at hnd
    obtain ⟨st1, hst1, hcf1, hcnt1⟩ := domInner_spec fitI i hI rest 0 st hrest
    have hself : domB fitI.2.wvalues fitI.2.wvalues = false := by
      cases hb : domB fitI.2.wvalues fitI.2.wvalues with
      | false => rfl
      | true => have := domB_asymm fitI.2 fitI.2 hI hI hb; rw [hb] at this; cases this
    have hcntI : mapGetD st1.dominatingFits fitI.1 = mapGetD st.dominatingFits fitI.1 +
        ((fitI :: rest).countP fun y => domB y.2.wvalues fitI.2.wvalues : Int) := by
      rw [hcnt1 fitI.1, countP_addr_eq_zero fitI.1 _ rest hnd.1, List.countP_cons, hself]
      simp
    have hcntJ : ∀ x ∈ rest, mapGetD st1.dominatingFits x.1 = mapGetD st.dominatingFits x.1 +
        (if domB fitI.2.wvalues x.2.wvalues then 1 else 0) := by
      intro x hx
      have hne : fitI.1 ≠ x.1 := fun e => hnd.1 (e ▸ List.mem_map_of_mem Prod.fst hx)
      rw [hcnt1 x.1, countP_addr_mem x (fun J => domB fitI.2.wvalues J.2.wvalues) rest hx hnd.2]
      simp only [hne, if_false]
      split <;> simp
    have hother : ∀ a, a ≠ fitI.1 → a ∉ rest.map Prod.fst →
        mapGetD st1.dominatingFits a = mapGetD st.dominatingFits a := by
      intro a h1 h2
      have hne : fitI.1 ≠ a := fun e => h1 e.symm
      rw [hcnt1 a, countP_addr_eq_zero a _ rest h2]
      simp [hne]
    obtain ⟨st', hst', hcf, hcnt, hoth⟩ := ih (i + 1)
      (if mapGetD st1.dominatingFits fitI.1 = 0
        then { st1 with currentFront := st1.currentFront ++ [fitI] }
        else st1) hrest hnd.2
    have hdf : ∀ (c : Prop) [Decidable c], (if c
        then ({ st1 with currentFront := st1.currentFront ++ [fitI] } : DomState)
        else st1).dominatingFits = st1.dominatingFits := by
      intro c _; split <;> rfl
    rw [hdf] at hcf hcnt hoth
    have hfilter : rest.filter (fun x => decide (mapGetD st1.dominatingFits x.1 +
          (rest.countP fun y => domB y.2.wvalues x.2.wvalues : Int) = 0)) =
        rest.filter (fun x => decide (mapGetD st.dominatingFits x.1 +
          ((fitI :: rest).countP fun y => domB y.2.wvalues x.2.wvalues : Int) = 0)) := by
      apply List.filter_congr
      intro x hx
      rw [hcntJ x hx, List.countP_cons]
      have e : mapGetD st.dominatingFits x.1 +
            (if domB fitI.2.wvalues x.2.wvalues = true then (1 : Int) else 0) +
            ((rest.countP fun y => domB y.2.wvalues x.2.wvalues : Nat) : Int) =
          mapGetD st.dominatingFits x.1 +
            (((rest.countP fun y => domB y.2.wvalues x.2.wvalues) +
              (if domB fitI.2.wvalues x.2.wvalues = true then 1 else 0) : Nat) : Int) := by
        cases domB fitI.2.wvalues x.2.wvalues
        · simp
        · simp only [if_true]; push_cast; omega
      rw [e]
    refine ⟨st', by simp only [domOuter, hst1, Outcome.bind, hst'], ?_, ?_, ?_⟩
    · rw [hcf, hfilter, List.filter_cons]
      by_cases hz : mapGetD st1.dominatingFits fitI.1 = 0
      · have hz' := hz
        rw [hcntI] at hz'
        simp only [hz, if_true, hz', decide_True, hcf1, List.append_assoc, List.singleton_append]
      · have hz' := hz
        rw [hcntI] at hz'
        simp only [hz, if_false, hz', decide_False, hcf1, Bool.false_eq_true]
    · intro x hx
      rcases List.mem_cons.mp hx with h | h
      · subst h
        rw [hoth x.1 hnd.1, hcntI]
      · rw [hcnt x h, hcntJ x h, List.countP_cons]
        cases domB fitI.2.wvalues x.2.wvalues
        · simp
        · simp only [if_true]; push_cast; omega
    · intro a ha
      simp only [List.map_cons, List.mem_cons, not_or] at ha
      rw [hoth a ha.2, hother a ha.1 ha.2]

end Deag

namespace Deag

/-! ## mapIndividualsByFitness -/

theorem searchLoop_spec (f : Nat → Outcome Bool) (g : Nat → Bool) (n r : Nat)
    (hf : ∀ j, j < n → f j = Outcome.ok (g j)) (hlo : ∀ j, j < r → g j = false)
    (hhi : ∀ j, r ≤ j → j < n → g j = true) :
    ∀ (fuel i j : Nat), i ≤ r → r ≤ j → j ≤ n → j - i ≤ fuel →
      searchLoop f fuel i j = Outcome.ok r := by
  intro fuel
  induction fuel with
  | zero =>
    intro i j h1 h2 _ h4
    have : i = r := by omega
    simp [searchLoop, this]
  | succ fuel ih =>
    intro i j h1 h2 h3 h4
    by_cases hij : i < j
    · have hh : (i + j) / 2 < n := by omega
      simp only [searchLoop, hij, if_true, hf _ hh, Outcome.bind]
      cases hg : g ((i + j) / 2) with
      | false =>
        have : (i + j) / 2 < r := by
          by_contra hc
          have := hhi _ (by omega) hh
          rw [hg] at this; cases this
        simp only [Bool.not_false, if_true]
        exact ih _ _ (by omega) h2 h3 (by omega)
      | true =>
        have : r ≤ (i + j) / 2 := by
          by_contra hc
          have := hlo ((i + j) / 2) (by omega)
          rw [hg] at this; cases this
        simp only [Bool.not_true, Bool.false_eq_true, if_false]
        exact ih _ _ h1 this (by omega) (by omega)
    · have : i = r := by omega
      subst this
      simp [searchLoop, hij]

theorem pairwise_lt_get {fits : List Ref}
    (hs : fits.Pairwise fun a b => a.2.wvalues < b.2.wvalues) {i j : Nat} {a b : Ref}
    (hi : fits.get? i = some a) (hj : fits.get? j = some b) (hij : i < j) :
    a.2.wvalues < b.2.wvalues := by
  rw [List.pairwise_iff_getElem] at hs
  have hi' : i < fits.length := by
    by_contra hc; rw [List.get?_eq_none.mpr (by omega)] at hi; cases hi
  have hj' : j < fits.length := by
    by_contra hc; rw [List.get?_eq_none.mpr (by omega)] at hj; cases hj
  have := hs i j hi' hj' hij
  simp only [List.get?_eq_getElem?, List.getElem?_eq_getElem hi', List.getElem?_eq_getElem hj',
    Option.some.injEq] at hi hj
  rw [hi, hj] at this
  exact this

/-- On strictly ascending evaluated fitness the binary search of `mapIndividualsByFitness`
finds the position of the vector equal to the individual's. -/
theorem search_finds {M : Nat} (fits : List Ref) (hwf : ∀ u ∈ fits, u.2.Evaluated M)
    (hs : fits.Pairwise fun a b => a.2.wvalues < b.2.wvalues) (indFit : Fitness)
    (hind : indFit.Evaluated M) (r : Nat) (u : Ref) (hu : fits.get? r = some u)
    (heq : u.2.wvalues = indFit.wvalues) :
    (sortSearch fits.length fun j =>
        (index fits j).bind fun u =>
          searchPredFrom indFit.GetWValues u.2.GetWValues 0) = Outcome.ok r := by
  have hr : r < fits.length := by
    by_contra hc; rw [List.get?_eq_none.mpr (by omega)] at hu; cases hu
  unfold sortSearch
  apply searchLoop_spec _
    (fun j => decide (indFit.wvalues ≤ ((fits.get? j).map fun v => v.2.wvalues).getD []))
    fits.length r
  · intro j hj
    have hget : fits.get? j = some (fits.get ⟨j, hj⟩) := List.get?_eq_get hj
    have hv := hwf _ (List.get?_mem hget)
    rw [index_natCast_some fits j _ hget]
    simp only [Outcome.ok_bind, hget, Option.map_some', Option.getD_some]
    rw [hind.getWValues, hv.getWValues]
    obtain ⟨b, hb, hiff⟩ := searchPredFrom_spec indFit.wvalues (fits.get ⟨j, hj⟩).2.wvalues 0
      (by rw [hv.2, hind.2, Nat.zero_add])
    rw [hb]
    congr 1
    simp only [List.drop_zero] at hiff
    cases b with
    | true => exact (decide_eq_true (hiff.mp rfl)).symm
    | false =>
      symm; apply decide_eq_false
      intro h; have := hiff.mpr h; cases this
  · intro j hj
    have hj' : j < fits.length := by omega
    have hget : fits.get? j = some (fits.get ⟨j, hj'⟩) := List.get?_eq_get hj'
    have := pairwise_lt_get hs hget hu hj
    simp only [hget, Option.map_some', Option.getD_some, decide_eq_false_iff_not, not_le]
    rw [← heq]; exact this
  · intro j hj hj'
    have hget : fits.get? j = some (fits.get ⟨j, hj'⟩) := List.get?_eq_get hj'
    simp only [hget, Option.map_some', Option.getD_some, decide_eq_true_eq]
    rw [← heq]
    rcases Nat.lt_or_ge r j with h | h
    · exact le_of_lt (pairwise_lt_get hs hu hget h)
    · have : j = r := by omega
      subst this
      rw [hu] at hget
      simp only [Option.some.injEq] at hget
      rw [hget]
  · omega
  · exact hr.le
  · exact le_refl _
  · omega

/-- Whatever the comparisons return, a completed `mapIndividualsByFitness` loop has filed
position after position under pointers of `uniqueFitness` that `Equal` accepted. -/
theorem mapLoop_inv (fits : List Ref) :
    ∀ (inds : List Fitness) (i : Nat) (mapping m : StaticLinkedList Nat)
      (log : List (Nat × Int)), Built mapping log → log.length + inds.length ≤ mapping.cap →
      mapLoop fits inds i mapping = Outcome.ok m →
      ∃ us : List Ref, Built m (mapLog us i log) ∧ m.cap = mapping.cap ∧
        List.Forall₂ (fun u f => u ∈ fits ∧ u.2.Equal f = Outcome.ok true) us inds := by
  intro inds
  induction inds with
  | nil =>
    intro i mapping m log hb _ h
    simp only [mapLoop, Outcome.ok.injEq] at h
    subst h
    exact ⟨[], hb, rfl, List.Forall₂.nil⟩
  | cons indFit rest ih =>
    intro i mapping m log hb hcap h
    simp only [mapLoop] at h
    obtain ⟨loc, _, h⟩ := Outcome.bind_eq_ok h
    cases hget : fits.get? loc with
    | none => rw [hget] at h; cases h
    | some u =>
      rw [hget] at h
      dsimp only at h
      obtain ⟨e, he, h⟩ := Outcome.bind_eq_ok h
      cases e with
      | false => simp at h
      | true =>
        simp only [if_true] at h
        obtain ⟨_, _, _, _⟩ := hb.basic
        have hlt : mapping.total < mapping.cap := by simp at hcap; omega
        have hb' : Built (mapping.Add u.1 i).1 ((u.1, (i : Int)) :: log) :=
          Built.add u.1 i hb hlt
        obtain ⟨us, hbm, hc, hall⟩ := ih (i + 1) _ m _ hb'
          (by rw [Add_cap]; simp at hcap ⊢; omega) h
        exact ⟨u :: us, hbm, by rw [hc, Add_cap],
          List.Forall₂.cons ⟨List.get?_mem hget, he⟩ hall⟩

/-- On evaluated fitness represented in `uniqueFitness` the loop completes. -/
theorem mapLoop_total {M : Nat} (fits : List Ref) (hwf : ∀ u ∈ fits, u.2.Evaluated M)
    (hs : fits.Pairwise fun a b => a.2.wvalues < b.2.wvalues) :
    ∀ (inds : List Fitness) (i : Nat) (mapping : StaticLinkedList Nat),
      (∀ f ∈ inds, f.Evaluated M ∧ ∃ u ∈ fits, u.2.wvalues = f.wvalues) →
      ∃ m, mapLoop fits inds i mapping = Outcome.ok m := by
  intro inds
  induction inds with
  | nil => intro i mapping _; exact ⟨mapping, rfl⟩
  | cons indFit rest ih =>
    intro i mapping h
    obtain ⟨hind, u, hu, heq⟩ := h indFit (by simp)
    obtain ⟨r, hr⟩ := List.get?_of_mem hu
    have hsearch := search_finds fits hwf hs indFit hind r u hr heq
    obtain ⟨e, he, hiff⟩ := Equal_spec u.2 indFit (hwf u hu) hind
    have : e = true := hiff.mpr heq
    subst this
    obtain ⟨m, hm⟩ := ih (i + 1) (mapping.Add u.1 i).1 (fun f hf => h f (by simp [hf]))
    exact ⟨m, by simp only [mapLoop, hsearch, Outcome.ok_bind, hr, he, if_true, hm]⟩

end Deag

namespace Deag

/-! ## Keys of a built list, fronts read back -/

section SLL
variable {κ : Type} [DecidableEq κ]

theorem Built.head_keys {l : StaticLinkedList κ} {log : List (κ × Int)} (h : Built l log) :
    (l.head.map Prod.fst).Nodup ∧ ∀ k, k ∈ l.head.map Prod.fst ↔ k ∈ log.map Prod.fst := by
  induction h with
  | new capacity => simp [NewStaticLinkedList]
  | @add l log k d hb hlt ih =>
    have hh : (l.Add k d).1.head = mapSet l.head k l.total := by rw [Add_of_lt l k d hlt]
    rw [hh, mapSet_keys]
    by_cases hk : k ∈ l.head.map Prod.fst
    · simp only [hk, if_true]
      refine ⟨ih.1, fun k' => ?_⟩
      simp only [List.map_cons, List.mem_cons]
      constructor
      · intro h'; exact Or.inr ((ih.2 k').mp h')
      · rintro (h' | h')
        · subst h'; exact hk
        · exact (ih.2 k').mpr h'
    · simp only [hk, if_false]
      refine ⟨?_, fun k' => ?_⟩
      · rw [List.nodup_append]
        refine ⟨ih.1, by simp, ?_⟩
        intro a ha hb'
        simp only [List.mem_singleton] at hb'
        subst hb'; exact hk ha
      · simp only [List.mem_append, List.mem_singleton, List.map_cons, List.mem_cons, ih.2 k']
        tauto

theorem Built.mapGet_head {l : StaticLinkedList κ} {log : List (κ × Int)} (h : Built l log)
    (k : κ) : (mapGet l.head k).isSome = true ↔ k ∈ log.map Prod.fst := by
  rw [mapGet_isSome_iff]; exact h.head_keys.2 k

end SLL

theorem nodup_nat_length_le (l : List Nat) (n : Nat) (hnd : l.Nodup) (h : ∀ x ∈ l, x < n) :
    l.length ≤ n := by
  have hsub : l ⊆ List.range n := fun x hx => List.mem_range.mpr (h x hx)
  have := (List.subperm_of_subset hnd hsub).length_le
  simpa using this

/-- The fronts of a sorter list hold the keys 0 and 1 at most, so at most two fronts are
read back: those of the buckets 0 and 1. -/
theorem staticLinkedList2Slice_built {fronts : StaticLinkedList Nat}
    {flog : List (Nat × Int)} (hf : Built fronts flog) (individuals : List Fitness)
    (hkeys : ∀ e ∈ flog, e.1 < 2) :
    staticLinkedList2Slice fronts individuals =
      match fronts.head.length with
      | 0 => Outcome.ok []
      | 1 => (collect individuals (bucket flog 0)).bind fun f0 => Outcome.ok [f0]
      | _ =>
        (collect individuals (bucket flog 0)).bind fun f0 =>
          (collect individuals (bucket flog 1)).bind fun f1 => Outcome.ok [f0, f1] := by
  have hlen : fronts.head.length ≤ 2 := by
    rw [← List.length_map fronts.head Prod.fst]
    apply nodup_nat_length_le _ _ hf.head_keys.1
    intro k hk
    obtain ⟨e, he, hek⟩ := List.mem_map.mp ((hf.head_keys.2 k).mp hk)
    rw [← hek]; exact hkeys e he
  unfold staticLinkedList2Slice StaticLinkedList.GetHead
  have h0 := frontOf_built hf individuals 0
  have h1 := frontOf_built hf individuals 1
  rcases Nat.lt_or_ge fronts.head.length 1 with hl | hl
  · have : fronts.head.length = 0 := by omega
    rw [this]; rfl
  · rcases Nat.lt_or_ge fronts.head.length 2 with hl2 | hl2
    · have : fronts.head.length = 1 := by omega
      rw [this]
      simp only [frontsFrom, h0]
      cases collect individuals (bucket flog 0) <;> rfl
    · have : fronts.head.length = 2 := by omega
      rw [this]
      simp only [frontsFrom, h0, h1, Nat.zero_add]
      cases collect individuals (bucket flog 0) <;>
        cases collect individuals (bucket flog 1) <;> rfl

theorem collect_inv (individuals : List Fitness) :
    ∀ (ds : List Int) (front : List Ref), collect individuals ds = Outcome.ok front →
      front.map (fun x => (x.1 : Int)) = ds ∧ ∀ x ∈ front, individuals.get? x.1 = some x.2 := by
  intro ds
  induction ds with
  | nil =>
    intro front h
    simp only [collect, Outcome.ok.injEq] at h
    subst h; simp
  | cons d ds ih =>
    intro front h
    simp only [collect] at h
    obtain ⟨ind, hind, h⟩ := Outcome.bind_eq_ok h
    obtain ⟨rest, hrest, h⟩ := Outcome.bind_eq_ok h
    simp only [Outcome.ok.injEq] at h
    subst h
    obtain ⟨h1, h2⟩ := ih rest hrest
    have hd : 0 ≤ d ∧ individuals.get? d.toNat = some ind := by
      unfold index at hind
      by_cases hneg : d < 0
      · simp [hneg] at hind
      · simp only [hneg, if_false] at hind
        cases hg : individuals.get? d.toNat with
        | none => rw [hg] at hind; cases hind
        | some x =>
          rw [hg] at hind
          simp only [Outcome.ok.injEq] at hind
          subst hind; exact ⟨by omega, rfl⟩
    refine ⟨by simp [h1, hd.1], ?_⟩
    intro x hx
    rcases List.mem_cons.mp hx with h | h
    · subst h; exact hd.2
    · exact h2 x h

theorem collect_total (individuals : List Fitness) :
    ∀ (ds : List Int), (∀ d ∈ ds, 0 ≤ d ∧ d < individuals.length) →
      ∃ front, collect individuals ds = Outcome.ok front := by
  intro ds
  induction ds with
  | nil => intro _; exact ⟨[], rfl⟩
  | cons d ds ih =>
    intro h
    obtain ⟨h0, h1⟩ := h d (by simp)
    obtain ⟨rest, hrest⟩ := ih (fun e he => h e (by simp [he]))
    have hlt : d.toNat < individuals.length := by omega
    have hneg : ¬ d < 0 := by omega
    refine ⟨(d.toNat, individuals.get ⟨d.toNat, hlt⟩) :: rest, ?_⟩
    simp only [collect, index, hneg, if_false, List.get?_eq_get hlt, Outcome.ok_bind, hrest]

/-! ## The log of mapIndividualsByFitness -/

theorem mapLog_eq :
    ∀ (us : List Ref) (i : Nat) (log : List (Nat × Int)),
      mapLog us i log =
        ((enumFrom i us).map fun e => (e.2.1, (e.1 : Int))).reverse ++ log := by
  intro us
  induction us with
  | nil => intro i log; simp [mapLog, enumFrom]
  | cons u us ih => intro i log; simp [mapLog, enumFrom, ih]

theorem mapLog_data (us : List Ref) :
    (mapLog us 0 []).map Prod.snd = ((List.range us.length).map Int.ofNat).reverse := by
  rw [mapLog_eq]
  simp only [List.append_nil, List.map_reverse, List.map_map]
  congr 1
  have : (List.range us.length) = (enumFrom 0 us).map Prod.fst := by
    rw [enumFrom_map_fst, List.range_eq_range']
  rw [this, List.map_map]
  rfl

theorem mem_bucket_mapLog (us : List Ref) (a : Nat) (d : Int) :
    d ∈ bucket (mapLog us 0 []) a ↔ ∃ p u, us.get? p = some u ∧ u.1 = a ∧ d = (p : Int) := by
  rw [mapLog_eq]
  simp only [bucket, List.append_nil, List.mem_map, List.mem_filter, List.mem_reverse,
    decide_eq_true_eq]
  constructor
  · rintro ⟨e, ⟨⟨⟨p, u⟩, hm, he⟩, hk⟩, hd⟩
    obtain ⟨j, hj, hg⟩ := (mem_enumFrom us 0 p u).mp hm
    subst he
    simp only [Nat.zero_add] at hj
    subst hj
    exact ⟨p, u, hg, hk, hd.symm⟩
  · rintro ⟨p, u, hg, hk, hd⟩
    exact ⟨(u.1, (p : Int)),
      ⟨⟨(p, u), (mem_enumFrom us 0 p u).mpr ⟨p, by simp, hg⟩, rfl⟩, hk⟩, hd.symm⟩

theorem mapLog_data_nodup (us : List Ref) : ((mapLog us 0 []).map Prod.snd).Nodup := by
  rw [mapLog_data, List.nodup_reverse]
  exact (List.nodup_range _).map (fun a b h => by simpa using h)

theorem bucket_sublist {κ : Type} [DecidableEq κ] (log : List (κ × Int)) (k : κ) :
    (bucket log k).Sublist (log.map Prod.snd) :=
  (List.filter_sublist log).map _

theorem mem_bucket {κ : Type} [DecidableEq κ] (log : List (κ × Int)) (k : κ) (d : Int) :
    d ∈ bucket log k ↔ (k, d) ∈ log := by
  simp only [bucket, List.mem_map, List.mem_filter, decide_eq_true_eq]
  constructor
  · rintro ⟨⟨k', d'⟩, ⟨hm, hk⟩, hd⟩
    simp only at hk hd
    subst hk; subst hd; exact hm
  · intro h; exact ⟨(k, d), ⟨h, rfl⟩, rfl⟩

/-- Payloads of the buckets of pairwise distinct keys: no payload twice when the log holds
no payload twice. -/
theorem flatMap_bucket_nodup {κ : Type} [DecidableEq κ] (log : List (κ × Int))
    (hlog : (log.map Prod.snd).Nodup) (keys : List κ) (hkeys : keys.Nodup) :
    (keys.flatMap fun k => bucket log k).Nodup := by
  rw [List.nodup_flatMap]
  refine ⟨fun k _ => hlog.sublist (bucket_sublist log k), ?_⟩
  refine hkeys.imp ?_
  intro a b hab
  simp only [Function.onFun, List.disjoint_left]
  intro d hda hdb
  rw [mem_bucket] at hda hdb
  have := List.inj_on_of_nodup_map hlog hda hdb rfl
  simp only [Prod.mk.injEq, and_true] at this
  exact hab this

end Deag

namespace Deag

/-! ## The first front -/

theorem forall₂_get? {α β : Type} {R : α → β → Prop} :
    ∀ {xs : List α} {ys : List β}, List.Forall₂ R xs ys →
      ∀ (p : Nat) (x : α) (y : β), xs.get? p = some x → ys.get? p = some y → R x y := by
  intro xs ys h
  induction h with
  | nil => intro p x y hx; simp at hx
  | cons hab _ ih =>
    intro p x y hx hy
    cases p with
    | zero =>
      simp only [List.get?_cons_zero, Option.some.injEq] at hx hy
      subst hx; subst hy; exact hab
    | succ p => exact ih p x y (by simpa using hx) (by simpa using hy)

theorem addr_inj {fits : List Ref} (hnd : (fits.map Prod.fst).Nodup) {a b : Ref}
    (ha : a ∈ fits) (hb : b ∈ fits) (h : a.1 = b.1) : a = b :=
  List.inj_on_of_nodup_map hnd ha hb h

theorem Dominates_ne_true_iff {M : Nat} (g f : Fitness) (hg : g.Evaluated M)
    (hf : f.Evaluated M) :
    g.Dominates f none ≠ Outcome.ok true ↔ domB g.wvalues f.wvalues = false := by
  rw [(Dominates_spec g f hg hf).1]
  cases domB g.wvalues f.wvalues <;> simp

/-- The lexicographically greatest of the unique fitness vectors is dominated by none. -/
theorem exists_nondominated {M : Nat} (fits : List Ref) (hne : fits ≠ [])
    (hwf : ∀ u ∈ fits, u.2.Evaluated M)
    (hs : fits.Pairwise fun a b => a.2.wvalues < b.2.wvalues) :
    ∃ c ∈ fits, ∀ y ∈ fits, domB y.2.wvalues c.2.wvalues = false := by
  refine ⟨fits.getLast hne, List.getLast_mem hne, ?_⟩
  intro y hy
  have hle : y.2.wvalues ≤ (fits.getLast hne).2.wvalues := by
    have hsplit := List.dropLast_append_getLast hne
    rw [← hsplit] at hs hy
    rcases List.mem_append.mp hy with h | h
    · exact le_of_lt ((List.pairwise_append.mp hs).2.2 y h _ (by simp))
    · simp only [List.mem_singleton] at h
      rw [h]
  cases hb : domB y.2.wvalues (fits.getLast hne).2.wvalues with
  | false => rfl
  | true =>
    have hwc := hwf _ (List.getLast_mem hne)
    have hd := (Dominates_spec y.2 _ (hwf y hy) hwc).2.mp hb
    have := Dom.lex_lt _ _ (by rw [(hwf y hy).2, hwc.2]) hd
    exact absurd hle (not_le.mpr this)

theorem countP_eq_zero_int {α : Type} (p : α → Bool) (l : List α) :
    ((0 : Int) + (l.countP p : Int) = 0) ↔ ∀ y ∈ l, p y = false := by
  rw [Int.zero_add, Int.natCast_eq_zero, List.countP_eq_zero]
  constructor
  · intro h y hy; simpa using h y hy
  · intro h y hy; simp [h y hy]

/-- The phases of `sortNondominated` before the first front is filled, on a non-empty
population of evaluated fitness: they complete, and the payloads `ds` about to be added to
front 0 are exactly the positions of the individuals that no individual dominates. -/
theorem firstFront_phases {M : Nat} (individuals : List Fitness) (hne : individuals ≠ [])
    (hwf : ∀ f ∈ individuals, f.Evaluated M) :
    ∃ fits dom m mlog,
      uniqueByFitness individuals = Outcome.ok fits ∧
      domOuter fits 0
          { dominatingFits := []
            dominatedFits :=
              NewStaticLinkedList (individuals.length * (individuals.length - 1) / 2)
            currentFront := [] } = Outcome.ok dom ∧
      mapIndividualsByFitness fits individuals = Outcome.ok m ∧
      Built m mlog ∧
      (dom.currentFront.flatMap fun u => bucket mlog u.1).Nodup ∧
      (∀ p f, individuals.get? p = some f →
        ((p : Int) ∈ (dom.currentFront.flatMap fun u => bucket mlog u.1) ↔
          ∀ g ∈ individuals, g.Dominates f none ≠ Outcome.ok true)) ∧
      (∀ d ∈ (dom.currentFront.flatMap fun u => bucket mlog u.1),
        0 ≤ d ∧ d < individuals.length) ∧
      (dom.currentFront.flatMap fun u => bucket mlog u.1) ≠ [] := by
  obtain ⟨fits, hfits, hU, hfne⟩ := uniqueByFitness_spec individuals hne hwf
  have hfwf : ∀ u ∈ fits, u.2.Evaluated M :=
    fun u hu => hwf u.2 (List.get?_mem (hU.mem u hu))
  obtain ⟨dom, hdom, hcf, _, _⟩ := domOuter_spec fits 0
    { dominatingFits := []
      dominatedFits := NewStaticLinkedList (individuals.length * (individuals.length - 1) / 2)
      currentFront := [] } hfwf hU.nodup
  simp only [List.nil_append] at hcf
  have hmemcf : ∀ c, c ∈ dom.currentFront ↔
      (c ∈ fits ∧ ∀ y ∈ fits, domB y.2.wvalues c.2.wvalues = false) := by
    intro c
    rw [hcf, List.mem_filter, decide_eq_true_eq]
    have : mapGetD ([] : List (Nat × Int)) c.1 = 0 := rfl
    rw [this, countP_eq_zero_int]
  obtain ⟨m, hm⟩ := mapLoop_total fits hfwf hU.strict individuals 0
    (NewStaticLinkedList individuals.length) (fun f hf => ⟨hwf f hf, hU.cover f hf⟩)
  obtain ⟨us, hbm, _, hall⟩ := mapLoop_inv fits individuals 0
    (NewStaticLinkedList individuals.length) m [] (Built.new _)
    (by simp [NewStaticLinkedList]) hm
  have hlen : us.length = individuals.length := hall.length_eq
  have hus : ∀ p u f, us.get? p = some u → individuals.get? p = some f →
      u ∈ fits ∧ u.2.wvalues = f.wvalues := by
    intro p u f hu hf
    obtain ⟨h1, h2⟩ := forall₂_get? hall p u f hu hf
    obtain ⟨e, he, hiff⟩ := Equal_spec u.2 f (hfwf u h1) (hwf f (List.get?_mem hf))
    rw [he] at h2
    simp only [Outcome.ok.injEq] at h2
    exact ⟨h1, hiff.mp h2⟩
  have hcfnd : (dom.currentFront.map Prod.fst).Nodup := by
    rw [hcf]; exact hU.nodup.sublist ((List.filter_sublist fits).map _)
  have hchar : ∀ p f, individuals.get? p = some f →
      ((p : Int) ∈ (dom.currentFront.flatMap fun u => bucket (mapLog us 0 []) u.1) ↔
        ∀ g ∈ individuals, g.Dominates f none ≠ Outcome.ok true) := by
    intro p f hpf
    have hfe := hwf f (List.get?_mem hpf)
    rw [List.mem_flatMap]
    constructor
    · rintro ⟨c, hc, hpc⟩ g hg
      obtain ⟨p', u, hu, hk, hd⟩ := (mem_bucket_mapLog us c.1 p).mp hpc
      have hpp : p' = p := by omega
      subst hpp
      obtain ⟨hufits, huwv⟩ := hus p' u f hu hpf
      obtain ⟨hcfits, hcnd⟩ := (hmemcf c).mp hc
      have huc : u = c := addr_inj hU.nodup hufits hcfits hk
      subst huc
      obtain ⟨y, hy, hyg⟩ := hU.cover g hg
      rw [Dominates_ne_true_iff g f (hwf g hg) hfe, ← hyg, ← huwv]
      exact hcnd y hy
    · intro hnd
      have hp : p < us.length := by
        rw [hlen]
        by_contra hc
        rw [List.get?_eq_none.mpr (by omega)] at hpf; cases hpf
      have hu : us.get? p = some (us.get ⟨p, hp⟩) := List.get?_eq_get hp
      obtain ⟨hufits, huwv⟩ := hus p _ f hu hpf
      refine ⟨us.get ⟨p, hp⟩, (hmemcf _).mpr ⟨hufits, ?_⟩,
        (mem_bucket_mapLog us _ p).mpr ⟨p, _, hu, rfl, rfl⟩⟩
      intro y hy
      have hyi : y.2 ∈ individuals := List.get?_mem (hU.mem y hy)
      have := (Dominates_ne_true_iff y.2 f (hfwf y hy) hfe).mp (hnd y.2 hyi)
      rw [huwv]; exact this
  refine ⟨fits, dom, m, mapLog us 0 [], hfits, hdom, hm, hbm, ?_, hchar, ?_, ?_⟩
  · rw [List.nodup_flatMap]
    refine ⟨fun u _ => (mapLog_data_nodup us).sublist (bucket_sublist _ u.1), ?_⟩
    have hpw : dom.currentFront.Pairwise (fun a b => a.1 ≠ b.1) := List.pairwise_map.mp hcfnd
    refine hpw.imp ?_
    intro a b hab
    simp only [Function.onFun, List.disjoint_left]
    intro d hda hdb
    rw [mem_bucket] at hda hdb
    have := List.inj_on_of_nodup_map (mapLog_data_nodup us) hda hdb rfl
    simp only [Prod.mk.injEq, and_true] at this
    exact hab this
  · intro d hd
    obtain ⟨c, _, hdc⟩ := List.mem_flatMap.mp hd
    obtain ⟨p, u, hu, _, hdp⟩ := (mem_bucket_mapLog us c.1 d).mp hdc
    have hp : p < us.length := by
      by_contra hc
      rw [List.get?_eq_none.mpr (by omega)] at hu; cases hu
    subst hdp
    rw [← hlen]
    exact ⟨by omega, by exact_mod_cast hp⟩
  · obtain ⟨c, hc, hcnd⟩ := exists_nondominated fits hfne hfwf hU.strict
    have hget := hU.mem c hc
    have hin : (c.1 : Int) ∈
        (dom.currentFront.flatMap fun u => bucket (mapLog us 0 []) u.1) := by
      rw [hchar c.1 c.2 hget]
      intro g hg
      obtain ⟨y, hy, hyg⟩ := hU.cover g hg
      rw [Dominates_ne_true_iff g c.2 (hwf g hg) (hfwf c hc), ← hyg]
      exact hcnd y hy
    intro h
    rw [h] at hin; cases hin

end Deag

namespace Deag

theorem int_nodup_length_le (ds : List Int) (n : Nat) (hnd : ds.Nodup)
    (h : ∀ d ∈ ds, 0 ≤ d ∧ d < n) : ds.length ≤ n := by
  have hsub : ds ⊆ (List.range n).map Int.ofNat := by
    intro d hd
    obtain ⟨h0, h1⟩ := h d hd
    exact List.mem_map.mpr ⟨d.toNat, List.mem_range.mpr (by omega), by simp [h0]⟩
  have := (List.subperm_of_subset hnd hsub).length_le
  simpa using this

theorem bucket_zero_log (ds : List Int) :
    bucket ((ds.map fun d => ((0 : Nat), d)).reverse ++ []) 0 = ds.reverse := by
  simp only [bucket, List.append_nil, ← List.map_reverse]
  rw [List.filter_eq_self.mpr (by
    intro e he
    obtain ⟨d, _, hd⟩ := List.mem_map.mp he
    rw [← hd]; simp)]
  simp [List.map_map, Function.comp_def]

/-- What is read back as front 0 from a log whose bucket 0 holds the payloads `ds`
(reversed), all of them positions of the population. -/
theorem collect_front (individuals : List Fitness) (ds : List Int) (hnd : ds.Nodup)
    (hrange : ∀ d ∈ ds, 0 ≤ d ∧ d < individuals.length) :
    ∃ front, collect individuals ds.reverse = Outcome.ok front ∧
      (front.map Prod.fst).Nodup ∧
      ∀ p f, (p, f) ∈ front ↔ (individuals.get? p = some f ∧ (p : Int) ∈ ds) := by
  obtain ⟨front, hfront⟩ := collect_total individuals ds.reverse
    (fun d hd => hrange d (List.mem_reverse.mp hd))
  obtain ⟨hmap, hget⟩ := collect_inv individuals _ front hfront
  refine ⟨front, hfront, ?_, ?_⟩
  · have h1 : (front.map fun x => (x.1 : Int)).Nodup := by
      rw [hmap]; exact List.nodup_reverse.mpr hnd
    have h2 : (front.map fun x => (x.1 : Int)) = (front.map Prod.fst).map Int.ofNat := by
      rw [List.map_map]; rfl
    rw [h2] at h1
    exact h1.of_map _
  · intro p f
    constructor
    · intro h
      refine ⟨hget (p, f) h, ?_⟩
      have : (p : Int) ∈ front.map fun x => (x.1 : Int) :=
        List.mem_map.mpr ⟨(p, f), h, rfl⟩
      rw [hmap] at this
      exact List.mem_reverse.mp this
    · rintro ⟨hpf, hp⟩
      have : (p : Int) ∈ front.map fun x => (x.1 : Int) := by
        rw [hmap]; exact List.mem_reverse.mpr hp
      obtain ⟨x, hx, hxp⟩ := List.mem_map.mp this
      have hxp' : x.1 = p := by exact_mod_cast hxp
      have hx2 := hget x hx
      rw [hxp', hpf] at hx2
      simp only [Option.some.injEq] at hx2
      have : x = (p, f) := by
        cases x; simp only [Prod.mk.injEq]; exact ⟨hxp', hx2.symm⟩
      rw [← this]; exact hx

/-- The first front over finite weighted values: on a non-empty population of evaluated
fitness with equal objective count and for `k >= 1`, `sortNondominated(pop, k, true)`
returns exactly one front; no position occurs in it twice, and an individual of the
population is in it exactly when no individual of the population dominates it. -/
theorem sortNondominated_firstFrontOnly (fuel : Nat) (individuals : List Fitness) (k : Int)
    (M : Nat) (hne : individuals ≠ []) (hwf : ∀ f ∈ individuals, f.Evaluated M)
    (hk : 1 ≤ k) :
    ∃ front, sortNondominated fuel individuals k true = Outcome.ok [front] ∧
      (front.map Prod.fst).Nodup ∧
      ∀ p f, (p, f) ∈ front ↔
        (individuals.get? p = some f ∧
          ∀ g ∈ individuals, g.Dominates f none ≠ Outcome.ok true) := by
  obtain ⟨fits, dom, m, mlog, hfits, hdom, hm, hbm, hnd, hchar, hrange, hdsne⟩ :=
    firstFront_phases individuals hne hwf
  generalize hds : (dom.currentFront.flatMap fun u => bucket mlog u.1) = ds at *
  have hext := extendAll_built hbm 0 dom.currentFront (NewStaticLinkedList individuals.length)
  rw [hds] at hext
  have hb0 := ((Built.new individuals.length : Built (NewStaticLinkedList individuals.length)
    ([] : List (Nat × Int))).addAll 0 ds).1
  have hlen : ds.length ≤ individuals.length :=
    int_nodup_length_le ds individuals.length hnd hrange
  have hcap : (NewStaticLinkedList individuals.length : StaticLinkedList Nat).cap =
      individuals.length := rfl
  rw [hcap, addAllLog_of_le _ _ _ _ (by simpa using hlen)] at hb0
  have hslice := staticLinkedList2Slice_built hb0 individuals (by
    intro e he
    simp only [List.append_nil, List.mem_reverse, List.mem_map] at he
    obtain ⟨d, _, hd⟩ := he
    rw [← hd]; exact Nat.zero_lt_two)
  have hhead : (addAll 0 ds (NewStaticLinkedList individuals.length)).head.length = 1 := by
    have hk := hb0.head_keys
    rw [← List.length_map _ Prod.fst]
    have hsub : ∀ a ∈ (addAll 0 ds (NewStaticLinkedList individuals.length)).head.map Prod.fst,
        a = 0 := by
      intro a ha
      have := (hk.2 a).mp ha
      simp only [List.append_nil, List.map_reverse, List.map_map, List.mem_reverse,
        List.mem_map, Function.comp_apply] at this
      obtain ⟨_, _, h⟩ := this
      exact h.symm
    have hmem : 0 ∈ (addAll 0 ds (NewStaticLinkedList individuals.length)).head.map Prod.fst := by
      apply (hk.2 0).mpr
      obtain ⟨d, hd⟩ := List.exists_mem_of_ne_nil ds hdsne
      simp only [List.append_nil, List.map_reverse, List.map_map, List.mem_reverse,
        List.mem_map, Function.comp_apply]
      exact ⟨d, hd, trivial⟩
    have hle : ((addAll 0 ds (NewStaticLinkedList individuals.length)).head.map Prod.fst).length
        ≤ 1 := nodup_nat_length_le _ 1 hk.1 (fun a ha => by rw [hsub a ha]; decide)
    have hpos := List.length_pos_of_mem hmem
    omega
  rw [hhead, bucket_zero_log] at hslice
  obtain ⟨front, hfront, hfnd, hfmem⟩ := collect_front individuals ds hnd hrange
  have hk0 : ¬ k = 0 := by omega
  refine ⟨front, ?_, hfnd, ?_⟩
  · simp only [sortNondominated, hk0, if_false, hfits, Outcome.ok_bind, hdom, hm, hext,
      Bool.not_true, Bool.false_eq_true, hslice, hfront]
  · intro p f
    rw [hfmem]
    constructor
    · rintro ⟨h1, h2⟩; exact ⟨h1, (hchar p f h1).mp h2⟩
    · rintro ⟨h1, h2⟩; exact ⟨h1, (hchar p f h1).mpr h2⟩

end Deag

namespace Deag

/-! ## Structure of the sorter whatever the comparisons return -/

theorem uniqueByFitness_inv (individuals : List Fitness) (fits : List Ref)
    (h : uniqueByFitness individuals = Outcome.ok fits) : (fits.map Prod.fst).Nodup := by
  unfold uniqueByFitness at h
  obtain ⟨sorted, hsorted, h⟩ := Outcome.bind_eq_ok h
  have hperm := sortSort_perm _ _ _ hsorted
  cases sorted with
  | nil => cases h
  | cons cur rest =>
    have hsub := uniqueFrom_sublist rest cur fits h
    have h1 : (fits.map Prod.fst).Sublist ((cur :: rest).map Prod.fst) := hsub.map _
    have h2 : ((cur :: rest).map Prod.fst).Perm (List.range' 0 individuals.length) := by
      rw [← enumFrom_map_fst]; exact hperm.map _
    exact (h2.nodup_iff.mpr (List.nodup_range' _ _)).sublist h1

theorem uniqueByFitness_nil : uniqueByFitness [] = Outcome.panic := rfl

theorem domInner_inv (fitI : Ref) (i : Nat) :
    ∀ (rest : List Ref) (j : Nat) (st st' : DomState),
      domInner fitI i rest j st = Outcome.ok st' →
      st'.currentFront = st.currentFront ∧
        ∀ a, a ≠ fitI.1 → a ∉ rest.map Prod.fst →
          mapGetD st'.dominatingFits a = mapGetD st.dominatingFits a := by
  intro rest
  induction rest with
  | nil =>
    intro j st st' h
    simp only [domInner, Outcome.ok.injEq] at h
    subst h; exact ⟨rfl, fun _ _ _ => rfl⟩
  | cons fitJ rest ih =>
    intro j st st' h
    simp only [domInner] at h
    obtain ⟨d1, _, h⟩ := Outcome.bind_eq_ok h
    cases d1 with
    | true =>
      simp only [if_true] at h
      obtain ⟨h1, h2⟩ := ih _ _ _ h
      refine ⟨h1, fun a ha hr => ?_⟩
      simp only [List.map_cons, List.mem_cons, not_or] at hr
      rw [h2 a ha hr.2, mapGetD_mapSet]
      have : ¬ fitJ.1 = a := fun e => hr.1 e.symm
      simp [this]
    | false =>
      simp only [Bool.false_eq_true, if_false] at h
      obtain ⟨d2, _, h⟩ := Outcome.bind_eq_ok h
      cases d2 with
      | true =>
        simp only [if_true] at h
        obtain ⟨h1, h2⟩ := ih _ _ _ h
        refine ⟨h1, fun a ha hr => ?_⟩
        simp only [List.map_cons, List.mem_cons, not_or] at hr
        rw [h2 a ha hr.2, mapGetD_mapSet]
        have : ¬ fitI.1 = a := fun e => ha e.symm
        simp [this]
      | false =>
        simp only [Bool.false_eq_true, if_false] at h
        obtain ⟨h1, h2⟩ := ih _ _ _ h
        refine ⟨h1, fun a ha hr => ?_⟩
        simp only [List.map_cons, List.mem_cons, not_or] at hr
        exact h2 a ha hr.2

/-- A completed pairwise pass has appended to the current front some of the listed
pointers, in order, each with a final domination count of zero; counts of addresses not
listed are untouched. -/
theorem domOuter_inv :
    ∀ (L : List Ref) (i : Nat) (st st' : DomState), (L.map Prod.fst).Nodup →
      domOuter L i st = Outcome.ok st' →
      (∃ cf, st'.currentFront = st.currentFront ++ cf ∧ cf.Sublist L ∧
        ∀ x ∈ cf, mapGetD st'.dominatingFits x.1 = 0) ∧
      ∀ a, a ∉ L.map Prod.fst → mapGetD st'.dominatingFits a = mapGetD st.dominatingFits a := by
  intro L
  induction L with
  | nil =>
    intro i st st' _ h
    simp only [domOuter, Outcome.ok.injEq] at h
    subst h
    exact ⟨⟨[], by simp, List.Sublist.refl _, by simp⟩, fun _ _ => rfl⟩
  | cons fitI rest ih =>
    intro i st st' hnd h
    simp only [List.map_cons, List.nodup_cons] at hnd
    simp only [domOuter] at h
    obtain ⟨st1, hst1, h⟩ := Outcome.bind_eq_ok h
    obtain ⟨hcf1, hcnt1⟩ := domInner_inv fitI i rest 0 st st1 hst1
    obtain ⟨⟨cf, hcf, hsub, hzero⟩, hoth⟩ := ih (i + 1) _ st' hnd.2 h
    have hdf : ∀ (c : Prop) [Decidable c], (if c
        then ({ st1 with currentFront := st1.currentFront ++ [fitI] } : DomState)
        else st1).dominatingFits = st1.dominatingFits := by
      intro c _; split <;> rfl
    rw [hdf] at hoth
    constructor
    · by_cases hz : mapGetD st1.dominatingFits fitI.1 = 0
      · simp only [hz, if_true] at hcf
        refine ⟨fitI :: cf, by rw [hcf, hcf1]; simp, hsub.cons₂ fitI, ?_⟩
        intro x hx
        rcases List.mem_cons.mp hx with hx | hx
        · subst hx; rw [hoth x.1 hnd.1, hz]
        · exact hzero x hx
      · simp only [hz, if_false] at hcf
        exact ⟨cf, by rw [hcf, hcf1], hsub.cons fitI, hzero⟩
    · intro a ha
      simp only [List.map_cons, List.mem_cons, not_or] at ha
      rw [hoth a ha.2, hcnt1 a ha.1 ha.2]

/-! ## The peeling loop -/

theorem bucket_append {κ : Type} [DecidableEq κ] (l1 l2 : List (κ × Int)) (k : κ) :
    bucket (l1 ++ l2) k = bucket l1 k ++ bucket l2 k := by
  simp [bucket]

theorem bucket_other_key (ds : List Int) (k k' : Nat) (h : k ≠ k') :
    bucket ((ds.map fun d => (k, d)).reverse) k' = [] := by
  simp only [bucket, List.map_eq_nil_iff, List.filter_eq_nil_iff, List.mem_reverse,
    List.mem_map, decide_eq_true_eq]
  rintro e ⟨d, _, hd⟩
  rw [← hd]; exact h

theorem PeelInv.extend {mlog : List (Nat × Int)} {B0 : List Int} {st : PeelState}
    {m : StaticLinkedList Nat} (hbm : Built m mlog) (hinv : PeelInv mlog B0 st)
    (fitD : Ref) (nf : List Ref) (ps : Int) (fr : StaticLinkedList Nat)
    (hone : mapGetD st.dominatingFits fitD.1 - 1 = 0)
    (hfr : extendFront m 1 fitD st.fronts = Outcome.ok fr) :
    PeelInv mlog B0
      { dominatingFits :=
          mapSet st.dominatingFits fitD.1 (mapGetD st.dominatingFits fitD.1 - 1)
        nextFront := nf
        paretoSorted := ps
        fronts := fr } := by
  obtain ⟨flog, placed, hb, hkeys, hb0, hnd, hsub, hcnt⟩ := hinv
  rw [extendFront_built hbm] at hfr
  simp only [Outcome.ok.injEq] at hfr
  subst hfr
  obtain ⟨n, hn⟩ := addAllLog_take st.fronts.cap 1 (bucket mlog fitD.1) flog
  have hb' := (hb.addAll 1 (bucket mlog fitD.1)).1
  rw [hn] at hb'
  have hnot : fitD.1 ∉ placed := by
    intro hmem
    have := hcnt _ hmem
    omega
  refine ⟨_, placed ++ [fitD.1], hb', ?_, ?_, ?_, ?_, ?_⟩
  · intro e he
    rcases List.mem_append.mp he with h | h
    · simp only [List.mem_reverse, List.mem_map] at h
      obtain ⟨d, _, hd⟩ := h
      rw [← hd]; exact Nat.one_lt_two
    · exact hkeys e h
  · rw [bucket_append, bucket_other_key _ 1 0 (by decide), List.nil_append, hb0]
  · rw [List.nodup_append]
    refine ⟨hnd, by simp, ?_⟩
    intro a ha hb
    simp only [List.mem_singleton] at hb
    subst hb; exact hnot ha
  · simp only [List.map_append, List.map_reverse, List.map_map, List.reverse_append,
      List.reverse_reverse, List.flatMap_append, List.flatMap_cons, List.flatMap_nil,
      List.append_nil]
    apply List.Sublist.append hsub
    have : (List.map (Prod.snd ∘ fun d => ((1 : Nat), d)) (List.take n (bucket mlog fitD.1))) =
        List.take n (bucket mlog fitD.1) := by
      simp [Function.comp_def]
    rw [this]
    exact List.take_sublist _ _
  · intro a ha
    simp only [mapGetD_mapSet]
    by_cases hax : fitD.1 = a
    · simp only [hax, if_true]; subst hax; omega
    · simp only [hax, if_false]
      rcases List.mem_append.mp ha with h | h
      · exact hcnt a h
      · simp only [List.mem_singleton] at h
        exact absurd h.symm hax

theorem PeelInv.decrement {mlog : List (Nat × Int)} {B0 : List Int} {st : PeelState}
    (hinv : PeelInv mlog B0 st) (a : Nat) :
    PeelInv mlog B0
      { st with dominatingFits := mapSet st.dominatingFits a (mapGetD st.dominatingFits a - 1) } := by
  obtain ⟨flog, placed, hb, hkeys, hb0, hnd, hsub, hcnt⟩ := hinv
  refine ⟨flog, placed, hb, hkeys, hb0, hnd, hsub, ?_⟩
  intro b hb'
  simp only [mapGetD_mapSet]
  by_cases hab : a = b
  · simp only [hab, if_true]; have := hcnt b hb'; omega
  · simp only [hab, if_false]; exact hcnt b hb'

theorem peelChain_inv {mlog : List (Nat × Int)} {B0 : List Int} {m : StaticLinkedList Nat}
    (hbm : Built m mlog) (fits : List Ref) (df : StaticLinkedList Nat) :
    ∀ (steps : Nat) (fitDIdx next : Int) (st st' : PeelState), PeelInv mlog B0 st →
      peelChain fits m df 1 steps fitDIdx next st = Outcome.ok st' → PeelInv mlog B0 st' := by
  intro steps
  induction steps with
  | zero =>
    intro fitDIdx next st st' hinv h
    simp only [peelChain] at h
    split at h
    · simp only [Outcome.ok.injEq] at h; subst h; exact hinv
    · cases h
  | succ steps ih =>
    intro fitDIdx next st st' hinv h
    simp only [peelChain] at h
    split at h
    · simp only [Outcome.ok.injEq] at h; subst h; exact hinv
    · obtain ⟨fitD, _, h⟩ := Outcome.bind_eq_ok h
      obtain ⟨st1, hst1, h⟩ := Outcome.bind_eq_ok h
      refine ih _ _ st1 st' ?_ h
      by_cases hz : mapGetD st.dominatingFits fitD.1 - 1 = 0
      · simp only [hz, if_true] at hst1
        obtain ⟨fr, hfr, hst1⟩ := Outcome.bind_eq_ok hst1
        simp only [Outcome.ok.injEq] at hst1
        subst hst1
        have := PeelInv.extend hbm hinv fitD (st.nextFront ++ [fitD])
          (st.paretoSorted + (m.GetSize fitD.1).1) fr hz hfr
        rw [hz] at this
        exact this
      · simp only [hz, if_false, Outcome.ok.injEq] at hst1
        subst hst1
        exact hinv.decrement fitD.1

theorem peelFront_inv {mlog : List (Nat × Int)} {B0 : List Int} {m : StaticLinkedList Nat}
    (hbm : Built m mlog) (fits : List Ref) (df : StaticLinkedList Nat) :
    ∀ (cur : List Ref) (st st' : PeelState), PeelInv mlog B0 st →
      peelFront fits m df 1 cur st = Outcome.ok st' → PeelInv mlog B0 st' := by
  intro cur
  induction cur with
  | nil =>
    intro st st' hinv h
    simp only [peelFront, Outcome.ok.injEq] at h
    subst h; exact hinv
  | cons fitP rest ih =>
    intro st st' hinv h
    simp only [peelFront] at h
    obtain ⟨st1, hst1, h⟩ := Outcome.bind_eq_ok h
    refine ih st1 st' ?_ h
    split at hst1
    · exact peelChain_inv hbm fits df _ _ _ st st1 hinv hst1
    · simp only [Outcome.ok.injEq] at hst1; subst hst1; exact hinv

theorem PeelInv.resetNext {mlog : List (Nat × Int)} {B0 : List Int} {st : PeelState}
    (hinv : PeelInv mlog B0 st) : PeelInv mlog B0 { st with nextFront := [] } := hinv

/-- The peeling loop keeps its invariant, however many rounds it runs. -/
theorem peelLoop_inv {mlog : List (Nat × Int)} {B0 : List Int} {m : StaticLinkedList Nat}
    (hbm : Built m mlog) (fits : List Ref) (df : StaticLinkedList Nat) (N : Int) :
    ∀ (fuel : Nat) (cur : List Ref) (st st' : PeelState), PeelInv mlog B0 st →
      peelLoop fits m df 1 N fuel cur st = Outcome.ok st' → PeelInv mlog B0 st' := by
  intro fuel
  induction fuel with
  | zero =>
    intro cur st st' hinv h
    simp only [peelLoop] at h
    split at h
    · cases h
    · simp only [Outcome.ok.injEq] at h; subst h; exact hinv
  | succ fuel ih =>
    intro cur st st' hinv h
    simp only [peelLoop] at h
    split at h
    · obtain ⟨st1, hst1, h⟩ := Outcome.bind_eq_ok h
      exact ih _ _ st' (peelFront_inv hbm fits df cur st st1 hinv hst1).resetNext h
    · simp only [Outcome.ok.injEq] at h; subst h; exact hinv

end Deag

namespace Deag

/-! ## Shape of every result of the sorter -/

theorem flatMap_map_fst (cf : List Ref) (mlog : List (Nat × Int)) :
    ((cf.map Prod.fst).flatMap fun a => bucket mlog a) = cf.flatMap fun u => bucket mlog u.1 := by
  induction cf with
  | nil => rfl
  | cons u cf ih => simp [List.flatMap_cons, ih]

theorem bucket_take_log (ds : List Int) (n : Nat) :
    bucket ((((ds.take n).map fun d => ((0 : Nat), d)).reverse) ++ []) 0 = (ds.take n).reverse :=
  bucket_zero_log (ds.take n)

/-- Every result of `sortNondominated` for `k ≠ 0`: the phases before the fronts completed,
and the result consists of at most two fronts, read from two lists of positions `B0` and
`B1` that share no position and hold none twice; `B0` holds only positions handed to
front 0 by the closure `extends`. -/
theorem sortNondominated_shape (fuel : Nat) (individuals : List Fitness) (k : Int)
    (firstFrontOnly : Bool) (fronts : List (List Ref)) (hk : k ≠ 0)
    (h : sortNondominated fuel individuals k firstFrontOnly = Outcome.ok fronts) :
    ∃ (fits : List Ref) (dom : DomState) (m : StaticLinkedList Nat)
      (mlog : List (Nat × Int)) (B0 B1 : List Int),
      uniqueByFitness individuals = Outcome.ok fits ∧
      domOuter fits 0
          { dominatingFits := []
            dominatedFits :=
              NewStaticLinkedList (individuals.length * (individuals.length - 1) / 2)
            currentFront := [] } = Outcome.ok dom ∧
      mapIndividualsByFitness fits individuals = Outcome.ok m ∧
      Built m mlog ∧
      (∀ d ∈ B0, d ∈ dom.currentFront.flatMap fun u => bucket mlog u.1) ∧
      (B0 ++ B1).Nodup ∧
      (fronts = [] ∨ (∃ F0, collect individuals B0 = Outcome.ok F0 ∧ fronts = [F0]) ∨
        ∃ F0 F1, collect individuals B0 = Outcome.ok F0 ∧
          collect individuals B1 = Outcome.ok F1 ∧ fronts = [F0, F1]) := by
  simp only [sortNondominated, hk, if_false] at h
  obtain ⟨fits, hfits, h⟩ := Outcome.bind_eq_ok h
  obtain ⟨dom, hdom, h⟩ := Outcome.bind_eq_ok h
  obtain ⟨m, hm, h⟩ := Outcome.bind_eq_ok h
  obtain ⟨fronts0, hext, h⟩ := Outcome.bind_eq_ok h
  obtain ⟨frontsF, hpeel, h⟩ := Outcome.bind_eq_ok h
  have hfnd := uniqueByFitness_inv individuals fits hfits
  obtain ⟨⟨cf, hcf, hcfsub, hcfzero⟩, _⟩ := domOuter_inv fits 0 _ dom hfnd hdom
  simp only [List.nil_append] at hcf
  obtain ⟨us, hbm, _, _⟩ := mapLoop_inv fits individuals 0
    (NewStaticLinkedList individuals.length) m [] (Built.new _)
    (by simp [NewStaticLinkedList]) hm
  have hmnd := mapLog_data_nodup us
  rw [extendAll_built hbm] at hext
  simp only [Outcome.ok.injEq] at hext
  have hb0 := ((Built.new individuals.length : Built (NewStaticLinkedList individuals.length)
    ([] : List (Nat × Int))).addAll 0 (dom.currentFront.flatMap fun u =>
      bucket (mapLog us 0 []) u.1)).1
  obtain ⟨n, hn⟩ := addAllLog_take
    (NewStaticLinkedList individuals.length : StaticLinkedList Nat).cap 0
    (dom.currentFront.flatMap fun u => bucket (mapLog us 0 []) u.1) ([] : List (Nat × Int))
  rw [hn, hext] at hb0
  have hinv0 : ∀ (nf : List Ref) (ps : Int),
      PeelInv (mapLog us 0 [])
        ((dom.currentFront.flatMap fun u => bucket (mapLog us 0 []) u.1).take n).reverse
        { dominatingFits := dom.dominatingFits
          nextFront := nf
          paretoSorted := ps
          fronts := fronts0 } := by
    intro nf ps
    refine ⟨_, dom.currentFront.map Prod.fst, hb0, ?_, bucket_take_log _ n, ?_, ?_, ?_⟩
    · intro e he
      simp only [List.append_nil, List.mem_reverse, List.mem_map] at he
      obtain ⟨d, _, hd⟩ := he
      rw [← hd]; exact Nat.zero_lt_two
    · rw [hcf]; exact hfnd.sublist (hcfsub.map _)
    · rw [flatMap_map_fst]
      simp only [List.append_nil, List.map_reverse, List.map_map, List.reverse_reverse]
      have : (List.map (Prod.snd ∘ fun d => ((0 : Nat), d))
          (List.take n (dom.currentFront.flatMap fun u => bucket (mapLog us 0 []) u.1))) =
          List.take n (dom.currentFront.flatMap fun u => bucket (mapLog us 0 []) u.1) := by
        simp [Function.comp_def]
      rw [this]
      exact List.take_sublist _ _
    · intro a ha
      obtain ⟨x, hx, hxa⟩ := List.mem_map.mp ha
      rw [hcf] at hx
      rw [← hxa, hcfzero x hx]
  have hinvF : ∃ st : PeelState, st.fronts = frontsF ∧
      PeelInv (mapLog us 0 [])
        ((dom.currentFront.flatMap fun u => bucket (mapLog us 0 []) u.1).take n).reverse st := by
    cases firstFrontOnly with
    | true =>
      simp only [Bool.not_true, Bool.false_eq_true, if_false, Outcome.ok.injEq] at hpeel
      exact ⟨_, hpeel, hinv0 [] 0⟩
    | false =>
      simp only [Bool.not_false, if_true] at hpeel
      obtain ⟨st, hst, hpeel⟩ := Outcome.bind_eq_ok hpeel
      simp only [Outcome.ok.injEq] at hpeel
      exact ⟨st, hpeel, peelLoop_inv hbm fits _ _ fuel _ _ st (hinv0 _ _) hst⟩
  obtain ⟨st, hstf, flog, placed, hbF, hkeys, hB0, hplaced, hsub, _⟩ := hinvF
  rw [hstf] at hbF
  have hflognd : (flog.map Prod.snd).Nodup :=
    List.nodup_reverse.mp ((flatMap_bucket_nodup _ hmnd placed hplaced).sublist hsub)
  rw [staticLinkedList2Slice_built hbF individuals hkeys] at h
  refine ⟨fits, dom, m, mapLog us 0 [], bucket flog 0, bucket flog 1, hfits, hdom, hm, hbm,
    ?_, ?_, ?_⟩
  · intro d hd
    rw [hB0] at hd
    exact List.mem_of_mem_take (List.mem_reverse.mp hd)
  · have := flatMap_bucket_nodup flog hflognd [0, 1] (by decide)
    simpa [List.flatMap_cons] using this
  · split at h
    · left; simpa using h.symm
    · right; left
      obtain ⟨F0, hF0, h⟩ := Outcome.bind_eq_ok h
      simp only [Outcome.ok.injEq] at h
      exact ⟨F0, hF0, h.symm⟩
    · right; right
      obtain ⟨F0, hF0, h⟩ := Outcome.bind_eq_ok h
      obtain ⟨F1, hF1, h⟩ := Outcome.bind_eq_ok h
      simp only [Outcome.ok.injEq] at h
      exact ⟨F0, F1, hF0, hF1, h.symm⟩

end Deag

namespace Deag

/-! ## Front ordering -/

theorem Chain.unique {κ : Type} [DecidableEq κ] {l : StaticLinkedList κ} {idx : Int}
    {ds : List Int} (h1 : Chain l idx ds) : ∀ {ds' : List Int}, Chain l idx ds' → ds = ds' := by
  induction h1 with
  | nil =>
    intro ds' h2
    cases h2 with
    | nil => rfl
    | cons h0 _ _ _ => omega
  | @cons idx ds h0 _ _ _ ih =>
    intro ds' h2
    generalize hidx : idx = idx' at h2
    cases h2 with
    | nil => omega
    | cons _ _ _ hc => subst hidx; rw [ih hc]

theorem Built.bucket_unique {κ : Type} [DecidableEq κ] {l : StaticLinkedList κ}
    {log log' : List (κ × Int)} (h1 : Built l log) (h2 : Built l log') (k : κ) :
    bucket log k = bucket log' k := by
  rcases h1.chain k with ⟨hn1, hb1⟩ | ⟨idx1, hs1, hc1, _, _, _⟩ <;>
    rcases h2.chain k with ⟨hn2, hb2⟩ | ⟨idx2, hs2, hc2, _, _, _⟩
  · rw [hb1, hb2]
  · rw [hn1] at hs2; cases hs2
  · rw [hn2] at hs1; cases hs1
  · rw [hs1] at hs2
    simp only [Option.some.injEq] at hs2
    subst hs2
    exact hc1.unique hc2

/-- C6: in every result of `sortNondominated` on a population of evaluated fitness with
equal objective count, for front indices `i < j` no individual of front `j` dominates an
individual of front `i`. -/
theorem sortNondominated_front_order (fuel : Nat) (individuals : List Fitness) (k : Int)
    (firstFrontOnly : Bool) (M : Nat) (hwf : ∀ f ∈ individuals, f.Evaluated M)
    (fronts : List (List Ref))
    (h : sortNondominated fuel individuals k firstFrontOnly = Outcome.ok fronts) :
    ∀ i j, i < j → ∀ Fi Fj, fronts.get? i = some Fi → fronts.get? j = some Fj →
      ∀ x ∈ Fj, ∀ y ∈ Fi, x.2.Dominates y.2 none ≠ Outcome.ok true := by
  intro i j hij Fi Fj hi hj x hx y hy
  by_cases hk : k = 0
  · simp only [sortNondominated, hk, if_true, Outcome.ok.injEq] at h
    subst h; simp at hi
  · obtain ⟨fits, dom, m, mlog, B0, B1, hfits, hdom, hm, hbm, hB0, _, hshape⟩ :=
      sortNondominated_shape fuel individuals k firstFrontOnly fronts hk h
    have hne : individuals ≠ [] := by
      intro he
      rw [he, uniqueByFitness_nil] at hfits
      cases hfits
    obtain ⟨fits', dom', m', mlog', hfits', hdom', hm', hbm', _, hchar, _, _⟩ :=
      firstFront_phases individuals hne hwf
    rw [hfits] at hfits'
    simp only [Outcome.ok.injEq] at hfits'
    subst hfits'
    rw [hdom] at hdom'
    simp only [Outcome.ok.injEq] at hdom'
    subst hdom'
    rw [hm] at hm'
    simp only [Outcome.ok.injEq] at hm'
    subst hm'
    have hds : (dom.currentFront.flatMap fun u => bucket mlog' u.1) =
        dom.currentFront.flatMap fun u => bucket mlog u.1 := by
      congr 1
      funext u
      exact hbm'.bucket_unique hbm u.1
    rw [hds] at hchar
    rcases hshape with hnil | ⟨F0, _, hone⟩ | ⟨F0, F1, hF0, hF1, htwo⟩
    · subst hnil; simp at hi
    · subst hone
      cases j with
      | zero => omega
      | succ j => simp at hj
    · subst htwo
      have hj1 : j = 1 := by
        cases j with
        | zero => omega
        | succ j =>
          cases j with
          | zero => rfl
          | succ j => simp at hj
      subst hj1
      have hi0 : i = 0 := by omega
      subst hi0
      simp only [List.get?_cons_zero, List.get?_cons_succ, Option.some.injEq] at hi hj
      subst hi; subst hj
      obtain ⟨hmap0, hget0⟩ := collect_inv individuals B0 F0 hF0
      obtain ⟨_, hget1⟩ := collect_inv individuals B1 F1 hF1
      have hyB : (y.1 : Int) ∈ B0 := by
        rw [← hmap0]; exact List.mem_map.mpr ⟨y, hy, rfl⟩
      exact (hchar y.1 y.2 (hget0 y hy)).mp (hB0 _ hyB) x.2 (List.get?_mem (hget1 x hx))

end Deag

namespace Deag

/-! ## Crowding distance and selection -/

theorem Dist.lt_asymm' (a b : Dist) (h : Dist.lt a b = true) : Dist.lt b a = false := by
  cases a <;> cases b <;> simp only [Dist.lt, decide_eq_true_eq, decide_eq_false_iff_not] at h ⊢
  · exact not_lt.mpr (le_of_lt h)
  · cases h

theorem Dist.not_lt_trans (a b c : Dist) (h1 : Dist.lt a b = false) (h2 : Dist.lt b c = false) :
    Dist.lt a c = false := by
  cases a <;> cases b <;> cases c <;> simp [Dist.lt] at h1 h2 ⊢
  exact le_trans h2 h1

theorem addInterior_length (i : Nat) (norm : ℚ) :
    ∀ (rows : List (List ℚ × Nat)) (distances d : List Dist),
      addInterior i norm rows distances = Outcome.ok d → d.length = distances.length := by
  intro rows
  induction rows with
  | nil =>
    intro distances d h
    simp only [addInterior, Outcome.ok.injEq] at h
    rw [← h]
  | cons prev rest ih =>
    intro distances d h
    match rest, ih, h with
    | [], _, h =>
      simp only [addInterior, Outcome.ok.injEq] at h
      rw [← h]
    | [_], _, h =>
      simp only [addInterior, Outcome.ok.injEq] at h
      rw [← h]
    | cur :: next :: rest', ih, h =>
      simp only [addInterior] at h
      obtain ⟨_, _, h⟩ := Outcome.bind_eq_ok h
      obtain ⟨_, _, h⟩ := Outcome.bind_eq_ok h
      rw [ih _ _ h, List.length_set]

theorem crowdObjectives_length (popSize nobJ : Nat) :
    ∀ (todo i : Nat) (crowd : List (List ℚ × Nat)) (distances d : List Dist),
      crowdObjectives popSize nobJ todo i crowd distances = Outcome.ok d →
      d.length = distances.length := by
  intro todo
  induction todo with
  | zero =>
    intro i crowd distances d h
    simp only [crowdObjectives, Outcome.ok.injEq] at h
    rw [← h]
  | succ todo ih =>
    intro i crowd distances d h
    simp only [crowdObjectives] at h
    obtain ⟨sorted, _, h⟩ := Outcome.bind_eq_ok h
    split at h
    · obtain ⟨_, _, h⟩ := Outcome.bind_eq_ok h
      obtain ⟨_, _, h⟩ := Outcome.bind_eq_ok h
      split at h
      · rw [ih _ _ _ _ h, List.length_set, List.length_set]
      · split at h
        · cases h
        · obtain ⟨d', hd', h⟩ := Outcome.bind_eq_ok h
          rw [ih _ _ _ _ h, addInterior_length _ _ _ _ _ hd', List.length_set, List.length_set]
    · cases h

/-- A computed crowding distance has one score per individual. -/
theorem assignCrowdingDist_length (front : List Ref) (cds : List Dist)
    (h : assignCrowdingDist front = Outcome.ok cds) : cds.length = front.length := by
  cases front with
  | nil =>
    simp only [assignCrowdingDist, Outcome.ok.injEq] at h
    subst h; rfl
  | cons first rest =>
    simp only [assignCrowdingDist] at h
    obtain ⟨_, _, h⟩ := Outcome.bind_eq_ok h
    rw [crowdObjectives_length _ _ _ _ _ _ _ h, List.length_replicate]

theorem crowdingDistAll_getLast :
    ∀ (fronts : List (List Ref)) (cdsAll : List (List Dist)),
      crowdingDistAll fronts = Outcome.ok cdsAll →
      ∀ last, fronts.getLast? = some last →
        ∃ cds, cdsAll.getLast? = some cds ∧ assignCrowdingDist last = Outcome.ok cds := by
  intro fronts
  induction fronts with
  | nil => intro cdsAll _ last hl; simp at hl
  | cons front rest ih =>
    intro cdsAll h last hl
    simp only [crowdingDistAll] at h
    obtain ⟨cd, hcd, h⟩ := Outcome.bind_eq_ok h
    obtain ⟨cds, hcds, h⟩ := Outcome.bind_eq_ok h
    simp only [Outcome.ok.injEq] at h
    subst h
    cases rest with
    | nil =>
      simp only [crowdingDistAll, Outcome.ok.injEq] at hcds
      subst hcds
      simp only [List.getLast?_singleton, Option.some.injEq] at hl
      subst hl
      exact ⟨cd, by simp, hcd⟩
    | cons f2 rest' =>
      rw [List.getLast?_cons_cons] at hl
      obtain ⟨c, hc1, hc2⟩ := ih cds hcds last hl
      refine ⟨c, ?_, hc2⟩
      cases cds with
      | nil => simp at hc1
      | cons c0 cs => rw [List.getLast?_cons_cons]; exact hc1

/-- What `SelNSGA2` computes when it returns: the sorter and the crowding distances have
returned, there is a last front, and the selection is every front before the last followed,
when `k` exceeds their total size, by a prefix of the last front sorted by crowding
distance. -/
theorem SelNSGA2_unfold (fuel : Nat) (individuals : List Fitness) (k : Int)
    (chosen : List Ref) (h : SelNSGA2 fuel individuals k = Outcome.ok chosen) :
    ∃ (fronts : List (List Ref)) (last : List Ref) (cds : List Dist),
      sortNondominated fuel individuals k false = Outcome.ok fronts ∧
      fronts.getLast? = some last ∧ assignCrowdingDist last = Outcome.ok cds ∧
      ((k - ((fronts.dropLast.map List.length).sum : Nat) ≤ 0 ∧
          chosen = fronts.dropLast.flatten) ∨
        (0 < k - ((fronts.dropLast.map List.length).sum : Nat) ∧
          ∃ sorted, sortSort crowdingDistIndividualSorterLessReverse (last.zip cds) =
              Outcome.ok sorted ∧
            k - ((fronts.dropLast.map List.length).sum : Nat) ≤ sorted.length ∧
            chosen = fronts.dropLast.flatten ++
              (sorted.map Prod.fst).take
                (k - ((fronts.dropLast.map List.length).sum : Nat)).toNat)) := by
  simp only [SelNSGA2] at h
  obtain ⟨fronts, hfronts, h⟩ := Outcome.bind_eq_ok h
  obtain ⟨cdsAll, hcdsAll, h⟩ := Outcome.bind_eq_ok h
  split at h
  · cases h
  · rename_i hlen
    have hne : fronts ≠ [] := fun e => hlen (by rw [e]; rfl)
    have hlast : fronts.getLast? = some (fronts.getLast hne) := List.getLast?_eq_getLast _ hne
    obtain ⟨cds, hcds, hacd⟩ := crowdingDistAll_getLast fronts cdsAll hcdsAll _ hlast
    refine ⟨fronts, fronts.getLast hne, cds, hfronts, hlast, hacd, ?_⟩
    rw [← List.dropLast_eq_take] at h
    split at h
    · rename_i hpos
      right
      rw [hlast, hcds] at h
      simp only at h
      obtain ⟨sorted, hsorted, h⟩ := Outcome.bind_eq_ok h
      split at h
      · cases h
      · rename_i hle
        simp only [Outcome.ok.injEq] at h
        exact ⟨hpos, sorted, hsorted, by omega, h.symm⟩
    · rename_i hpos
      left
      simp only [Outcome.ok.injEq] at h
      exact ⟨by omega, h.symm⟩

end Deag

namespace Deag

theorem zip_map_fst_sublist {α β : Type} :
    ∀ (l : List α) (c : List β), ((l.zip c).map Prod.fst).Sublist l := by
  intro l
  induction l with
  | nil => intro c; simp
  | cons a l ih =>
    intro c
    cases c with
    | nil => simp
    | cons b c => simpa using (ih c).cons₂ a

theorem zip_map_fst_of_length {α β : Type} (l : List α) (c : List β)
    (h : c.length = l.length) : (l.zip c).map Prod.fst = l :=
  List.map_fst_zip l c (by omega)

/-- C9: when `SelNSGA2(pop, k)` returns, with `fronts` the result of the sorter: there is a
last front, each of its members has a crowding distance, and the members split into the
selected `sel` and the others `rest` so that the selection is every individual of every
front before the last followed by `sel`, `sel` has `k` minus the number already chosen
members (none when that is negative), and no member of `rest` has a strictly larger
crowding distance than a member of `sel`. -/
theorem SelNSGA2_selects_by_crowding (fuel : Nat) (individuals : List Fitness) (k : Int)
    (fronts : List (List Ref)) (chosen : List Ref)
    (hs : sortNondominated fuel individuals k false = Outcome.ok fronts)
    (h : SelNSGA2 fuel individuals k = Outcome.ok chosen) :
    ∃ (last : List Ref) (cds : List Dist) (sel rest : List (Ref × Dist)),
      fronts.getLast? = some last ∧ assignCrowdingDist last = Outcome.ok cds ∧
      cds.length = last.length ∧ (sel ++ rest).Perm (last.zip cds) ∧
      chosen = fronts.dropLast.flatten ++ sel.map Prod.fst ∧
      sel.length = (k - ((fronts.dropLast.map List.length).sum : Nat)).toNat ∧
      ∀ s ∈ sel, ∀ u ∈ rest, Dist.lt s.2 u.2 = false := by
  obtain ⟨fronts', last, cds, hs', hlast, hcds, hcases⟩ :=
    SelNSGA2_unfold fuel individuals k chosen h
  rw [hs] at hs'
  simp only [Outcome.ok.injEq] at hs'
  subst hs'
  have hlen := assignCrowdingDist_length last cds hcds
  rcases hcases with ⟨hle, hchosen⟩ | ⟨hpos, sorted, hsorted, hk, hchosen⟩
  · refine ⟨last, cds, [], last.zip cds, hlast, hcds, hlen, by simp, by simp [hchosen], ?_,
      by simp⟩
    simp only [List.length_nil]
    omega
  · have hperm := sortSort_perm _ _ _ hsorted
    have hord : sorted.Pairwise (fun a b => Dist.lt a.2 b.2 = false) := by
      apply sortSort_sorted crowdingDistIndividualSorterLessReverse
        (fun a b => Dist.lt a.2 b.2 = false)
        (fun a b c h1 h2 => Dist.not_lt_trans a.2 b.2 c.2 h1 h2) _ _ _ hsorted
      intro x _ y _ b hb
      simp only [crowdingDistIndividualSorterLessReverse, Outcome.ok.injEq] at hb
      subst hb
      exact ⟨fun ht => Dist.lt_asymm' _ _ ht, fun hf => hf⟩
    refine ⟨last, cds,
      sorted.take (k - ((fronts.dropLast.map List.length).sum : Nat)).toNat,
      sorted.drop (k - ((fronts.dropLast.map List.length).sum : Nat)).toNat,
      hlast, hcds, hlen, by rw [List.take_append_drop]; exact hperm,
      by rw [hchosen, List.map_take], ?_, ?_⟩
    · rw [List.length_take]
      omega
    · have := hord
      rw [← List.take_append_drop
        (k - ((fronts.dropLast.map List.length).sum : Nat)).toNat sorted] at this
      exact fun s hs u hu => (List.pairwise_append.mp this).2.2 s hs u hu

theorem nodup_selection (pre last tail l1 l2 : List Ref)
    (hnd : ((pre ++ last).map Prod.fst).Nodup) (h1 : tail.Sublist l1) (h2 : l1.Perm l2)
    (h3 : l2.Sublist last) :
    ((pre ++ tail).map Prod.fst).Nodup ∧ ∀ x ∈ pre ++ tail, x ∈ pre ++ last := by
  have hsubset : ∀ x ∈ tail, x ∈ last := fun x hx => h3.subset (h2.subset (h1.subset hx))
  rw [List.map_append, List.nodup_append] at hnd ⊢
  refine ⟨⟨hnd.1, ?_, ?_⟩, ?_⟩
  · have : (l1.map Prod.fst).Nodup :=
      (h2.map Prod.fst).nodup_iff.mpr (hnd.2.1.sublist (h3.map _))
    exact this.sublist (h1.map _)
  · intro a ha hb
    obtain ⟨x, hx, hxa⟩ := List.mem_map.mp hb
    exact hnd.2.2 ha (List.mem_map.mpr ⟨x, hsubset x hx, hxa⟩)
  · intro x hx
    rcases List.mem_append.mp hx with h | h
    · exact List.mem_append.mpr (Or.inl h)
    · exact List.mem_append.mpr (Or.inr (hsubset x h))

/-- C10: every element that `SelNSGA2(pop, k)` returns is the individual found at its
position of `pop`, and no position of `pop` is returned twice. -/
theorem SelNSGA2_members (fuel : Nat) (individuals : List Fitness) (k : Int)
    (chosen : List Ref) (h : SelNSGA2 fuel individuals k = Outcome.ok chosen) :
    (∀ x ∈ chosen, individuals.get? x.1 = some x.2) ∧ (chosen.map Prod.fst).Nodup := by
  obtain ⟨fronts, last, cds, hs, hlast, hcds, hcases⟩ :=
    SelNSGA2_unfold fuel individuals k chosen h
  have hk : k ≠ 0 := by
    intro hk
    simp only [sortNondominated, hk, if_true, Outcome.ok.injEq] at hs
    subst hs; simp at hlast
  obtain ⟨_, _, _, _, B0, B1, _, _, _, _, _, hnd, hshape⟩ :=
    sortNondominated_shape fuel individuals k false fronts hk hs
  have key : ∀ (pre : List Ref), fronts.dropLast.flatten = pre →
      ((pre ++ last).map Prod.fst).Nodup → (∀ x ∈ pre ++ last, individuals.get? x.1 = some x.2) →
      (∀ x ∈ chosen, individuals.get? x.1 = some x.2) ∧ (chosen.map Prod.fst).Nodup := by
    intro pre hpre hnd' hval
    rcases hcases with ⟨_, hchosen⟩ | ⟨_, sorted, hsorted, _, hchosen⟩
    · rw [hchosen, hpre]
      obtain ⟨h1, h2⟩ := nodup_selection pre last [] [] [] hnd' (List.Sublist.refl _)
        (List.Perm.refl _) (List.nil_sublist _)
      rw [List.append_nil] at h1 h2
      exact ⟨fun x hx => hval x (h2 x hx), h1⟩
    · have hperm := sortSort_perm _ _ _ hsorted
      obtain ⟨h1, h2⟩ := nodup_selection pre last
        ((sorted.map Prod.fst).take
          (k - ((fronts.dropLast.map List.length).sum : Nat)).toNat)
        (sorted.map Prod.fst) ((last.zip cds).map Prod.fst) hnd' (List.take_sublist _ _)
        (hperm.map _) (zip_map_fst_sublist last cds)
      rw [hchosen, hpre]
      exact ⟨fun x hx => hval x (h2 x hx), h1⟩
  have hcast : ∀ (F : List Ref) (B : List Int), F.map (fun x => (x.1 : Int)) = B →
      (F.map Prod.fst).map Int.ofNat = B := by
    intro F B hF
    rw [← hF, List.map_map]; rfl
  rcases hshape with hnil | ⟨F0, hF0, hone⟩ | ⟨F0, F1, hF0, hF1, htwo⟩
  · subst hnil; simp at hlast
  · subst hone
    simp only [List.getLast?_singleton, Option.some.injEq] at hlast
    subst hlast
    obtain ⟨hmap0, hget0⟩ := collect_inv individuals B0 F0 hF0
    apply key [] (by simp)
    · simp only [List.nil_append]
      have : ((F0.map Prod.fst).map Int.ofNat).Nodup := by
        rw [hcast F0 B0 hmap0]; exact (List.nodup_append.mp hnd).1
      exact this.of_map _
    · simpa using hget0
  · subst htwo
    have hl : [F0, F1].getLast? = some F1 := by simp
    rw [hl] at hlast
    simp only [Option.some.injEq] at hlast
    subst hlast
    obtain ⟨hmap0, hget0⟩ := collect_inv individuals B0 F0 hF0
    obtain ⟨hmap1, hget1⟩ := collect_inv individuals B1 F1 hF1
    apply key F0 (by simp)
    · have : (((F0 ++ F1).map Prod.fst).map Int.ofNat).Nodup := by
        rw [List.map_append, List.map_append, hcast F0 B0 hmap0, hcast F1 B1 hmap1]
        exact hnd
      exact this.of_map _
    · intro x hx
      rcases List.mem_append.mp hx with hx | hx
      · exact hget0 x hx
      · exact hget1 x hx

end Deag

namespace Deag

/-! ## Fuel -/

theorem peelLoop_mono (fits : List Ref) (m df : StaticLinkedList Nat) (fi : Nat) (N : Int) :
    ∀ (n extra : Nat) (cur : List Ref) (st st' : PeelState),
      peelLoop fits m df fi N n cur st = Outcome.ok st' →
      peelLoop fits m df fi N (n + extra) cur st = Outcome.ok st' := by
  intro n
  induction n with
  | zero =>
    intro extra cur st st' h
    simp only [peelLoop] at h
    split at h
    · cases h
    · rename_i hlt
      cases extra with
      | zero => simp only [peelLoop, hlt, if_false, Nat.add_zero]; exact h
      | succ e => simp only [Nat.zero_add, peelLoop, hlt, if_false]; exact h
  | succ n ih =>
    intro extra cur st st' h
    rw [Nat.add_right_comm]
    simp only [peelLoop] at h ⊢
    split
    · rename_i hlt
      simp only [hlt, if_true] at h
      obtain ⟨st1, hst1, h⟩ := Outcome.bind_eq_ok h
      rw [hst1, Outcome.ok_bind]
      exact ih extra _ _ _ h
    · rename_i hlt
      simp only [hlt, if_false] at h
      exact h

/-- A result obtained with some fuel is obtained with any larger fuel. -/
theorem sortNondominated_fuel_mono (n extra : Nat) (individuals : List Fitness) (k : Int)
    (firstFrontOnly : Bool) (fronts : List (List Ref))
    (h : sortNondominated n individuals k firstFrontOnly = Outcome.ok fronts) :
    sortNondominated (n + extra) individuals k firstFrontOnly = Outcome.ok fronts := by
  unfold sortNondominated at h ⊢
  split
  · rename_i hk; simp only [hk, if_true] at h; exact h
  · rename_i hk
    simp only [hk, if_false] at h
    obtain ⟨fits, hfits, h1⟩ := Outcome.bind_eq_ok h
    obtain ⟨dom, hdom, h2⟩ := Outcome.bind_eq_ok h1
    obtain ⟨m, hm, h3⟩ := Outcome.bind_eq_ok h2
    obtain ⟨fronts0, hext, h4⟩ := Outcome.bind_eq_ok h3
    obtain ⟨frontsF, hpeel, h5⟩ := Outcome.bind_eq_ok h4
    clear h h1 h2 h3 h4
    simp only [hfits, Outcome.ok_bind, hdom, hm, hext]
    cases firstFrontOnly with
    | true =>
      simp only [Bool.not_true, Bool.false_eq_true, if_false, Outcome.ok.injEq] at hpeel
      simp only [Bool.not_true, Bool.false_eq_true, if_false, Outcome.ok_bind, hpeel]
      exact h5
    | false =>
      simp only [Bool.not_false, if_true] at hpeel
      obtain ⟨st, hst, hpeel⟩ := Outcome.bind_eq_ok hpeel
      simp only [Outcome.ok.injEq] at hpeel
      simp only [Bool.not_false, if_true, peelLoop_mono _ _ _ _ _ n extra _ _ _ hst,
        Outcome.ok_bind, hpeel]
      exact h5

theorem SelNSGA2_fuel_mono (n extra : Nat) (individuals : List Fitness) (k : Int)
    (chosen : List Ref) (h : SelNSGA2 n individuals k = Outcome.ok chosen) :
    SelNSGA2 (n + extra) individuals k = Outcome.ok chosen := by
  unfold SelNSGA2 at h ⊢
  obtain ⟨fronts, hfronts, h⟩ := Outcome.bind_eq_ok h
  rw [sortNondominated_fuel_mono n extra individuals k false fronts hfronts, Outcome.ok_bind]
  exact h

/-! ## A peeling loop that cannot end -/

theorem peelLoop_empty_front (fits : List Ref) (m df : StaticLinkedList Nat) (fi : Nat)
    (N : Int) :
    ∀ (fuel : Nat) (st : PeelState), st.nextFront = [] → st.paretoSorted < N →
      peelLoop fits m df fi N fuel [] st = Outcome.outOfFuel := by
  intro fuel
  induction fuel with
  | zero => intro st _ hlt; simp [peelLoop, hlt]
  | succ fuel ih =>
    intro st hnf hlt
    simp only [peelLoop, hlt, if_true, peelFront, Outcome.ok_bind, hnf]
    exact ih _ rfl hlt

theorem peelLoop_stuck (fits : List Ref) (m df : StaticLinkedList Nat) (fi : Nat) (N : Int)
    (cur : List Ref) (st st1 : PeelState) (h0 : st.paretoSorted < N)
    (h1 : peelFront fits m df fi cur st = Outcome.ok st1) (h2 : st1.nextFront = [])
    (h3 : st1.paretoSorted < N) (fuel : Nat) :
    peelLoop fits m df fi N fuel cur st = Outcome.outOfFuel := by
  cases fuel with
  | zero => simp [peelLoop, h0]
  | succ fuel =>
    simp only [peelLoop, h0, if_true, h1, Outcome.ok_bind, h2]
    exact peelLoop_empty_front fits m df fi N fuel _ rfl h3

/-- When the criterion `peelStuck` holds, `sortNondominated(pop, k, false)` does not return,
whatever the fuel. -/
theorem peelStuck_sound (individuals : List Fitness) (k : Int) (hk : k ≠ 0)
    (h : peelStuck individuals k = true) (fuel : Nat) :
    sortNondominated fuel individuals k false = Outcome.outOfFuel := by
  unfold peelStuck at h
  split at h
  · rename_i fits hfits
    split at h
    · rename_i dom hdom
      split at h
      · rename_i m hm
        split at h
        · rename_i fronts0 hext
          split at h
          · rename_i st1 hst1
            simp only [Bool.and_eq_true, decide_eq_true_eq] at h
            obtain ⟨⟨h0, h2⟩, h3⟩ := h
            simp only [sortNondominated, hk, if_false, hfits, Outcome.ok_bind, hdom, hm, hext,
              Bool.not_false, if_true]
            rw [peelLoop_stuck _ _ _ _ _ _ _ st1 h0 hst1 h2 h3 fuel]
            rfl
          · cases h
        · cases h
      · cases h
    · cases h
  · cases h

end Deag

namespace Deag

/-! ## Claims settled on concrete inputs, and witnesses -/

/-- Example of `Dominates_iff_pareto` on `B = (2, 3)` and `C = (4, 4)` of the minimisation
example. -/
theorem Dominates_iff_pareto_witness :
    fitB.wvalues.length = fitC.wvalues.length ∧
    ((∃ r, fitB.Dominates fitC none = Outcome.ok r ∧
      (r = true ↔
        (∀ i, i < fitB.wvalues.length → fitC.wvalues.getD i 0 ≤ fitB.wvalues.getD i 0) ∧
          ∃ i, i < fitB.wvalues.length ∧ fitC.wvalues.getD i 0 < fitB.wvalues.getD i 0)) ∧
    ∀ obj : List Int, (∀ i ∈ obj, 0 ≤ i ∧ i < fitB.wvalues.length) →
      ∃ r, fitB.Dominates fitC (some obj) = Outcome.ok r ∧
        (r = true ↔
          (∀ i ∈ obj, fitC.wvalues.getD i.toNat 0 ≤ fitB.wvalues.getD i.toNat 0) ∧
            ∃ i ∈ obj, fitC.wvalues.getD i.toNat 0 < fitB.wvalues.getD i.toNat 0)) :=
  ⟨by decide, Dominates_iff_pareto fitB fitC (by decide)⟩

/-- Example of `sortNondominated_firstFrontOnly` on the population `[A, B, C]` with
`k = 3`. -/
theorem sortNondominated_firstFrontOnly_witness :
    popABC ≠ [] ∧ (∀ f ∈ popABC, f.Evaluated 2) ∧ (1 : Int) ≤ 3 ∧
    ∃ front, sortNondominated 0 popABC 3 true = Outcome.ok [front] ∧
      (front.map Prod.fst).Nodup ∧
      ∀ p f, (p, f) ∈ front ↔
        (popABC.get? p = some f ∧ ∀ g ∈ popABC, g.Dominates f none ≠ Outcome.ok true) :=
  ⟨by decide, by decide, by decide,
    sortNondominated_firstFrontOnly 0 popABC 3 2 (by decide) (by decide) (by decide)⟩

/-- C3: on the population `A = (1, 5)`, `B = (2, 3)`, `C = (4, 4)` with weights `(-1, -1)`
the call `sortNondominated([A, B, C], 3, false)` does not return `[[A, B], [C]]`: the
peeling loop never ranks `C`, so the call runs out of every fuel. -/
theorem sortNondominated_ABC_diverges :
    ∀ fuel, sortNondominated fuel popABC 3 false = Outcome.outOfFuel :=
  fun fuel => peelStuck_sound popABC 3 (by decide) (by decide!) fuel

/-- C4: on the population of two single-objective individuals with values 1 and 2 and
`k = 2 = N`, `sortNondominated(pop, k, false)` returns no fronts at all: it runs out of
every fuel. -/
theorem sortNondominated_pair_diverges :
    ∀ fuel, sortNondominated fuel [fitMax 1, fitMax 2] 2 false = Outcome.outOfFuel :=
  fun fuel => peelStuck_sound [fitMax 1, fitMax 2] 2 (by decide) (by decide!) fuel

/-- C5: on the population `[B, C, C]` (`B` dominates `C`) with `k = 2` the peeling loop of
`sortNondominated(pop, k, false)` stays at one ranked individual and never reaches
`min(k, len(pop)) = 2`: the call runs out of every fuel. -/
theorem sortNondominated_target_not_reached :
    ∀ fuel, sortNondominated fuel [fitB, fitC, fitC] 2 false = Outcome.outOfFuel :=
  fun fuel => peelStuck_sound [fitB, fitC, fitC] 2 (by decide) (by decide!) fuel

/-- Witness of C6 on the single-objective population with values 1, 2, 3, 4 and `k = 3`. -/
theorem sortNondominated_front_order_witness :
    (∀ f ∈ popFour, f.Evaluated 1) ∧
    sortNondominated 2 popFour 3 false =
      Outcome.ok [[(3, fitMax 4)], [(1, fitMax 2), (2, fitMax 3)]] ∧
    ∀ i j, i < j → ∀ Fi Fj,
      [[(3, fitMax 4)], [(1, fitMax 2), (2, fitMax 3)]].get? i = some Fi →
      [[(3, fitMax 4)], [(1, fitMax 2), (2, fitMax 3)]].get? j = some Fj →
      ∀ x ∈ Fj, ∀ y ∈ Fi, x.2.Dominates y.2 none ≠ Outcome.ok true :=
  ⟨by decide, by decide!,
    sortNondominated_front_order 2 popFour 3 false 1 (by decide)
      [[(3, fitMax 4)], [(1, fitMax 2), (2, fitMax 3)]] (by decide!)⟩

/-- C7: on the single-objective population with values 1, 2, 3, 4 and `k = 3`, with any fuel
of at least 2, `sortNondominated(pop, k, false)` returns the fronts `[[4], [2, 3]]`: the
second front holds the individuals with values 2 and 3, and the one with value 3 dominates
the one with value 2. -/
theorem sortNondominated_front_not_mutually_nondominated :
    (∀ extra, sortNondominated (2 + extra) popFour 3 false =
      Outcome.ok [[(3, fitMax 4)], [(1, fitMax 2), (2, fitMax 3)]]) ∧
    (fitMax 3).Dominates (fitMax 2) none = Outcome.ok true :=
  ⟨fun extra => sortNondominated_fuel_mono 2 extra popFour 3 false _ (by decide!), by decide!⟩

/-- C8: for `k = 0`, which satisfies `0 <= k <= len(pop)` for every population,
`SelNSGA2(pop, k)` returns no selection: the sorter returns no front and slicing
`paretoFronts[:paretoFrontSize-1]` panics. -/
theorem SelNSGA2_zero_panics (fuel : Nat) (individuals : List Fitness) :
    SelNSGA2 fuel individuals 0 = Outcome.panic := by
  simp [SelNSGA2, sortNondominated, crowdingDistAll, Outcome.bind]

/-- Witness of C9 on the population of eight with `k = 3`: the first front has five members
and the three with the largest crowding distance are selected. -/
theorem SelNSGA2_selects_by_crowding_witness :
    sortNondominated 0 popEight 3 false =
      Outcome.ok [[(0, fitMin2 1 9), (1, fitMin2 2 7), (2, fitMin2 3 6), (3, fitMin2 5 4),
        (4, fitMin2 8 1)]] ∧
    SelNSGA2 0 popEight 3 = Outcome.ok [(0, fitMin2 1 9), (4, fitMin2 8 1), (3, fitMin2 5 4)] ∧
    ∃ (last : List Ref) (cds : List Dist) (sel rest : List (Ref × Dist)),
      [[(0, fitMin2 1 9), (1, fitMin2 2 7), (2, fitMin2 3 6), (3, fitMin2 5 4),
        (4, fitMin2 8 1)]].getLast? = some last ∧
      assignCrowdingDist last = Outcome.ok cds ∧
      cds.length = last.length ∧ (sel ++ rest).Perm (last.zip cds) ∧
      [(0, fitMin2 1 9), (4, fitMin2 8 1), (3, fitMin2 5 4)] =
        [[(0, fitMin2 1 9), (1, fitMin2 2 7), (2, fitMin2 3 6), (3, fitMin2 5 4),
          (4, fitMin2 8 1)]].dropLast.flatten ++ sel.map Prod.fst ∧
      sel.length = ((3 : Int) - (([[(0, fitMin2 1 9), (1, fitMin2 2 7), (2, fitMin2 3 6),
        (3, fitMin2 5 4), (4, fitMin2 8 1)]].dropLast.map List.length).sum : Nat)).toNat ∧
      ∀ s ∈ sel, ∀ u ∈ rest, Dist.lt s.2 u.2 = false :=
  ⟨by decide!, by decide!,
    SelNSGA2_selects_by_crowding 0 popEight 3 _ _ (by decide!) (by decide!)⟩

/-- Witness of C10 on the population of eight with `k = 6`: two fronts are returned and six
individuals at six different positions are selected. -/
theorem SelNSGA2_members_witness :
    SelNSGA2 1 popEight 6 =
      Outcome.ok [(0, fitMin2 1 9), (1, fitMin2 2 7), (2, fitMin2 3 6), (3, fitMin2 5 4),
        (4, fitMin2 8 1), (6, fitMin2 2 8)] ∧
    (∀ x ∈ [(0, fitMin2 1 9), (1, fitMin2 2 7), (2, fitMin2 3 6), (3, fitMin2 5 4),
        (4, fitMin2 8 1), (6, fitMin2 2 8)], popEight.get? x.1 = some x.2) ∧
    ([(0, fitMin2 1 9), (1, fitMin2 2 7), (2, fitMin2 3 6), (3, fitMin2 5 4),
        (4, fitMin2 8 1), (6, fitMin2 2 8)].map Prod.fst).Nodup :=
  ⟨by decide!, SelNSGA2_members 1 popEight 6 _ (by decide!)⟩

end Deag

namespace Deag

/-! ## Crowding distance: rows and sorting -/

theorem getValuesFrom_total (wvalues : List ℚ) :
    ∀ (ws : List ℚ) (i : Nat), i + ws.length ≤ wvalues.length →
      ∃ vs, Fitness.getValuesFrom wvalues ws i = Outcome.ok vs ∧ vs.length = ws.length := by
  intro ws
  induction ws with
  | nil => intro i _; exact ⟨[], rfl, rfl⟩
  | cons w ws ih =>
    intro i h
    have hi : i < wvalues.length := by simp at h; omega
    obtain ⟨vs, hvs, hlen⟩ := ih (i + 1) (by simp at h; omega)
    refine ⟨wvalues.get ⟨i, hi⟩ / w :: vs, ?_, by simp [hlen]⟩
    simp only [Fitness.getValuesFrom, List.get?_eq_get hi, hvs]

theorem GetValues_total {M : Nat} {f : Fitness} (h : f.Evaluated M) :
    ∃ vs, f.GetValues = Outcome.ok vs ∧ vs.length = M := by
  obtain ⟨vs, hvs, hlen⟩ := getValuesFrom_total f.wvalues f.weights 0 (by rw [h.1, h.2]; omega)
  exact ⟨vs, hvs, by rw [hlen, h.1]⟩

theorem objRow_of_get {M : Nat} (front : List Ref) (p : Nat) (x : Ref)
    (hx : front.get? p = some x) (hf : x.2.Evaluated M) :
    x.2.GetValues = Outcome.ok (objRow front p) ∧ (objRow front p).length = M := by
  obtain ⟨vs, hvs, hlen⟩ := GetValues_total hf
  have : objRow front p = vs := by simp only [objRow, hx, hvs]
  rw [this]
  exact ⟨hvs, hlen⟩

theorem crowdRows_spec {M : Nat} (front : List Ref) (hf : ∀ x ∈ front, x.2.Evaluated M) :
    ∀ (l : List Ref) (k : Nat), (∀ j x, l.get? j = some x → front.get? (k + j) = some x) →
      crowdRows l k = Outcome.ok ((List.range' k l.length).map fun p => (objRow front p, p)) := by
  intro l
  induction l with
  | nil => intro k _; rfl
  | cons x rest ih =>
    intro k h
    have hx : front.get? k = some x := by simpa using h 0 x rfl
    have hmem : x ∈ front := List.get?_mem hx
    obtain ⟨hv, _⟩ := objRow_of_get front k x hx (hf x hmem)
    have hrest := ih (k + 1) (fun j y hy => by
      have := h (j + 1) y (by simpa using hy)
      rwa [show k + 1 + j = k + (j + 1) by omega])
    simp only [crowdRows, hv, hrest, Outcome.ok_bind, List.length_cons, List.range'_succ,
      List.map_cons]

theorem crowdRows_start {M : Nat} (front : List Ref) (hf : ∀ x ∈ front, x.2.Evaluated M) :
    crowdRows front 0 = Outcome.ok (crowdStart front) := by
  rw [crowdRows_spec front hf front 0 (fun j x hx => by simpa using hx), crowdStart,
    List.range_eq_range']

theorem crowdStart_snd (front : List Ref) :
    (crowdStart front).map Prod.snd = List.range front.length := by
  simp [crowdStart, Function.comp_def]

theorem mem_crowdStart (front : List Ref) (r : List ℚ × Nat) :
    r ∈ crowdStart front ↔ r.2 < front.length ∧ r.1 = objRow front r.2 := by
  simp only [crowdStart, List.mem_map, List.mem_range]
  constructor
  · rintro ⟨p, hp, rfl⟩; exact ⟨hp, rfl⟩
  · rintro ⟨hp, hr⟩; exact ⟨r.2, hp, by rw [← hr]⟩

theorem objRow_length {M : Nat} (front : List Ref) (hf : ∀ x ∈ front, x.2.Evaluated M)
    (p : Nat) (hp : p < front.length) : (objRow front p).length = M := by
  have hx : front.get? p = some (front.get ⟨p, hp⟩) := List.get?_eq_get hp
  exact (objRow_of_get front p _ hx (hf _ (List.get_mem _ _ _))).2

/-- Column `i` of a row. -/
theorem index_row (row : List ℚ) (i : Nat) (h : i < row.length) :
    index row (i : Int) = Outcome.ok (row.getD i 0) := by
  apply index_natCast_some
  rw [List.get?_eq_get h, List.getD_eq_getElem _ _ h]
  rfl

theorem crowdLess_spec (i : Nat) (x y : List ℚ × Nat) (hx : i < x.1.length)
    (hy : i < y.1.length) :
    crowdingDistSorterLess i x y = Outcome.ok (decide (x.1.getD i 0 < y.1.getD i 0)) := by
  simp only [crowdingDistSorterLess, index_row _ _ hx, index_row _ _ hy, Outcome.ok_bind]

theorem crowdSort_spec (i : Nat) (crowd : List (List ℚ × Nat))
    (hrows : ∀ r ∈ crowd, i < r.1.length) :
    ∃ sorted, sortSort (crowdingDistSorterLess i) crowd = Outcome.ok sorted ∧
      sorted.Perm crowd ∧ sorted.Pairwise (fun a b => a.1.getD i 0 ≤ b.1.getD i 0) := by
  obtain ⟨sorted, hs⟩ := sortSort_total (crowdingDistSorterLess i) crowd
    (fun x hx y hy => ⟨_, crowdLess_spec i x y (hrows x hx) (hrows y hy)⟩)
  refine ⟨sorted, hs, sortSort_perm _ _ _ hs, ?_⟩
  apply sortSort_sorted (crowdingDistSorterLess i)
    (fun a b : List ℚ × Nat => a.1.getD i 0 ≤ b.1.getD i 0) (fun a b c => le_trans) crowd sorted
    _ hs
  intro x hx y hy b hb
  rw [crowdLess_spec i x y (hrows x hx) (hrows y hy)] at hb
  simp only [Outcome.ok.injEq] at hb
  subst hb
  constructor
  · intro h; exact le_of_lt (by simpa using h)
  · intro h; exact not_lt.mp (by simpa using h)

end Deag

namespace Deag

/-! ## Crowding distance: the interior loop -/

theorem Dist.getD_set_ne (d : List Dist) (a q : Nat) (v : Dist) (h : a ≠ q) :
    (d.set a v).get? q = d.get? q := by
  simp [List.getElem?_set_ne h]

theorem Dist.getD_set_self (d : List Dist) (a : Nat) (v : Dist) (h : a < d.length) :
    (d.set a v).get? a = some v := by
  simp [List.getElem?_set_self h]

theorem addInterior_spec (i : Nat) (norm : ℚ) :
    ∀ (rows : List (List ℚ × Nat)) (d : List Dist), (∀ r ∈ rows, i < r.1.length) →
      ∃ d', addInterior i norm rows d = Outcome.ok d' ∧ d'.length = d.length ∧
        (∀ q, d.get? q = some Dist.inf → d'.get? q = some Dist.inf) ∧
        (∀ q, q ∉ rows.tail.map Prod.snd → d'.get? q = d.get? q) := by
  intro rows
  induction rows with
  | nil => intro d _; exact ⟨d, rfl, rfl, fun _ h => h, fun _ _ => rfl⟩
  | cons prev rest ih =>
    intro d hrows
    match rest, ih, hrows with
    | [], _, _ => exact ⟨d, rfl, rfl, fun _ h => h, fun _ _ => rfl⟩
    | [_], _, _ => exact ⟨d, rfl, rfl, fun _ h => h, fun _ _ => rfl⟩
    | cur :: next :: rest', ih, hrows =>
      have hn : i < next.1.length := hrows next (by simp)
      have hp : i < prev.1.length := hrows prev (by simp)
      obtain ⟨d', hd', hlen, hinf, hframe⟩ :=
        ih (d.set cur.2 ((d.getD cur.2 (Dist.fin 0)).add
          ((next.1.getD i 0 - prev.1.getD i 0) / norm)))
          (fun r hr => hrows r (List.mem_cons_of_mem _ hr))
      refine ⟨d', ?_, by rw [hlen, List.length_set], ?_, ?_⟩
      · simp only [addInterior, index_row _ _ hn, index_row _ _ hp, Outcome.ok_bind, hd']
      · intro q hq
        apply hinf
        by_cases hc : cur.2 = q
        · subst hc
          have hlt : cur.2 < d.length := by
            by_contra hge
            rw [List.get?_eq_none.mpr (by omega)] at hq
            cases hq
          rw [Dist.getD_set_self _ _ _ hlt]
          have : d.getD cur.2 (Dist.fin 0) = Dist.inf := by
            rw [List.getD_eq_getElem?_getD, ← List.get?_eq_getElem?, hq]; rfl
          rw [this]; rfl
        · rw [Dist.getD_set_ne _ _ _ _ hc]; exact hq
      · intro q hq
        have hq' : q ≠ cur.2 ∧ q ∉ (next :: rest').map Prod.snd := by
          simpa [not_or] using hq
        rw [hframe q (by simpa using hq'.2), Dist.getD_set_ne _ _ _ _ (Ne.symm hq'.1)]

theorem addInterior_interior (i : Nat) (norm : ℚ) :
    ∀ (rows : List (List ℚ × Nat)) (d d' : List Dist), (rows.map Prod.snd).Nodup →
      (∀ r ∈ rows, r.2 < d.length) → (∀ r ∈ rows, i < r.1.length) →
      addInterior i norm rows d = Outcome.ok d' →
      ∀ (j : Nat) (pr cu nx : List ℚ × Nat), rows.get? j = some pr →
        rows.get? (j + 1) = some cu → rows.get? (j + 2) = some nx →
        d'.get? cu.2 = some ((d.getD cu.2 (Dist.fin 0)).add
          ((nx.1.getD i 0 - pr.1.getD i 0) / norm)) := by
  intro rows
  induction rows with
  | nil => intro d d' _ _ _ _ j pr cu nx h; simp at h
  | cons prev rest ih =>
    intro d d' hnd hpos hrows h j pr cu nx hpr hcu hnx
    match rest, ih, hnd, hpos, hrows, h, hcu, hnx with
    | [], _, _, _, _, _, hcu, _ => simp at hcu
    | [_], _, _, _, _, _, _, hnx => simp at hnx
    | cur :: next :: rest', ih, hnd, hpos, hrows, h, hcu, hnx =>
      have hn : i < next.1.length := hrows next (by simp)
      have hp : i < prev.1.length := hrows prev (by simp)
      simp only [addInterior, index_row _ _ hn, index_row _ _ hp, Outcome.ok_bind] at h
      have hnd' : ((cur :: next :: rest').map Prod.snd).Nodup := by
        simp only [List.map_cons, List.nodup_cons] at hnd ⊢
        exact hnd.2
      have hcur : cur.2 < d.length := hpos cur (by simp)
      obtain ⟨d2, hd2, _, _, hframe⟩ := addInterior_spec i norm (cur :: next :: rest')
        (d.set cur.2 ((d.getD cur.2 (Dist.fin 0)).add
          ((next.1.getD i 0 - prev.1.getD i 0) / norm)))
        (fun r hr => hrows r (List.mem_cons_of_mem _ hr))
      rw [h] at hd2
      simp only [Outcome.ok.injEq] at hd2
      subst hd2
      cases j with
      | zero =>
        simp only [List.get?_cons_zero, List.get?_cons_succ, Option.some.injEq] at hpr hcu hnx
        rw [← hpr, ← hcu, ← hnx]
        have hnot : cur.2 ∉ (cur :: next :: rest').tail.map Prod.snd := by
          simp only [List.map_cons, List.nodup_cons] at hnd'
          simpa using hnd'.1
        rw [hframe cur.2 hnot, Dist.getD_set_self _ _ _ hcur]
      | succ j =>
        have hne : cur.2 ≠ cu.2 := by
          have hmem : cu ∈ next :: rest' := by
            have : (next :: rest').get? j = some cu := by simpa using hcu
            exact List.get?_mem this
          simp only [List.map_cons, List.nodup_cons] at hnd'
          intro he
          apply hnd'.1
          rw [he]
          exact List.mem_map_of_mem Prod.snd hmem
        have := ih _ d' hnd' (fun r hr => by
            rw [List.length_set]; exact hpos r (List.mem_cons_of_mem _ hr))
          (fun r hr => hrows r (List.mem_cons_of_mem _ hr)) h j pr cu nx
          (by simpa using hpr) (by simpa using hcu) (by simpa using hnx)
        rw [this]
        congr 2
        simp [List.getD_eq_getElem?_getD, List.getElem?_set_ne hne]

end Deag

namespace Deag

/-! ## Crowding distance: one objective at a time -/

theorem pairwise_head_le {α : Type} (le : α → α → Prop) (hrefl : ∀ a, le a a) (l : List α)
    (first : α) (hh : l.head? = some first) (hp : l.Pairwise le) : ∀ r ∈ l, le first r := by
  cases l with
  | nil => cases hh
  | cons a tl =>
    simp only [List.head?_cons, Option.some.injEq] at hh
    subst hh
    intro r hr
    rcases List.mem_cons.mp hr with rfl | hr
    · exact hrefl _
    · exact List.rel_of_pairwise_cons hp hr

theorem pairwise_le_last {α : Type} (le : α → α → Prop) (hrefl : ∀ a, le a a) (l : List α)
    (last : α) (hl : l.getLast? = some last) (hp : l.Pairwise le) : ∀ r ∈ l, le r last := by
  have hsplit : l.dropLast ++ [last] = l := List.dropLast_append_getLast? last hl
  rw [← hsplit] at hp
  intro r hr
  rw [← hsplit] at hr
  rcases List.mem_append.mp hr with hr | hr
  · exact (List.pairwise_append.mp hp).2.2 r hr last (by simp)
  · simp only [List.mem_singleton] at hr
    subst hr
    exact hrefl _

theorem set_inf_keeps (d : List Dist) (a q : Nat) (h : d.get? q = some Dist.inf) :
    (d.set a Dist.inf).get? q = some Dist.inf := by
  by_cases hc : a = q
  · subst hc
    have hlt : a < d.length := by
      by_contra hge
      rw [List.get?_eq_none.mpr (by omega)] at h
      cases h
    exact Dist.getD_set_self _ _ _ hlt
  · rw [Dist.getD_set_ne _ _ _ _ hc]; exact h

/-- One round of the objective loop: sort by objective `i`, mark the two ends, add the
interior contributions unless the range is zero, and go on with the next objective. -/
theorem crowdObjectives_step (popSize nobJ todo i : Nat) (crowd sorted : List (List ℚ × Nat))
    (d : List Dist) (first last : List ℚ × Nat)
    (hs : sortSort (crowdingDistSorterLess i) crowd = Outcome.ok sorted)
    (hh : sorted.head? = some first) (hl : sorted.getLast? = some last)
    (hrows : ∀ r ∈ sorted, i < r.1.length)
    (hpop : last.1.getD i 0 - first.1.getD i 0 ≠ 0 → 2 ≤ popSize) :
    ∃ dn, crowdObjectives popSize nobJ (todo + 1) i crowd d =
        crowdObjectives popSize nobJ todo (i + 1) sorted dn ∧
      (last.1.getD i 0 - first.1.getD i 0 = 0 →
        dn = (d.set first.2 Dist.inf).set last.2 Dist.inf) ∧
      (last.1.getD i 0 - first.1.getD i 0 ≠ 0 →
        addInterior i ((nobJ : ℚ) * (last.1.getD i 0 - first.1.getD i 0)) sorted
          ((d.set first.2 Dist.inf).set last.2 Dist.inf) = Outcome.ok dn) := by
  have hf : i < first.1.length := hrows first (List.mem_of_mem_head? hh)
  have hla : i < last.1.length := hrows last (List.mem_of_mem_getLast? hl)
  by_cases hdiff : last.1.getD i 0 - first.1.getD i 0 = 0
  · refine ⟨(d.set first.2 Dist.inf).set last.2 Dist.inf, ?_, fun _ => rfl,
      fun hne => absurd hdiff hne⟩
    simp only [crowdObjectives, hs, Outcome.ok_bind, hh, hl, index_row _ _ hf,
      index_row _ _ hla, hdiff, if_true]
  · obtain ⟨dn, hdn, _⟩ := addInterior_spec i
      ((nobJ : ℚ) * (last.1.getD i 0 - first.1.getD i 0)) sorted
      ((d.set first.2 Dist.inf).set last.2 Dist.inf) hrows
    have h2 : ¬ popSize < 2 := by have := hpop hdiff; omega
    refine ⟨dn, ?_, fun he => absurd he hdiff, fun _ => hdn⟩
    simp only [crowdObjectives, hs, Outcome.ok_bind, hh, hl, index_row _ _ hf,
      index_row _ _ hla, hdiff, if_false, h2, hdn]

/-- What the rows of a front look like at the start of a round. -/
theorem crowd_rows {M : Nat} (front : List Ref) (hf : ∀ x ∈ front, x.2.Evaluated M)
    (crowd : List (List ℚ × Nat)) (hperm : crowd.Perm (crowdStart front)) :
    (∀ r ∈ crowd, r.2 < front.length ∧ r.1 = objRow front r.2 ∧ r.1.length = M) ∧
      (∀ p, p < front.length → (objRow front p, p) ∈ crowd) ∧
      (crowd.map Prod.snd).Nodup ∧ crowd.length = front.length := by
  refine ⟨?_, ?_, ?_, ?_⟩
  · intro r hr
    obtain ⟨h1, h2⟩ := (mem_crowdStart front r).mp (hperm.mem_iff.mp hr)
    exact ⟨h1, h2, by rw [h2]; exact objRow_length front hf _ h1⟩
  · intro p hp
    exact hperm.mem_iff.mpr ((mem_crowdStart front _).mpr ⟨hp, rfl⟩)
  · rw [(hperm.map Prod.snd).nodup_iff, crowdStart_snd]
    exact List.nodup_range _
  · rw [hperm.length_eq, crowdStart, List.length_map, List.length_range]

theorem crowdObjectives_extremes {M : Nat} (nobJ : Nat) (front : List Ref)
    (hf : ∀ x ∈ front, x.2.Evaluated M) (hne : 1 ≤ front.length) :
    ∀ (todo i : Nat) (crowd : List (List ℚ × Nat)) (d : List Dist),
      crowd.Perm (crowdStart front) → d.length = front.length → i + todo ≤ M →
      ∃ d', crowdObjectives front.length nobJ todo i crowd d = Outcome.ok d' ∧
        d'.length = front.length ∧
        (∀ q, d.get? q = some Dist.inf → d'.get? q = some Dist.inf) ∧
        (∀ m, i ≤ m → m < i + todo →
          ∃ lo hi, lo < front.length ∧ hi < front.length ∧
            (∀ q, q < front.length → objValue front m lo ≤ objValue front m q) ∧
            (∀ q, q < front.length → objValue front m q ≤ objValue front m hi) ∧
            d'.get? lo = some Dist.inf ∧ d'.get? hi = some Dist.inf) := by
  intro todo
  induction todo with
  | zero =>
    intro i crowd d _ hd _
    exact ⟨d, rfl, hd, fun _ h => h, fun m h1 h2 => by omega⟩
  | succ todo ih =>
    intro i crowd d hperm hd hi
    obtain ⟨hmem, _, _, _⟩ := crowd_rows front hf crowd hperm
    obtain ⟨sorted, hs, hsp, hpw⟩ := crowdSort_spec i crowd
      (fun r hr => by rw [(hmem r hr).2.2]; omega)
    have hperm' : sorted.Perm (crowdStart front) := hsp.trans hperm
    obtain ⟨hmem', hall, _, hlen⟩ := crowd_rows front hf sorted hperm'
    have hrows : ∀ r ∈ sorted, i < r.1.length := fun r hr => by rw [(hmem' r hr).2.2]; omega
    have hnil : sorted ≠ [] := by
      intro he; rw [he] at hlen; simp at hlen; omega
    obtain ⟨first, hh⟩ : ∃ first, sorted.head? = some first := by
      cases sorted with
      | nil => exact absurd rfl hnil
      | cons a tl => exact ⟨a, rfl⟩
    obtain ⟨last, hl⟩ : ∃ last, sorted.getLast? = some last :=
      ⟨sorted.getLast hnil, List.getLast?_eq_getLast _ hnil⟩
    have hfm : first ∈ sorted := List.mem_of_mem_head? hh
    have hlm : last ∈ sorted := List.mem_of_mem_getLast? hl
    have hpop : last.1.getD i 0 - first.1.getD i 0 ≠ 0 → 2 ≤ front.length := by
      intro hdiff
      by_contra hlt
      have h1 : sorted.length = 1 := by omega
      obtain ⟨a, ha⟩ := List.length_eq_one.mp h1
      rw [ha] at hh hl
      simp only [List.head?_cons, List.getLast?_singleton, Option.some.injEq] at hh hl
      apply hdiff
      rw [← hh, ← hl]; simp
    obtain ⟨dn, hstep, hzero, hnz⟩ :=
      crowdObjectives_step front.length nobJ todo i crowd sorted d first last hs hh hl hrows hpop
    have hmarkLen : ((d.set first.2 Dist.inf).set last.2 Dist.inf).length = front.length := by
      rw [List.length_set, List.length_set, hd]
    have hdn : dn.length = front.length ∧
        ∀ q, ((d.set first.2 Dist.inf).set last.2 Dist.inf).get? q = some Dist.inf →
          dn.get? q = some Dist.inf := by
      by_cases hdiff : last.1.getD i 0 - first.1.getD i 0 = 0
      · rw [hzero hdiff]; exact ⟨hmarkLen, fun _ h => h⟩
      · obtain ⟨d2, hd2, hl2, hinf2, _⟩ := addInterior_spec i
          ((nobJ : ℚ) * (last.1.getD i 0 - first.1.getD i 0)) sorted
          ((d.set first.2 Dist.inf).set last.2 Dist.inf) hrows
        rw [hnz hdiff] at hd2
        simp only [Outcome.ok.injEq] at hd2
        subst hd2
        exact ⟨by rw [hl2, hmarkLen], hinf2⟩
    obtain ⟨d', hd', hlen', hinf', hext'⟩ := ih (i + 1) sorted dn hperm' hdn.1 (by omega)
    refine ⟨d', by rw [hstep, hd'], hlen', ?_, ?_⟩
    · intro q hq
      exact hinf' q (hdn.2 q (set_inf_keeps _ _ _ (set_inf_keeps _ _ _ hq)))
    · intro m hm1 hm2
      by_cases hmi : m = i
      · subst hmi
        have hval : ∀ r ∈ sorted, objValue front m r.2 = r.1.getD m 0 := by
          intro r hr; rw [objValue, ← (hmem' r hr).2.1]
        have hfl : first.2 < d.length := by rw [hd]; exact (hmem' first hfm).1
        have hll : last.2 < d.length := by rw [hd]; exact (hmem' last hlm).1
        refine ⟨first.2, last.2, (hmem' first hfm).1, (hmem' last hlm).1, ?_, ?_, ?_, ?_⟩
        · intro q hq
          have := pairwise_head_le (fun a b : List ℚ × Nat => a.1.getD m 0 ≤ b.1.getD m 0)
            (fun a => le_refl _) sorted first hh hpw _ (hall q hq)
          rw [hval first hfm]
          exact this
        · intro q hq
          have := pairwise_le_last (fun a b : List ℚ × Nat => a.1.getD m 0 ≤ b.1.getD m 0)
            (fun a => le_refl _) sorted last hl hpw _ (hall q hq)
          rw [hval last hlm]
          exact this
        · apply hinf'; apply hdn.2
          apply set_inf_keeps
          exact Dist.getD_set_self _ _ _ hfl
        · apply hinf'; apply hdn.2
          exact Dist.getD_set_self _ _ _ (by rw [List.length_set]; exact hll)
      · exact hext' m (by omega) (by omega)

end Deag

namespace Deag

/-! ## Crowding distance: extremes and zero-range objectives -/

/-- C11: on a non-empty front of fitness with `M` objectives and finite raw values
`assignCrowdingDist` returns one score per position of the front, and for every objective
some position minimising it and some position maximising it (the first and the last of the
ascending order) have the score `+Inf`. -/
theorem assignCrowdingDist_extremes (M : Nat) (front : List Ref) (hne : front ≠ [])
    (hf : ∀ x ∈ front, x.2.Finite M) :
    ∃ cds, assignCrowdingDist front = Outcome.ok cds ∧ cds.length = front.length ∧
      ∀ m, m < M → ∃ lo hi, lo < front.length ∧ hi < front.length ∧
        (∀ q, q < front.length → objValue front m lo ≤ objValue front m q) ∧
        (∀ q, q < front.length → objValue front m q ≤ objValue front m hi) ∧
        cds.get? lo = some Dist.inf ∧ cds.get? hi = some Dist.inf := by
  have hev : ∀ x ∈ front, x.2.Evaluated M := fun x hx => (hf x hx).1
  cases front with
  | nil => exact absurd rfl hne
  | cons first rest =>
    have hlen : first.2.Len = M := (hf first (by simp)).2.1
    obtain ⟨d', hd', hl', _, hext⟩ := crowdObjectives_extremes first.2.Len (first :: rest) hev
      (by simp) M 0 (crowdStart (first :: rest))
      (List.replicate (first :: rest).length (Dist.fin 0)) (List.Perm.refl _)
      (by simp) (by omega)
    refine ⟨d', ?_, hl', fun m hm => hext m (by omega) (by omega)⟩
    simp only [assignCrowdingDist, crowdRows_start (first :: rest) hev, Outcome.ok_bind, hlen]
    rw [hlen] at hd'
    exact hd'

theorem assignCrowdingDist_extremes_witness :
    frontFive ≠ [] ∧ (∀ x ∈ frontFive, x.2.Finite 2) ∧
      ∃ cds, assignCrowdingDist frontFive = Outcome.ok cds ∧ cds.length = frontFive.length ∧
        ∀ m, m < 2 → ∃ lo hi, lo < frontFive.length ∧ hi < frontFive.length ∧
          (∀ q, q < frontFive.length → objValue frontFive m lo ≤ objValue frontFive m q) ∧
          (∀ q, q < frontFive.length → objValue frontFive m q ≤ objValue frontFive m hi) ∧
          cds.get? lo = some Dist.inf ∧ cds.get? hi = some Dist.inf :=
  ⟨by decide, by decide!, assignCrowdingDist_extremes 2 frontFive (by decide) (by decide!)⟩

theorem insertionSort_all_false {α : Type} (less : α → α → Outcome Bool) :
    ∀ (l done : List α), (∀ x ∈ l, ∀ y ∈ done, less x y = Outcome.ok false) →
      (∀ x ∈ l, ∀ y ∈ l, less x y = Outcome.ok false) →
      insertionSort less l done = Outcome.ok (done.reverse ++ l) := by
  intro l
  induction l with
  | nil => intro done _ _; simp [insertionSort]
  | cons x rest ih =>
    intro done h1 h2
    have hins : insertSorted less x done = Outcome.ok (x :: done) := by
      cases done with
      | nil => rfl
      | cons y ys =>
        simp only [insertSorted, h1 x (by simp) y (by simp), Outcome.ok_bind]
        rfl
    simp only [insertionSort, hins, Outcome.ok_bind]
    rw [ih (x :: done)]
    · simp
    · intro a ha b hb
      rcases List.mem_cons.mp hb with rfl | hb
      · exact h2 a (List.mem_cons_of_mem _ ha) b (by simp)
      · exact h1 a (List.mem_cons_of_mem _ ha) b hb
    · intro a ha b hb
      exact h2 a (List.mem_cons_of_mem _ ha) b (List.mem_cons_of_mem _ hb)

/-- C13 (as the code has it): a round of the objective loop on an objective whose values
are all equal leaves the rows in place, writes `+Inf` into the scores of the first and the
last row, changes no other score and divides by nothing. -/
theorem crowdObjectives_zero_range (popSize nobJ i : Nat) (crowd : List (List ℚ × Nat))
    (d : List Dist) (first last : List ℚ × Nat) (c : ℚ) (hh : crowd.head? = some first)
    (hl : crowd.getLast? = some last)
    (hc : ∀ r ∈ crowd, i < r.1.length ∧ r.1.getD i 0 = c) :
    crowdObjectives popSize nobJ 1 i crowd d =
      Outcome.ok ((d.set first.2 Dist.inf).set last.2 Dist.inf) := by
  have hless : ∀ x ∈ crowd, ∀ y ∈ crowd, crowdingDistSorterLess i x y = Outcome.ok false := by
    intro x hx y hy
    rw [crowdLess_spec i x y (hc x hx).1 (hc y hy).1, (hc x hx).2, (hc y hy).2]
    simp
  have hs : sortSort (crowdingDistSorterLess i) crowd = Outcome.ok crowd := by
    rw [sortSort, insertionSort_all_false _ crowd [] (fun _ _ _ hy => by cases hy) hless]
    simp
  have hdiff : last.1.getD i 0 - first.1.getD i 0 = 0 := by
    rw [(hc first (List.mem_of_mem_head? hh)).2, (hc last (List.mem_of_mem_getLast? hl)).2]
    simp
  obtain ⟨dn, hstep, hzero, _⟩ := crowdObjectives_step popSize nobJ 0 i crowd crowd d first last
    hs hh hl (fun r hr => (hc r hr).1) (fun hne => absurd hdiff hne)
  rw [hstep, hzero hdiff]
  rfl

theorem crowdObjectives_zero_range_witness :
    crowdObjectives 3 2 1 0 [([7, 2], 0), ([7, 1], 1), ([7, 3], 2)]
        [Dist.fin 0, Dist.fin 0, Dist.fin 0] =
      Outcome.ok [Dist.inf, Dist.fin 0, Dist.inf] :=
  crowdObjectives_zero_range 3 2 0 [([7, 2], 0), ([7, 1], 1), ([7, 3], 2)]
    [Dist.fin 0, Dist.fin 0, Dist.fin 0] ([7, 2], 0) ([7, 3], 2) 7 rfl rfl (by decide!)

/-- C13 (as stated) fails on the front `frontFlat`, whose objective 0 is constant: the round
for objective 0 turns the scores `[0, 0, 0]` into `[+Inf, 0, +Inf]`, and the final scores are
`[+Inf, +Inf, +Inf]` where objective 1 alone gives `[1/2, +Inf, +Inf]`. -/
theorem assignCrowdingDist_zero_range_marks :
    crowdObjectives 3 2 1 0 (crowdStart frontFlat) (List.replicate 3 (Dist.fin 0)) =
        Outcome.ok [Dist.inf, Dist.fin 0, Dist.inf] ∧
      assignCrowdingDist frontFlat = Outcome.ok [Dist.inf, Dist.inf, Dist.inf] ∧
      crowdObjectives 3 2 1 1 (crowdStart frontFlat) (List.replicate 3 (Dist.fin 0)) =
        Outcome.ok [Dist.fin (1 / 2), Dist.inf, Dist.inf] := by
  decide!

end Deag

namespace Deag

/-! ## Crowding distance: the neighbours of an interior row -/

theorem pairwise_get_mono {α : Type} (le : α → α → Prop) (hrefl : ∀ a, le a a) :
    ∀ (l : List α), l.Pairwise le → ∀ (a b : Nat) (x y : α), l.get? a = some x →
      l.get? b = some y → a ≤ b → le x y := by
  intro l
  induction l with
  | nil => intro _ a b x y h; simp at h
  | cons h t ih =>
    intro hp a b x y hx hy hab
    cases a with
    | zero =>
      simp only [List.get?_cons_zero, Option.some.injEq] at hx
      subst hx
      cases b with
      | zero =>
        simp only [List.get?_cons_zero, Option.some.injEq] at hy
        subst hy; exact hrefl _
      | succ b =>
        exact List.rel_of_pairwise_cons hp (List.get?_mem (by simpa using hy))
    | succ a =>
      cases b with
      | zero => omega
      | succ b =>
        exact ih (List.Pairwise.of_cons hp) a b x y (by simpa using hx) (by simpa using hy)
          (by omega)

theorem nodup_map_get_inj {α β : Type} (f : α → β) :
    ∀ (l : List α), (l.map f).Nodup → ∀ (a b : Nat) (x y : α), l.get? a = some x →
      l.get? b = some y → f x = f y → a = b := by
  intro l
  induction l with
  | nil => intro _ a b x y h; simp at h
  | cons h t ih =>
    intro hnd a b x y hx hy hxy
    simp only [List.map_cons, List.nodup_cons] at hnd
    cases a with
    | zero =>
      simp only [List.get?_cons_zero, Option.some.injEq] at hx
      subst hx
      cases b with
      | zero => rfl
      | succ b =>
        exfalso; apply hnd.1
        rw [hxy]
        exact List.mem_map_of_mem f (List.get?_mem (by simpa using hy))
    | succ a =>
      cases b with
      | zero =>
        simp only [List.get?_cons_zero, Option.some.injEq] at hy
        subst hy
        exfalso; apply hnd.1
        rw [← hxy]
        exact List.mem_map_of_mem f (List.get?_mem (by simpa using hx))
      | succ b =>
        have := ih hnd.2 a b x y (by simpa using hx) (by simpa using hy) hxy
        omega

theorem mem_objColumn (front : List Ref) (m : Nat) (y : ℚ) :
    y ∈ objColumn front m ↔ ∃ q, q < front.length ∧ objValue front m q = y := by
  simp [objColumn]

theorem objValue_inj (front : List Ref) (m : Nat) (h : (objColumn front m).Nodup)
    (a b : Nat) (ha : a < front.length) (hb : b < front.length)
    (hab : objValue front m a = objValue front m b) : a = b :=
  List.inj_on_of_nodup_map h (List.mem_range.mpr ha) (List.mem_range.mpr hb) hab

/-- In the rows sorted by objective `i`, the row of an interior position `p` stands between
the rows holding the next smaller and the next larger value; the first row holds the
minimum, the last row the maximum, and neither is the row of `p`. -/
theorem crowd_neighbours {M : Nat} (front : List Ref) (hf : ∀ x ∈ front, x.2.Evaluated M)
    (i : Nat) (hd : (objColumn front i).Nodup) (p : Nat) (hp : p < front.length)
    (lo hi mn mx : ℚ) (hmn : IsMinOf (objColumn front i) mn)
    (hmx : IsMaxOf (objColumn front i) mx)
    (hlo : IsNextBelow (objColumn front i) (objValue front i p) lo)
    (hhi : IsNextAbove (objColumn front i) (objValue front i p) hi)
    (sorted : List (List ℚ × Nat)) (hperm : sorted.Perm (crowdStart front))
    (hpw : sorted.Pairwise fun a b => a.1.getD i 0 ≤ b.1.getD i 0)
    (first last : List ℚ × Nat) (hh : sorted.head? = some first)
    (hl : sorted.getLast? = some last) :
    first.1.getD i 0 = mn ∧ last.1.getD i 0 = mx ∧ first.2 ≠ p ∧ last.2 ≠ p ∧
      ∃ j pr nx, sorted.get? j = some pr ∧ sorted.get? (j + 1) = some (objRow front p, p) ∧
        sorted.get? (j + 2) = some nx ∧ pr.1.getD i 0 = lo ∧ nx.1.getD i 0 = hi := by
  obtain ⟨hmem, hall, hnd, hlen⟩ := crowd_rows front hf sorted hperm
  have hval : ∀ r ∈ sorted, objValue front i r.2 = r.1.getD i 0 := by
    intro r hr; rw [objValue, ← (hmem r hr).2.1]
  have hcol : ∀ r ∈ sorted, r.1.getD i 0 ∈ objColumn front i := fun r hr =>
    (mem_objColumn front i _).mpr ⟨r.2, (hmem r hr).1, hval r hr⟩
  have hmono : ∀ (a b : Nat) (x y : List ℚ × Nat), sorted.get? a = some x →
      sorted.get? b = some y → a ≤ b → x.1.getD i 0 ≤ y.1.getD i 0 :=
    pairwise_get_mono (fun a b : List ℚ × Nat => a.1.getD i 0 ≤ b.1.getD i 0)
      (fun a => le_refl _) sorted hpw
  -- every value of the column is held by some row
  have hrow : ∀ y ∈ objColumn front i, ∃ k r, sorted.get? k = some r ∧ r.1.getD i 0 = y := by
    intro y hy
    obtain ⟨q, hq, rfl⟩ := (mem_objColumn front i y).mp hy
    obtain ⟨k, hk⟩ := List.mem_iff_get?.mp (hall q hq)
    exact ⟨k, _, hk, rfl⟩
  have hfm : first ∈ sorted := List.mem_of_mem_head? hh
  have hlm : last ∈ sorted := List.mem_of_mem_getLast? hl
  have hfle : ∀ r ∈ sorted, first.1.getD i 0 ≤ r.1.getD i 0 :=
    pairwise_head_le (fun a b : List ℚ × Nat => a.1.getD i 0 ≤ b.1.getD i 0)
      (fun a => le_refl _) sorted first hh hpw
  have hlle : ∀ r ∈ sorted, r.1.getD i 0 ≤ last.1.getD i 0 :=
    pairwise_le_last (fun a b : List ℚ × Nat => a.1.getD i 0 ≤ b.1.getD i 0)
      (fun a => le_refl _) sorted last hl hpw
  have hfirst : first.1.getD i 0 = mn := by
    apply le_antisymm
    · obtain ⟨k, r, hk, hr⟩ := hrow mn hmn.1
      rw [← hr]; exact hfle r (List.get?_mem hk)
    · exact hmn.2 _ (hcol first hfm)
  have hlast : last.1.getD i 0 = mx := by
    apply le_antisymm
    · exact hmx.2 _ (hcol last hlm)
    · obtain ⟨k, r, hk, hr⟩ := hrow mx hmx.1
      rw [← hr]; exact hlle r (List.get?_mem hk)
  have hmnlo : mn ≤ lo := hmn.2 lo hlo.1
  have hhimx : hi ≤ mx := hmx.2 hi hhi.1
  refine ⟨hfirst, hlast, ?_, ?_, ?_⟩
  · intro he
    have := hval first hfm
    rw [he, hfirst] at this
    have := hlo.2.1
    linarith
  · intro he
    have := hval last hlm
    rw [he, hlast] at this
    have := hhi.2.1
    linarith
  · obtain ⟨j, hj⟩ := List.mem_iff_get?.mp (hall p hp)
    have hv : (objRow front p).getD i 0 = objValue front i p := rfl
    obtain ⟨kl, rl, hkl, hrl⟩ := hrow lo hlo.1
    obtain ⟨kh, rh, hkh, hrh⟩ := hrow hi hhi.1
    have hklj : kl < j := by
      by_contra hge
      have h1 := hmono j kl _ _ hj hkl (by omega)
      simp only [hrl, hv] at h1
      have := hlo.2.1
      linarith
    have hjkh : j < kh := by
      by_contra hge
      have h1 := hmono kh j _ _ hkh hj (by omega)
      simp only [hrh, hv] at h1
      have := hhi.2.1
      linarith
    have hkhl : kh < sorted.length := by
      by_contra hge
      rw [List.get?_eq_none.mpr (by omega)] at hkh
      cases hkh
    obtain ⟨j', rfl⟩ : ∃ j', j = j' + 1 := ⟨j - 1, by omega⟩
    have hpr : sorted.get? j' = some (sorted.get ⟨j', by omega⟩) := List.get?_eq_get _
    have hnx : sorted.get? (j' + 2) = some (sorted.get ⟨j' + 2, by omega⟩) :=
      List.get?_eq_get _
    refine ⟨j', _, _, hpr, hj, hnx, ?_, ?_⟩
    · apply le_antisymm
      · apply hlo.2.2 _ (hcol _ (List.get?_mem hpr))
        have hle := hmono j' (j' + 1) _ _ hpr hj (by omega)
        simp only [hv] at hle
        refine lt_of_le_of_ne hle ?_
        intro he
        have hpos := objValue_inj front i hd _ p (hmem _ (List.get?_mem hpr)).1 hp
          (by rw [hval _ (List.get?_mem hpr)]; exact he)
        have := nodup_map_get_inj Prod.snd sorted hnd j' (j' + 1) _ _ hpr hj hpos
        omega
      · have := hmono kl j' _ _ hkl hpr (by omega)
        rw [hrl] at this
        exact this
    · apply le_antisymm
      · have := hmono (j' + 2) kh _ _ hnx hkh (by omega)
        rw [hrh] at this
        exact this
      · apply hhi.2.2 _ (hcol _ (List.get?_mem hnx))
        have hle := hmono (j' + 1) (j' + 2) _ _ hj hnx (by omega)
        simp only [hv] at hle
        refine lt_of_le_of_ne hle ?_
        intro he
        have hpos := objValue_inj front i hd p _ hp (hmem _ (List.get?_mem hnx)).1
          (by rw [hval _ (List.get?_mem hnx)]; exact he)
        have := nodup_map_get_inj Prod.snd sorted hnd (j' + 1) (j' + 2) _ _ hj hnx hpos
        omega

end Deag

namespace Deag

/-! ## Crowding distance: the score of an interior individual -/

theorem crowdObjectives_interior {M : Nat} (nobJ : Nat) (front : List Ref)
    (hf : ∀ x ∈ front, x.2.Evaluated M) (hd : ∀ m, m < M → (objColumn front m).Nodup)
    (p : Nat) (hp : p < front.length) (lo hi mn mx : Nat → ℚ)
    (hmn : ∀ m, m < M → IsMinOf (objColumn front m) (mn m))
    (hmx : ∀ m, m < M → IsMaxOf (objColumn front m) (mx m))
    (hlo : ∀ m, m < M → IsNextBelow (objColumn front m) (objValue front m p) (lo m))
    (hhi : ∀ m, m < M → IsNextAbove (objColumn front m) (objValue front m p) (hi m)) :
    ∀ (todo i : Nat) (crowd : List (List ℚ × Nat)) (d : List Dist) (x : ℚ),
      crowd.Perm (crowdStart front) → d.length = front.length → i + todo ≤ M →
      d.get? p = some (Dist.fin x) →
      ∃ d', crowdObjectives front.length nobJ todo i crowd d = Outcome.ok d' ∧
        d'.get? p = some (Dist.fin (x + ((List.range' i todo).map fun m =>
          (hi m - lo m) / ((nobJ : ℚ) * (mx m - mn m))).sum)) := by
  intro todo
  induction todo with
  | zero =>
    intro i crowd d x _ _ _ hx
    exact ⟨d, rfl, by simpa using hx⟩
  | succ todo ih =>
    intro i crowd d x hperm hdl hi' hx
    have him : i < M := by omega
    obtain ⟨hmem, _, _, _⟩ := crowd_rows front hf crowd hperm
    obtain ⟨sorted, hs, hsp, hpw⟩ := crowdSort_spec i crowd
      (fun r hr => by rw [(hmem r hr).2.2]; omega)
    have hperm' : sorted.Perm (crowdStart front) := hsp.trans hperm
    obtain ⟨hmem', _, hnd, hlen⟩ := crowd_rows front hf sorted hperm'
    have hrows : ∀ r ∈ sorted, i < r.1.length := fun r hr => by rw [(hmem' r hr).2.2]; omega
    have hnil : sorted ≠ [] := by
      intro he; rw [he] at hlen; simp at hlen; omega
    obtain ⟨first, hh⟩ : ∃ first, sorted.head? = some first := by
      cases sorted with
      | nil => exact absurd rfl hnil
      | cons a tl => exact ⟨a, rfl⟩
    obtain ⟨last, hl⟩ : ∃ last, sorted.getLast? = some last :=
      ⟨sorted.getLast hnil, List.getLast?_eq_getLast _ hnil⟩
    obtain ⟨hfirst, hlast, hfp, hlp, j, pr, nx, hpr, hcu, hnx, hprv, hnxv⟩ :=
      crowd_neighbours front hf i (hd i him) p hp (lo i) (hi i) (mn i) (mx i) (hmn i him)
        (hmx i him) (hlo i him) (hhi i him) sorted hperm' hpw first last hh hl
    have hpos : mn i < mx i := by
      have h1 := (hmn i him).2 _ (hlo i him).1
      have h2 := (hmx i him).2 _ (hhi i him).1
      have h3 := (hlo i him).2.1
      have h4 := (hhi i him).2.1
      linarith
    have hdiff : last.1.getD i 0 - first.1.getD i 0 ≠ 0 := by
      rw [hfirst, hlast]; intro he; linarith
    have hpop : last.1.getD i 0 - first.1.getD i 0 ≠ 0 → 2 ≤ front.length := by
      intro _
      have : j + 2 < sorted.length := by
        by_contra hge
        rw [List.get?_eq_none.mpr (by omega)] at hnx
        cases hnx
      omega
    obtain ⟨dn, hstep, _, hnz⟩ :=
      crowdObjectives_step front.length nobJ todo i crowd sorted d first last hs hh hl hrows hpop
    have hadd := hnz hdiff
    have hmark : ((d.set first.2 Dist.inf).set last.2 Dist.inf).get? p = some (Dist.fin x) := by
      rw [Dist.getD_set_ne _ _ _ _ hlp, Dist.getD_set_ne _ _ _ _ hfp]; exact hx
    have hmarkD : ((d.set first.2 Dist.inf).set last.2 Dist.inf).getD p (Dist.fin 0) =
        Dist.fin x := by
      rw [List.getD_eq_getElem?_getD, ← List.get?_eq_getElem?, hmark]; rfl
    have hdnp := addInterior_interior i _ sorted _ dn hnd
      (fun r hr => by rw [List.length_set, List.length_set, hdl]; exact (hmem' r hr).1)
      hrows hadd j pr (objRow front p, p) nx hpr hcu hnx
    simp only [hmarkD, hprv, hnxv, hfirst, hlast, Dist.add] at hdnp
    have hdnl : dn.length = front.length := by
      rw [addInterior_length _ _ _ _ _ hadd, List.length_set, List.length_set, hdl]
    obtain ⟨d', hd', hres⟩ := ih (i + 1) sorted dn _ hperm' hdnl (by omega) hdnp
    refine ⟨d', by rw [hstep, hd'], ?_⟩
    rw [hres, List.range'_succ, List.map_cons, List.sum_cons, add_assoc]

/-- C12: on a front of fitness with `M` objectives whose raw values are pairwise distinct
within each objective, an individual at position `p` that has in every objective a next
smaller value `lo m` and a next larger value `hi m` (so it is neither the minimum nor the
maximum, and the front has at least three members) gets, at position `p`, the score
`Σ m, (hi m - lo m) / (M * (mx m - mn m))` in exact arithmetic, `mn m` and `mx m` being the
smallest and the largest value of objective `m`. -/
theorem assignCrowdingDist_interior (M : Nat) (front : List Ref)
    (hf : ∀ x ∈ front, x.2.Finite M) (hd : ∀ m, m < M → (objColumn front m).Nodup)
    (p : Nat) (hp : p < front.length) (lo hi mn mx : Nat → ℚ)
    (hmn : ∀ m, m < M → IsMinOf (objColumn front m) (mn m))
    (hmx : ∀ m, m < M → IsMaxOf (objColumn front m) (mx m))
    (hlo : ∀ m, m < M → IsNextBelow (objColumn front m) (objValue front m p) (lo m))
    (hhi : ∀ m, m < M → IsNextAbove (objColumn front m) (objValue front m p) (hi m)) :
    ∃ cds, assignCrowdingDist front = Outcome.ok cds ∧
      cds.get? p = some (Dist.fin (((List.range M).map fun m =>
        (hi m - lo m) / ((M : ℚ) * (mx m - mn m))).sum)) := by
  have hev : ∀ x ∈ front, x.2.Evaluated M := fun x hx => (hf x hx).1
  cases front with
  | nil => simp at hp
  | cons first rest =>
    have hlen : first.2.Len = M := (hf first (by simp)).2.1
    obtain ⟨d', hd', hres⟩ := crowdObjectives_interior M (first :: rest) hev hd p hp lo hi mn mx
      hmn hmx hlo hhi M 0 (crowdStart (first :: rest))
      (List.replicate (first :: rest).length (Dist.fin 0)) 0 (List.Perm.refl _)
      (by simp) (by omega)
      (by rw [List.get?_eq_getElem?, List.getElem?_replicate]; simpa using hp)
    refine ⟨d', ?_, ?_⟩
    · simp only [assignCrowdingDist, crowdRows_start (first :: rest) hev, Outcome.ok_bind, hlen]
      exact hd'
    · rw [hres, zero_add, List.range_eq_range']

theorem assignCrowdingDist_interior_witness :
    ∃ cds, assignCrowdingDist frontFive = Outcome.ok cds ∧
      cds.get? 0 = some (Dist.fin (9 / 20)) := by
  obtain ⟨cds, h1, h2⟩ := assignCrowdingDist_interior 2 frontFive (by decide!) (by decide!) 0
    (by decide) (fun m => if m = 0 then 0 else 1) (fun m => if m = 0 then 2 else 3)
    (fun _ => 0) (fun m => if m = 0 then 4 else 5) (by decide!) (by decide!) (by decide!)
    (by decide!)
  refine ⟨cds, h1, ?_⟩
  rw [h2]
  decide!

end Deag

namespace Deag

/-! ## Fitness comparisons and copies -/

theorem lessFrom_total (other : List ℚ) :
    ∀ (rest : List ℚ) (k : Nat), k + rest.length ≤ other.length →
      ∃ r, Fitness.lessFrom other rest k = Outcome.ok r := by
  intro rest
  induction rest with
  | nil => intro k _; exact ⟨true, rfl⟩
  | cons fit rest ih =>
    intro k h
    have hk : k < other.length := by simp at h; omega
    obtain ⟨r, hr⟩ := ih (k + 1) (by simp at h; omega)
    obtain ⟨o, ho⟩ : ∃ o, other.get? k = some o := ⟨_, List.get?_eq_get hk⟩
    simp only [Fitness.lessFrom, ho]
    by_cases hc : o ≤ fit
    · exact ⟨false, by rw [if_pos hc]⟩
    · exact ⟨r, by rw [if_neg hc, hr]⟩

theorem lessEqualFrom_total (other : List ℚ) :
    ∀ (rest : List ℚ) (k : Nat), k + rest.length ≤ other.length →
      ∃ r, Fitness.lessEqualFrom other rest k = Outcome.ok r := by
  intro rest
  induction rest with
  | nil => intro k _; exact ⟨true, rfl⟩
  | cons fit rest ih =>
    intro k h
    have hk : k < other.length := by simp at h; omega
    obtain ⟨r, hr⟩ := ih (k + 1) (by simp at h; omega)
    obtain ⟨o, ho⟩ : ∃ o, other.get? k = some o := ⟨_, List.get?_eq_get hk⟩
    simp only [Fitness.lessEqualFrom, ho]
    by_cases hc : o < fit
    · exact ⟨false, by rw [if_pos hc]⟩
    · exact ⟨r, by rw [if_neg hc, hr]⟩

theorem Fitness.Scored.wvalues_len {M : Nat} {f : Fitness} (h : f.Scored M) :
    f.wvalues.length = M := by
  rw [h.2.2.2.1, List.length_zipWith, h.2.1, h.2.2.1, Nat.min_self]

theorem Float64Individual.Scored.wvalues_length {M : Nat} {x : Float64Individual}
    (h : x.Scored M) : x.wvalues.length = M := by
  obtain ⟨f, hf, hs⟩ := h
  simp only [Float64Individual.wvalues, hf]
  exact hs.wvalues_len

theorem ptrLess_total {M : Nat} (x y : Float64Individual) (hx : x.Scored M) (hy : y.Scored M) :
    ∃ r, ptrLess x.fitness y.fitness = Outcome.ok r := by
  obtain ⟨f, hf, hfs⟩ := hx
  obtain ⟨g, hg, hgs⟩ := hy
  rw [hf, hg]
  exact lessFrom_total g.wvalues f.wvalues 0
    (by rw [hfs.wvalues_len, hgs.wvalues_len]; omega)

theorem ptrGreater_total {M : Nat} (x y : Float64Individual) (hx : x.Scored M)
    (hy : y.Scored M) : ∃ r, ptrGreater x.fitness y.fitness = Outcome.ok r := by
  obtain ⟨f, hf, hfs⟩ := hx
  obtain ⟨g, hg, hgs⟩ := hy
  obtain ⟨r, hr⟩ := lessEqualFrom_total g.wvalues f.wvalues 0
    (by rw [hfs.wvalues_len, hgs.wvalues_len]; omega)
  refine ⟨!r, ?_⟩
  rw [hf, hg]
  simp only [ptrGreater, ptrLessEqual, Fitness.LessEqual, hr, Outcome.ok_bind]

theorem wvalues_single {x : Float64Individual} (h : x.Scored 1) : x.wvalues = [x.wvalue] := by
  have hl := h.wvalues_length
  obtain ⟨a, ha⟩ := List.length_eq_one.mp hl
  simp [Float64Individual.wvalue, ha]

/-- With one objective, `Less` compares the weighted values. -/
theorem ptrLess_single (x y : Float64Individual) (hx : x.Scored 1) (hy : y.Scored 1) :
    ptrLess x.fitness y.fitness = Outcome.ok (decide (x.wvalue < y.wvalue)) := by
  have h1 := wvalues_single hx
  have h2 := wvalues_single hy
  obtain ⟨f, hf, _⟩ := hx
  obtain ⟨g, hg, _⟩ := hy
  simp only [Float64Individual.wvalues, hf, hg] at h1 h2
  rw [hf, hg]
  simp only [ptrLess, Fitness.Less, h1, h2, Fitness.lessFrom, List.get?_cons_zero]
  by_cases hc : y.wvalue ≤ x.wvalue
  · rw [if_pos hc, decide_eq_false (not_lt.mpr hc)]
  · rw [if_neg hc, decide_eq_true (lt_of_not_le hc)]

/-- With one objective, `Greater` compares the weighted values. -/
theorem ptrGreater_single (x y : Float64Individual) (hx : x.Scored 1) (hy : y.Scored 1) :
    ptrGreater x.fitness y.fitness = Outcome.ok (decide (y.wvalue < x.wvalue)) := by
  have h1 := wvalues_single hx
  have h2 := wvalues_single hy
  obtain ⟨f, hf, _⟩ := hx
  obtain ⟨g, hg, _⟩ := hy
  simp only [Float64Individual.wvalues, hf, hg] at h1 h2
  rw [hf, hg]
  simp only [ptrGreater, ptrLessEqual, Fitness.LessEqual, h1, h2, Fitness.lessEqualFrom,
    List.get?_cons_zero]
  by_cases hc : y.wvalue < x.wvalue
  · rw [if_pos hc, decide_eq_true hc]; rfl
  · rw [if_neg hc, decide_eq_false hc]; rfl

theorem take_set_succ {α : Type} :
    ∀ (l : List α) (k : Nat) (x : α), k < l.length → (l.set k x).take (k + 1) = l.take k ++ [x] := by
  intro l
  induction l with
  | nil => intro k x h; simp at h
  | cons a l ih =>
    intro k x h
    cases k with
    | zero => simp
    | succ k => simp [ih k x (by simpa using h)]

theorem set_get_self {α : Type} :
    ∀ (l : List α) (k : Nat) (x : α), l.get? k = some x → l.set k x = l := by
  intro l
  induction l with
  | nil => intro k x h; simp at h
  | cons a l ih =>
    intro k x h
    cases k with
    | zero => simp at h; simp [h]
    | succ k => simp [ih k x (by simpa using h)]

theorem setValuesFrom_spec (weights : List ℚ) :
    ∀ (rest : List ℚ) (k : Nat) (st : List ℚ × List ℚ), st.1.length = weights.length →
      st.2.length = weights.length → rest = st.2.drop k → k + rest.length = weights.length →
      Fitness.setValuesFrom weights rest k st =
        Outcome.ok (st.1.take k ++ List.zipWith (fun v w => v * w) rest (weights.drop k),
          st.2) := by
  intro rest
  induction rest with
  | nil =>
    intro k st h1 _ _ hk
    have : st.1.take k = st.1 := List.take_of_length_le (by simp at hk; omega)
    simp [Fitness.setValuesFrom, this]
  | cons value rest ih =>
    intro k st h1 h2 hrest hk
    have hkw : k < weights.length := by simp at hk; omega
    have hw : weights.drop k = weights.get ⟨k, hkw⟩ :: weights.drop (k + 1) :=
      List.drop_eq_getElem_cons hkw
    have hk2 : k < st.2.length := by omega
    have hv : st.2.drop k = st.2.get ⟨k, hk2⟩ :: st.2.drop (k + 1) :=
      List.drop_eq_getElem_cons hk2
    rw [hv] at hrest
    simp only [List.cons.injEq] at hrest
    have hget : st.2.get? k = some value := by rw [List.get?_eq_get hk2, hrest.1]
    have := ih (k + 1) (st.1.set k (value * weights.get ⟨k, hkw⟩), st.2.set k value)
      (by simp [h1]) (by simp [h2])
      (by simp only [set_get_self _ _ _ hget]; exact hrest.2) (by simp at hk ⊢; omega)
    simp only [Fitness.setValuesFrom, List.get?_eq_get hkw]
    rw [if_pos ⟨by omega, hk2⟩, this, hw]
    simp only [set_get_self _ _ _ hget, take_set_succ _ _ _ (show k < st.1.length by omega),
      List.zipWith_cons_cons, List.append_assoc, List.singleton_append]

/-- Cloning a scored fitness gives the same fitness back. -/
theorem Fitness.Scored.clone_self {M : Nat} {f : Fitness} (h : f.Scored M) :
    f.Clone = Outcome.ok (some f) := by
  obtain ⟨hM, hw, hv, hwv, hvalid⟩ := h
  have hne : f.values ≠ [] := by
    intro he; rw [he] at hv; simp at hv; omega
  have hrep : List.replicate f.values.length (0 : ℚ) ≠ [] := by
    intro he
    have := congrArg List.length he
    rw [List.length_replicate, List.length_nil] at this
    omega
  have hset := setValuesFrom_spec f.weights f.values 0
    (List.replicate f.values.length 0, f.values) (by simp [hv, hw]) (by simp [hv, hw])
    (by simp) (by simp [hv, hw])
  simp only [Fitness.Clone, hne, ne_eq, not_false_eq_true, if_true, Fitness.NewFitnessWithValues,
    hv, hw, hM, and_self, Fitness.SetValues]
  rw [hv] at hrep hset
  simp only [hrep, if_false, hset, Outcome.ok_bind, List.take_zero, List.nil_append,
    List.drop_zero]
  rw [← hwv]
  congr 2
  cases f
  simp only at hvalid
  simp [hvalid]

/-- Cloning an individual with a scored fitness gives the same individual back. -/
theorem Float64Individual.Scored.clone_ind {M : Nat} {x : Float64Individual} (h : x.Scored M) :
    x.Clone = Outcome.ok x := by
  obtain ⟨f, hf, hs⟩ := h
  simp only [Float64Individual.Clone, hf, hs.clone_self, Outcome.ok_bind]
  cases x
  simp only at hf
  simp [hf]

end Deag

namespace Deag

/-! ## Hall of fame: `Insert` -/

theorem index_append {α : Type} (P : List α) (x : α) (R : List α) :
    index (P ++ x :: R) (P.length : Int) = Outcome.ok x := by
  apply index_natCast_some
  induction P with
  | nil => rfl
  | cons a P ih => simpa using ih

theorem index_append_left {α : Type} (P R : List α) (i : Nat) (x : α)
    (h : P.get? i = some x) : index (P ++ R) (i : Int) = Outcome.ok x := by
  apply index_natCast_some
  have hi : i < P.length := by
    by_contra hc; rw [List.get?_eq_none.mpr (by omega)] at h; cases h
  rw [List.get?_eq_getElem?, List.getElem?_append_left hi, ← List.get?_eq_getElem?, h]

theorem setIndex_append {α : Type} (P : List α) (x v : α) (R : List α) :
    setIndex (P ++ x :: R) (P.length : Int) v = Outcome.ok (P ++ v :: R) := by
  have h0 : ¬ ((P.length : Int) < 0) := by omega
  simp only [setIndex, h0, if_false, Int.toNat_ofNat]
  rw [if_pos (by simp)]
  congr 1
  induction P with
  | nil => rfl
  | cons a P ih => simp [ih]

theorem insertShift_self (idx : Nat) (items : List (Option Float64Individual)) :
    DefaultHallOfFame.insertShift idx idx items = Outcome.ok items := by
  cases idx with
  | zero => rfl
  | succ i => simp [DefaultHallOfFame.insertShift]

/-- The shifting loop of `Insert` moves the block `B` one place to the right, over the
entry behind it. -/
theorem insertShift_spec (A : List (Option Float64Individual)) :
    ∀ (B : List (Option Float64Individual)) (t : Option Float64Individual)
      (tail : List (Option Float64Individual)),
      ∃ h0, DefaultHallOfFame.insertShift A.length (A.length + B.length) (A ++ B ++ t :: tail) =
        Outcome.ok (A ++ h0 :: B ++ tail) := by
  intro B
  induction B using List.reverseRecOn with
  | nil =>
    intro t tail
    exact ⟨t, by simpa using insertShift_self A.length (A ++ t :: tail)⟩
  | append_singleton B b ih =>
    intro t tail
    obtain ⟨h0, hh⟩ := ih b (b :: tail)
    refine ⟨h0, ?_⟩
    have hlen : A.length + (B ++ [b]).length = (A.length + B.length) + 1 := by simp; omega
    have hgt : A.length + B.length + 1 > A.length := by omega
    have hidx : index (A ++ (B ++ [b]) ++ t :: tail) ((A.length + B.length : Nat) : Int) =
        Outcome.ok b := by
      have := index_append (A ++ B) b (t :: tail)
      simpa using this
    have hset : setIndex (A ++ (B ++ [b]) ++ t :: tail) (((A.length + B.length : Nat) : Int) + 1)
        b = Outcome.ok (A ++ B ++ b :: b :: tail) := by
      have := setIndex_append (A ++ B ++ [b]) t b tail
      simpa using this
    rw [hlen, DefaultHallOfFame.insertShift, if_pos hgt, hidx, Outcome.ok_bind, hset,
      Outcome.ok_bind, hh]
    simp

theorem searchLoop_total (f : Nat → Outcome Bool) (n : Nat)
    (hf : ∀ j, j < n → ∃ b, f j = Outcome.ok b) :
    ∀ (fuel i j : Nat), i ≤ j → j ≤ n →
      ∃ r, searchLoop f fuel i j = Outcome.ok r ∧ i ≤ r ∧ r ≤ j := by
  intro fuel
  induction fuel with
  | zero => intro i j h1 _; exact ⟨i, rfl, le_refl _, h1⟩
  | succ fuel ih =>
    intro i j h1 h2
    by_cases hij : i < j
    · obtain ⟨b, hb⟩ := hf ((i + j) / 2) (by omega)
      cases b with
      | false =>
        obtain ⟨r, hr, h3, h4⟩ := ih ((i + j) / 2 + 1) j (by omega) h2
        exact ⟨r, by simp [searchLoop, hij, hb, Outcome.ok_bind, hr], by omega, h4⟩
      | true =>
        obtain ⟨r, hr, h3, h4⟩ := ih i ((i + j) / 2) (by omega) (by omega)
        exact ⟨r, by simp [searchLoop, hij, hb, Outcome.ok_bind, hr], h3, by omega⟩
    · exact ⟨i, by simp [searchLoop, hij], le_refl _, h1⟩

theorem searchLoop_congr (f g : Nat → Outcome Bool) (n : Nat) (hfg : ∀ j, j < n → f j = g j) :
    ∀ (fuel i j : Nat), j ≤ n → searchLoop f fuel i j = searchLoop g fuel i j := by
  intro fuel
  induction fuel with
  | zero => intro i j _; rfl
  | succ fuel ih =>
    intro i j h
    by_cases hij : i < j
    · simp only [searchLoop, hij, if_true]
      rw [hfg ((i + j) / 2) (by omega), ih _ _ h, ih _ _ (by omega)]
    · simp [searchLoop, hij]

theorem lessPred_total {M : Nat} (l : List Float64Individual) (ind : Float64Individual)
    (hl : ∀ x ∈ l, x.Scored M) (hind : ind.Scored M) :
    ∀ j, j < l.length → ∃ b, lessPred l ind j = Outcome.ok b := by
  intro j hj
  simp only [lessPred, List.get?_eq_get hj]
  exact ptrLess_total _ _ (hl _ (List.get_mem _ _ _)) hind

/-- `Insert` into a hall of fame that holds `l` and has room: the copy of the individual
goes to the position `sort.Search` returns and the items behind it move one place to the
right, over the entry `t` that follows them. -/
theorem Insert_spec {M : Nat} (hof : DefaultHallOfFame) (l : List Float64Individual)
    (t : Option Float64Individual) (tail : List (Option Float64Individual))
    (ind : Float64Individual) (hitems : hof.items = l.map some ++ t :: tail)
    (hsize : hof.size = (l.length : Int)) (hmax : hof.size < hof.maxsize)
    (hl : ∀ x ∈ l, x.Scored M) (hind : ind.Scored M) :
    ∃ idx, idx ≤ l.length ∧ sortSearch l.length (lessPred l ind) = Outcome.ok idx ∧
      hof.Insert ind = Outcome.ok
        { hof with
          size := (l.length : Int) + 1
          items := (l.take idx ++ ind :: l.drop idx).map some ++ tail } := by
  obtain ⟨idx, hidx, _, hle⟩ := searchLoop_total (lessPred l ind) l.length
    (lessPred_total l ind hl hind) l.length 0 l.length (by omega) (le_refl _)
  refine ⟨idx, hle, hidx, ?_⟩
  have hsearch : (sortSearch hof.size.toNat fun i =>
      (index hof.items (i : Int)).bind fun it =>
        (getFitness it).bind fun f => ptrLess f ind.fitness) = Outcome.ok idx := by
    rw [← hidx, hsize, Int.toNat_ofNat]
    apply searchLoop_congr _ _ l.length _ _ _ _ (le_refl _)
    intro j hj
    have hget : (l.map some).get? j = some (some (l.get ⟨j, hj⟩)) := by
      simp [List.getElem?_eq_getElem hj]
    rw [hitems, index_append_left _ _ _ _ hget, Outcome.ok_bind]
    simp only [lessPred, List.get?_eq_get hj, getFitness, Outcome.ok_bind]
  have hsplit : l.map some ++ t :: tail =
      (l.take idx).map some ++ (l.drop idx).map some ++ t :: tail := by
    rw [← List.map_append, List.take_append_drop]
  have hA : ((l.take idx).map some).length = idx := by simp [hle]
  have hB : ((l.drop idx).map some).length = l.length - idx := by simp
  obtain ⟨h0, hshift⟩ := insertShift_spec ((l.take idx).map some) ((l.drop idx).map some) t tail
  rw [hA, hB, show idx + (l.length - idx) = l.length by omega] at hshift
  have hset := setIndex_append ((l.take idx).map some) h0 (some ind)
    ((l.drop idx).map some ++ tail)
  rw [hA] at hset
  unfold DefaultHallOfFame.Insert
  rw [hind.clone_ind, Outcome.ok_bind, hsearch, Outcome.ok_bind]
  simp only [if_pos hmax]
  rw [hsize, show ((l.length : Int) + 1 - 1).toNat = l.length by omega, hitems, hsplit, hshift,
    Outcome.ok_bind]
  simp only [List.append_assoc, List.cons_append] at hset ⊢
  rw [hset, Outcome.ok_bind]
  simp

end Deag

namespace Deag

/-! ## Hall of fame: one round of `Update` -/

/-- Inside `Update` the call `Remove(maxsize)` on a full hall of fame only lowers the size. -/
theorem Remove_full (hof : DefaultHallOfFame) (hfull : hof.size = hof.maxsize)
    (hpos : hof.size ≠ 0) :
    hof.Remove hof.maxsize = Outcome.ok { hof with size := hof.size - 1 } := by
  have h0 : (hof.size - 1 - hof.maxsize).toNat = 0 := by omega
  simp only [DefaultHallOfFame.Remove, hpos, ne_eq, not_false_eq_true, if_true, h0,
    DefaultHallOfFame.removeShift, Outcome.ok_bind]

theorem updateCond_spec (hof : DefaultHallOfFame) (l : List Float64Individual)
    (hfresh : hof.Fresh l) (hne : l ≠ []) (ind : Float64Individual) :
    hof.updateCond ind =
      (ptrGreater ind.fitness (l.getLast hne).fitness).bind fun g =>
        Outcome.ok (g || decide (hof.size < hof.maxsize)) := by
  obtain ⟨hsize, _, hitems⟩ := hfresh
  have hsplit := List.dropLast_append_getLast hne
  have hlen : l.length = l.dropLast.length + 1 := by
    conv_lhs => rw [← hsplit]
    simp
  have hget : (l.map some).get? l.dropLast.length = some (some (l.getLast hne)) := by
    conv_lhs => rw [← hsplit]
    simp
  have hidx : hof.size - 1 = ((l.dropLast.length : Nat) : Int) := by rw [hsize, hlen]; simp
  unfold DefaultHallOfFame.updateCond
  rw [hidx, hitems, index_append_left _ _ _ _ hget]
  rfl

/-- One round of the loop of `Update` on a hall of fame that holds `l`: the individual is
either passed over (it is not better than the worst of a full hall, or it is similar to an
entry), or it is inserted at the place `sort.Search` finds, after the worst has been
dropped when the hall is full. -/
theorem updateLoop_step {M : Nat} (hof : DefaultHallOfFame) (l : List Float64Individual)
    (ind : Float64Individual) (rest : List Float64Individual) (hfresh : hof.Fresh l)
    (hne : l ≠ []) (hl : ∀ x ∈ l, x.Scored M) (hind : ind.Scored M) :
    ∃ (hof1 : DefaultHallOfFame) (l1 : List Float64Individual) (g : Bool),
      ptrGreater ind.fitness (l.getLast hne).fitness = Outcome.ok g ∧
      DefaultHallOfFame.updateLoop (ind :: rest) hof = DefaultHallOfFame.updateLoop rest hof1 ∧
      hof1.Fresh l1 ∧ hof1.maxsize = hof.maxsize ∧ hof1.similar = hof.similar ∧
      ((hof1 = hof ∧ l1 = l ∧
          ((g = false ∧ (l.length : Int) = hof.maxsize) ∨
            hof.items.any (hof.similar ind) = true)) ∨
        ((g = true ∨ (l.length : Int) < hof.maxsize) ∧
          hof.items.any (hof.similar ind) = false ∧
          ∃ (idx : Nat) (base : List Float64Individual),
            base = (if (l.length : Int) < hof.maxsize then l else l.dropLast) ∧
            idx ≤ base.length ∧ sortSearch base.length (lessPred base ind) = Outcome.ok idx ∧
            l1 = base.take idx ++ ind :: base.drop idx)) := by
  obtain ⟨g, hg⟩ := ptrGreater_total ind (l.getLast hne) hind (hl _ (List.getLast_mem hne))
  have hcond := updateCond_spec hof l hfresh hne ind
  rw [hg, Outcome.ok_bind] at hcond
  obtain ⟨hsize, hle, hitems⟩ := hfresh
  have hfresh : hof.Fresh l := ⟨hsize, hle, hitems⟩
  by_cases hc : (g || decide (hof.size < hof.maxsize)) = true
  · by_cases hsim : hof.items.any (hof.similar ind) = true
    · refine ⟨hof, l, g, hg, ?_, hfresh, rfl, rfl, Or.inl ⟨rfl, rfl, Or.inr hsim⟩⟩
      simp only [DefaultHallOfFame.updateLoop, hcond, Outcome.ok_bind, hc, if_true, hsim]
    · have hsim' : hof.items.any (hof.similar ind) = false := by simpa using hsim
      have hgl : g = true ∨ (l.length : Int) < hof.maxsize := by
        rw [← hsize]
        simpa [Bool.or_eq_true] using hc
      by_cases hfull : hof.size ≥ hof.maxsize
      · -- the hall is full: the worst item goes, the new one comes
        have hfull' : hof.size = hof.maxsize := by omega
        have hpos : hof.size ≠ 0 := by
          have : l.length ≠ 0 := fun h => hne (List.length_eq_zero.mp h)
          omega
        have hsplit := List.dropLast_append_getLast hne
        have hlen : l.length = l.dropLast.length + 1 := by
          conv_lhs => rw [← hsplit]
          simp
        have hrep : hof.maxsize.toNat - l.length = 0 := by omega
        have hitems1 : hof.items = l.dropLast.map some ++ some (l.getLast hne) :: [] := by
          rw [hitems, hrep]
          conv_lhs => rw [← hsplit]
          simp
        obtain ⟨idx, hidx, hsearch, hins⟩ := Insert_spec (M := M)
          { hof with size := hof.size - 1 } l.dropLast (some (l.getLast hne)) [] ind hitems1
          (by simp only; omega) (by simp only; omega)
          (fun x hx => hl x (List.mem_of_mem_dropLast hx)) hind
        have hnot : ¬ ((l.length : Int) < hof.maxsize) := by omega
        refine ⟨{ hof with
            size := (l.dropLast.length : Int) + 1
            items := (l.dropLast.take idx ++ ind :: l.dropLast.drop idx).map some ++ [] },
          l.dropLast.take idx ++ ind :: l.dropLast.drop idx, g, hg, ?_, ?_, rfl, rfl,
          Or.inr ⟨hgl, hsim', idx, l.dropLast, by rw [if_neg hnot], hidx, hsearch, rfl⟩⟩
        · simp only [DefaultHallOfFame.updateLoop, hcond, Outcome.ok_bind, hc, if_true, hsim',
            hfull, Remove_full hof hfull' hpos, hins]
          rfl
        · refine ⟨?_, ?_, ?_⟩
          · simp [hidx]; omega
          · simp [hidx]; omega
          · have : hof.maxsize.toNat -
                (l.dropLast.take idx ++ ind :: l.dropLast.drop idx).length = 0 := by
              simp [hidx]; omega
            simp only [this, List.replicate_zero]
      · -- there is room
        have hroom : hof.size < hof.maxsize := by omega
        have hrep : hof.maxsize.toNat - l.length = (hof.maxsize.toNat - (l.length + 1)) + 1 := by
          omega
        have hitems1 : hof.items = l.map some ++
            none :: List.replicate (hof.maxsize.toNat - (l.length + 1)) none := by
          rw [hitems, hrep, List.replicate_succ]
        obtain ⟨idx, hidx, hsearch, hins⟩ := Insert_spec (M := M) hof l none
          (List.replicate (hof.maxsize.toNat - (l.length + 1)) none) ind hitems1 hsize hroom hl
          hind
        have hlt : (l.length : Int) < hof.maxsize := by omega
        refine ⟨{ hof with
            size := (l.length : Int) + 1
            items := (l.take idx ++ ind :: l.drop idx).map some ++
              List.replicate (hof.maxsize.toNat - (l.length + 1)) none },
          l.take idx ++ ind :: l.drop idx, g, hg, ?_, ?_, rfl, rfl,
          Or.inr ⟨hgl, hsim', idx, l, by rw [if_pos hlt], hidx, hsearch, rfl⟩⟩
        · simp only [DefaultHallOfFame.updateLoop, hcond, Outcome.ok_bind, hc, if_true, hsim',
            hfull, if_false, hins]
          rfl
        · refine ⟨?_, ?_, ?_⟩
          · simp [hidx]; omega
          · simp [hidx]; omega
          · have : (l.take idx ++ ind :: l.drop idx).length = l.length + 1 := by
              simp [hidx]; omega
            simp only [this]
  · have hc' : (g || decide (hof.size < hof.maxsize)) = false := by simpa using hc
    have hgf : g = false ∧ ¬ hof.size < hof.maxsize := by
      simpa [Bool.or_eq_false_iff] using hc'
    refine ⟨hof, l, g, hg, ?_, hfresh, rfl, rfl, Or.inl ⟨rfl, rfl, Or.inl ⟨hgf.1, by omega⟩⟩⟩
    simp only [DefaultHallOfFame.updateLoop, hcond, Outcome.ok_bind, hc']
    rfl

end Deag

namespace Deag

/-! ## Hall of fame: a whole call of `Update` -/

theorem Fresh_similarAny {hof : DefaultHallOfFame} {l : List Float64Individual}
    (h : hof.Fresh l) (ind : Float64Individual) :
    hof.items.any (hof.similar ind) = similarAny hof.similar hof.maxsize l ind := by
  rw [h.2.2]; rfl

theorem updateLoop_round {M : Nat} (hof : DefaultHallOfFame) (l : List Float64Individual)
    (ind : Float64Individual) (rest : List Float64Individual) (hfresh : hof.Fresh l)
    (hne : l ≠ []) (hl : ∀ x ∈ l, x.Scored M) (hind : ind.Scored M) :
    ∃ (hof1 : DefaultHallOfFame) (l1 : List Float64Individual),
      DefaultHallOfFame.updateLoop (ind :: rest) hof = DefaultHallOfFame.updateLoop rest hof1 ∧
      hof1.Fresh l1 ∧ hof1.maxsize = hof.maxsize ∧ hof1.similar = hof.similar ∧ l1 ≠ [] ∧
      (∀ x ∈ l1, x.Scored M) ∧ Round hof.similar hof.maxsize l ind l1 := by
  obtain ⟨hof1, l1, g, hg, hstep, hf1, hm1, hs1, hcase⟩ :=
    updateLoop_step hof l ind rest hfresh hne hl hind
  rw [Fresh_similarAny hfresh] at hcase
  refine ⟨hof1, l1, hstep, hf1, hm1, hs1, ?_, ?_,
    l.getLast hne, g, List.getLast?_eq_getLast _ hne, hg, ?_⟩
  · rcases hcase with ⟨_, h, _⟩ | ⟨_, _, idx, base, _, _, _, h⟩
    · rw [h]; exact hne
    · rw [h]; simp
  · rcases hcase with ⟨_, h, _⟩ | ⟨_, _, idx, base, hb, _, _, h⟩
    · rw [h]; exact hl
    · intro x hx
      rw [h] at hx
      have hbase : ∀ y ∈ base, y.Scored M := by
        intro y hy
        rw [hb] at hy
        split at hy
        · exact hl y hy
        · exact hl y (List.mem_of_mem_dropLast hy)
      rcases List.mem_append.mp hx with hx | hx
      · exact hbase x (List.mem_of_mem_take hx)
      · rcases List.mem_cons.mp hx with rfl | hx
        · exact hind
        · exact hbase x (List.mem_of_mem_drop hx)
  · rcases hcase with ⟨_, h1, h2⟩ | h
    · exact Or.inl ⟨h1, h2⟩
    · exact Or.inr h

theorem updateLoop_rounds {M : Nat} :
    ∀ (pop : List Float64Individual) (hof : DefaultHallOfFame) (l : List Float64Individual),
      hof.Fresh l → l ≠ [] → (∀ x ∈ l, x.Scored M) → (∀ x ∈ pop, x.Scored M) →
      ∃ (hof2 : DefaultHallOfFame) (l2 : List Float64Individual),
        DefaultHallOfFame.updateLoop pop hof = Outcome.ok hof2 ∧ hof2.Fresh l2 ∧
        hof2.maxsize = hof.maxsize ∧ hof2.similar = hof.similar ∧ l2 ≠ [] ∧
        (∀ x ∈ l2, x.Scored M) ∧ Rounds hof.similar hof.maxsize l pop l2 := by
  intro pop
  induction pop with
  | nil =>
    intro hof l hf hne hl _
    exact ⟨hof, l, rfl, hf, rfl, rfl, hne, hl, Rounds.done l⟩
  | cons ind rest ih =>
    intro hof l hf hne hl hpop
    obtain ⟨hof1, l1, hstep, hf1, hm1, hs1, hne1, hl1, hround⟩ :=
      updateLoop_round hof l ind rest hf hne hl (hpop ind (by simp))
    obtain ⟨hof2, l2, hrun, hf2, hm2, hs2, hne2, hl2, hrounds⟩ :=
      ih hof1 l1 hf1 hne1 hl1 (fun x hx => hpop x (List.mem_cons_of_mem _ hx))
    rw [hm1, hs1] at hrounds
    exact ⟨hof2, l2, by rw [hstep, hrun], hf2, by rw [hm2, hm1], by rw [hs2, hs1], hne2, hl2,
      Rounds.round l l1 l2 ind rest hround hrounds⟩

/-- A call of `Update` with scored individuals on a hall of fame of capacity at least one
that holds `l` completes, and the list it holds afterwards is related to `l` by `Updated`. -/
theorem Update_spec {M : Nat} (hof : DefaultHallOfFame) (l : List Float64Individual)
    (pop : List Float64Individual) (hf : hof.Fresh l) (hmax : 1 ≤ hof.maxsize)
    (hl : ∀ x ∈ l, x.Scored M) (hpop : ∀ x ∈ pop, x.Scored M) :
    ∃ (hof2 : DefaultHallOfFame) (l2 : List Float64Individual),
      hof.Update pop = Outcome.ok hof2 ∧ hof2.Fresh l2 ∧ hof2.maxsize = hof.maxsize ∧
      hof2.similar = hof.similar ∧ (∀ x ∈ l2, x.Scored M) ∧
      Updated hof.similar hof.maxsize l pop l2 := by
  cases pop with
  | nil =>
    exact ⟨hof, l, rfl, hf, rfl, rfl, hl, Or.inl ⟨rfl, rfl⟩⟩
  | cons first rest =>
    by_cases hnil : l = []
    · subst hnil
      obtain ⟨hsize, hle, hitems⟩ := hf
      have hsz : hof.size = 0 := by simpa using hsize
      have hrep : hof.maxsize.toNat - 0 = (hof.maxsize.toNat - 1) + 1 := by omega
      have hitems1 : hof.items = ([] : List Float64Individual).map some ++
          none :: List.replicate (hof.maxsize.toNat - 1) none := by
        rw [hitems]
        simp only [List.length_nil, List.map_nil, List.nil_append]
        rw [hrep, List.replicate_succ]
      obtain ⟨idx, hidx, _, hins⟩ := Insert_spec (M := M) hof [] none
        (List.replicate (hof.maxsize.toNat - 1) none) first hitems1 hsize (by omega)
        (fun x hx => by cases hx) (hpop first (by simp))
      have hidx0 : idx = 0 := by simpa using hidx
      subst hidx0
      have hf1 : DefaultHallOfFame.Fresh
          { hof with
            size := ((([] : List Float64Individual).length : Nat) : Int) + 1
            items := (([] : List Float64Individual).take 0 ++
              first :: ([] : List Float64Individual).drop 0).map some ++
                List.replicate (hof.maxsize.toNat - 1) none } [first] := by
        refine ⟨by simp, by simp; omega, by simp⟩
      obtain ⟨hof2, l2, hrun, hf2, hm2, hs2, _, hl2, hrounds⟩ :=
        updateLoop_rounds (M := M) (first :: rest) _ [first] hf1 (by simp)
          (fun x hx => by
            simp only [List.mem_singleton] at hx
            subst hx
            exact hpop x (by simp)) hpop
      refine ⟨hof2, l2, ?_, hf2, hm2, hs2, hl2, Or.inr ⟨first, rest, rfl, ?_⟩⟩
      · have hcond : hof.size = 0 ∧ hof.maxsize ≠ 0 := ⟨hsz, by omega⟩
        simp only [DefaultHallOfFame.Update]
        rw [if_pos hcond, hins, Outcome.ok_bind]
        exact hrun
      · simpa using hrounds
    · obtain ⟨hof2, l2, hrun, hf2, hm2, hs2, _, hl2, hrounds⟩ :=
        updateLoop_rounds (M := M) (first :: rest) hof l hf hnil hl hpop
      refine ⟨hof2, l2, ?_, hf2, hm2, hs2, hl2, Or.inr ⟨first, rest, rfl, ?_⟩⟩
      · have hsz : ¬ (hof.size = 0 ∧ hof.maxsize ≠ 0) := by
          intro h
          have : l.length = 0 := by have := hf.1; omega
          exact hnil (List.length_eq_zero.mp this)
        simp only [DefaultHallOfFame.Update]
        rw [if_neg hsz, Outcome.ok_bind]
        exact hrun
      · rw [if_neg hnil]; exact hrounds

/-- A newly created hall of fame holds nothing. -/
theorem New_fresh (maxsize : Int)
    (similar : Option (Float64Individual → Option Float64Individual → Bool))
    (hmax : 0 ≤ maxsize) :
    ∃ hof, DefaultHallOfFame.NewDefaultHallOfFame maxsize similar = Outcome.ok hof ∧
      hof.Fresh [] ∧ hof.maxsize = maxsize ∧
      hof.similar = similar.getD fun x y => x.IsEqual y := by
  have h0 : ¬ maxsize < 0 := by omega
  refine ⟨{ maxsize := maxsize, size := 0, items := List.replicate maxsize.toNat none,
            similar := similar.getD fun x y => x.IsEqual y },
    by simp only [DefaultHallOfFame.NewDefaultHallOfFame, h0, if_false], ?_, rfl, rfl⟩
  exact ⟨rfl, by simpa using hmax, by simp⟩

end Deag

namespace Deag

/-! ## Hall of fame: the size stays within the capacity -/

theorem Insert_size (hof h : DefaultHallOfFame) (ind : Float64Individual)
    (hi : hof.Insert ind = Outcome.ok h) :
    h.maxsize = hof.maxsize ∧
      h.size = (if hof.size < hof.maxsize then hof.size + 1 else hof.size) := by
  unfold DefaultHallOfFame.Insert at hi
  obtain ⟨_, _, hi⟩ := Outcome.bind_eq_ok hi
  obtain ⟨_, _, hi⟩ := Outcome.bind_eq_ok hi
  obtain ⟨_, _, hi⟩ := Outcome.bind_eq_ok hi
  obtain ⟨_, _, hi⟩ := Outcome.bind_eq_ok hi
  simp only [Outcome.ok.injEq] at hi
  subst hi
  exact ⟨rfl, rfl⟩

theorem Remove_size (hof h : DefaultHallOfFame) (i : Int) (hr : hof.Remove i = Outcome.ok h) :
    h.maxsize = hof.maxsize ∧ (h.size = hof.size ∨ (h.size = hof.size - 1 ∧ hof.size ≠ 0)) := by
  unfold DefaultHallOfFame.Remove at hr
  split at hr
  · rename_i hne
    obtain ⟨_, _, hr⟩ := Outcome.bind_eq_ok hr
    simp only [Outcome.ok.injEq] at hr
    subst hr
    exact ⟨rfl, Or.inr ⟨rfl, hne⟩⟩
  · simp only [Outcome.ok.injEq] at hr
    subst hr
    exact ⟨rfl, Or.inl rfl⟩

theorem Insert_bounded (hof h : DefaultHallOfFame) (ind : Float64Individual)
    (hi : hof.Insert ind = Outcome.ok h) (hb : 0 ≤ hof.size ∧ hof.size ≤ hof.maxsize) :
    h.maxsize = hof.maxsize ∧ 0 ≤ h.size ∧ h.size ≤ h.maxsize := by
  obtain ⟨h1, h2⟩ := Insert_size hof h ind hi
  rw [h1, h2]
  split <;> omega

theorem Remove_bounded (hof h : DefaultHallOfFame) (i : Int)
    (hr : hof.Remove i = Outcome.ok h) (hb : 0 ≤ hof.size ∧ hof.size ≤ hof.maxsize) :
    h.maxsize = hof.maxsize ∧ 0 ≤ h.size ∧ h.size ≤ h.maxsize := by
  obtain ⟨h1, h2⟩ := Remove_size hof h i hr
  rw [h1]
  rcases h2 with h2 | ⟨h2, h3⟩ <;> rw [h2] <;> omega

theorem updateLoop_bounded :
    ∀ (pop : List Float64Individual) (hof h : DefaultHallOfFame),
      DefaultHallOfFame.updateLoop pop hof = Outcome.ok h →
      0 ≤ hof.size ∧ hof.size ≤ hof.maxsize →
      h.maxsize = hof.maxsize ∧ 0 ≤ h.size ∧ h.size ≤ h.maxsize := by
  intro pop
  induction pop with
  | nil =>
    intro hof h hr hb
    simp only [DefaultHallOfFame.updateLoop, Outcome.ok.injEq] at hr
    subst hr
    exact ⟨rfl, hb⟩
  | cons ind rest ih =>
    intro hof h hr hb
    simp only [DefaultHallOfFame.updateLoop] at hr
    obtain ⟨c, _, hr⟩ := Outcome.bind_eq_ok hr
    split at hr
    · split at hr
      · exact ih hof h hr hb
      · obtain ⟨hof1, h1, hr⟩ := Outcome.bind_eq_ok hr
        obtain ⟨hof2, h2, hr⟩ := Outcome.bind_eq_ok hr
        have hb1 : hof1.maxsize = hof.maxsize ∧ 0 ≤ hof1.size ∧ hof1.size ≤ hof1.maxsize := by
          split at h1
          · exact Remove_bounded hof hof1 _ h1 hb
          · simp only [Outcome.ok.injEq] at h1
            subst h1
            exact ⟨rfl, hb⟩
        have hb2 := Insert_bounded hof1 hof2 ind h2 hb1.2
        have hb3 := ih hof2 h hr hb2.2
        exact ⟨by rw [hb3.1, hb2.1, hb1.1], hb3.2⟩
    · exact ih hof h hr hb

theorem Update_bounded (hof h : DefaultHallOfFame) (pop : List Float64Individual)
    (hu : hof.Update pop = Outcome.ok h) (hb : 0 ≤ hof.size ∧ hof.size ≤ hof.maxsize) :
    h.maxsize = hof.maxsize ∧ 0 ≤ h.size ∧ h.size ≤ h.maxsize := by
  unfold DefaultHallOfFame.Update at hu
  obtain ⟨hof1, h1, hu⟩ := Outcome.bind_eq_ok hu
  have hb1 : hof1.maxsize = hof.maxsize ∧ 0 ≤ hof1.size ∧ hof1.size ≤ hof1.maxsize := by
    split at h1
    · split at h1
      · exact Insert_bounded hof hof1 _ h1 hb
      · simp only [Outcome.ok.injEq] at h1
        subst h1
        exact ⟨rfl, hb⟩
    · simp only [Outcome.ok.injEq] at h1
      subst h1
      exact ⟨rfl, hb⟩
  have hb2 := updateLoop_bounded pop hof1 h hu hb1.2
  exact ⟨by rw [hb2.1, hb1.1], hb2.2⟩

theorem run_bounded :
    ∀ (calls : List HofCall) (hof h : DefaultHallOfFame), hof.run calls = Outcome.ok h →
      0 ≤ hof.size ∧ hof.size ≤ hof.maxsize →
      h.maxsize = hof.maxsize ∧ 0 ≤ h.size ∧ h.size ≤ h.maxsize := by
  intro calls
  induction calls with
  | nil =>
    intro hof h hr hb
    simp only [DefaultHallOfFame.run, Outcome.ok.injEq] at hr
    subst hr
    exact ⟨rfl, hb⟩
  | cons c rest ih =>
    intro hof h hr hb
    simp only [DefaultHallOfFame.run] at hr
    obtain ⟨hof1, h1, hr⟩ := Outcome.bind_eq_ok hr
    have hb1 : hof1.maxsize = hof.maxsize ∧ 0 ≤ hof1.size ∧ hof1.size ≤ hof1.maxsize := by
      cases c with
      | update pop => exact Update_bounded hof hof1 pop h1 hb
      | insert ind => exact Insert_bounded hof hof1 ind h1 hb
      | remove i => exact Remove_bounded hof hof1 i h1 hb
      | clear =>
        simp only [DefaultHallOfFame.call, Outcome.ok.injEq] at h1
        subst h1
        exact ⟨rfl, le_refl _, le_trans hb.1 hb.2⟩
    have hb2 := ih hof1 h hr hb1.2
    exact ⟨by rw [hb2.1, hb1.1], hb2.2⟩

/-- C14: after any sequence of `Update`, `Insert`, `Remove` and `Clear` calls that complete
on a hall of fame created with capacity `maxsize`, `0 ≤ Len() ≤ maxsize`. -/
theorem hallOfFame_len_bounds (maxsize : Int)
    (similar : Option (Float64Individual → Option Float64Individual → Bool))
    (calls : List HofCall) (hof0 hof : DefaultHallOfFame)
    (hnew : DefaultHallOfFame.NewDefaultHallOfFame maxsize similar = Outcome.ok hof0)
    (hrun : hof0.run calls = Outcome.ok hof) : 0 ≤ hof.Len ∧ hof.Len ≤ maxsize := by
  unfold DefaultHallOfFame.NewDefaultHallOfFame at hnew
  split at hnew
  · cases hnew
  · rename_i hmax
    simp only [Outcome.ok.injEq] at hnew
    subst hnew
    have := run_bounded calls _ hof hrun ⟨le_refl _, by simpa using hmax⟩
    simp only at this
    unfold DefaultHallOfFame.Len
    rw [← this.1]
    exact this.2

theorem hallOfFame_len_bounds_witness :
    ∃ hof0 hof, DefaultHallOfFame.NewDefaultHallOfFame 2 none = Outcome.ok hof0 ∧
      hof0.run [HofCall.update [indOne (-1) 3 [0], indOne (-1) 1 [1], indOne (-1) 4 [2]],
        HofCall.insert (indOne (-1) 2 [3]), HofCall.remove 0, HofCall.clear,
        HofCall.update [indOne (-1) 5 [4]]] = Outcome.ok hof ∧
      0 ≤ hof.Len ∧ hof.Len ≤ 2 := by
  have hok : (((DefaultHallOfFame.NewDefaultHallOfFame 2 none).bind fun h0 =>
      h0.run [HofCall.update [indOne (-1) 3 [0], indOne (-1) 1 [1], indOne (-1) 4 [2]],
        HofCall.insert (indOne (-1) 2 [3]), HofCall.remove 0, HofCall.clear,
        HofCall.update [indOne (-1) 5 [4]]]).bind fun h => Outcome.ok h.size) =
      Outcome.ok 1 := by decide!
  obtain ⟨hof, hrun, _⟩ := Outcome.bind_eq_ok hok
  obtain ⟨hof0, hnew, hrun⟩ := Outcome.bind_eq_ok hrun
  exact ⟨hof0, hof, hnew, hrun, hallOfFame_len_bounds 2 none _ hof0 hof hnew hrun⟩

end Deag

namespace Deag

/-! ## Hall of fame: no two stored items are similar -/

theorem Fresh_get {hof : DefaultHallOfFame} {l : List Float64Individual} (h : hof.Fresh l)
    (i : Int) (h0 : 0 ≤ i) (hi : i < hof.Len) :
    ∃ x, l.get? i.toNat = some x ∧ hof.Get i = Outcome.ok (some x) := by
  obtain ⟨hsize, _, hitems⟩ := h
  have hlt : i.toNat < l.length := by
    unfold DefaultHallOfFame.Len at hi
    omega
  refine ⟨l.get ⟨i.toNat, hlt⟩, List.get?_eq_get hlt, ?_⟩
  have hget : (l.map some).get? i.toNat = some (some (l.get ⟨i.toNat, hlt⟩)) := by
    simp [List.getElem?_eq_getElem hlt]
  have := index_append_left (l.map some) (List.replicate (hof.maxsize.toNat - l.length) none)
    i.toNat _ hget
  rw [Int.toNat_of_nonneg h0] at this
  rw [DefaultHallOfFame.Get, hitems, this]

theorem Fresh_ext {hof hof1 : DefaultHallOfFame} {l : List Float64Individual}
    (h : hof.Fresh l) (h1 : hof1.Fresh l) (hm : hof1.maxsize = hof.maxsize)
    (hs : hof1.similar = hof.similar) : hof1 = hof := by
  obtain ⟨a1, _, a3⟩ := h
  obtain ⟨b1, _, b3⟩ := h1
  cases hof
  cases hof1
  simp only at a1 a3 b1 b3 hm hs
  subst hm; subst hs
  simp [a1, a3, b1, b3]

theorem similarAny_false {similar : Float64Individual → Option Float64Individual → Bool}
    {maxsize : Int} {l : List Float64Individual} {ind : Float64Individual}
    (h : similarAny similar maxsize l ind = false) : ∀ x ∈ l, similar ind (some x) = false := by
  intro x hx
  unfold similarAny at h
  rw [List.any_eq_false] at h
  have := h (some x) (List.mem_append_left _ (List.mem_map_of_mem some hx))
  simpa using this

theorem similarAny_true {similar : Float64Individual → Option Float64Individual → Bool}
    (maxsize : Int) {l : List Float64Individual} {ind x : Float64Individual} (hx : x ∈ l)
    (h : similar ind (some x) = true) : similarAny similar maxsize l ind = true := by
  unfold similarAny
  rw [List.any_eq_true]
  exact ⟨some x, List.mem_append_left _ (List.mem_map_of_mem some hx), h⟩

theorem pairwise_get_lt {α : Type} (R : α → α → Prop) :
    ∀ (l : List α), l.Pairwise R → ∀ (a b : Nat) (x y : α), l.get? a = some x →
      l.get? b = some y → a < b → R x y := by
  intro l
  induction l with
  | nil => intro _ a b x y h; simp at h
  | cons h t ih =>
    intro hp a b x y hx hy hab
    cases b with
    | zero => omega
    | succ b =>
      cases a with
      | zero =>
        simp only [List.get?_cons_zero, Option.some.injEq] at hx
        subst hx
        exact List.rel_of_pairwise_cons hp (List.get?_mem (by simpa using hy))
      | succ a =>
        exact ih (List.Pairwise.of_cons hp) a b x y (by simpa using hx) (by simpa using hy)
          (by omega)

theorem Round_no_similar (similar : Float64Individual → Option Float64Individual → Bool)
    (hsym : ∀ x y, similar x (some y) = similar y (some x)) (maxsize : Int)
    (l l1 : List Float64Individual) (ind : Float64Individual)
    (hr : Round similar maxsize l ind l1)
    (hp : l.Pairwise fun a b => similar a (some b) = false) :
    l1.Pairwise fun a b => similar a (some b) = false := by
  obtain ⟨worst, g, _, _, hcase⟩ := hr
  rcases hcase with ⟨h, _⟩ | ⟨_, hsim, idx, base, hb, _, _, h⟩
  · rw [h]; exact hp
  · have hsub : base.Sublist l := by
      rw [hb]
      split
      · exact List.Sublist.refl _
      · exact List.dropLast_sublist _
    have hpb := hp.sublist hsub
    have hind : ∀ x ∈ base, similar ind (some x) = false := fun x hx =>
      similarAny_false hsim x (hsub.subset hx)
    rw [← List.take_append_drop idx base] at hpb
    obtain ⟨h1, h2, h3⟩ := List.pairwise_append.mp hpb
    rw [h]
    refine List.pairwise_append.mpr ⟨h1, List.pairwise_cons.mpr ⟨?_, h2⟩, ?_⟩
    · intro x hx
      exact hind x (List.mem_of_mem_drop hx)
    · intro a ha b hb'
      rcases List.mem_cons.mp hb' with rfl | hb'
      · rw [hsym]; exact hind a (List.mem_of_mem_take ha)
      · exact h3 a ha b hb'

theorem Rounds_no_similar (similar : Float64Individual → Option Float64Individual → Bool)
    (hsym : ∀ x y, similar x (some y) = similar y (some x)) (maxsize : Int)
    (l pop l2 : List Float64Individual) (hr : Rounds similar maxsize l pop l2)
    (hp : l.Pairwise fun a b => similar a (some b) = false) :
    l2.Pairwise fun a b => similar a (some b) = false := by
  induction hr with
  | done l => exact hp
  | round l l1 l2 ind rest hround _ ih =>
    exact ih (Round_no_similar similar hsym maxsize l l1 ind hround hp)

theorem Updated_no_similar (similar : Float64Individual → Option Float64Individual → Bool)
    (hsym : ∀ x y, similar x (some y) = similar y (some x)) (maxsize : Int)
    (l pop l2 : List Float64Individual) (hu : Updated similar maxsize l pop l2)
    (hp : l.Pairwise fun a b => similar a (some b) = false) :
    l2.Pairwise fun a b => similar a (some b) = false := by
  rcases hu with ⟨_, h⟩ | ⟨first, rest, _, hr⟩
  · rw [h]; exact hp
  · apply Rounds_no_similar similar hsym maxsize _ _ _ hr
    split
    · simp
    · exact hp

/-- A sequence of `Update` calls with scored individuals on a hall of fame of capacity at
least one that holds `l` completes; `Inv` is any property of the held list that every call
keeps. -/
theorem updates_spec {M : Nat} (Inv : List Float64Individual → Prop) :
    ∀ (pops : List (List Float64Individual)) (hof : DefaultHallOfFame)
      (l : List Float64Individual), hof.Fresh l → 1 ≤ hof.maxsize → (∀ x ∈ l, x.Scored M) →
      (∀ p ∈ pops, ∀ x ∈ p, x.Scored M) → Inv l →
      (∀ a p b, p ∈ pops → Inv a → Updated hof.similar hof.maxsize a p b → Inv b) →
      ∃ (hof2 : DefaultHallOfFame) (l2 : List Float64Individual),
        hof.updates pops = Outcome.ok hof2 ∧ hof2.Fresh l2 ∧ hof2.maxsize = hof.maxsize ∧
        hof2.similar = hof.similar ∧ (∀ x ∈ l2, x.Scored M) ∧ Inv l2 := by
  intro pops
  induction pops with
  | nil =>
    intro hof l hf _ hl _ hinv _
    exact ⟨hof, l, rfl, hf, rfl, rfl, hl, hinv⟩
  | cons p rest ih =>
    intro hof l hf hmax hl hpops hinv hkeep
    obtain ⟨hof1, l1, hu, hf1, hm1, hs1, hl1, hupd⟩ :=
      Update_spec hof l p hf hmax hl (hpops p (by simp))
    obtain ⟨hof2, l2, hrun, hf2, hm2, hs2, hl2, hinv2⟩ :=
      ih hof1 l1 hf1 (by rw [hm1]; exact hmax) hl1
        (fun q hq => hpops q (List.mem_cons_of_mem _ hq))
        (hkeep l p l1 (by simp) hinv hupd)
        (fun a q b hq ha hab => by
          rw [hm1, hs1] at hab
          exact hkeep a q b (List.mem_cons_of_mem _ hq) ha hab)
    refine ⟨hof2, l2, ?_, hf2, by rw [hm2, hm1], by rw [hs2, hs1], hl2, hinv2⟩
    simp only [DefaultHallOfFame.updates, hu, Outcome.ok_bind, hrun]

/-- C19: a sequence of `Update` calls with scored individuals on a newly created hall of
fame with capacity at least one and a symmetric similarity predicate completes, and
afterwards no two items stored at different positions are similar; and an `Update` whose
population is one individual similar to a stored item leaves the hall of fame as it is. -/
theorem updates_no_two_similar (M : Nat) (maxsize : Int) (hmax : 1 ≤ maxsize)
    (similar : Float64Individual → Option Float64Individual → Bool)
    (hsym : ∀ x y, similar x (some y) = similar y (some x))
    (pops : List (List Float64Individual)) (hpops : ∀ p ∈ pops, ∀ x ∈ p, x.Scored M)
    (hof0 : DefaultHallOfFame)
    (hnew : DefaultHallOfFame.NewDefaultHallOfFame maxsize (some similar) = Outcome.ok hof0) :
    ∃ hof, hof0.updates pops = Outcome.ok hof ∧
      (∀ (i j : Int) (x y : Float64Individual), 0 ≤ i → i < hof.Len → 0 ≤ j → j < hof.Len →
        i ≠ j → hof.Get i = Outcome.ok (some x) → hof.Get j = Outcome.ok (some y) →
        similar x (some y) = false) ∧
      (∀ (ind : Float64Individual) (i : Int) (x : Float64Individual), ind.Scored M → 0 ≤ i →
        i < hof.Len → hof.Get i = Outcome.ok (some x) → similar ind (some x) = true →
        hof.Update [ind] = Outcome.ok hof) := by
  obtain ⟨h0, hnew0, hf0, hm0, hs0⟩ := New_fresh maxsize (some similar) (by omega)
  rw [hnew0] at hnew
  simp only [Outcome.ok.injEq] at hnew
  subst hnew
  simp only [Option.getD_some] at hs0
  obtain ⟨hof, l, hrun, hf, hm, hs, hl, hp⟩ := updates_spec (M := M)
    (fun l => l.Pairwise fun a b => similar a (some b) = false) pops h0 []
    hf0 (by rw [hm0]; exact hmax) (fun x hx => by cases hx) hpops List.Pairwise.nil
    (fun a p b _ ha hab => by
      rw [hs0] at hab
      exact Updated_no_similar similar hsym _ a p b hab ha)
  refine ⟨hof, hrun, ?_, ?_⟩
  · intro i j x y hi0 hi hj0 hj hij hgi hgj
    obtain ⟨x1, hx1, hgx⟩ := Fresh_get hf i hi0 hi
    obtain ⟨y1, hy1, hgy⟩ := Fresh_get hf j hj0 hj
    rw [hgx] at hgi
    rw [hgy] at hgj
    simp only [Outcome.ok.injEq, Option.some.injEq] at hgi hgj
    subst hgi; subst hgj
    have hne : i.toNat ≠ j.toNat := by omega
    rcases Nat.lt_or_gt_of_ne hne with hlt | hgt
    · exact pairwise_get_lt _ l hp _ _ _ _ hx1 hy1 hlt
    · rw [hsym]
      exact pairwise_get_lt _ l hp _ _ _ _ hy1 hx1 hgt
  · intro ind i x hind hi0 hi hgi hsim
    obtain ⟨x1, hx1, hgx⟩ := Fresh_get hf i hi0 hi
    rw [hgx] at hgi
    simp only [Outcome.ok.injEq, Option.some.injEq] at hgi
    subst hgi
    have hxl : x1 ∈ l := List.get?_mem hx1
    obtain ⟨hof2, l2, hu, hf2, hm2, hs2, _, hupd⟩ := Update_spec (M := M) hof l [ind] hf
      (by rw [hm, hm0]; exact hmax) hl (fun y hy => by
        simp only [List.mem_singleton] at hy
        subst hy; exact hind)
    have hl2 : l2 = l := by
      rcases hupd with ⟨h, _⟩ | ⟨first, rest, hcons, hr⟩
      · cases h
      · have hne : l ≠ [] := List.ne_nil_of_mem hxl
        rw [if_neg hne] at hr
        cases hr with
        | round _ l1 _ _ _ hround hrest =>
          cases hrest
          obtain ⟨_, _, _, _, hcase⟩ := hround
          rcases hcase with ⟨h, _⟩ | ⟨_, hfalse, _⟩
          · exact h
          · rw [hs, hs0] at hfalse
            rw [similarAny_true _ hxl hsim] at hfalse
            cases hfalse
    subst hl2
    rw [hu, Fresh_ext hf hf2 hm2 hs2]

end Deag

namespace Deag

/-! ## `IsEqual` on individuals -/

theorem isEqualFrom_spec (chrom : List ℚ) :
    ∀ (rest : List ℚ) (i : Nat),
      Float64Individual.isEqualFrom chrom rest i = true ↔
        ∀ j, j < rest.length → |chrom.getD (i + j) 0 - rest.getD j 0| ≤ 1 / 100000000000000 := by
  intro rest
  induction rest with
  | nil => intro i; simp [Float64Individual.isEqualFrom]
  | cons c rest ih =>
    intro i
    have e1 : ∀ j, chrom.getD (i + (j + 1)) 0 = chrom.getD (i + 1 + j) 0 := by
      intro j; congr 1; omega
    rw [Float64Individual.isEqualFrom, forall_lt_cons]
    simp only [List.getD_cons_zero, List.getD_cons_succ, Nat.add_zero, e1]
    by_cases h : |chrom.getD i 0 - c| > 1 / 100000000000000
    · rw [if_pos h]
      constructor
      · intro hf; cases hf
      · rintro ⟨h0, _⟩; exact absurd h (not_lt.mpr h0)
    · rw [if_neg h, ih (i + 1)]
      constructor
      · intro ha; exact ⟨not_lt.mp h, ha⟩
      · rintro ⟨_, ha⟩; exact ha

theorem IsEqual_iff (x y : Float64Individual) :
    x.IsEqual (some y) = true ↔
      y.chromosome.length = x.chromosome.length ∧
        ∀ j, j < x.chromosome.length →
          |y.chromosome.getD j 0 - x.chromosome.getD j 0| ≤ 1 / 100000000000000 := by
  simp only [Float64Individual.IsEqual]
  by_cases hl : y.chromosome.length = x.chromosome.length
  · rw [if_pos hl, isEqualFrom_spec y.chromosome x.chromosome 0]
    simp [hl]
  · rw [if_neg hl]
    simp [hl]

/-- The default similarity predicate is symmetric. -/
theorem IsEqual_symm (x y : Float64Individual) : x.IsEqual (some y) = y.IsEqual (some x) := by
  apply Bool.eq_iff_iff.mpr
  rw [IsEqual_iff, IsEqual_iff]
  constructor
  · rintro ⟨hl, h⟩
    exact ⟨hl.symm, fun j hj => by rw [abs_sub_comm]; exact h j (by omega)⟩
  · rintro ⟨hl, h⟩
    exact ⟨hl.symm, fun j hj => by rw [abs_sub_comm]; exact h j (by omega)⟩

/-- Every individual is similar to itself under the default predicate. -/
theorem IsEqual_refl (x : Float64Individual) : x.IsEqual (some x) = true := by
  rw [IsEqual_iff]
  exact ⟨rfl, fun j _ => by simp⟩

theorem updates_no_two_similar_witness :
    ∃ hof, (DefaultHallOfFame.mk 2 0 [none, none] fun x y => x.IsEqual y).updates
        [[indOne (-1) 3 [0], indOne (-1) 1 [1]], [indOne (-1) 3 [0]], [indOne (-1) 2 [2]]] =
          Outcome.ok hof ∧
      (∀ (i j : Int) (x y : Float64Individual), 0 ≤ i → i < hof.Len → 0 ≤ j → j < hof.Len →
        i ≠ j → hof.Get i = Outcome.ok (some x) → hof.Get j = Outcome.ok (some y) →
        x.IsEqual (some y) = false) ∧
      (∀ (ind : Float64Individual) (i : Int) (x : Float64Individual), ind.Scored 1 → 0 ≤ i →
        i < hof.Len → hof.Get i = Outcome.ok (some x) → ind.IsEqual (some x) = true →
        hof.Update [ind] = Outcome.ok hof) :=
  updates_no_two_similar 1 2 (by decide) (fun x y => x.IsEqual y) IsEqual_symm
    [[indOne (-1) 3 [0], indOne (-1) 1 [1]], [indOne (-1) 3 [0]], [indOne (-1) 2 [2]]]
    (by decide!) (DefaultHallOfFame.mk 2 0 [none, none] fun x y => x.IsEqual y) rfl

end Deag

namespace Deag

/-! ## Hall of fame with one objective: where `Insert` puts an individual -/

theorem dropWhile_all_below (v : ℚ) :
    ∀ (l : List Float64Individual), (l.Pairwise fun a b => b.wvalue ≤ a.wvalue) →
      ∀ x ∈ l.dropWhile (fun x => decide (v ≤ x.wvalue)), x.wvalue < v := by
  intro l
  induction l with
  | nil => intro _ x hx; simp at hx
  | cons a t ih =>
    intro hp x hx
    by_cases ha : v ≤ a.wvalue
    · rw [List.dropWhile_cons_of_pos (by simpa using ha)] at hx
      exact ih (List.Pairwise.of_cons hp) x hx
    · rw [List.dropWhile_cons_of_neg (by simpa using ha)] at hx
      have hlt : a.wvalue < v := lt_of_not_le ha
      rcases List.mem_cons.mp hx with rfl | hx
      · exact hlt
      · exact lt_of_le_of_lt (List.rel_of_pairwise_cons hp hx) hlt

theorem takeWhile_all_above (v : ℚ) (l : List Float64Individual) :
    ∀ x ∈ l.takeWhile (fun x => decide (v ≤ x.wvalue)), v ≤ x.wvalue := by
  intro x hx
  simpa using List.mem_takeWhile_imp hx

/-- With one objective and items in non-increasing order, the binary search of `Insert`
returns the number of leading items whose weighted value is at least the new one. -/
theorem search_single (l : List Float64Individual) (ind : Float64Individual)
    (hl : ∀ x ∈ l, x.Scored 1) (hind : ind.Scored 1)
    (hs : l.Pairwise fun a b => b.wvalue ≤ a.wvalue) :
    sortSearch l.length (lessPred l ind) =
      Outcome.ok (l.takeWhile fun x => decide (ind.wvalue ≤ x.wvalue)).length := by
  have hsplit := List.takeWhile_append_dropWhile (fun x => decide (ind.wvalue ≤ x.wvalue)) l
  have hlen : (l.takeWhile fun x => decide (ind.wvalue ≤ x.wvalue)).length ≤ l.length := by
    have := congrArg List.length hsplit
    simp only [List.length_append] at this
    omega
  unfold sortSearch
  apply searchLoop_spec (lessPred l ind)
    (fun j => ((l.get? j).map fun x => decide (x.wvalue < ind.wvalue)).getD false) l.length
    (l.takeWhile fun x => decide (ind.wvalue ≤ x.wvalue)).length
  · intro j hj
    simp only [lessPred, List.get?_eq_get hj, Option.map_some', Option.getD_some]
    exact ptrLess_single _ _ (hl _ (List.get_mem _ _ _)) hind
  · intro j hj
    have hget : l.get? j = (l.takeWhile fun x => decide (ind.wvalue ≤ x.wvalue)).get? j := by
      conv_lhs => rw [← hsplit]
      rw [List.get?_eq_getElem?, List.get?_eq_getElem?, List.getElem?_append_left hj]
    rw [hget, List.get?_eq_get hj]
    have := takeWhile_all_above ind.wvalue l _ (List.get_mem _ j hj)
    simp only [Option.map_some', Option.getD_some, decide_eq_false_iff_not, not_lt]
    exact this
  · intro j hj1 hj2
    have hget : l.get? j = (l.dropWhile fun x => decide (ind.wvalue ≤ x.wvalue)).get?
        (j - (l.takeWhile fun x => decide (ind.wvalue ≤ x.wvalue)).length) := by
      conv_lhs => rw [← hsplit]
      rw [List.get?_eq_getElem?, List.get?_eq_getElem?, List.getElem?_append_right hj1]
    have hlt : j - (l.takeWhile fun x => decide (ind.wvalue ≤ x.wvalue)).length <
        (l.dropWhile fun x => decide (ind.wvalue ≤ x.wvalue)).length := by
      have := congrArg List.length hsplit
      simp only [List.length_append] at this
      omega
    rw [hget, List.get?_eq_get hlt]
    have := dropWhile_all_below ind.wvalue l hs _ (List.get_mem _ _ hlt)
    simp only [Option.map_some', Option.getD_some, decide_eq_true_eq]
    exact this
  · omega
  · exact hlen
  · exact le_refl _
  · omega

theorem sorted_insert (l : List Float64Individual) (ind : Float64Individual)
    (hs : l.Pairwise fun a b => b.wvalue ≤ a.wvalue) :
    ((l.takeWhile fun x => decide (ind.wvalue ≤ x.wvalue)) ++
      ind :: l.dropWhile fun x => decide (ind.wvalue ≤ x.wvalue)).Pairwise
        fun a b => b.wvalue ≤ a.wvalue := by
  have hsplit := List.takeWhile_append_dropWhile (fun x => decide (ind.wvalue ≤ x.wvalue)) l
  rw [← hsplit] at hs
  obtain ⟨h1, h2, h3⟩ := List.pairwise_append.mp hs
  rw [hsplit] at hs
  refine List.pairwise_append.mpr ⟨h1, List.pairwise_cons.mpr ⟨?_, h2⟩, ?_⟩
  · intro x hx
    exact le_of_lt (dropWhile_all_below ind.wvalue l hs x hx)
  · intro a ha b hb
    rcases List.mem_cons.mp hb with rfl | hb
    · exact takeWhile_all_above _ l a ha
    · exact h3 a ha b hb

theorem take_takeWhile_length {α : Type} (p : α → Bool) (l : List α) :
    l.take (l.takeWhile p).length = l.takeWhile p ∧
      l.drop (l.takeWhile p).length = l.dropWhile p := by
  have hsplit := List.takeWhile_append_dropWhile p l
  constructor
  · have h : (l.takeWhile p ++ l.dropWhile p).take (l.takeWhile p).length = l.takeWhile p :=
      List.take_left' rfl
    rwa [hsplit] at h
  · have h : (l.takeWhile p ++ l.dropWhile p).drop (l.takeWhile p).length = l.dropWhile p :=
      List.drop_left' rfl
    rwa [hsplit] at h

/-- C16: with one objective, `Insert` into a hall of fame that has room and whose items
`l` are in non-increasing order of weighted value completes; the items split into those
with a weighted value at least the new one (`before`) and those with a smaller one
(`after`), the copy of the individual goes between them, everything else keeps its order,
`Len()` grows by one and the items are again in non-increasing order. -/
theorem Insert_keeps_order (hof : DefaultHallOfFame) (l : List Float64Individual)
    (t : Option Float64Individual) (tail : List (Option Float64Individual))
    (ind : Float64Individual) (hitems : hof.items = l.map some ++ t :: tail)
    (hsize : hof.size = (l.length : Int)) (hroom : hof.size < hof.maxsize)
    (hl : ∀ x ∈ l, x.Scored 1) (hind : ind.Scored 1)
    (hs : l.Pairwise fun a b => b.wvalue ≤ a.wvalue) :
    ∃ (hof1 : DefaultHallOfFame) (before after : List Float64Individual),
      hof.Insert ind = Outcome.ok hof1 ∧ l = before ++ after ∧
      (∀ x ∈ before, ind.wvalue ≤ x.wvalue) ∧ (∀ x ∈ after, x.wvalue < ind.wvalue) ∧
      hof1.Len = hof.Len + 1 ∧ hof1.items = (before ++ ind :: after).map some ++ tail ∧
      (before ++ ind :: after).Pairwise fun a b => b.wvalue ≤ a.wvalue := by
  obtain ⟨idx, _, hsearch, hins⟩ := Insert_spec hof l t tail ind hitems hsize hroom hl hind
  rw [search_single l ind hl hind hs] at hsearch
  simp only [Outcome.ok.injEq] at hsearch
  subst hsearch
  obtain ⟨ht, hd⟩ := take_takeWhile_length (fun x => decide (ind.wvalue ≤ x.wvalue)) l
  rw [ht, hd] at hins
  refine ⟨_, l.takeWhile fun x => decide (ind.wvalue ≤ x.wvalue),
    l.dropWhile fun x => decide (ind.wvalue ≤ x.wvalue), hins,
    (List.takeWhile_append_dropWhile _ l).symm, takeWhile_all_above _ l,
    dropWhile_all_below _ l hs, ?_, rfl, sorted_insert l ind hs⟩
  simp only [DefaultHallOfFame.Len, hsize]

theorem Insert_keeps_order_witness :
    ∃ (hof1 : DefaultHallOfFame) (before after : List Float64Individual),
      (DefaultHallOfFame.mk 4 2 [some (indOne 1 5 [0]), some (indOne 1 3 [1]), none, none]
        fun x y => x.IsEqual y).Insert (indOne 1 3 [2]) = Outcome.ok hof1 ∧
      [indOne 1 5 [0], indOne 1 3 [1]] = before ++ after ∧
      (∀ x ∈ before, (indOne 1 3 [2]).wvalue ≤ x.wvalue) ∧
      (∀ x ∈ after, x.wvalue < (indOne 1 3 [2]).wvalue) ∧
      hof1.Len = (DefaultHallOfFame.mk 4 2
        [some (indOne 1 5 [0]), some (indOne 1 3 [1]), none, none]
        fun x y => x.IsEqual y).Len + 1 ∧
      hof1.items = (before ++ indOne 1 3 [2] :: after).map some ++ [none] ∧
      (before ++ indOne 1 3 [2] :: after).Pairwise fun a b => b.wvalue ≤ a.wvalue :=
  Insert_keeps_order
    (DefaultHallOfFame.mk 4 2 [some (indOne 1 5 [0]), some (indOne 1 3 [1]), none, none]
      fun x y => x.IsEqual y)
    [indOne 1 5 [0], indOne 1 3 [1]] none [none] (indOne 1 3 [2]) rfl rfl (by decide)
    (by decide!) (by decide!) (by decide!)

end Deag

namespace Deag

/-! ## Hall of fame with one objective: the best entry -/

/-- A round of `Update` with one objective on items in non-increasing order. -/
theorem Round_single (similar : Float64Individual → Option Float64Individual → Bool)
    (maxsize : Int) (l l1 : List Float64Individual) (ind : Float64Individual)
    (hr : Round similar maxsize l ind l1) (hl : ∀ x ∈ l, x.Scored 1) (hind : ind.Scored 1)
    (hs : l.Pairwise fun a b => b.wvalue ≤ a.wvalue) :
    ∃ worst, l.getLast? = some worst ∧
      ((l1 = l ∧ ((ind.wvalue ≤ worst.wvalue ∧ (l.length : Int) = maxsize) ∨
          similarAny similar maxsize l ind = true)) ∨
        ((worst.wvalue < ind.wvalue ∨ (l.length : Int) < maxsize) ∧
          similarAny similar maxsize l ind = false ∧
          ∃ base : List Float64Individual,
            base = (if (l.length : Int) < maxsize then l else l.dropLast) ∧
            l1 = (base.takeWhile fun x => decide (ind.wvalue ≤ x.wvalue)) ++
              ind :: base.dropWhile fun x => decide (ind.wvalue ≤ x.wvalue))) := by
  obtain ⟨worst, g, hlast, hg, hcase⟩ := hr
  have hw : worst ∈ l := List.mem_of_mem_getLast? hlast
  rw [ptrGreater_single ind worst hind (hl worst hw)] at hg
  simp only [Outcome.ok.injEq] at hg
  subst hg
  refine ⟨worst, hlast, ?_⟩
  rcases hcase with ⟨h1, h2⟩ | ⟨h1, h2, idx, base, hb, _, hsearch, h3⟩
  · refine Or.inl ⟨h1, ?_⟩
    rcases h2 with ⟨h2, h3⟩ | h2
    · exact Or.inl ⟨by simpa using h2, h3⟩
    · exact Or.inr h2
  · refine Or.inr ⟨by simpa using h1, h2, base, hb, ?_⟩
    have hsub : base.Sublist l := by
      rw [hb]
      split
      · exact List.Sublist.refl _
      · exact List.dropLast_sublist _
    rw [search_single base ind (fun x hx => hl x (hsub.subset hx)) hind (hs.sublist hsub)]
      at hsearch
    simp only [Outcome.ok.injEq] at hsearch
    subst hsearch
    obtain ⟨ht, hd⟩ := take_takeWhile_length (fun x => decide (ind.wvalue ≤ x.wvalue)) base
    rw [h3, ht, hd]

theorem sorted_getLast_le (l : List Float64Individual) (worst : Float64Individual)
    (hlast : l.getLast? = some worst) (hs : l.Pairwise fun a b => b.wvalue ≤ a.wvalue) :
    ∀ x ∈ l, worst.wvalue ≤ x.wvalue :=
  pairwise_le_last (fun a b : Float64Individual => b.wvalue ≤ a.wvalue)
    (fun _ => le_refl _) l worst hlast hs

theorem mem_insert_iff {α : Type} (p : α → Bool) (l : List α) (a x : α) :
    x ∈ l.takeWhile p ++ a :: l.dropWhile p ↔ x = a ∨ x ∈ l := by
  have hsplit := List.takeWhile_append_dropWhile p l
  constructor
  · intro h
    rcases List.mem_append.mp h with h | h
    · exact Or.inr (by rw [← hsplit]; exact List.mem_append_left _ h)
    · rcases List.mem_cons.mp h with h | h
      · exact Or.inl h
      · exact Or.inr (by rw [← hsplit]; exact List.mem_append_right _ h)
  · intro h
    rcases h with h | h
    · rw [h]; simp
    · rw [← hsplit] at h
      rcases List.mem_append.mp h with h | h
      · exact List.mem_append_left _ h
      · exact List.mem_append_right _ (List.mem_cons_of_mem _ h)

theorem Round_best (similar : Float64Individual → Option Float64Individual → Bool)
    (maxsize : Int) (U : List Float64Individual) (hnil : ∀ x, similar x none = false)
    (hsim : ∀ x ∈ U, ∀ y ∈ U, similar x (some y) = true → y.wvalue = x.wvalue)
    (l l1 seen : List Float64Individual) (ind : Float64Individual) (hU : ind ∈ U)
    (hind : ind.Scored 1) (hr : Round similar maxsize l ind l1) (hinv : BestInv U seen l) :
    BestInv U (seen ++ [ind]) l1 := by
  obtain ⟨hl, hs, hmem, hcov⟩ := hinv
  obtain ⟨worst, hlast, hcase⟩ := Round_single similar maxsize l l1 ind hr hl hind hs
  have hw : worst ∈ l := List.mem_of_mem_getLast? hlast
  rcases hcase with ⟨h1, h2⟩ | ⟨h1, h2, base, hb, h3⟩
  · subst h1
    refine ⟨hl, hs, hmem, ?_⟩
    intro y hy
    rcases List.mem_append.mp hy with hy | hy
    · exact hcov y hy
    · simp only [List.mem_singleton] at hy
      subst hy
      rcases h2 with ⟨h2, _⟩ | h2
      · exact ⟨worst, hw, h2⟩
      · unfold similarAny at h2
        rw [List.any_eq_true] at h2
        obtain ⟨e, he, hse⟩ := h2
        rcases List.mem_append.mp he with he | he
        · obtain ⟨x, hx, rfl⟩ := List.mem_map.mp he
          exact ⟨x, hx, le_of_eq (hsim y hU x (hmem x hx) hse).symm⟩
        · rw [List.eq_of_mem_replicate he, hnil] at hse
          cases hse
  · have hsub : base.Sublist l := by
      rw [hb]
      split
      · exact List.Sublist.refl _
      · exact List.dropLast_sublist _
    have hbs := hs.sublist hsub
    subst h3
    refine ⟨?_, sorted_insert base ind hbs, ?_, ?_⟩
    · intro x hx
      rcases (mem_insert_iff _ base ind x).mp hx with rfl | hx
      · exact hind
      · exact hl x (hsub.subset hx)
    · intro x hx
      rcases (mem_insert_iff _ base ind x).mp hx with rfl | hx
      · exact hU
      · exact hmem x (hsub.subset hx)
    · intro y hy
      rcases List.mem_append.mp hy with hy | hy
      · obtain ⟨x, hx, hyx⟩ := hcov y hy
        by_cases hroom : (l.length : Int) < maxsize
        · rw [if_pos hroom] at hb
          subst hb
          exact ⟨x, (mem_insert_iff _ _ ind x).mpr (Or.inr hx), hyx⟩
        · rw [if_neg hroom] at hb
          have hlt : worst.wvalue < ind.wvalue := by
            rcases h1 with h1 | h1
            · exact h1
            · exact absurd h1 hroom
          have hne : l ≠ [] := List.ne_nil_of_mem hw
          have hsplit := List.dropLast_append_getLast hne
          have hwl : l.getLast hne = worst := by
            have := List.getLast?_eq_getLast _ hne
            rw [hlast] at this
            exact (Option.some.inj this).symm
          rw [← hsplit] at hx
          rcases List.mem_append.mp hx with hx | hx
          · exact ⟨x, (mem_insert_iff _ _ ind x).mpr (Or.inr (by rw [hb]; exact hx)), hyx⟩
          · simp only [List.mem_singleton] at hx
            rw [hx, hwl] at hyx
            exact ⟨ind, (mem_insert_iff _ _ ind ind).mpr (Or.inl rfl),
              le_of_lt (lt_of_le_of_lt hyx hlt)⟩
      · simp only [List.mem_singleton] at hy
        subst hy
        exact ⟨y, (mem_insert_iff _ _ y y).mpr (Or.inl rfl), le_refl _⟩

theorem Rounds_best (similar : Float64Individual → Option Float64Individual → Bool)
    (maxsize : Int) (U : List Float64Individual) (hnil : ∀ x, similar x none = false)
    (hsim : ∀ x ∈ U, ∀ y ∈ U, similar x (some y) = true → y.wvalue = x.wvalue)
    (l pop l2 : List Float64Individual) (hr : Rounds similar maxsize l pop l2) :
    ∀ seen, (∀ x ∈ pop, x ∈ U ∧ x.Scored 1) → BestInv U seen l →
      BestInv U (seen ++ pop) l2 := by
  induction hr with
  | done l => intro seen _ h; simpa using h
  | round l l1 l2 ind rest hround _ ih =>
    intro seen hpop hinv
    have h1 := Round_best similar maxsize U hnil hsim l l1 seen ind (hpop ind (by simp)).1
      (hpop ind (by simp)).2 hround hinv
    have h2 := ih (seen ++ [ind]) (fun x hx => hpop x (List.mem_cons_of_mem _ hx)) h1
    simpa using h2

theorem Updated_best (similar : Float64Individual → Option Float64Individual → Bool)
    (maxsize : Int) (U : List Float64Individual) (hnil : ∀ x, similar x none = false)
    (hsim : ∀ x ∈ U, ∀ y ∈ U, similar x (some y) = true → y.wvalue = x.wvalue)
    (l pop l2 seen : List Float64Individual) (hu : Updated similar maxsize l pop l2)
    (hpop : ∀ x ∈ pop, x ∈ U ∧ x.Scored 1) (hinv : BestInv U seen l) :
    BestInv U (seen ++ pop) l2 := by
  rcases hu with ⟨h1, h2⟩ | ⟨first, rest, hcons, hr⟩
  · subst h1; subst h2; simpa using hinv
  · apply Rounds_best similar maxsize U hnil hsim _ pop l2 hr seen hpop
    split
    · rename_i hnil'
      subst hnil'
      obtain ⟨_, _, _, hcov⟩ := hinv
      have hf : first ∈ pop := by rw [hcons]; simp
      refine ⟨?_, by simp, ?_, ?_⟩
      · intro x hx
        simp only [List.mem_singleton] at hx
        subst hx; exact (hpop x hf).2
      · intro x hx
        simp only [List.mem_singleton] at hx
        subst hx; exact (hpop x hf).1
      · intro y hy
        obtain ⟨x, hx, _⟩ := hcov y hy
        cases hx
    · exact hinv

/-- A sequence of `Update` calls as in `updates_spec`, for a property of the held list that
also speaks of the populations already processed. -/
theorem updates_track {M : Nat} (Inv : List Float64Individual → List Float64Individual → Prop)
    (similar : Float64Individual → Option Float64Individual → Bool) (maxsize : Int)
    (hmax : 1 ≤ maxsize) :
    ∀ (pops : List (List Float64Individual)) (hof : DefaultHallOfFame)
      (l seen : List Float64Individual), hof.Fresh l → hof.maxsize = maxsize →
      hof.similar = similar → (∀ x ∈ l, x.Scored M) → (∀ p ∈ pops, ∀ x ∈ p, x.Scored M) →
      Inv seen l →
      (∀ a p b s, p ∈ pops → Inv s a → Updated similar maxsize a p b → Inv (s ++ p) b) →
      ∃ (hof2 : DefaultHallOfFame) (l2 : List Float64Individual),
        hof.updates pops = Outcome.ok hof2 ∧ hof2.Fresh l2 ∧ hof2.maxsize = maxsize ∧
        Inv (seen ++ pops.flatten) l2 := by
  intro pops
  induction pops with
  | nil =>
    intro hof l seen hf hm _ _ _ hinv _
    exact ⟨hof, l, rfl, hf, hm, by simpa using hinv⟩
  | cons p rest ih =>
    intro hof l seen hf hm hsm hl hpops hinv hkeep
    obtain ⟨hof1, l1, hu, hf1, hm1, hs1, hl1, hupd⟩ :=
      Update_spec hof l p hf (by rw [hm]; exact hmax) hl (hpops p (by simp))
    rw [hm, hsm] at hupd
    obtain ⟨hof2, l2, hrun, hf2, hm2, hinv2⟩ :=
      ih hof1 l1 (seen ++ p) hf1 (by rw [hm1, hm]) (by rw [hs1, hsm]) hl1
        (fun q hq => hpops q (List.mem_cons_of_mem _ hq))
        (hkeep l p l1 seen (by simp) hinv hupd)
        (fun a q b s hq ha hab => hkeep a q b s (List.mem_cons_of_mem _ hq) ha hab)
    refine ⟨hof2, l2, ?_, hf2, hm2, by simpa using hinv2⟩
    simp only [DefaultHallOfFame.updates, hu, Outcome.ok_bind, hrun]

end Deag

namespace Deag

/-! ## Hall of fame with one objective: the best entry ever seen -/

/-- What the code keeps of the best entry: for single-objective scored individuals, a hall
of fame of capacity at least one, and a similarity predicate that finds a `nil` entry
similar to nothing and finds two of the individuals similar only when their weighted values
are equal, every sequence of `Update` calls on the newly created hall of fame completes, and
afterwards the weighted value of `Get(0)` is at least that of every individual of every
population passed. -/
theorem updates_best_entry (maxsize : Int) (hmax : 1 ≤ maxsize)
    (similar : Float64Individual → Option Float64Individual → Bool)
    (hnil : ∀ x, similar x none = false) (pops : List (List Float64Individual))
    (hpops : ∀ p ∈ pops, ∀ x ∈ p, x.Scored 1)
    (hsim : ∀ x ∈ pops.flatten, ∀ y ∈ pops.flatten, similar x (some y) = true →
      y.wvalue = x.wvalue)
    (hof0 : DefaultHallOfFame)
    (hnew : DefaultHallOfFame.NewDefaultHallOfFame maxsize (some similar) = Outcome.ok hof0) :
    ∃ hof, hof0.updates pops = Outcome.ok hof ∧
      ∀ p ∈ pops, ∀ y ∈ p, ∃ best, hof.Get 0 = Outcome.ok (some best) ∧
        y.wvalue ≤ best.wvalue := by
  obtain ⟨h0, hnew0, hf0, hm0, hs0⟩ := New_fresh maxsize (some similar) (by omega)
  rw [hnew0] at hnew
  simp only [Outcome.ok.injEq] at hnew
  subst hnew
  simp only [Option.getD_some] at hs0
  obtain ⟨hof, l, hrun, hf, _, hl, hs, _, hcov⟩ := updates_track (M := 1)
    (BestInv pops.flatten) similar maxsize hmax pops h0 [] [] hf0 hm0 hs0
    (fun x hx => by cases hx) hpops
    ⟨fun x hx => (by cases hx), List.Pairwise.nil, fun x hx => (by cases hx),
      fun y hy => (by cases hy)⟩
    (fun a p b s hp ha hab =>
      Updated_best similar maxsize pops.flatten hnil hsim a p b s hab
        (fun x hx => ⟨List.mem_flatten.mpr ⟨p, hp, hx⟩, hpops p hp x hx⟩) ha)
  refine ⟨hof, hrun, ?_⟩
  intro p hp y hy
  obtain ⟨x, hx, hyx⟩ := hcov y (by simpa using List.mem_flatten.mpr ⟨p, hp, hy⟩)
  cases l with
  | nil => cases hx
  | cons best t =>
    obtain ⟨b, hb, hget⟩ := Fresh_get hf 0 (le_refl _) (by
      simp only [DefaultHallOfFame.Len, hf.1, List.length_cons]; omega)
    simp only [Int.toNat_zero, List.get?_cons_zero, Option.some.injEq] at hb
    subst hb
    refine ⟨best, hget, ?_⟩
    rcases List.mem_cons.mp hx with rfl | hx
    · exact hyx
    · exact le_trans hyx (List.rel_of_pairwise_cons hs hx)

theorem updates_best_entry_witness :
    ∃ hof, (DefaultHallOfFame.mk 2 0 [none, none] fun x y => x.IsEqual y).updates
        [[indOne (-1) 3 [0], indOne (-1) 1 [1]], [indOne (-1) 4 [2], indOne (-1) 1 [3]]] =
          Outcome.ok hof ∧
      ∀ p ∈ [[indOne (-1) 3 [0], indOne (-1) 1 [1]], [indOne (-1) 4 [2], indOne (-1) 1 [3]]],
        ∀ y ∈ p, ∃ best, hof.Get 0 = Outcome.ok (some best) ∧ y.wvalue ≤ best.wvalue :=
  updates_best_entry 2 (by decide) (fun x y => x.IsEqual y) (fun _ => rfl)
    [[indOne (-1) 3 [0], indOne (-1) 1 [1]], [indOne (-1) 4 [2], indOne (-1) 1 [3]]]
    (by decide!) (by decide!) (DefaultHallOfFame.mk 2 0 [none, none] fun x y => x.IsEqual y)
    rfl

/-- C17 fails with the default similarity predicate, against the doc comment of
`HallOfFame`, by which the first element is the individual with the best first fitness
value ever seen: the second population holds an individual whose chromosome is within
`1E-14` of the stored one and whose weighted value is larger; it is passed over as similar,
and `Get(0)` keeps the weighted value 1 although an individual of weighted value 5 has been
passed to `Update`. -/
theorem updates_best_entry_blocked_by_similarity :
    (((DefaultHallOfFame.NewDefaultHallOfFame 2 none).bind fun h =>
        h.updates [[indOne 1 1 [0]], [indOne 1 5 [1 / 1000000000000000]]]).bind fun h =>
        (h.Get 0).bind fun best => Outcome.ok (h.Len, best.map Float64Individual.wvalue)) =
      Outcome.ok (1, some 1) ∧
      (indOne 1 5 [1 / 1000000000000000]).wvalue = 5 := by
  decide!

end Deag

namespace Deag

/-! ## Hall of fame with one objective: the largest values of a population -/

theorem insert_perm {α : Type} (p : α → Bool) (l : List α) (a : α) :
    (l.takeWhile p ++ a :: l.dropWhile p).Perm (a :: l) := by
  have h : (l.takeWhile p ++ a :: l.dropWhile p).Perm
      (a :: (l.takeWhile p ++ l.dropWhile p)) := List.perm_middle
  rwa [List.takeWhile_append_dropWhile] at h

theorem similarAny_none (similar : Float64Individual → Option Float64Individual → Bool)
    (hnil : ∀ x, similar x none = false) (maxsize : Int) (l : List Float64Individual)
    (ind : Float64Individual) (h : ∀ x ∈ l, similar ind (some x) = false) :
    similarAny similar maxsize l ind = false := by
  unfold similarAny
  rw [List.any_eq_false]
  intro e he
  rcases List.mem_append.mp he with he | he
  · obtain ⟨x, hx, rfl⟩ := List.mem_map.mp he
    simp [h x hx]
  · rw [List.eq_of_mem_replicate he, hnil]
    simp

theorem Round_top (similar : Float64Individual → Option Float64Individual → Bool)
    (hnil : ∀ x, similar x none = false) (m : Int) (l l1 done : List Float64Individual)
    (ind : Float64Individual) (hind : ind.Scored 1)
    (hnot : ∀ x ∈ done, similar ind (some x) = false)
    (hr : Round similar m l ind l1) (hinv : TopInv m done l) :
    TopInv m (done ++ [ind]) l1 := by
  obtain ⟨hl, hs, hle, others, hperm, hbelow, hfull⟩ := hinv
  obtain ⟨worst, hlast, hcase⟩ := Round_single similar m l l1 ind hr hl hind hs
  have hw : worst ∈ l := List.mem_of_mem_getLast? hlast
  have hwle := sorted_getLast_le l worst hlast hs
  have hnotl : ∀ x ∈ l, similar ind (some x) = false := fun x hx =>
    hnot x (hperm.subset (List.mem_append_left _ hx))
  have hany := similarAny_none similar hnil m l ind hnotl
  rcases hcase with ⟨h1, h2⟩ | ⟨h1, _, base, hb, h3⟩
  · subst h1
    rcases h2 with ⟨h2, h3⟩ | h2
    · refine ⟨hl, hs, hle, ind :: others, ?_, ?_, Or.inl h3⟩
      · exact (List.perm_middle.trans (List.Perm.cons ind hperm)).trans
          (List.perm_append_singleton ind done).symm
      · intro x hx y hy
        rcases List.mem_cons.mp hy with rfl | hy
        · exact le_trans h2 (hwle x hx)
        · exact hbelow x hx y hy
    · rw [hany] at h2; cases h2
  · subst h3
    by_cases hroom : (l.length : Int) < m
    · rw [if_pos hroom] at hb
      subst hb
      have hoth : others = [] := by
        rcases hfull with hfull | hfull
        · omega
        · exact hfull
      subst hoth
      refine ⟨?_, sorted_insert base ind hs, ?_, [], ?_, fun _ _ y hy => (by cases hy),
        Or.inr rfl⟩
      · intro x hx
        rcases (mem_insert_iff _ base ind x).mp hx with rfl | hx
        · exact hind
        · exact hl x hx
      · have := (insert_perm (fun x => decide (ind.wvalue ≤ x.wvalue)) base ind).length_eq
        rw [this, List.length_cons]
        push_cast
        omega
      · rw [List.append_nil] at hperm ⊢
        exact ((insert_perm _ base ind).trans (List.Perm.cons ind hperm)).trans
          (List.perm_append_singleton ind done).symm
    · rw [if_neg hroom] at hb
      have hlt : worst.wvalue < ind.wvalue := by
        rcases h1 with h1 | h1
        · exact h1
        · exact absurd h1 hroom
      have hne : l ≠ [] := List.ne_nil_of_mem hw
      have hsplit := List.dropLast_append_getLast hne
      have hwl : l.getLast hne = worst := by
        have := List.getLast?_eq_getLast _ hne
        rw [hlast] at this
        exact (Option.some.inj this).symm
      rw [hwl, ← hb] at hsplit
      have hsub : base.Sublist l := by rw [hb]; exact List.dropLast_sublist _
      have hblen : base.length + 1 = l.length := by
        rw [← hsplit]; simp
      refine ⟨?_, sorted_insert base ind (hs.sublist hsub), ?_, worst :: others, ?_, ?_,
        Or.inl ?_⟩
      · intro x hx
        rcases (mem_insert_iff _ base ind x).mp hx with rfl | hx
        · exact hind
        · exact hl x (hsub.subset hx)
      · have := (insert_perm (fun x => decide (ind.wvalue ≤ x.wvalue)) base ind).length_eq
        rw [this, List.length_cons]
        push_cast
        omega
      · have h1 : ((base.takeWhile fun x => decide (ind.wvalue ≤ x.wvalue)) ++
            ind :: base.dropWhile fun x => decide (ind.wvalue ≤ x.wvalue)).Perm (ind :: base) :=
          insert_perm _ base ind
        have h2 : (ind :: base ++ worst :: others).Perm (ind :: (l ++ others)) := by
          rw [← hsplit]
          simp
        exact ((List.Perm.append_right _ h1).trans h2).trans
          ((List.Perm.cons ind hperm).trans (List.perm_append_singleton ind done).symm)
      · intro x hx y hy
        have hxcase := (mem_insert_iff _ base ind x).mp hx
        rcases List.mem_cons.mp hy with rfl | hy
        · rcases hxcase with rfl | hx'
          · exact le_of_lt hlt
          · exact hwle x (hsub.subset hx')
        · rcases hxcase with rfl | hx'
          · exact le_trans (hbelow worst hw y hy) (le_of_lt hlt)
          · exact hbelow x (hsub.subset hx') y hy
      · have := (insert_perm (fun x => decide (ind.wvalue ≤ x.wvalue)) base ind).length_eq
        rw [this, List.length_cons]
        push_cast
        omega

theorem Rounds_top (similar : Float64Individual → Option Float64Individual → Bool)
    (hnil : ∀ x, similar x none = false) (m : Int) (l pop l2 : List Float64Individual)
    (hr : Rounds similar m l pop l2) :
    ∀ done, (∀ x ∈ pop, x.Scored 1) →
      ((done ++ pop).Pairwise fun a b => similar b (some a) = false) → TopInv m done l →
      TopInv m (done ++ pop) l2 := by
  induction hr with
  | done l => intro done _ _ h; simpa using h
  | round l l1 l2 ind rest hround _ ih =>
    intro done hpop hpair hinv
    have hnot : ∀ x ∈ done, similar ind (some x) = false := fun x hx =>
      (List.pairwise_append.mp hpair).2.2 x hx ind (by simp)
    have h1 := Round_top similar hnil m l l1 done ind (hpop ind (by simp)) hnot hround hinv
    have h2 := ih (done ++ [ind]) (fun x hx => hpop x (List.mem_cons_of_mem _ hx))
      (by simpa using hpair) h1
    simpa using h2

/-- The largest are kept when the individuals are `*Float64Individual`s: `Update(P)` on a
newly created hall of fame of capacity `m ≥ 1` with the default similarity predicate, for a
population `P` of single-objective scored individuals that are pairwise not similar,
completes; the hall then holds `min(m, |P|)` individuals `kept` of `P`, in non-increasing
order of weighted value, and no individual of `P` left out (`others`) has a larger weighted
value than a kept one. -/
theorem Update_keeps_largest (m : Int) (hm : 1 ≤ m) (P : List Float64Individual)
    (hP : ∀ x ∈ P, x.Scored 1) (hdis : P.Pairwise fun a b => a.IsEqual (some b) = false)
    (hof0 : DefaultHallOfFame)
    (hnew : DefaultHallOfFame.NewDefaultHallOfFame m none = Outcome.ok hof0) :
    ∃ (hof : DefaultHallOfFame) (kept others : List Float64Individual),
      hof0.Update P = Outcome.ok hof ∧ hof.Len = min m (P.length : Int) ∧
      (kept.length : Int) = hof.Len ∧
      (∀ (i : Nat) (x : Float64Individual), kept.get? i = some x →
        hof.Get (i : Int) = Outcome.ok (some x)) ∧
      (kept.Pairwise fun a b => b.wvalue ≤ a.wvalue) ∧ (kept ++ others).Perm P ∧
      ∀ x ∈ kept, ∀ y ∈ others, y.wvalue ≤ x.wvalue := by
  obtain ⟨h0, hnew0, hf0, hm0, hs0⟩ := New_fresh m none (by omega)
  rw [hnew0] at hnew
  simp only [Outcome.ok.injEq] at hnew
  subst hnew
  simp only [Option.getD_none] at hs0
  obtain ⟨hof, l2, hu, hf, _, _, _, hupd⟩ := Update_spec (M := 1) h0 [] P hf0
    (by rw [hm0]; exact hm) (fun x hx => by cases hx) hP
  rw [hm0, hs0] at hupd
  have hget : ∀ (i : Nat) (x : Float64Individual), l2.get? i = some x →
      hof.Get (i : Int) = Outcome.ok (some x) := by
    intro i x hx
    have hi : i < l2.length := by
      by_contra hc; rw [List.get?_eq_none.mpr (by omega)] at hx; cases hx
    obtain ⟨y, hy, hg⟩ := Fresh_get hf (i : Int) (by omega) (by
      simp only [DefaultHallOfFame.Len, hf.1]; omega)
    rw [Int.toNat_ofNat, hx] at hy
    rw [hg, ← Option.some.inj hy]
  have htop : TopInv m P l2 := by
    rcases hupd with ⟨h1, h2⟩ | ⟨first, rest, hcons, hr⟩
    · subst h1; subst h2
      exact ⟨fun x hx => (by cases hx), List.Pairwise.nil, (by simp; omega), [], (by simp),
        fun x hx => (by cases hx), Or.inr rfl⟩
    · subst hcons
      rw [if_pos rfl] at hr
      cases hr with
      | round _ l1 _ _ _ hround hrest =>
        have hfirst : first.Scored 1 := hP first (by simp)
        have hl1 : l1 = [first] := by
          obtain ⟨_, _, _, _, hcase⟩ := hround
          rcases hcase with ⟨h, _⟩ | ⟨_, hfalse, _⟩
          · exact h
          · rw [similarAny_true m (List.mem_singleton.mpr rfl) (IsEqual_refl first)] at hfalse
            cases hfalse
        subst hl1
        have hstart : TopInv m [first] [first] :=
          ⟨fun x hx => (by
              simp only [List.mem_singleton] at hx
              subst hx; exact hfirst),
            (by simp), (by simp; omega), [], (by simp), fun _ _ y hy => (by cases hy),
            Or.inr rfl⟩
        have := Rounds_top (fun x y => x.IsEqual y) (fun _ => rfl) m [first] rest l2 hrest
          [first] (fun x hx => hP x (List.mem_cons_of_mem _ hx))
          (by
            refine hdis.imp ?_
            intro a b hab
            show b.IsEqual (some a) = false
            rw [IsEqual_symm]; exact hab) hstart
        simpa using this
  obtain ⟨_, hs, hle, others, hperm, hbelow, hfull⟩ := htop
  refine ⟨hof, l2, others, hu, ?_, ?_, hget, hs, hperm, hbelow⟩
  · have hlen := hperm.length_eq
    simp only [List.length_append] at hlen
    simp only [DefaultHallOfFame.Len, hf.1]
    rcases hfull with hfull | hfull
    · rw [min_eq_left (by omega)]; exact hfull
    · subst hfull
      simp only [List.length_nil, Nat.add_zero] at hlen
      rw [min_eq_right (by omega), hlen]
  · simp only [DefaultHallOfFame.Len, hf.1]

theorem Update_keeps_largest_witness :
    ∃ (hof : DefaultHallOfFame) (kept others : List Float64Individual),
      (DefaultHallOfFame.mk 2 0 [none, none] fun x y => x.IsEqual y).Update
        [indOne (-1) 3 [0], indOne (-1) 1 [1], indOne (-1) 4 [2], indOne (-1) 1 [3]] =
          Outcome.ok hof ∧
      hof.Len = min 2 (([indOne (-1) 3 [0], indOne (-1) 1 [1], indOne (-1) 4 [2],
        indOne (-1) 1 [3]].length : Nat) : Int) ∧
      (kept.length : Int) = hof.Len ∧
      (∀ (i : Nat) (x : Float64Individual), kept.get? i = some x →
        hof.Get (i : Int) = Outcome.ok (some x)) ∧
      (kept.Pairwise fun a b => b.wvalue ≤ a.wvalue) ∧
      (kept ++ others).Perm
        [indOne (-1) 3 [0], indOne (-1) 1 [1], indOne (-1) 4 [2], indOne (-1) 1 [3]] ∧
      ∀ x ∈ kept, ∀ y ∈ others, y.wvalue ≤ x.wvalue :=
  Update_keeps_largest 2 (by decide)
    [indOne (-1) 3 [0], indOne (-1) 1 [1], indOne (-1) 4 [2], indOne (-1) 1 [3]] (by decide!)
    (by decide!) (DefaultHallOfFame.mk 2 0 [none, none] fun x y => x.IsEqual y) rfl

end Deag

namespace Deag

/-! ## Hall of fame: runs that leave the documented behaviour -/

/-- C15: three `Update` calls with the two-objective individuals `(1, 1)`, `(5, 0)` and
`(2, 2)` (to be maximised) on a new hall of fame of capacity 3 leave the items in the order
`(1, 1)`, `(5, 0)`, `(2, 2)`: `Len()` is 3 and the fitness of `Get(0)` is `Less` than the
fitness of `Get(2)`. -/
theorem updates_items_out_of_order :
    (((DefaultHallOfFame.NewDefaultHallOfFame 3 none).bind fun h =>
        h.updates [[indTwo 1 1 [0]], [indTwo 5 0 [1]], [indTwo 2 2 [2]]]).bind fun h =>
        Outcome.ok h.view) =
      Outcome.ok (3, [some (indTwo 1 1 [0]), some (indTwo 5 0 [1]), some (indTwo 2 2 [2])]) ∧
    ((getFitness (some (indTwo 1 1 [0]))).bind fun f0 =>
        (getFitness (some (indTwo 2 2 [2]))).bind fun f2 => ptrLess f0 f2) =
      Outcome.ok true := by
  decide!

/-- C20: on a hall of fame of capacity 2 that holds the weighted values 5 and 3, `Insert`
of an individual with weighted value 4 leaves `Len()` at 2 and overwrites the worst item,
and `Insert` of an individual with weighted value 2 panics (index out of range). -/
theorem Insert_full_drops_worst :
    ((((DefaultHallOfFame.NewDefaultHallOfFame 2 none).bind fun h =>
        h.updates [[indOne 1 5 [0]], [indOne 1 3 [1]]]).bind fun h =>
        Outcome.ok h.view) =
      Outcome.ok (2, [some (indOne 1 5 [0]), some (indOne 1 3 [1])])) ∧
    ((((DefaultHallOfFame.NewDefaultHallOfFame 2 none).bind fun h =>
        h.updates [[indOne 1 5 [0]], [indOne 1 3 [1]]]).bind fun h =>
        (h.Insert (indOne 1 4 [2])).bind fun h1 => Outcome.ok h1.view) =
      Outcome.ok (2, [some (indOne 1 5 [0]), some (indOne 1 4 [2])])) ∧
    ((((DefaultHallOfFame.NewDefaultHallOfFame 2 none).bind fun h =>
        h.updates [[indOne 1 5 [0]], [indOne 1 3 [1]]]).bind fun h =>
        (h.Insert (indOne 1 2 [2])).bind fun h1 => Outcome.ok h1.view) =
      Outcome.panic) := by
  decide!

end Deag

namespace Deag

/-! ## Fitness: irreflexive dominance, `LessEqual` and `Greater` -/

theorem drop_cons_get {α : Type} :
    ∀ (l : List α) (k : Nat) (x : α) (rest : List α), l.drop k = x :: rest →
      l.get? k = some x ∧ l.drop (k + 1) = rest := by
  intro l
  induction l with
  | nil => intro k x rest h; simp at h
  | cons a l ih =>
    intro k x rest h
    cases k with
    | zero =>
      simp only [List.drop_zero, List.cons.injEq] at h
      exact ⟨by simp [h.1], by simp [h.2]⟩
    | succ k =>
      have := ih k x rest (by simpa using h)
      exact ⟨by simpa using this.1, by simpa using this.2⟩

theorem dominatesAll_self (other : List ℚ) :
    ∀ (rest : List ℚ) (k : Nat) (ne : Bool), other.drop k = rest →
      Fitness.dominatesAll other rest k ne = Outcome.ok ne := by
  intro rest
  induction rest with
  | nil => intro k ne _; rfl
  | cons wv rest ih =>
    intro k ne h
    obtain ⟨hget, hdrop⟩ := drop_cons_get other k wv rest h
    rw [Fitness.dominatesAll, hget]
    dsimp only
    rw [if_neg (lt_irrefl wv), if_neg (lt_irrefl wv)]
    exact ih (k + 1) ne hdrop

/-- C26: for every fitness `f`, `f.Dominates(f, nil)` is false. -/
theorem Dominates_irrefl (f : Fitness) : f.Dominates f none = Outcome.ok false := by
  simp only [Fitness.Dominates]
  exact dominatesAll_self f.wvalues f.wvalues 0 false rfl

theorem lessEqualFrom_spec (other : List ℚ) :
    ∀ (rest : List ℚ) (i : Nat), i + rest.length = other.length →
      ∃ r, Fitness.lessEqualFrom other rest i = Outcome.ok r ∧
        (r = true ↔ ∀ j, j < rest.length → rest.getD j 0 ≤ other.getD (i + j) 0) := by
  intro rest
  induction rest with
  | nil => intro i _; exact ⟨true, rfl, by simp⟩
  | cons fit rest ih =>
    intro i h
    have hi : i < other.length := by simp at h; omega
    have hget : other.get? i = some (other.getD i 0) := by
      rw [List.getD_eq_getElem _ _ hi]; simp [List.getElem?_eq_getElem hi]
    have hlen : (i + 1) + rest.length = other.length := by simp at h; omega
    have e1 : ∀ j, other.getD (i + (j + 1)) 0 = other.getD (i + 1 + j) 0 := by
      intro j; congr 1; omega
    rw [Fitness.lessEqualFrom, hget]
    dsimp only
    rw [forall_lt_cons]
    simp only [List.getD_cons_zero, List.getD_cons_succ, Nat.add_zero, e1]
    by_cases h1 : other.getD i 0 < fit
    · rw [if_pos h1]
      refine ⟨false, rfl, ?_⟩
      constructor
      · intro hf; cases hf
      · rintro ⟨h0, _⟩; exact absurd h1 (not_lt.mpr h0)
    · rw [if_neg h1]
      obtain ⟨r, hr, hiff⟩ := ih (i + 1) hlen
      refine ⟨r, hr, hiff.trans ?_⟩
      constructor
      · intro ha; exact ⟨not_lt.mp h1, ha⟩
      · rintro ⟨_, ha⟩; exact ha

theorem LessEqual_spec {M : Nat} (a b : Fitness) (ha : a.Evaluated M) (hb : b.Evaluated M) :
    ∃ r, a.LessEqual b = Outcome.ok r ∧
      (r = true ↔ ∀ i, i < M → a.wvalues.getD i 0 ≤ b.wvalues.getD i 0) := by
  obtain ⟨r, hr, hiff⟩ := lessEqualFrom_spec b.wvalues a.wvalues 0 (by simp [ha.2, hb.2])
  refine ⟨r, hr, ?_⟩
  rw [hiff, ha.2]
  simp

/-- Over finite weighted values: for fitness `a`, `b` with `M` objectives each,
`a.LessEqual(b)` returns whether every weighted value of `a` is at most the corresponding
one of `b`, `a.Greater(b)` returns the negation of that, and when neither `a.LessEqual(b)`
nor `b.LessEqual(a)` holds both `a.Greater(b)` and `b.Greater(a)` do. -/
theorem LessEqual_Greater_partition (M : Nat) (a b : Fitness) (ha : a.Evaluated M)
    (hb : b.Evaluated M) :
    ∃ r, a.LessEqual b = Outcome.ok r ∧
      (r = true ↔ ∀ i, i < M → a.wvalues.getD i 0 ≤ b.wvalues.getD i 0) ∧
      a.Greater b = Outcome.ok (!r) ∧
      (a.LessEqual b = Outcome.ok false → b.LessEqual a = Outcome.ok false →
        a.Greater b = Outcome.ok true ∧ b.Greater a = Outcome.ok true) := by
  obtain ⟨r, hr, hiff⟩ := LessEqual_spec a b ha hb
  refine ⟨r, hr, hiff, by simp only [Fitness.Greater, hr, Outcome.ok_bind], ?_⟩
  intro h1 h2
  simp only [Fitness.Greater, h1, h2, Outcome.ok_bind, Bool.not_false, and_self]

theorem LessEqual_Greater_partition_witness :
    ∃ r, (fitMax2 1 0).LessEqual (fitMax2 0 1) = Outcome.ok r ∧
      (r = true ↔ ∀ i, i < 2 → (fitMax2 1 0).wvalues.getD i 0 ≤ (fitMax2 0 1).wvalues.getD i 0) ∧
      (fitMax2 1 0).Greater (fitMax2 0 1) = Outcome.ok (!r) ∧
      ((fitMax2 1 0).LessEqual (fitMax2 0 1) = Outcome.ok false →
        (fitMax2 0 1).LessEqual (fitMax2 1 0) = Outcome.ok false →
        (fitMax2 1 0).Greater (fitMax2 0 1) = Outcome.ok true ∧
          (fitMax2 0 1).Greater (fitMax2 1 0) = Outcome.ok true) :=
  LessEqual_Greater_partition 2 (fitMax2 1 0) (fitMax2 0 1) (by decide) (by decide)

/-- Over finite weighted values: on fitness with `M` objectives each, `LessEqual` is
reflexive and transitive, and with a single objective any two are comparable. -/
theorem LessEqual_preorder (M : Nat) (a b c : Fitness) (ha : a.Evaluated M)
    (hb : b.Evaluated M) (hc : c.Evaluated M) :
    a.LessEqual a = Outcome.ok true ∧
      (a.LessEqual b = Outcome.ok true → b.LessEqual c = Outcome.ok true →
        a.LessEqual c = Outcome.ok true) ∧
      (M = 1 → a.LessEqual b = Outcome.ok true ∨ b.LessEqual a = Outcome.ok true) := by
  obtain ⟨raa, haa, iaa⟩ := LessEqual_spec a a ha ha
  obtain ⟨rab, hab, iab⟩ := LessEqual_spec a b ha hb
  obtain ⟨rbc, hbc, ibc⟩ := LessEqual_spec b c hb hc
  obtain ⟨rac, hac, iac⟩ := LessEqual_spec a c ha hc
  obtain ⟨rba, hba, iba⟩ := LessEqual_spec b a hb ha
  refine ⟨?_, ?_, ?_⟩
  · rw [haa, iaa.mpr (fun i _ => le_refl _)]
  · intro h1 h2
    rw [hab] at h1
    rw [hbc] at h2
    simp only [Outcome.ok.injEq] at h1 h2
    rw [hac, iac.mpr (fun i hi => le_trans (iab.mp h1 i hi) (ibc.mp h2 i hi))]
  · intro hM
    subst hM
    rcases le_total (a.wvalues.getD 0 0) (b.wvalues.getD 0 0) with h | h
    · left
      rw [hab, iab.mpr (fun i hi => by
        have : i = 0 := by omega
        subst this; exact h)]
    · right
      rw [hba, iba.mpr (fun i hi => by
        have : i = 0 := by omega
        subst this; exact h)]

theorem LessEqual_preorder_witness :
    (fitMax 1).LessEqual (fitMax 1) = Outcome.ok true ∧
      ((fitMax 1).LessEqual (fitMax 2) = Outcome.ok true →
        (fitMax 2).LessEqual (fitMax 3) = Outcome.ok true →
        (fitMax 1).LessEqual (fitMax 3) = Outcome.ok true) ∧
      (1 = 1 → (fitMax 1).LessEqual (fitMax 2) = Outcome.ok true ∨
        (fitMax 2).LessEqual (fitMax 1) = Outcome.ok true) :=
  LessEqual_preorder 1 (fitMax 1) (fitMax 2) (fitMax 3) (by decide) (by decide) (by decide)

/-- Over finite weighted values `LessEqual` is not total: the two-objective fitness with
weighted values `(1, 0)` and `(0, 1)` are not comparable, neither is `LessEqual` to the
other. -/
theorem LessEqual_not_total :
    (fitMax2 1 0).Evaluated 2 ∧ (fitMax2 0 1).Evaluated 2 ∧
      (fitMax2 1 0).LessEqual (fitMax2 0 1) = Outcome.ok false ∧
      (fitMax2 0 1).LessEqual (fitMax2 1 0) = Outcome.ok false := by
  decide!

end Deag

namespace Deag

/-! ## Fitness: `SetValues` -/

theorem setValuesFrom_general (weights : List ℚ) :
    ∀ (rest : List ℚ) (k : Nat) (st : List ℚ × List ℚ), st.1.length = weights.length →
      st.2.length = weights.length → k + rest.length = weights.length →
      Fitness.setValuesFrom weights rest k st =
        Outcome.ok (st.1.take k ++ List.zipWith (fun v w => v * w) rest (weights.drop k),
          st.2.take k ++ rest) := by
  intro rest
  induction rest with
  | nil =>
    intro k st h1 h2 hk
    have e1 : st.1.take k = st.1 := List.take_of_length_le (by simp at hk; omega)
    have e2 : st.2.take k = st.2 := List.take_of_length_le (by simp at hk; omega)
    simp [Fitness.setValuesFrom, e1, e2]
  | cons value rest ih =>
    intro k st h1 h2 hk
    have hkw : k < weights.length := by simp at hk; omega
    obtain ⟨w, hw⟩ : ∃ w, weights.get? k = some w := ⟨_, List.get?_eq_get hkw⟩
    have hdrop : weights.drop k = w :: weights.drop (k + 1) := by
      rw [List.drop_eq_getElem_cons hkw]
      rw [List.get?_eq_get hkw] at hw
      simp only [Option.some.injEq] at hw
      rw [← hw]; rfl
    have := ih (k + 1) (st.1.set k (value * w), st.2.set k value) (by simp [h1])
      (by simp [h2]) (by simp at hk ⊢; omega)
    simp only [Fitness.setValuesFrom, hw]
    rw [if_pos ⟨by omega, by omega⟩, this, hdrop]
    simp only [take_set_succ _ _ _ (show k < st.1.length by omega),
      take_set_succ _ _ _ (show k < st.2.length by omega), List.zipWith_cons_cons,
      List.append_assoc, List.singleton_append]

theorem getValuesFrom_spec (wvalues : List ℚ) :
    ∀ (ws : List ℚ) (i : Nat), i + ws.length = wvalues.length →
      Fitness.getValuesFrom wvalues ws i =
        Outcome.ok (List.zipWith (fun x w => x / w) (wvalues.drop i) ws) := by
  intro ws
  induction ws with
  | nil => intro i _; simp [Fitness.getValuesFrom]
  | cons w ws ih =>
    intro i h
    have hi : i < wvalues.length := by simp at h; omega
    obtain ⟨x, hx⟩ : ∃ x, wvalues.get? i = some x := ⟨_, List.get?_eq_get hi⟩
    have hdrop : wvalues.drop i = x :: wvalues.drop (i + 1) := by
      rw [List.drop_eq_getElem_cons hi]
      rw [List.get?_eq_get hi] at hx
      simp only [Option.some.injEq] at hx
      rw [← hx]; rfl
    simp only [Fitness.getValuesFrom, hx, ih (i + 1) (by simp at h; omega), hdrop,
      List.zipWith_cons_cons]

theorem zipWith_mul_div :
    ∀ (v w : List ℚ), v.length = w.length → (∀ x ∈ w, x ≠ 0) →
      List.zipWith (fun x y => x / y) (List.zipWith (fun a b => a * b) v w) w = v := by
  intro v
  induction v with
  | nil => intro w _ _; simp
  | cons a v ih =>
    intro w hl hw
    cases w with
    | nil => simp at hl
    | cons b w =>
      have hb : b ≠ 0 := hw b (by simp)
      simp only [List.zipWith_cons_cons, List.cons.injEq]
      exact ⟨mul_div_cancel_right₀ a hb,
        ih w (by simpa using hl) (fun x hx => hw x (List.mem_cons_of_mem _ hx))⟩

/-- C29: `SetValues(v)` on a fitness with `M ≥ 1` weights that has no weighted values yet,
or already one weighted and one raw value per weight, with `len(v) = M`, completes; the
fitness is then valid, `GetWValues()` is `v[i] * w[i]` at every position, and when no
weight is zero `GetValues()` returns `v`. -/
theorem SetValues_spec (M : Nat) (f : Fitness) (v : List ℚ) (hM : 0 < M)
    (hw : f.weights.length = M) (hv : v.length = M)
    (hf : f.wvalues = [] ∨ (f.wvalues.length = M ∧ f.values.length = M)) :
    ∃ g, f.SetValues v = Outcome.ok g ∧ g.Valid = true ∧ g.weights = f.weights ∧
      g.GetWValues = List.zipWith (fun x w => x * w) v f.weights ∧
      ((∀ w ∈ f.weights, w ≠ 0) → g.GetValues = Outcome.ok v) := by
  have hlen : (List.zipWith (fun x w => x * w) v f.weights).length = M := by
    rw [List.length_zipWith, hv, hw, Nat.min_self]
  have hne : List.zipWith (fun x w => x * w) v f.weights ≠ [] := by
    intro he; rw [he] at hlen; simp at hlen; omega
  have hwne : f.weights ≠ [] := by
    intro he; rw [he] at hw; simp at hw; omega
  have hset : ∀ st : List ℚ × List ℚ, st.1.length = f.weights.length →
      st.2.length = f.weights.length →
      Fitness.setValuesFrom f.weights v 0 st =
        Outcome.ok (List.zipWith (fun x w => x * w) v f.weights, v) := by
    intro st h1 h2
    rw [setValuesFrom_general f.weights v 0 st h1 h2 (by rw [hv, hw]; omega)]
    simp
  have hrun : f.SetValues v = Outcome.ok
      { weights := f.weights, wvalues := List.zipWith (fun x w => x * w) v f.weights,
        values := v, valid := true } := by
    unfold Fitness.SetValues
    rcases hf with hnil | ⟨h1, h2⟩
    · simp only [hnil, if_true]
      rw [hset _ (by simp) (by simp)]
      rfl
    · have hn : f.wvalues ≠ [] := by
        intro he; rw [he] at h1; simp at h1; omega
      simp only [hn, if_false]
      rw [hset _ (by simp only; omega) (by simp only; omega)]
      rfl
  refine ⟨_, hrun, ?_, rfl, ?_, ?_⟩
  · simp only [Fitness.Valid, hne, ne_eq, not_false_eq_true, decide_True, Bool.and_self,
      Bool.true_and, hlen, decide_eq_true_eq]
    omega
  · simp only [Fitness.GetWValues, hwne, if_false]
  · intro hnz
    simp only [Fitness.GetValues]
    rw [getValuesFrom_spec _ f.weights 0 (by rw [hlen, hw]; omega), List.drop_zero,
      zipWith_mul_div v f.weights (by rw [hv, hw]) hnz]

theorem SetValues_spec_witness :
    ∃ g, (Fitness.mk [-1, 2] [] [] false).SetValues [3, 4] = Outcome.ok g ∧ g.Valid = true ∧
      g.weights = [-1, 2] ∧
      g.GetWValues = List.zipWith (fun x w => x * w) [3, 4] [-1, 2] ∧
      ((∀ w ∈ ([-1, 2] : List ℚ), w ≠ 0) → g.GetValues = Outcome.ok [3, 4]) :=
  SetValues_spec 2 (Fitness.mk [-1, 2] [] [] false) [3, 4] (by decide) rfl rfl (Or.inl rfl)

end Deag

namespace Deag

/-! ## Control loops: `IsTerminated` -/

theorem GetValues_head {M : Nat} (f : Fitness) (hf : f.Evaluated M) (hM : 0 < M) :
    ∃ vs, f.GetValues = Outcome.ok vs ∧
      index vs 0 = Outcome.ok (f.wvalues.getD 0 0 / f.weights.getD 0 0) := by
  have hspec := getValuesFrom_spec f.wvalues f.weights 0 (by rw [hf.1, hf.2]; omega)
  refine ⟨_, hspec, ?_⟩
  obtain ⟨hw, hwv⟩ := hf
  cases hws : f.weights with
  | nil => rw [hws] at hw; simp at hw; omega
  | cons w ws =>
    cases hxs : f.wvalues with
    | nil => rw [hxs] at hwv; simp at hwv; omega
    | cons x xs => rfl

theorem isTerminated_spec (gen maxGen maxFES currentFES size : Int) (hof : DefaultHallOfFame)
    (M : Nat) (best : Float64Individual) (f : Fitness)
    (hbest : hof.Len > 0 →
      hof.Get 0 = Outcome.ok (some best) ∧ best.fitness = some f ∧ f.Evaluated M ∧ 0 < M) :
    ∃ b, isTerminated gen maxGen maxFES currentFES size (some hof) = Outcome.ok b ∧
      (b = true ↔ gen ≥ maxGen ∨ (maxFES > 0 ∧ currentFES + size > maxFES) ∨
        (hof.Len > 0 ∧ f.wvalues.getD 0 0 / f.weights.getD 0 0 < 1 / 100000000000000)) := by
  unfold isTerminated
  by_cases h1 : gen ≥ maxGen
  · exact ⟨true, by simp [h1], by simp [h1]⟩
  · by_cases h2 : maxFES > 0 ∧ currentFES + size > maxFES
    · exact ⟨true, by simp [h2.1, h2.2], by simp [h2]⟩
    · have hflag : (decide (gen ≥ maxGen) ||
          (decide (maxFES > 0) && decide (currentFES + size > maxFES))) = false := by
        simp only [Bool.or_eq_false_iff, decide_eq_false_iff_not, Bool.and_eq_false_imp,
          decide_eq_true_eq]
        exact ⟨h1, fun h => fun h' => h2 ⟨h, h'⟩⟩
      by_cases h3 : hof.Len > 0
      · obtain ⟨hget, hfit, hev, hM⟩ := hbest h3
        obtain ⟨vs, hvs, hidx⟩ := GetValues_head f hev hM
        refine ⟨decide (f.wvalues.getD 0 0 / f.weights.getD 0 0 < 1 / 100000000000000), ?_, ?_⟩
        · simp only [hflag, Bool.false_eq_true, if_false, hofLen, hofGet, h3, if_true, hget,
            Outcome.ok_bind, getFitness, hfit, ptrGetValues, hvs, hidx]
        · simp only [decide_eq_true_eq, h1, h2, h3, false_or, true_and]
      · refine ⟨false, ?_, ?_⟩
        · simp only [hflag, Bool.false_eq_true, if_false, hofLen, Outcome.ok_bind, h3]
        · simp [h1, h2, h3]

/-- C30 (as the code has it): for `Rand1`, `Best1` and `PSO` alike, when the hall of fame is
a `DefaultHallOfFame` whose first entry, if it is not empty, carries an evaluated fitness
with a first weight other than zero, `IsTerminated()` returns true iff `gen >= maxGen`, or
`maxFES > 0` and `currentFES + size > maxFES`, or the hall of fame is non-empty and the
first RAW value `GetValues()[0]` (weighted value divided by weight) of `Get(0)` is below
`1e-14`.  (A zero weight is excluded because the division by it gives NaN or an infinity
in Go, which the rationals do not have.) -/
theorem IsTerminated_raw_value (hof : DefaultHallOfFame) (M : Nat) (best : Float64Individual)
    (f : Fitness)
    (hbest : hof.Len > 0 →
      hof.Get 0 = Outcome.ok (some best) ∧ best.fitness = some f ∧ f.Evaluated M ∧ 0 < M ∧
        f.weights.getD 0 0 ≠ 0) :
    (∀ evol : Rand1, evol.hof = some hof →
      ∃ b, evol.IsTerminated = Outcome.ok b ∧
        (b = true ↔ evol.gen ≥ evol.maxGen ∨
          (evol.maxFES > 0 ∧ evol.currentFES + evol.size > evol.maxFES) ∨
          (hof.Len > 0 ∧ f.wvalues.getD 0 0 / f.weights.getD 0 0 < 1 / 100000000000000))) ∧
    (∀ evol : Best1, evol.hof = some hof →
      ∃ b, evol.IsTerminated = Outcome.ok b ∧
        (b = true ↔ evol.gen ≥ evol.maxGen ∨
          (evol.maxFES > 0 ∧ evol.currentFES + evol.size > evol.maxFES) ∨
          (hof.Len > 0 ∧ f.wvalues.getD 0 0 / f.weights.getD 0 0 < 1 / 100000000000000))) ∧
    (∀ evol : PSO, evol.hof = some hof →
      ∃ b, evol.IsTerminated = Outcome.ok b ∧
        (b = true ↔ evol.gen ≥ evol.maxGen ∨
          (evol.maxFES > 0 ∧ evol.currentFES + evol.size > evol.maxFES) ∨
          (hof.Len > 0 ∧ f.wvalues.getD 0 0 / f.weights.getD 0 0 < 1 / 100000000000000))) := by
  have hbest1 : hof.Len > 0 →
      hof.Get 0 = Outcome.ok (some best) ∧ best.fitness = some f ∧ f.Evaluated M ∧ 0 < M :=
    fun h => ⟨(hbest h).1, (hbest h).2.1, (hbest h).2.2.1, (hbest h).2.2.2.1⟩
  refine ⟨?_, ?_, ?_⟩
  · intro evol he
    simp only [Rand1.IsTerminated, he]
    exact isTerminated_spec _ _ _ _ _ hof M best f hbest1
  · intro evol he
    simp only [Best1.IsTerminated, he]
    exact isTerminated_spec _ _ _ _ _ hof M best f hbest1
  · intro evol he
    simp only [PSO.IsTerminated, he]
    exact isTerminated_spec _ _ _ _ _ hof M best f hbest1

theorem IsTerminated_raw_value_witness :
    (∀ evol : Rand1, evol.hof = some hallRunning →
      ∃ b, evol.IsTerminated = Outcome.ok b ∧
        (b = true ↔ evol.gen ≥ evol.maxGen ∨
          (evol.maxFES > 0 ∧ evol.currentFES + evol.size > evol.maxFES) ∨
          (hallRunning.Len > 0 ∧
            ([5 * (-1)] : List ℚ).getD 0 0 / ([-1] : List ℚ).getD 0 0 <
              1 / 100000000000000))) ∧
    (∀ evol : Best1, evol.hof = some hallRunning →
      ∃ b, evol.IsTerminated = Outcome.ok b ∧
        (b = true ↔ evol.gen ≥ evol.maxGen ∨
          (evol.maxFES > 0 ∧ evol.currentFES + evol.size > evol.maxFES) ∨
          (hallRunning.Len > 0 ∧
            ([5 * (-1)] : List ℚ).getD 0 0 / ([-1] : List ℚ).getD 0 0 <
              1 / 100000000000000))) ∧
    (∀ evol : PSO, evol.hof = some hallRunning →
      ∃ b, evol.IsTerminated = Outcome.ok b ∧
        (b = true ↔ evol.gen ≥ evol.maxGen ∨
          (evol.maxFES > 0 ∧ evol.currentFES + evol.size > evol.maxFES) ∨
          (hallRunning.Len > 0 ∧
            ([5 * (-1)] : List ℚ).getD 0 0 / ([-1] : List ℚ).getD 0 0 <
              1 / 100000000000000))) :=
  IsTerminated_raw_value hallRunning 1 (indOne (-1) 5 [0])
    { weights := [-1], wvalues := [5 * (-1)], values := [5], valid := true }
    (fun _ => ⟨rfl, rfl, by decide, by decide, by decide!⟩)

/-- C30 (as stated) fails on `rand1Running`: no limit is reached, the hall of fame is not
empty and the first weighted value of `Get(0)` is `-5`, below `1e-14`, yet `IsTerminated()`
is false, because the code tests the raw value `5`. -/
theorem IsTerminated_ignores_weighted_value :
    rand1Running.IsTerminated = Outcome.ok false ∧ hallRunning.Len > 0 ∧
      hallRunning.Get 0 = Outcome.ok (some (indOne (-1) 5 [0])) ∧
      (indOne (-1) 5 [0]).wvalue < 1 / 100000000000000 := by
  decide!

end Deag

namespace Deag

/-! ## Pareto front archive -/

theorem setIndex_length {α : Type} (xs r : List α) (i : Int) (v : α)
    (h : setIndex xs i v = Outcome.ok r) : r.length = xs.length := by
  unfold setIndex at h
  split at h
  · cases h
  · split at h
    · simp only [Outcome.ok.injEq] at h
      rw [← h, List.length_set]
    · cases h

theorem insertShift_length (idx : Nat) :
    ∀ (n : Nat) (items r : List (Option Float64Individual)),
      DefaultHallOfFame.insertShift idx n items = Outcome.ok r → r.length = items.length := by
  intro n
  induction n with
  | zero =>
    intro items r h
    simp only [DefaultHallOfFame.insertShift, Outcome.ok.injEq] at h
    rw [h]
  | succ n ih =>
    intro items r h
    simp only [DefaultHallOfFame.insertShift] at h
    split at h
    · obtain ⟨v, _, h⟩ := Outcome.bind_eq_ok h
      obtain ⟨items1, h1, h⟩ := Outcome.bind_eq_ok h
      rw [ih items1 r h, setIndex_length _ _ _ _ h1]
    · simp only [Outcome.ok.injEq] at h
      rw [h]

/-- `Insert` into a hall of fame whose `items` slice is empty never completes: the final
assignment `hof.items[index] = ind` is out of range. -/
theorem Insert_no_items (hof h : DefaultHallOfFame) (ind : Float64Individual)
    (hitems : hof.items = []) : hof.Insert ind ≠ Outcome.ok h := by
  intro hi
  unfold DefaultHallOfFame.Insert at hi
  obtain ⟨c, _, hi⟩ := Outcome.bind_eq_ok hi
  obtain ⟨idx, _, hi⟩ := Outcome.bind_eq_ok hi
  obtain ⟨items1, h1, hi⟩ := Outcome.bind_eq_ok hi
  obtain ⟨items2, h2, _⟩ := Outcome.bind_eq_ok hi
  have hlen := insertShift_length _ _ _ _ h1
  rw [hitems] at hlen
  have hnil : items1 = [] := List.length_eq_zero.mp hlen
  rw [hnil] at h2
  unfold setIndex at h2
  split at h2
  · cases h2
  · simp at h2

theorem paretoLoop_no_items :
    ∀ (ind : Float64Individual) (rest : List Float64Individual) (toRemove : List Int)
      (hof h : DefaultHallOfFame), hof.items = [] →
      DefaultParetoFront.updateLoop (ind :: rest) toRemove hof ≠ Outcome.ok h := by
  intro ind rest toRemove hof h hitems hrun
  simp only [DefaultParetoFront.updateLoop, hitems, DefaultParetoFront.scanItems,
    Outcome.ok_bind, Int.toNat_zero, DefaultParetoFront.removeMarked, Bool.not_false,
    Bool.and_self, if_true] at hrun
  obtain ⟨hof2, h2, _⟩ := Outcome.bind_eq_ok hrun
  exact Insert_no_items hof hof2 ind hitems h2

theorem paretoUpdate_no_items (pf pf1 : DefaultParetoFront) (pop : List Float64Individual)
    (hitems : pf.hall.items = []) (h : pf.Update pop = Outcome.ok pf1) :
    pop = [] ∧ pf1 = pf := by
  cases pop with
  | nil =>
    simp only [DefaultParetoFront.Update, DefaultParetoFront.updateLoop, Outcome.ok_bind,
      Outcome.ok.injEq] at h
    exact ⟨rfl, h.symm⟩
  | cons ind rest =>
    unfold DefaultParetoFront.Update at h
    obtain ⟨hof, hrun, _⟩ := Outcome.bind_eq_ok h
    exact absurd hrun (paretoLoop_no_items ind rest [] pf.hall hof hitems)

theorem paretoUpdates_no_items :
    ∀ (pops : List (List Float64Individual)) (pf pf1 : DefaultParetoFront),
      pf.hall.items = [] → pf.updates pops = Outcome.ok pf1 → pf1 = pf := by
  intro pops
  induction pops with
  | nil =>
    intro pf pf1 _ h
    simp only [DefaultParetoFront.updates, Outcome.ok.injEq] at h
    exact h.symm
  | cons p rest ih =>
    intro pf pf1 hitems h
    simp only [DefaultParetoFront.updates] at h
    obtain ⟨pf2, h2, h3⟩ := Outcome.bind_eq_ok h
    obtain ⟨_, he⟩ := paretoUpdate_no_items pf pf2 p hitems h2
    rw [he] at h3
    exact ih pf pf1 hitems h3

theorem NewDefaultParetoFront_items
    (similar : Option (Float64Individual → Option Float64Individual → Bool))
    (pf : DefaultParetoFront)
    (h : DefaultParetoFront.NewDefaultParetoFront similar = Outcome.ok pf) :
    pf.hall.items = [] ∧ pf.hall.size = 0 := by
  simp only [DefaultParetoFront.NewDefaultParetoFront,
    DefaultHallOfFame.NewDefaultHallOfFame, lt_self_iff_false, if_false, Outcome.ok_bind,
    Outcome.ok.injEq] at h
  subst h
  exact ⟨rfl, rfl⟩

/-- A front made by `NewDefaultParetoFront` stays empty: after any sequence of `Update`
calls that complete the archive holds no member at all (`Len()` is 0), since such a front
has no room for one. -/
theorem paretoFront_no_member_dominates
    (similar : Option (Float64Individual → Option Float64Individual → Bool))
    (pops : List (List Float64Individual)) (pf0 pf : DefaultParetoFront)
    (hnew : DefaultParetoFront.NewDefaultParetoFront similar = Outcome.ok pf0)
    (hrun : pf0.updates pops = Outcome.ok pf) :
    pf.hall.Len = 0 ∧
      ∀ (i j : Int) (x y : Float64Individual), 0 ≤ i → i < pf.hall.Len → 0 ≤ j →
        j < pf.hall.Len → i ≠ j → pf.hall.Get i = Outcome.ok (some x) →
        pf.hall.Get j = Outcome.ok (some y) →
        ptrDominates x.fitness y.fitness ≠ Outcome.ok true := by
  obtain ⟨hitems, hsize⟩ := NewDefaultParetoFront_items similar pf0 hnew
  have := paretoUpdates_no_items pops pf0 pf hitems hrun
  subst this
  have hlen : pf.hall.Len = 0 := hsize
  refine ⟨hlen, ?_⟩
  intro i j x y hi0 hi
  rw [hlen] at hi
  omega

theorem paretoFront_no_member_dominates_witness :
    (DefaultParetoFront.mk (DefaultHallOfFame.mk 0 0 [] fun x y => x.IsEqual y)).hall.Len = 0 ∧
      ∀ (i j : Int) (x y : Float64Individual), 0 ≤ i →
        i < (DefaultParetoFront.mk
          (DefaultHallOfFame.mk 0 0 [] fun x y => x.IsEqual y)).hall.Len → 0 ≤ j →
        j < (DefaultParetoFront.mk
          (DefaultHallOfFame.mk 0 0 [] fun x y => x.IsEqual y)).hall.Len → i ≠ j →
        (DefaultParetoFront.mk (DefaultHallOfFame.mk 0 0 [] fun x y => x.IsEqual y)).hall.Get i =
          Outcome.ok (some x) →
        (DefaultParetoFront.mk (DefaultHallOfFame.mk 0 0 [] fun x y => x.IsEqual y)).hall.Get j =
          Outcome.ok (some y) →
        ptrDominates x.fitness y.fitness ≠ Outcome.ok true :=
  paretoFront_no_member_dominates none [[], []]
    (DefaultParetoFront.mk (DefaultHallOfFame.mk 0 0 [] fun x y => x.IsEqual y))
    (DefaultParetoFront.mk (DefaultHallOfFame.mk 0 0 [] fun x y => x.IsEqual y)) rfl rfl

/-- C22: on a front made by `NewDefaultParetoFront`, `Update` with a population that is not
empty never completes, whatever the individuals: the archive has no entry to compare
with, so the first individual is handed to `Insert`, which writes out of range.  With the
single individual `(1, 1)` the call panics. -/
theorem paretoFront_Update_panics
    (similar : Option (Float64Individual → Option Float64Individual → Bool))
    (pf pf1 : DefaultParetoFront) (ind : Float64Individual) (rest : List Float64Individual)
    (hnew : DefaultParetoFront.NewDefaultParetoFront similar = Outcome.ok pf) :
    pf.Update (ind :: rest) ≠ Outcome.ok pf1 ∧
      ((DefaultParetoFront.NewDefaultParetoFront none).bind fun p =>
        (p.Update [indTwo 1 1 [0]]).bind fun p1 => Outcome.ok p1.hall.view) =
        Outcome.panic := by
  refine ⟨?_, by decide!⟩
  intro h
  obtain ⟨hitems, _⟩ := NewDefaultParetoFront_items similar pf hnew
  have := (paretoUpdate_no_items pf pf1 (ind :: rest) hitems h).1
  cases this

theorem paretoFront_Update_panics_witness :
    (DefaultParetoFront.mk (DefaultHallOfFame.mk 0 0 [] fun x y => x.IsEqual y)).Update
        (indOne (-1) 3 [0] :: []) ≠
      Outcome.ok (DefaultParetoFront.mk (DefaultHallOfFame.mk 0 1 [] fun x y => x.IsEqual y)) ∧
      ((DefaultParetoFront.NewDefaultParetoFront none).bind fun p =>
        (p.Update [indTwo 1 1 [0]]).bind fun p1 => Outcome.ok p1.hall.view) =
        Outcome.panic :=
  paretoFront_Update_panics none
    (DefaultParetoFront.mk (DefaultHallOfFame.mk 0 0 [] fun x y => x.IsEqual y))
    (DefaultParetoFront.mk (DefaultHallOfFame.mk 0 1 [] fun x y => x.IsEqual y))
    (indOne (-1) 3 [0]) [] rfl

end Deag

namespace Deag

/-! ## Static linked list: construction, `Reset` and `Add` -/

section SLL2
variable {κ : Type} [DecidableEq κ]

theorem Reached.counts {l : StaticLinkedList κ} {log : List (κ × Int)} (h : Reached l log) :
    l.total = log.length ∧ l.total ≤ l.cap ∧ l.datas.length = l.cap ∧ l.next.length = l.cap := by
  induction h with
  | new capacity => simp [NewStaticLinkedList]
  | reset _ ih =>
    obtain ⟨_, _, h3, h4⟩ := ih
    exact ⟨rfl, Nat.zero_le _, h3, h4⟩
  | add k d _ hlt ih =>
    rw [Add_of_lt _ k d hlt]
    obtain ⟨h1, h2, h3, h4⟩ := ih
    refine ⟨by simp [h1], ?_, by simp [h3], by simp [h4]⟩
    dsimp only
    omega

theorem lastIndexOf_bounds (log : List (κ × Int)) (k : κ) :
    lastIndexOf log k = -1 ∨ (0 ≤ lastIndexOf log k ∧ lastIndexOf log k < log.length) := by
  induction log with
  | nil => left; rfl
  | cons e log ih =>
    obtain ⟨k', d⟩ := e
    by_cases hk : k' = k
    · right
      simp only [lastIndexOf, hk, if_true, List.length_cons]
      push_cast; omega
    · simp only [lastIndexOf, hk, if_false, List.length_cons]
      rcases ih with h | h
      · exact Or.inl h
      · right; push_cast; omega

theorem lastIndexOf_eq_neg_one (log : List (κ × Int)) (k : κ) :
    lastIndexOf log k = -1 ↔ bucket log k = [] := by
  induction log with
  | nil => simp [lastIndexOf, bucket]
  | cons e log ih =>
    obtain ⟨k', d⟩ := e
    by_cases hk : k' = k
    · subst hk
      rw [bucket_cons_eq]
      simp only [lastIndexOf, if_true]
      constructor
      · intro h; omega
      · intro h; cases h
    · rw [bucket_cons_ne _ _ _ _ hk]
      simp only [lastIndexOf, hk, if_false]
      exact ih

/-- The head map of a reached list sends a key to the index of its most recent addition. -/
theorem Reached.head {l : StaticLinkedList κ} {log : List (κ × Int)} (h : Reached l log)
    (k : κ) :
    mapGet l.head k = if lastIndexOf log k = -1 then none else some (lastIndexOf log k) := by
  induction h with
  | new capacity => simp [NewStaticLinkedList, mapGet, lastIndexOf]
  | reset _ _ => simp [StaticLinkedList.Reset, mapGet, lastIndexOf]
  | @add l log k0 d hb hlt ih =>
    have hh : (l.Add k0 d).1.head = mapSet l.head k0 l.total := by rw [Add_of_lt l k0 d hlt]
    rw [hh, mapGet_mapSet]
    by_cases hk : k0 = k
    · have hne : ¬ ((log.length : Int) = -1) := by omega
      simp only [hk, if_true, lastIndexOf, hne, if_false, hb.counts.1]
    · simp only [hk, if_false, lastIndexOf]
      exact ih

/-- The size map of a reached list sends a key to the number of its additions. -/
theorem Reached.sizeMap {l : StaticLinkedList κ} {log : List (κ × Int)} (h : Reached l log)
    (k : κ) :
    mapGet l.size k = if bucket log k = [] then none else some ((bucket log k).length : Int) := by
  induction h with
  | new capacity => simp [NewStaticLinkedList, mapGet, bucket]
  | reset _ _ => simp [StaticLinkedList.Reset, mapGet, bucket]
  | @add l log k0 d hb hlt ih =>
    have hh : (l.Add k0 d).1.size = mapSet l.size k0 (mapGetD l.size k0 + 1) := by
      rw [Add_of_lt l k0 d hlt]
    rw [hh, mapGet_mapSet]
    by_cases hk : k0 = k
    · subst hk
      have hD : mapGetD l.size k0 = ((bucket log k0).length : Int) := by
        unfold mapGetD
        rw [ih]
        by_cases hb0 : bucket log k0 = []
        · simp [hb0]
        · simp [hb0]
      rw [bucket_cons_eq]
      simp only [if_true, hD, List.length_cons, Nat.cast_add, Nat.cast_one]
      simp
    · rw [bucket_cons_ne _ _ _ _ hk]
      simp only [hk, if_false]
      exact ih

/-- The head map of a reached list points, for every key, to a chain holding exactly the
payloads logged for that key since construction or the last `Reset`. -/
theorem Reached.walk {l : StaticLinkedList κ} {log : List (κ × Int)} (h : Reached l log)
    (k : κ) :
    (mapGet l.head k = none ∧ bucket log k = []) ∨
      ∃ idx, mapGet l.head k = some idx ∧ Chain l idx (bucket log k) ∧ bucket log k ≠ [] ∧
        0 ≤ idx ∧ idx < l.total := by
  induction h with
  | new capacity => left; simp [NewStaticLinkedList, mapGet, bucket]
  | reset _ _ => left; simp [StaticLinkedList.Reset, mapGet, bucket]
  | @add l log k0 d hb hlt ih =>
    obtain ⟨_, _, hd, hn⟩ := hb.counts
    have hnew := GetData_Add_new l k0 d hlt hd hn
    have ht : (l.Add k0 d).1.total = l.total + 1 := by rw [Add_of_lt l k0 d hlt]
    have hh : (l.Add k0 d).1.head = mapSet l.head k0 l.total := by rw [Add_of_lt l k0 d hlt]
    by_cases hk : k0 = k
    · subst hk
      right
      refine ⟨l.total, by rw [hh, mapGet_mapSet]; simp, ?_, by simp [bucket_cons_eq],
        by omega, by rw [ht]; push_cast; omega⟩
      rw [bucket_cons_eq]
      have hc : Chain (l.Add k0 d).1 (l.total : Int)
          (((l.Add k0 d).1.GetData l.total).1 :: bucket log k0) := by
        apply Chain.cons (by omega) (by rw [ht]; push_cast; omega)
        · rw [hnew]
          rcases ih with ⟨hnone, _⟩ | ⟨idx, hsome, _, _, _, hlt'⟩
          · simp only [hnone, Option.getD_none]; omega
          · simp only [hsome, Option.getD_some]; exact hlt'
        · rw [hnew]
          rcases ih with ⟨hnone, hnil⟩ | ⟨idx, hsome, hch, _, _, _⟩
          · simp only [hnone, hnil, Option.getD_none]; exact Chain.nil
          · simp only [hsome, Option.getD_some]; exact hch.add k0 d hlt
      rw [hnew] at hc
      exact hc
    · rw [bucket_cons_ne _ _ _ _ hk]
      rcases ih with ⟨hnone, hnil⟩ | ⟨idx, hsome, hch, hne, h0, h1⟩
      · left
        exact ⟨by rw [hh, mapGet_mapSet]; simp [hk, hnone], hnil⟩
      · right
        exact ⟨idx, by rw [hh, mapGet_mapSet]; simp [hk, hsome], hch.add k0 d hlt, hne, h0,
          by rw [ht]; push_cast; omega⟩

/-- Walking a chain with enough steps collects its payloads. -/
theorem Chain.payloads {l : StaticLinkedList κ} {idx : Int} {ds : List Int}
    (h : Chain l idx ds) : ∀ steps, ds.length ≤ steps → chainPayloads l steps idx = Outcome.ok ds := by
  induction h with
  | nil =>
    intro steps _
    cases steps <;> simp [chainPayloads]
  | @cons idx ds h0 h1 h2 _ ih =>
    intro steps hs
    cases steps with
    | zero => simp at hs
    | succ steps =>
      have hne : ¬ idx = -1 := by omega
      simp only [chainPayloads, hne, if_false, ih steps (by simpa using hs), Outcome.ok_bind]

/-- C23: on a list reached from construction or a `Reset` by the successful additions of
`log`, `Add` returns an error iff the number of elements stored, `log.length`, equals the
capacity; an `Add` that returns an error leaves the whole list as it was, and one that
does not stores the element. -/
theorem Add_error_iff_full (l : StaticLinkedList κ) (log : List (κ × Int))
    (h : Reached l log) (k : κ) (d : Int) :
    ((l.Add k d).2 = true ↔ log.length = l.cap) ∧ ((l.Add k d).2 = true → (l.Add k d).1 = l) ∧
      ((l.Add k d).2 = false → Reached (l.Add k d).1 ((k, d) :: log)) := by
  obtain ⟨h1, h2, _, _⟩ := h.counts
  by_cases hfull : l.cap ≤ l.total
  · have e2 : (l.Add k d).2 = true := by simp [StaticLinkedList.Add, hfull]
    refine ⟨⟨fun _ => by omega, fun _ => e2⟩, fun _ => Add_of_full l k d hfull, ?_⟩
    rw [e2]; intro hc; cases hc
  · have e2 : (l.Add k d).2 = false := by simp [StaticLinkedList.Add, hfull]
    refine ⟨⟨?_, fun hc => by omega⟩, ?_, fun _ => Reached.add k d h (by omega)⟩
    · rw [e2]; intro hc; cases hc
    · rw [e2]; intro hc; cases hc

theorem Add_error_iff_full_witness :
    (((((NewStaticLinkedList 1 : StaticLinkedList Nat).Add 7 5).1.Add 8 6).2 = true ↔
        [((7 : Nat), (5 : Int))].length =
          ((NewStaticLinkedList 1 : StaticLinkedList Nat).Add 7 5).1.cap) ∧
      ((((NewStaticLinkedList 1 : StaticLinkedList Nat).Add 7 5).1.Add 8 6).2 = true →
        (((NewStaticLinkedList 1 : StaticLinkedList Nat).Add 7 5).1.Add 8 6).1 =
          ((NewStaticLinkedList 1 : StaticLinkedList Nat).Add 7 5).1) ∧
      ((((NewStaticLinkedList 1 : StaticLinkedList Nat).Add 7 5).1.Add 8 6).2 = false →
        Reached (((NewStaticLinkedList 1 : StaticLinkedList Nat).Add 7 5).1.Add 8 6).1
          [(8, 6), (7, 5)])) :=
  Add_error_iff_full ((NewStaticLinkedList 1 : StaticLinkedList Nat).Add 7 5).1 [(7, 5)]
    (Reached.add 7 5 (Reached.new 1) (by decide)) 8 6

/-- C24: on a list reached from construction or a `Reset` by the successful additions of
`log`, a key under which nothing was added has `GetFirstDataIndex` and `GetSize` equal to
`(0, false)`; for any other key, walking from `GetFirstDataIndex(k)` along the next indices
of `GetData` until `-1` collects exactly the payloads added under `k`, most recent first,
and `GetSize(k)` is their number. -/
theorem chain_walk_visits_bucket (l : StaticLinkedList κ) (log : List (κ × Int))
    (h : Reached l log) (k : κ) :
    (bucket log k = [] →
        l.GetFirstDataIndex k = (0, false) ∧ l.GetSize k = (0, false)) ∧
      (bucket log k ≠ [] →
        ∃ idx, l.GetFirstDataIndex k = (idx, true) ∧
          chainPayloads l (l.total + 1) idx = Outcome.ok (bucket log k) ∧
          l.GetSize k = (((bucket log k).length : Int), true)) := by
  have hsize := h.sizeMap k
  constructor
  · intro hnil
    rcases h.walk k with ⟨hnone, _⟩ | ⟨_, _, _, hne, _⟩
    · rw [if_pos hnil] at hsize
      simp only [StaticLinkedList.GetFirstDataIndex, hnone, StaticLinkedList.GetSize, hsize,
        and_self]
    · exact absurd hnil hne
  · intro hne
    rcases h.walk k with ⟨_, hnil⟩ | ⟨idx, hsome, hch, _, h0, h1⟩
    · exact absurd hnil hne
    · rw [if_neg hne] at hsize
      refine ⟨idx, by simp only [StaticLinkedList.GetFirstDataIndex, hsome], ?_,
        by simp only [StaticLinkedList.GetSize, hsize]⟩
      apply hch.payloads
      have := hch.length_le
      omega

theorem chain_walk_visits_bucket_witness :
    (bucket [((7 : Nat), (9 : Int)), (8, 6), (7, 5)] 7 = [] →
        (((((NewStaticLinkedList 3 : StaticLinkedList Nat).Add 7 5).1.Add 8 6).1.Add 7 9).1
            ).GetFirstDataIndex 7 = (0, false) ∧
          (((((NewStaticLinkedList 3 : StaticLinkedList Nat).Add 7 5).1.Add 8 6).1.Add 7 9).1
            ).GetSize 7 = (0, false)) ∧
      (bucket [((7 : Nat), (9 : Int)), (8, 6), (7, 5)] 7 ≠ [] →
        ∃ idx,
          (((((NewStaticLinkedList 3 : StaticLinkedList Nat).Add 7 5).1.Add 8 6).1.Add 7 9).1
            ).GetFirstDataIndex 7 = (idx, true) ∧
          chainPayloads
            ((((NewStaticLinkedList 3 : StaticLinkedList Nat).Add 7 5).1.Add 8 6).1.Add 7 9).1
            (StaticLinkedList.total
              ((((NewStaticLinkedList 3 : StaticLinkedList Nat).Add 7 5).1.Add 8 6).1.Add 7 9).1
              + 1) idx =
            Outcome.ok (bucket [((7 : Nat), (9 : Int)), (8, 6), (7, 5)] 7) ∧
          (((((NewStaticLinkedList 3 : StaticLinkedList Nat).Add 7 5).1.Add 8 6).1.Add 7 9).1
            ).GetSize 7 =
            (((bucket [((7 : Nat), (9 : Int)), (8, 6), (7, 5)] 7).length : Int), true)) :=
  chain_walk_visits_bucket
    ((((NewStaticLinkedList 3 : StaticLinkedList Nat).Add 7 5).1.Add 8 6).1.Add 7 9).1
    [(7, 9), (8, 6), (7, 5)]
    (Reached.add 7 9 (Reached.add 8 6 (Reached.add 7 5 (Reached.new 3) (by decide)) (by decide))
      (by decide)) 7

/-- C25: on a list reached from construction or a `Reset` by the successful additions of
`log`, `GetData(i)` is `(0, -1)` for every `i` that is negative or at least the number of
additions; for the addition of `d` under `k` that came after the additions `pre`,
`GetData(pre.length)` is `d` together with the index of the most recent addition under `k`
in `pre`, or `-1` if there is none; and that index is what `GetFirstDataIndex(k)` reports at
any time for the log so far. -/
theorem GetData_records (l : StaticLinkedList κ) (log : List (κ × Int)) (h : Reached l log) :
    (∀ i : Int, (i < 0 ∨ i ≥ (log.length : Int)) → l.GetData i = (0, -1)) ∧
      (∀ (post : List (κ × Int)) (k : κ) (d : Int) (pre : List (κ × Int)),
        log = post ++ (k, d) :: pre → l.GetData (pre.length : Int) = (d, lastIndexOf pre k)) ∧
      (∀ k, l.GetFirstDataIndex k =
        if lastIndexOf log k = -1 then (0, false) else (lastIndexOf log k, true)) := by
  refine ⟨?_, ?_, ?_⟩
  · intro i hi
    have hb := h.counts
    have hc : i < 0 ∨ i ≥ (l.total : Int) ∨ i ≥ (l.cap : Int) := by
      rcases hi with hi | hi
      · exact Or.inl hi
      · right; left; rw [hb.1]; exact hi
    simp only [StaticLinkedList.GetData, hc, if_true]
  · induction h with
    | new capacity => intro post k d pre he; simp at he
    | reset _ _ => intro post k d pre he; simp at he
    | @add l log k0 d0 hb hlt ih =>
      intro post k d pre he
      obtain ⟨h1, _, hd, hn⟩ := hb.counts
      cases post with
      | nil =>
        simp only [List.nil_append, List.cons.injEq, Prod.mk.injEq] at he
        obtain ⟨⟨hk, hd0⟩, hlog⟩ := he
        subst hk; subst hd0; subst hlog
        rw [← h1, GetData_Add_new l k0 d0 hlt hd hn, hb.head k0]
        by_cases hm : lastIndexOf log k0 = -1
        · simp [hm]
        · simp [hm]
      | cons e post =>
        simp only [List.cons_append, List.cons.injEq] at he
        have hlen : pre.length < l.total := by
          rw [h1, he.2]; simp; omega
        rw [GetData_Add_old l k0 d0 hlt _ (by omega) (by omega)]
        exact ih post k d pre he.2
  · intro k
    rw [StaticLinkedList.GetFirstDataIndex, h.head k]
    by_cases hm : lastIndexOf log k = -1
    · simp [hm]
    · simp [hm]

theorem GetData_records_witness :
    (∀ i : Int, (i < 0 ∨ i ≥ (([((7 : Nat), (9 : Int)), (8, 6), (7, 5)].length : Nat) : Int)) →
        ((((NewStaticLinkedList 3 : StaticLinkedList Nat).Add 7 5).1.Add 8 6).1.Add 7 9).1.GetData
          i = (0, -1)) ∧
      (∀ (post : List (Nat × Int)) (k : Nat) (d : Int) (pre : List (Nat × Int)),
        [((7 : Nat), (9 : Int)), (8, 6), (7, 5)] = post ++ (k, d) :: pre →
        ((((NewStaticLinkedList 3 : StaticLinkedList Nat).Add 7 5).1.Add 8 6).1.Add 7 9).1.GetData
          (pre.length : Int) = (d, lastIndexOf pre k)) ∧
      (∀ k,
        ((((NewStaticLinkedList 3 : StaticLinkedList Nat).Add 7 5).1.Add 8 6).1.Add 7 9
          ).1.GetFirstDataIndex k =
        if lastIndexOf [((7 : Nat), (9 : Int)), (8, 6), (7, 5)] k = -1 then (0, false)
        else (lastIndexOf [((7 : Nat), (9 : Int)), (8, 6), (7, 5)] k, true)) :=
  GetData_records
    ((((NewStaticLinkedList 3 : StaticLinkedList Nat).Add 7 5).1.Add 8 6).1.Add 7 9).1
    [(7, 9), (8, 6), (7, 5)]
    (Reached.add 7 9 (Reached.add 8 6 (Reached.add 7 5 (Reached.new 3) (by decide)) (by decide))
      (by decide))

end SLL2

end Deag

namespace Deag

/-! ## Individuals with strategies: `IsEqual` -/

theorem intEqualFrom_spec (chrom : List Int) :
    ∀ (rest : List Int) (i : Nat),
      intEqualFrom chrom rest i = true ↔
        ∀ j, j < rest.length → chrom.getD (i + j) 0 = rest.getD j 0 := by
  intro rest
  induction rest with
  | nil => intro i; simp [intEqualFrom]
  | cons c rest ih =>
    intro i
    have e1 : ∀ j, chrom.getD (i + (j + 1)) 0 = chrom.getD (i + 1 + j) 0 := by
      intro j; congr 1; omega
    rw [intEqualFrom, forall_lt_cons]
    simp only [List.getD_cons_zero, List.getD_cons_succ, Nat.add_zero, e1]
    by_cases hc : chrom.getD i 0 = c
    · simp only [hc, ne_eq, not_true_eq_false, if_false, true_and]
      exact ih (i + 1)
    · simp only [hc, ne_eq, not_false_eq_true, if_true, false_and]
      simp

theorem genesWithin_iff (x o : List ℚ) (hl : o.length = x.length) :
    Float64Individual.isEqualFrom o x 0 = true ↔ GenesWithin x o := by
  rw [isEqualFrom_spec o x 0]
  simp only [Nat.zero_add, GenesWithin, hl, true_and]

theorem intGenes_iff (x o : List Int) (hl : o.length = x.length) :
    intEqualFrom o x 0 = true ↔ o = x := by
  rw [intEqualFrom_spec o x 0]
  simp only [Nat.zero_add]
  constructor
  · intro h
    apply List.ext_getElem hl
    intro n h1 h2
    have := h n h2
    rw [List.getD_eq_getElem _ _ h1, List.getD_eq_getElem _ _ h2] at this
    exact this
  · intro h j _
    rw [h]

/-- C35: `Float64ESIndividual.IsEqual` and `IntESIndividual.IsEqual` answer true unless the
other individual has the same representation, a chromosome of the same length and a gene
that differs (by more than `1E-14` for float genes).  So an individual of another
representation, the `nil` interface and an individual with a chromosome of another length
are all found equal: `[1]` equals `[1, 2]`. -/
theorem IsEqual_ES_true_on_mismatch :
    (∀ (x : Float64ESIndividual) (y : Individual),
      x.IsEqual y = true ↔
        ∀ o, y = Individual.float64ES o →
          o.toFloat64Individual.chromosome.length = x.toFloat64Individual.chromosome.length →
          GenesWithin x.toFloat64Individual.chromosome o.toFloat64Individual.chromosome) ∧
    (∀ (x : IntESIndividual) (y : Individual),
      x.IsEqual y = true ↔
        ∀ o, y = Individual.intES o →
          o.toIntIndividual.chromosome.length = x.toIntIndividual.chromosome.length →
          o.toIntIndividual.chromosome = x.toIntIndividual.chromosome) ∧
    (esInd [1] [0]).IsEqual (Individual.float64ES (esInd [1, 2] [0, 0])) = true ∧
    (esInd [1] [0]).IsEqual (Individual.intES (intEsInd [5] [0])) = true ∧
    (esInd [1] [0]).IsEqual Individual.nil = true ∧
    (intEsInd [1] [0]).IsEqual (Individual.intES (intEsInd [1, 2] [0, 0])) = true ∧
    (intEsInd [1] [0]).IsEqual (Individual.float64ES (esInd [5] [0])) = true ∧
    (intEsInd [1] [0]).IsEqual Individual.nil = true := by
  refine ⟨?_, ?_, rfl, rfl, rfl, rfl, rfl, rfl⟩
  · intro x y
    cases y with
    | float64ES o =>
      simp only [Float64ESIndividual.IsEqual]
      by_cases hl : o.toFloat64Individual.chromosome.length =
          x.toFloat64Individual.chromosome.length
      · rw [if_pos hl, genesWithin_iff _ _ hl]
        constructor
        · intro h o1 ho1 _
          cases ho1
          exact h
        · intro h
          exact h o rfl hl
      · rw [if_neg hl]
        constructor
        · intro _ o1 ho1 hl1
          cases ho1
          exact absurd hl1 hl
        · intro _; rfl
    | nil => simp [Float64ESIndividual.IsEqual]
    | float64 _ => simp [Float64ESIndividual.IsEqual]
    | int _ => simp [Float64ESIndividual.IsEqual]
    | intES _ => simp [Float64ESIndividual.IsEqual]
    | bool _ => simp [Float64ESIndividual.IsEqual]
  · intro x y
    cases y with
    | intES o =>
      simp only [IntESIndividual.IsEqual]
      by_cases hl : o.toIntIndividual.chromosome.length = x.toIntIndividual.chromosome.length
      · rw [if_pos hl, intGenes_iff _ _ hl]
        constructor
        · intro h o1 ho1 _
          cases ho1
          exact h
        · intro h
          exact h o rfl hl
      · rw [if_neg hl]
        constructor
        · intro _ o1 ho1 hl1
          cases ho1
          exact absurd hl1 hl
        · intro _; rfl
    | nil => simp [IntESIndividual.IsEqual]
    | float64 _ => simp [IntESIndividual.IsEqual]
    | int _ => simp [IntESIndividual.IsEqual]
    | float64ES _ => simp [IntESIndividual.IsEqual]
    | bool _ => simp [IntESIndividual.IsEqual]

end Deag

namespace Deag

/-! ## Hall of fame: `Clear` followed by `Update` -/

/-- C40: on the hall of fame made by `NewDefaultHallOfFame(2, nil)` that `Update` filled
with the individuals of values 5 and 3, `Clear()` followed by `Update` with the individuals
of values 7 and 3 leaves `Len() = 1` and the one item 7, whereas `Update` with the same
population on a newly created hall of fame of the same capacity leaves `Len() = 2` and the
items 7 and 3: `Clear` resets the size only, the old entries stay in `items`, and the scan
of `Update` for a similar entry ranges over all of `items`, so the old entry 3 keeps the
new individual 3 out. -/
theorem Clear_then_Update_differs_from_new :
    (((DefaultHallOfFame.NewDefaultHallOfFame 2 none).bind fun h =>
        h.run [HofCall.update [indVal 5, indVal 3], HofCall.clear,
          HofCall.update [indVal 7, indVal 3]]).bind fun h =>
      Outcome.ok (h.Len, h.items.take h.Len.toNat)) = Outcome.ok (1, [some (indVal 7)]) ∧
    (((DefaultHallOfFame.NewDefaultHallOfFame 2 none).bind fun h =>
        h.Update [indVal 7, indVal 3]).bind fun h =>
      Outcome.ok (h.Len, h.items.take h.Len.toNat)) =
        Outcome.ok (2, [some (indVal 7), some (indVal 3)]) ∧
    (((DefaultHallOfFame.NewDefaultHallOfFame 2 none).bind fun h =>
        h.run [HofCall.update [indVal 5, indVal 3], HofCall.clear]).bind fun h =>
      Outcome.ok h.view) = Outcome.ok (0, [some (indVal 5), some (indVal 3)]) ∧
    ∀ hof : DefaultHallOfFame, hof.Clear.items = hof.items ∧ hof.Clear.Len = 0 := by
  refine ⟨by decide!, by decide!, by decide!, fun hof => ⟨rfl, rfl⟩⟩

end Deag

namespace Deag

/-! ## Static linked list: invariants under arbitrary calls -/

section SLL3
variable {κ : Type} [DecidableEq κ]

theorem Called.toReached {capacity : Nat} {l : StaticLinkedList κ} (h : Called capacity l) :
    ∃ log, Reached l log ∧ l.cap = capacity := by
  induction h with
  | new => exact ⟨[], Reached.new capacity, rfl⟩
  | @add l k d _ ih =>
    obtain ⟨log, hr, hc⟩ := ih
    by_cases hlt : l.total < l.cap
    · exact ⟨(k, d) :: log, Reached.add k d hr hlt, by rw [Add_cap]; exact hc⟩
    · rw [Add_of_full l k d (by omega)]
      exact ⟨log, hr, hc⟩
  | reset _ ih =>
    obtain ⟨log, hr, hc⟩ := ih
    exact ⟨[], Reached.reset hr, hc⟩

theorem sum_mapSet_succ (m : List (κ × Int)) (k : κ) :
    ((mapSet m k (mapGetD m k + 1)).map Prod.snd).sum = (m.map Prod.snd).sum + 1 := by
  induction m with
  | nil => simp [mapSet, mapGetD, mapGet]
  | cons e m ih =>
    obtain ⟨k', v⟩ := e
    by_cases hk : k' = k
    · simp only [mapSet, hk, if_true, mapGetD, mapGet, List.map_cons, List.sum_cons]
      omega
    · have hD : mapGetD ((k', v) :: m) k = mapGetD m k := by
        simp only [mapGetD, mapGet, hk, if_false]
      simp only [mapSet, hk, if_false, List.map_cons, List.sum_cons, hD, ih]
      omega

/-- The bucket sizes of a reached list add up to the number of elements stored. -/
theorem Reached.sizeSum {l : StaticLinkedList κ} {log : List (κ × Int)} (h : Reached l log) :
    (l.size.map Prod.snd).sum = (l.total : Int) := by
  induction h with
  | new capacity => simp [NewStaticLinkedList]
  | reset _ _ => simp [StaticLinkedList.Reset]
  | @add l log k d _ hlt ih =>
    rw [Add_of_lt l k d hlt]
    simp only [sum_mapSet_succ, ih]
    push_cast
    rfl

/-- Every slot in use of a reached list stores as next index `-1` or a smaller index. -/
theorem Reached.next_lt {l : StaticLinkedList κ} {log : List (κ × Int)} (h : Reached l log) :
    ∀ i : Nat, i < l.total → -1 ≤ (l.GetData i).2 ∧ (l.GetData i).2 < i := by
  induction h with
  | new capacity => intro i hi; simp [NewStaticLinkedList] at hi
  | reset _ _ => intro i hi; simp [StaticLinkedList.Reset] at hi
  | @add l log k d hb hlt ih =>
    intro i hi
    obtain ⟨h1, _, hd, hn⟩ := hb.counts
    have ht : (l.Add k d).1.total = l.total + 1 := by rw [Add_of_lt l k d hlt]
    rw [ht] at hi
    by_cases hi' : i < l.total
    · rw [GetData_Add_old l k d hlt i (by omega) (by exact_mod_cast hi')]
      exact ih i hi'
    · have hi0 : i = l.total := by omega
      subst hi0
      rw [GetData_Add_new l k d hlt hd hn, hb.head k]
      rcases lastIndexOf_bounds log k with hm | ⟨h0, h2⟩
      · simp only [hm, if_true, Option.getD_none]
        omega
      · have hne : ¬ lastIndexOf log k = -1 := by omega
        simp only [hne, if_false, Option.getD_some]
        omega

/-- On a list whose slots in use point downwards, a walk from an index in use, or from
`-1`, ends within `idx + 1` steps. -/
theorem chainPayloads_total (l : StaticLinkedList κ)
    (hnext : ∀ i : Nat, i < l.total → -1 ≤ (l.GetData i).2 ∧ (l.GetData i).2 < i) :
    ∀ (steps : Nat) (idx : Int), -1 ≤ idx → idx + 1 ≤ steps → idx < l.total →
      ∃ ds, chainPayloads l steps idx = Outcome.ok ds := by
  intro steps
  induction steps with
  | zero =>
    intro idx h0 h1 _
    have : idx = -1 := by omega
    exact ⟨[], by simp [chainPayloads, this]⟩
  | succ steps ih =>
    intro idx h0 h1 h2
    by_cases hm : idx = -1
    · exact ⟨[], by simp [chainPayloads, hm]⟩
    · have hnn : 0 ≤ idx := by omega
      obtain ⟨n, hn⟩ := Int.eq_ofNat_of_zero_le hnn
      subst hn
      obtain ⟨hlo, hhi⟩ := hnext n (by exact_mod_cast h2)
      obtain ⟨ds, hds⟩ := ih (l.GetData n).2 hlo (by omega) (by omega)
      exact ⟨(l.GetData n).1 :: ds, by simp only [chainPayloads, hm, if_false, hds, Outcome.ok_bind]⟩

/-- C39: after any sequence of `Add` and `Reset` calls on a list made with capacity `C`
(an `Add` may return an error), the capacity is still `C`, the element count is at most
`C`, the bucket sizes add up to the element count, every bucket head is an index below the
element count, every slot in use stores as next index `-1` or an index strictly smaller
than its own, and a walk along the next indices from any slot in use, or from `-1`, ends
within as many steps as there are elements. -/
theorem Called_invariants (C : Nat) (l : StaticLinkedList κ) (h : Called C l) :
    l.cap = C ∧ l.total ≤ C ∧ (l.size.map Prod.snd).sum = (l.total : Int) ∧
      (∀ k idx, mapGet l.head k = some idx → 0 ≤ idx ∧ idx < l.total) ∧
      (∀ i : Nat, i < l.total → l.next.getD i 0 = -1 ∨
        (0 ≤ l.next.getD i 0 ∧ l.next.getD i 0 < i)) ∧
      (∀ idx : Int, idx = -1 ∨ (0 ≤ idx ∧ idx < l.total) →
        ∃ ds, chainPayloads l l.total idx = Outcome.ok ds) := by
  obtain ⟨log, hr, hc⟩ := h.toReached
  obtain ⟨h1, h2, _, _⟩ := hr.counts
  refine ⟨hc, by omega, hr.sizeSum, ?_, ?_, ?_⟩
  · intro k idx hk
    rw [hr.head k] at hk
    rcases lastIndexOf_bounds log k with hm | ⟨h0, h3⟩
    · simp [hm] at hk
    · have hne : ¬ lastIndexOf log k = -1 := by omega
      simp only [hne, if_false, Option.some.injEq] at hk
      subst hk
      exact ⟨h0, by omega⟩
  · intro i hi
    have hn := hr.next_lt i hi
    have hg : (l.GetData i).2 = l.next.getD i 0 := by
      have hc' : ¬ ((i : Int) < 0 ∨ (i : Int) ≥ (l.total : Int) ∨ (i : Int) ≥ (l.cap : Int)) := by
        omega
      simp only [StaticLinkedList.GetData, hc', if_false, Int.toNat_ofNat]
    rw [hg] at hn
    omega
  · intro idx hidx
    exact chainPayloads_total l hr.next_lt l.total idx (by omega) (by omega) (by omega)

theorem Called_invariants_witness :
    listAfterCalls.cap = 2 ∧ listAfterCalls.total ≤ 2 ∧
      (listAfterCalls.size.map Prod.snd).sum = (listAfterCalls.total : Int) ∧
      (∀ k idx, mapGet listAfterCalls.head k = some idx →
        0 ≤ idx ∧ idx < listAfterCalls.total) ∧
      (∀ i : Nat, i < listAfterCalls.total → listAfterCalls.next.getD i 0 = -1 ∨
        (0 ≤ listAfterCalls.next.getD i 0 ∧ listAfterCalls.next.getD i 0 < i)) ∧
      (∀ idx : Int, idx = -1 ∨ (0 ≤ idx ∧ idx < listAfterCalls.total) →
        ∃ ds, chainPayloads listAfterCalls listAfterCalls.total idx = Outcome.ok ds) :=
  Called_invariants 2 listAfterCalls
    (Called.add 7 3 (Called.reset (Called.add 9 1 (Called.add 8 6 (Called.add 7 5 Called.new)))))

end SLL3

end Deag

namespace Deag

/-! ## The sorter returns at most two fronts -/

/-- C38: every result of `sortNondominated` consists of at most two fronts, whatever the
population, `k` and the flag; and for `k ≠ 0` an individual of the result that was not
handed to front 0 from the first `currentFront`, that is, one ranked by the peeling loop,
is found in the front with index 1. -/
theorem sortNondominated_at_most_two_fronts (fuel : Nat) (individuals : List Fitness)
    (k : Int) (firstFrontOnly : Bool) (fronts : List (List Ref))
    (h : sortNondominated fuel individuals k firstFrontOnly = Outcome.ok fronts) :
    fronts.length ≤ 2 ∧
      (k ≠ 0 →
        ∃ (fits : List Ref) (dom : DomState) (m : StaticLinkedList Nat)
          (mlog : List (Nat × Int)),
          uniqueByFitness individuals = Outcome.ok fits ∧
          domOuter fits 0
              { dominatingFits := []
                dominatedFits :=
                  NewStaticLinkedList (individuals.length * (individuals.length - 1) / 2)
                currentFront := [] } = Outcome.ok dom ∧
          mapIndividualsByFitness fits individuals = Outcome.ok m ∧ Built m mlog ∧
          ∀ (i : Nat) (F : List Ref), fronts.get? i = some F → ∀ x ∈ F,
            (x.1 : Int) ∉ (dom.currentFront.flatMap fun u => bucket mlog u.1) → i = 1) := by
  by_cases hk : k = 0
  · simp only [sortNondominated, hk, if_true, Outcome.ok.injEq] at h
    subst h
    exact ⟨by simp, fun hc => absurd hk hc⟩
  · obtain ⟨fits, dom, m, mlog, B0, B1, hfits, hdom, hm, hbm, hB0, _, hshape⟩ :=
      sortNondominated_shape fuel individuals k firstFrontOnly fronts hk h
    have hzero : ∀ F0, collect individuals B0 = Outcome.ok F0 → ∀ x ∈ F0,
        (x.1 : Int) ∈ (dom.currentFront.flatMap fun u => bucket mlog u.1) := by
      intro F0 hF0 x hx
      obtain ⟨hmap, _⟩ := collect_inv individuals B0 F0 hF0
      apply hB0
      rw [← hmap]
      exact List.mem_map.mpr ⟨x, hx, rfl⟩
    refine ⟨?_, fun _ => ⟨fits, dom, m, mlog, hfits, hdom, hm, hbm, ?_⟩⟩
    · rcases hshape with h0 | ⟨F0, _, h1⟩ | ⟨F0, F1, _, _, h2⟩
      · rw [h0]; simp
      · rw [h1]; simp
      · rw [h2]; simp
    · intro i F hi x hx hnot
      rcases hshape with h0 | ⟨F0, hF0, h1⟩ | ⟨F0, F1, hF0, _, h2⟩
      · rw [h0] at hi; simp at hi
      · rw [h1] at hi
        cases i with
        | zero =>
          simp only [List.get?_cons_zero, Option.some.injEq] at hi
          subst hi
          exact absurd (hzero _ hF0 x hx) hnot
        | succ i => simp at hi
      · rw [h2] at hi
        cases i with
        | zero =>
          simp only [List.get?_cons_zero, Option.some.injEq] at hi
          subst hi
          exact absurd (hzero _ hF0 x hx) hnot
        | succ i =>
          cases i with
          | zero => rfl
          | succ i => simp at hi

theorem sortNondominated_at_most_two_fronts_witness :
    [[((3 : Nat), fitMax 4)], [(1, fitMax 2), (2, fitMax 3)]].length ≤ 2 ∧
      ((3 : Int) ≠ 0 →
        ∃ (fits : List Ref) (dom : DomState) (m : StaticLinkedList Nat)
          (mlog : List (Nat × Int)),
          uniqueByFitness popFour = Outcome.ok fits ∧
          domOuter fits 0
              { dominatingFits := []
                dominatedFits := NewStaticLinkedList (popFour.length * (popFour.length - 1) / 2)
                currentFront := [] } = Outcome.ok dom ∧
          mapIndividualsByFitness fits popFour = Outcome.ok m ∧ Built m mlog ∧
          ∀ (i : Nat) (F : List Ref),
            [[((3 : Nat), fitMax 4)], [(1, fitMax 2), (2, fitMax 3)]].get? i = some F →
            ∀ x ∈ F,
              (x.1 : Int) ∉ (dom.currentFront.flatMap fun u => bucket mlog u.1) → i = 1) :=
  sortNondominated_at_most_two_fronts 2 popFour 3 false
    [[(3, fitMax 4)], [(1, fitMax 2), (2, fitMax 3)]] (by decide!)

end Deag

namespace Deag

/-! ## The additions of the pairwise pass -/

theorem Dominates_eq_domB (f g : Fitness) (d : Bool)
    (h : f.Dominates g none = Outcome.ok d) : domB f.wvalues g.wvalues = d := by
  simp only [Fitness.Dominates] at h
  simp only [domB, h]

theorem pairs_succ (n : Nat) : (n + 1) * (n + 1 - 1) / 2 = n + n * (n - 1) / 2 := by
  have h : (n + 1) * (n + 1 - 1) = n * (n - 1) + 2 * n := by
    cases n with
    | zero => rfl
    | succ n => simp only [Nat.add_sub_cancel]; ring
  rw [h, Nat.add_mul_div_left _ _ (by decide : 0 < 2)]
  omega

theorem pairs_mono {n N : Nat} (h : n ≤ N) : n * (n - 1) / 2 ≤ N * (N - 1) / 2 :=
  Nat.div_le_div_right (Nat.mul_le_mul h (Nat.sub_le_sub_right h 1))

/-- The inner loop of the pairwise pass, when it completes on a list with room for one
addition per remaining fitness, has made every addition it attempted. -/
theorem domInner_edges (fitI : Ref) (i : Nat) :
    ∀ (rest : List Ref) (j : Nat) (st st' : DomState) (log : List (Nat × Int)),
      Built st.dominatedFits log → log.length + rest.length ≤ st.dominatedFits.cap →
      domInner fitI i rest j st = Outcome.ok st' →
      Built st'.dominatedFits (edgesInner fitI i rest j log) ∧
        st'.dominatedFits.cap = st.dominatedFits.cap ∧
        (edgesInner fitI i rest j log).length ≤ log.length + rest.length := by
  intro rest
  induction rest with
  | nil =>
    intro j st st' log hb _ h
    simp only [domInner, Outcome.ok.injEq] at h
    subst h
    exact ⟨hb, rfl, by simp [edgesInner]⟩
  | cons fitJ rest ih =>
    intro j st st' log hb hcap h
    have hlt : st.dominatedFits.total < st.dominatedFits.cap := by
      rw [hb.basic.1]
      simp only [List.length_cons] at hcap
      omega
    simp only [domInner] at h
    obtain ⟨d1, hd1, h⟩ := Outcome.bind_eq_ok h
    have e1 := Dominates_eq_domB _ _ _ hd1
    cases d1 with
    | true =>
      simp only [if_true] at h
      obtain ⟨h1, h2, h3⟩ := ih (j + 1) _ st' ((fitI.1, (j : Int)) :: log)
        (Built.add fitI.1 j hb hlt)
        (by simp only [Add_cap, List.length_cons] at hcap ⊢; omega) h
      simp only [edgesInner, e1, if_true]
      refine ⟨h1, by rw [h2]; exact Add_cap _ _ _, ?_⟩
      simp only [List.length_cons] at h3 ⊢
      omega
    | false =>
      simp only [Bool.false_eq_true, if_false] at h
      obtain ⟨d2, hd2, h⟩ := Outcome.bind_eq_ok h
      have e2 := Dominates_eq_domB _ _ _ hd2
      cases d2 with
      | true =>
        simp only [if_true] at h
        obtain ⟨h1, h2, h3⟩ := ih (j + 1) _ st' ((fitJ.1, (i : Int)) :: log)
          (Built.add fitJ.1 i hb hlt)
          (by simp only [Add_cap, List.length_cons] at hcap ⊢; omega) h
        simp only [edgesInner, e1, e2, Bool.false_eq_true, if_false, if_true]
        refine ⟨h1, by rw [h2]; exact Add_cap _ _ _, ?_⟩
        simp only [List.length_cons] at h3 ⊢
        omega
      | false =>
        simp only [Bool.false_eq_true, if_false] at h
        obtain ⟨h1, h2, h3⟩ := ih (j + 1) st st' log hb
          (by simp only [List.length_cons] at hcap; omega) h
        simp only [edgesInner, e1, e2, Bool.false_eq_true, if_false]
        refine ⟨h1, h2, ?_⟩
        simp only [List.length_cons]
        omega

/-- The pairwise pass, when it completes on a list with room for one addition per pair, has
made every addition it attempted. -/
theorem domOuter_edges :
    ∀ (L : List Ref) (i : Nat) (st st' : DomState) (log : List (Nat × Int)),
      Built st.dominatedFits log →
      log.length + L.length * (L.length - 1) / 2 ≤ st.dominatedFits.cap →
      domOuter L i st = Outcome.ok st' →
      Built st'.dominatedFits (edgesOuter L i log) ∧
        (edgesOuter L i log).length ≤ log.length + L.length * (L.length - 1) / 2 := by
  intro L
  induction L with
  | nil =>
    intro i st st' log hb _ h
    simp only [domOuter, Outcome.ok.injEq] at h
    subst h
    exact ⟨hb, by simp [edgesOuter]⟩
  | cons fitI rest ih =>
    intro i st st' log hb hcap h
    simp only [List.length_cons, pairs_succ] at hcap
    simp only [domOuter] at h
    obtain ⟨st1, hst1, h⟩ := Outcome.bind_eq_ok h
    obtain ⟨h1, h2, h3⟩ := domInner_edges fitI i rest 0 st st1 log hb (by omega) hst1
    have hdf : ∀ (c : Prop) [Decidable c], (if c
        then ({ st1 with currentFront := st1.currentFront ++ [fitI] } : DomState)
        else st1).dominatedFits = st1.dominatedFits := by
      intro c _; split <;> rfl
    obtain ⟨h4, h5⟩ := ih (i + 1) _ st' (edgesInner fitI i rest 0 log)
      (by rw [hdf]; exact h1) (by rw [hdf, h2]; omega) h
    simp only [edgesOuter, List.length_cons, pairs_succ]
    exact ⟨h4, by omega⟩

theorem mem_edgesInner (fitI : Ref) (i : Nat) :
    ∀ (rest : List Ref) (j : Nat) (log : List (Nat × Int)) (e : Nat × Int),
      e ∈ edgesInner fitI i rest j log ↔
        e ∈ log ∨ ∃ q fitJ, rest.get? q = some fitJ ∧
          ((domB fitI.2.wvalues fitJ.2.wvalues = true ∧ e = (fitI.1, ((j + q : Nat) : Int))) ∨
            (domB fitI.2.wvalues fitJ.2.wvalues = false ∧
              domB fitJ.2.wvalues fitI.2.wvalues = true ∧ e = (fitJ.1, (i : Int)))) := by
  intro rest
  induction rest with
  | nil =>
    intro j log e
    simp [edgesInner]
  | cons fitJ rest ih =>
    intro j log e
    have hshift : ∀ P : Nat → Ref → Prop,
        (∃ q x, (fitJ :: rest).get? q = some x ∧ P q x) ↔
          (P 0 fitJ ∨ ∃ q x, rest.get? q = some x ∧ P (q + 1) x) := by
      intro P
      constructor
      · rintro ⟨q, x, hq, hP⟩
        cases q with
        | zero =>
          simp only [List.get?_cons_zero, Option.some.injEq] at hq
          subst hq; exact Or.inl hP
        | succ q => exact Or.inr ⟨q, x, by simpa using hq, hP⟩
      · rintro (hP | ⟨q, x, hq, hP⟩)
        · exact ⟨0, fitJ, rfl, hP⟩
        · exact ⟨q + 1, x, by simpa using hq, hP⟩
    rw [hshift]
    have hidx : ∀ q : Nat, j + 1 + q = j + (q + 1) := by intro q; omega
    simp only [edgesInner]
    by_cases h1 : domB fitI.2.wvalues fitJ.2.wvalues = true
    · simp only [h1, if_true, ih, List.mem_cons, hidx, Nat.add_zero, true_and,
        Bool.true_eq_false, false_and, or_false]
      constructor
      · rintro ((h | h) | h)
        · exact Or.inr (Or.inl h)
        · exact Or.inl h
        · exact Or.inr (Or.inr h)
      · rintro (h | h | h)
        · exact Or.inl (Or.inr h)
        · exact Or.inl (Or.inl h)
        · exact Or.inr h
    · have h1' : domB fitI.2.wvalues fitJ.2.wvalues = false := by simpa using h1
      by_cases h2 : domB fitJ.2.wvalues fitI.2.wvalues = true
      · simp only [h1', h2, Bool.false_eq_true, if_false, if_true, ih, List.mem_cons, hidx,
          Nat.add_zero, true_and, false_and, false_or]
        constructor
        · rintro ((h | h) | h)
          · exact Or.inr (Or.inl h)
          · exact Or.inl h
          · exact Or.inr (Or.inr h)
        · rintro (h | h | h)
          · exact Or.inl (Or.inr h)
          · exact Or.inl (Or.inl h)
          · exact Or.inr h
      · have h2' : domB fitJ.2.wvalues fitI.2.wvalues = false := by simpa using h2
        simp only [h1', h2', Bool.false_eq_true, if_false, ih, hidx, false_and, or_false,
          false_or, and_false]

theorem mem_edgesOuter :
    ∀ (L : List Ref) (i : Nat) (log : List (Nat × Int)) (e : Nat × Int),
      e ∈ edgesOuter L i log ↔
        e ∈ log ∨ ∃ p q a b, L.get? p = some a ∧ L.get? (p + 1 + q) = some b ∧
          ((domB a.2.wvalues b.2.wvalues = true ∧ e = (a.1, (q : Int))) ∨
            (domB a.2.wvalues b.2.wvalues = false ∧ domB b.2.wvalues a.2.wvalues = true ∧
              e = (b.1, ((i + p : Nat) : Int)))) := by
  intro L
  induction L with
  | nil =>
    intro i log e
    simp [edgesOuter]
  | cons fitI rest ih =>
    intro i log e
    simp only [edgesOuter]
    rw [ih, mem_edgesInner]
    have hidx : ∀ p : Nat, i + 1 + p = i + (p + 1) := by intro p; omega
    constructor
    · rintro ((h | ⟨q, fitJ, hq, hc⟩) | ⟨p, q, a, b, ha, hb, hc⟩)
      · exact Or.inl h
      · right
        refine ⟨0, q, fitI, fitJ, rfl, by simpa [Nat.add_comm 1 q] using hq, ?_⟩
        simpa using hc
      · right
        refine ⟨p + 1, q, a, b, by simpa using ha, ?_, ?_⟩
        · have : p + 1 + 1 + q = (p + 1 + q) + 1 := by omega
          rw [this]; simpa using hb
        · rw [← hidx]; exact hc
    · rintro (h | ⟨p, q, a, b, ha, hb, hc⟩)
      · exact Or.inl (Or.inl h)
      · cases p with
        | zero =>
          simp only [List.get?_cons_zero, Option.some.injEq] at ha
          subst ha
          left; right
          refine ⟨q, b, ?_, ?_⟩
          · have : 0 + 1 + q = q + 1 := by omega
            rw [this] at hb; simpa using hb
          · simpa using hc
        | succ p =>
          right
          refine ⟨p, q, a, b, by simpa using ha, ?_, ?_⟩
          · have : p + 1 + 1 + q = (p + 1 + q) + 1 := by omega
            rw [this] at hb; simpa using hb
          · rw [hidx]; exact hc

/-- Whatever the population, `uniqueByFitness` returns at most as many pointers as there
are individuals. -/
theorem uniqueByFitness_length (individuals : List Fitness) (fits : List Ref)
    (h : uniqueByFitness individuals = Outcome.ok fits) : fits.length ≤ individuals.length := by
  simp only [uniqueByFitness] at h
  obtain ⟨sorted, hs, h⟩ := Outcome.bind_eq_ok h
  have hperm := sortSort_perm _ _ _ hs
  cases sorted with
  | nil => cases h
  | cons x rest =>
    have hsub := uniqueFrom_sublist rest x fits h
    have h1 := hsub.length_le
    have h2 := hperm.length_eq
    have h3 : (enumFrom 0 individuals).length = individuals.length := by
      rw [← List.length_map _ Prod.snd, enumFrom_map_snd]
    omega

/-- C37: on a non-empty population of evaluated fitness with equal objective count,
`uniqueByFitness` returns `fits` and the pairwise pass completes; `fits[i]` never dominates
`fits[j]` for `i < j`; and the list `dominatedFits` then holds exactly one addition per
pair `i < j` with `fits[j]` dominating `fits[i]`, stored under the address of `fits[j]`
with the index `i` of `fits[i]` in `fits` as payload. -/
theorem dominatedFits_keyed_by_later (individuals : List Fitness) (M : Nat)
    (hne : individuals ≠ []) (hwf : ∀ f ∈ individuals, f.Evaluated M) :
    ∃ (fits : List Ref) (dom : DomState) (elog : List (Nat × Int)),
      uniqueByFitness individuals = Outcome.ok fits ∧
      domOuter fits 0
          { dominatingFits := []
            dominatedFits :=
              NewStaticLinkedList (individuals.length * (individuals.length - 1) / 2)
            currentFront := [] } = Outcome.ok dom ∧
      (∀ i j a b, i < j → fits.get? i = some a → fits.get? j = some b →
        a.2.Dominates b.2 none = Outcome.ok false) ∧
      Built dom.dominatedFits elog ∧
      ∀ e, e ∈ elog ↔
        ∃ i j a b, i < j ∧ fits.get? i = some a ∧ fits.get? j = some b ∧
          b.2.Dominates a.2 none = Outcome.ok true ∧ e = (b.1, (i : Int)) := by
  obtain ⟨fits, hfits, hU, _⟩ := uniqueByFitness_spec individuals hne hwf
  have hfwf : ∀ u ∈ fits, u.2.Evaluated M :=
    fun u hu => hwf u.2 (List.get?_mem (hU.mem u hu))
  obtain ⟨dom, hdom, _, _, _⟩ := domOuter_spec fits 0
    { dominatingFits := []
      dominatedFits := NewStaticLinkedList (individuals.length * (individuals.length - 1) / 2)
      currentFront := [] } hfwf hU.nodup
  have hlen := uniqueByFitness_length individuals fits hfits
  obtain ⟨hbuilt, _⟩ := domOuter_edges fits 0 _ dom [] (Built.new _)
    (by simpa [NewStaticLinkedList] using pairs_mono hlen) hdom
  have hnot : ∀ i j a b, i < j → fits.get? i = some a → fits.get? j = some b →
      domB a.2.wvalues b.2.wvalues = false := by
    intro i j a b hij ha hb
    have hlt := pairwise_lt_get hU.strict ha hb hij
    have hae := hfwf a (List.get?_mem ha)
    have hbe := hfwf b (List.get?_mem hb)
    by_contra hc
    have hd : domB a.2.wvalues b.2.wvalues = true := by simpa using hc
    have hD := (Dominates_spec a.2 b.2 hae hbe).2.mp hd
    have := Dom.lex_lt a.2.wvalues b.2.wvalues (by rw [hae.2, hbe.2]) hD
    exact absurd hlt (lt_asymm this)
  refine ⟨fits, dom, edgesOuter fits 0 [], hfits, hdom, ?_, hbuilt, ?_⟩
  · intro i j a b hij ha hb
    rw [(Dominates_spec a.2 b.2 (hfwf a (List.get?_mem ha)) (hfwf b (List.get?_mem hb))).1,
      hnot i j a b hij ha hb]
  · intro e
    rw [mem_edgesOuter]
    constructor
    · rintro (h | ⟨p, q, a, b, ha, hb, hc⟩)
      · cases h
      · have hn := hnot p (p + 1 + q) a b (by omega) ha hb
        rcases hc with ⟨h1, _⟩ | ⟨_, h2, he⟩
        · rw [hn] at h1; cases h1
        · refine ⟨p, p + 1 + q, a, b, by omega, ha, hb, ?_, by simpa using he⟩
          rw [(Dominates_spec b.2 a.2 (hfwf b (List.get?_mem hb))
            (hfwf a (List.get?_mem ha))).1, h2]
    · rintro ⟨i, j, a, b, hij, ha, hb, hd, he⟩
      right
      obtain ⟨q, hq⟩ : ∃ q, j = i + 1 + q := ⟨j - i - 1, by omega⟩
      subst hq
      refine ⟨i, q, a, b, ha, hb, Or.inr ⟨hnot i _ a b hij ha hb, ?_, by simpa using he⟩⟩
      exact Dominates_eq_domB _ _ _ hd

theorem dominatedFits_keyed_by_later_witness :
    ∃ (fits : List Ref) (dom : DomState) (elog : List (Nat × Int)),
      uniqueByFitness popABC = Outcome.ok fits ∧
      domOuter fits 0
          { dominatingFits := []
            dominatedFits := NewStaticLinkedList (popABC.length * (popABC.length - 1) / 2)
            currentFront := [] } = Outcome.ok dom ∧
      (∀ i j a b, i < j → fits.get? i = some a → fits.get? j = some b →
        a.2.Dominates b.2 none = Outcome.ok false) ∧
      Built dom.dominatedFits elog ∧
      ∀ e, e ∈ elog ↔
        ∃ i j a b, i < j ∧ fits.get? i = some a ∧ fits.get? j = some b ∧
          b.2.Dominates a.2 none = Outcome.ok true ∧ e = (b.1, (i : Int)) :=
  dominatedFits_keyed_by_later popABC 2 (by decide) (by decide)

end Deag

namespace Deag

/-! ## The additions to the fronts list -/

theorem flatMap_bucket_range {mlog : List (Nat × Int)} {N : Nat}
    (hrange : ∀ d ∈ mlog.map Prod.snd, 0 ≤ d ∧ d < N) (keys : List Nat) :
    ∀ d ∈ (keys.flatMap fun a => bucket mlog a), 0 ≤ d ∧ d < N := by
  intro d hd
  obtain ⟨a, _, hda⟩ := List.mem_flatMap.mp hd
  rw [mem_bucket] at hda
  exact hrange d (List.mem_map.mpr ⟨(a, d), hda, rfl⟩)

/-- Handing the individuals of a fitness not yet placed to a front: there is room for all
of them, so every addition is made. -/
theorem fronts_place {m : StaticLinkedList Nat} {mlog : List (Nat × Int)} (hbm : Built m mlog)
    (N : Nat) (hmnd : (mlog.map Prod.snd).Nodup)
    (hrange : ∀ d ∈ mlog.map Prod.snd, 0 ≤ d ∧ d < N)
    {fronts : StaticLinkedList Nat} {flog : List (Nat × Int)} {placed : List Nat}
    (hb : Built fronts flog) (hcap : fronts.cap = N)
    (hdata : (flog.map Prod.snd).reverse = placed.flatMap fun a => bucket mlog a)
    (hnd : placed.Nodup) (fi : Nat) (fit : Ref) (hnot : fit.1 ∉ placed) :
    extendFront m fi fit fronts = Outcome.ok (addAll fi (bucket mlog fit.1) fronts) ∧
      Built (addAll fi (bucket mlog fit.1) fronts)
        (((bucket mlog fit.1).map fun d => (fi, d)).reverse ++ flog) ∧
      (addAll fi (bucket mlog fit.1) fronts).cap = N ∧
      ((((bucket mlog fit.1).map fun d => (fi, d)).reverse ++ flog).map Prod.snd).reverse =
        ((placed ++ [fit.1]).flatMap fun a => bucket mlog a) := by
  have hnd' : (placed ++ [fit.1]).Nodup := by
    rw [List.nodup_append]
    refine ⟨hnd, by simp, ?_⟩
    intro a ha hb'
    simp only [List.mem_singleton] at hb'
    subst hb'; exact hnot ha
  have hall := flatMap_bucket_nodup mlog hmnd _ hnd'
  have hlen := int_nodup_length_le _ N hall (flatMap_bucket_range hrange _)
  have hsplit : ((placed ++ [fit.1]).flatMap fun a => bucket mlog a) =
      (placed.flatMap fun a => bucket mlog a) ++ bucket mlog fit.1 := by
    simp [List.flatMap_append]
  have hfl : flog.length = (placed.flatMap fun a => bucket mlog a).length := by
    rw [← hdata]; simp
  rw [hsplit, List.length_append, ← hfl] at hlen
  obtain ⟨hb', hcap'⟩ := hb.addAll fi (bucket mlog fit.1)
  rw [addAllLog_of_le _ _ _ _ (by rw [hcap]; exact hlen)] at hb'
  refine ⟨extendFront_built hbm fi fit fronts, hb', by rw [hcap', hcap], ?_⟩
  rw [hsplit, ← hdata]
  simp [List.map_reverse, Function.comp_def]

theorem FrontsFull.extendFull {mlog : List (Nat × Int)} {counts : List (Nat × Int)}
    {fronts : StaticLinkedList Nat} {m : StaticLinkedList Nat} (hbm : Built m mlog) (N : Nat)
    (hmnd : (mlog.map Prod.snd).Nodup) (hrange : ∀ d ∈ mlog.map Prod.snd, 0 ≤ d ∧ d < N)
    (hinv : FrontsFull mlog counts fronts) (hcap : fronts.cap = N) (fitD : Ref)
    (fr : StaticLinkedList Nat) (hone : mapGetD counts fitD.1 - 1 = 0)
    (hfr : extendFront m 1 fitD fronts = Outcome.ok fr) :
    FrontsFull mlog (mapSet counts fitD.1 (mapGetD counts fitD.1 - 1)) fr ∧ fr.cap = N := by
  obtain ⟨flog, placed, hb, hkeys, hnd, hdata, hcnt⟩ := hinv
  have hnot : fitD.1 ∉ placed := by
    intro hmem
    have := hcnt _ hmem
    omega
  obtain ⟨h1, h2, h3, h4⟩ := fronts_place hbm N hmnd hrange hb hcap hdata hnd 1 fitD hnot
  rw [h1] at hfr
  simp only [Outcome.ok.injEq] at hfr
  subst hfr
  refine ⟨⟨_, placed ++ [fitD.1], h2, ?_, ?_, h4, ?_⟩, h3⟩
  · intro e he
    rcases List.mem_append.mp he with h | h
    · simp only [List.mem_reverse, List.mem_map] at h
      obtain ⟨d, _, hd⟩ := h
      rw [← hd]; exact Nat.one_lt_two
    · exact hkeys e h
  · rw [List.nodup_append]
    refine ⟨hnd, by simp, ?_⟩
    intro a ha hb'
    simp only [List.mem_singleton] at hb'
    subst hb'; exact hnot ha
  · intro a ha
    simp only [mapGetD_mapSet]
    by_cases hax : fitD.1 = a
    · simp only [hax, if_true]; subst hax; omega
    · simp only [hax, if_false]
      rcases List.mem_append.mp ha with h | h
      · exact hcnt a h
      · simp only [List.mem_singleton] at h
        exact absurd h.symm hax

theorem FrontsFull.decrementFull {mlog : List (Nat × Int)} {counts : List (Nat × Int)}
    {fronts : StaticLinkedList Nat} (hinv : FrontsFull mlog counts fronts) (a : Nat) :
    FrontsFull mlog (mapSet counts a (mapGetD counts a - 1)) fronts := by
  obtain ⟨flog, placed, hb, hkeys, hnd, hdata, hcnt⟩ := hinv
  refine ⟨flog, placed, hb, hkeys, hnd, hdata, ?_⟩
  intro b hb'
  simp only [mapGetD_mapSet]
  by_cases hab : a = b
  · simp only [hab, if_true]; have := hcnt b hb'; omega
  · simp only [hab, if_false]; exact hcnt b hb'

theorem peelChain_full {mlog : List (Nat × Int)} {m : StaticLinkedList Nat}
    (hbm : Built m mlog) (N : Nat) (hmnd : (mlog.map Prod.snd).Nodup)
    (hrange : ∀ d ∈ mlog.map Prod.snd, 0 ≤ d ∧ d < N) (fits : List Ref)
    (df : StaticLinkedList Nat) :
    ∀ (steps : Nat) (fitDIdx next : Int) (st st' : PeelState),
      FrontsFull mlog st.dominatingFits st.fronts → st.fronts.cap = N →
      peelChain fits m df 1 steps fitDIdx next st = Outcome.ok st' →
      FrontsFull mlog st'.dominatingFits st'.fronts ∧ st'.fronts.cap = N := by
  intro steps
  induction steps with
  | zero =>
    intro fitDIdx next st st' hinv hcap h
    simp only [peelChain] at h
    split at h
    · simp only [Outcome.ok.injEq] at h; subst h; exact ⟨hinv, hcap⟩
    · cases h
  | succ steps ih =>
    intro fitDIdx next st st' hinv hcap h
    simp only [peelChain] at h
    split at h
    · simp only [Outcome.ok.injEq] at h; subst h; exact ⟨hinv, hcap⟩
    · obtain ⟨fitD, _, h⟩ := Outcome.bind_eq_ok h
      obtain ⟨st1, hst1, h⟩ := Outcome.bind_eq_ok h
      by_cases hz : mapGetD st.dominatingFits fitD.1 - 1 = 0
      · simp only [hz, if_true] at hst1
        obtain ⟨fr, hfr, hst1⟩ := Outcome.bind_eq_ok hst1
        simp only [Outcome.ok.injEq] at hst1
        subst hst1
        obtain ⟨h1, h2⟩ := FrontsFull.extendFull hbm N hmnd hrange hinv hcap fitD fr hz hfr
        rw [hz] at h1
        exact ih _ _ _ st' h1 h2 h
      · simp only [hz, if_false, Outcome.ok.injEq] at hst1
        subst hst1
        exact ih _ _
          { st with
            dominatingFits :=
              mapSet st.dominatingFits fitD.1 (mapGetD st.dominatingFits fitD.1 - 1) }
          st' (hinv.decrementFull fitD.1) hcap h

theorem peelFront_full {mlog : List (Nat × Int)} {m : StaticLinkedList Nat}
    (hbm : Built m mlog) (N : Nat) (hmnd : (mlog.map Prod.snd).Nodup)
    (hrange : ∀ d ∈ mlog.map Prod.snd, 0 ≤ d ∧ d < N) (fits : List Ref)
    (df : StaticLinkedList Nat) :
    ∀ (cur : List Ref) (st st' : PeelState),
      FrontsFull mlog st.dominatingFits st.fronts → st.fronts.cap = N →
      peelFront fits m df 1 cur st = Outcome.ok st' →
      FrontsFull mlog st'.dominatingFits st'.fronts ∧ st'.fronts.cap = N := by
  intro cur
  induction cur with
  | nil =>
    intro st st' hinv hcap h
    simp only [peelFront, Outcome.ok.injEq] at h
    subst h; exact ⟨hinv, hcap⟩
  | cons fitP rest ih =>
    intro st st' hinv hcap h
    simp only [peelFront] at h
    obtain ⟨st1, hst1, h⟩ := Outcome.bind_eq_ok h
    split at hst1
    · obtain ⟨h1, h2⟩ := peelChain_full hbm N hmnd hrange fits df _ _ _ st st1 hinv hcap hst1
      exact ih st1 st' h1 h2 h
    · simp only [Outcome.ok.injEq] at hst1; subst hst1; exact ih _ st' hinv hcap h

/-- Every round of the peeling loop keeps the fronts list a list on which no addition has
failed. -/
theorem peelRounds_full {mlog : List (Nat × Int)} {m : StaticLinkedList Nat}
    (hbm : Built m mlog) (N : Nat) (hmnd : (mlog.map Prod.snd).Nodup)
    (hrange : ∀ d ∈ mlog.map Prod.snd, 0 ≤ d ∧ d < N) (fits : List Ref)
    (df : StaticLinkedList Nat) (target : Int) :
    ∀ (n : Nat) (cur cur' : List Ref) (st st' : PeelState),
      FrontsFull mlog st.dominatingFits st.fronts → st.fronts.cap = N →
      peelRounds fits m df 1 target n cur st = Outcome.ok (cur', st') →
      FrontsFull mlog st'.dominatingFits st'.fronts ∧ st'.fronts.cap = N := by
  intro n
  induction n with
  | zero =>
    intro cur cur' st st' hinv hcap h
    simp only [peelRounds, Outcome.ok.injEq, Prod.mk.injEq] at h
    obtain ⟨_, h⟩ := h
    subst h; exact ⟨hinv, hcap⟩
  | succ n ih =>
    intro cur cur' st st' hinv hcap h
    simp only [peelRounds] at h
    split at h
    · obtain ⟨st1, hst1, h⟩ := Outcome.bind_eq_ok h
      obtain ⟨h1, h2⟩ := peelFront_full hbm N hmnd hrange fits df cur st st1 hinv hcap hst1
      exact ih _ cur' { st1 with nextFront := [] } st' h1 h2 h
    · simp only [Outcome.ok.injEq, Prod.mk.injEq] at h
      obtain ⟨_, h⟩ := h
      subst h; exact ⟨hinv, hcap⟩

/-- A peeling loop that ends has gone through a number of rounds. -/
theorem peelLoop_rounds (fits : List Ref) (m df : StaticLinkedList Nat) (fi : Nat)
    (target : Int) :
    ∀ (fuel : Nat) (cur : List Ref) (st st' : PeelState),
      peelLoop fits m df fi target fuel cur st = Outcome.ok st' →
      ∃ cur', peelRounds fits m df fi target fuel cur st = Outcome.ok (cur', st') := by
  intro fuel
  induction fuel with
  | zero =>
    intro cur st st' h
    simp only [peelLoop] at h
    split at h
    · cases h
    · simp only [Outcome.ok.injEq] at h; subst h
      exact ⟨cur, rfl⟩
  | succ fuel ih =>
    intro cur st st' h
    simp only [peelLoop] at h
    simp only [peelRounds]
    split at h
    · rename_i hlt
      obtain ⟨st1, hst1, h⟩ := Outcome.bind_eq_ok h
      obtain ⟨cur', hc⟩ := ih _ _ st' h
      exact ⟨cur', by simp only [hlt, if_true, hst1, Outcome.ok_bind, hc]⟩
    · rename_i hlt
      simp only [Outcome.ok.injEq] at h; subst h
      exact ⟨cur, by simp only [hlt, if_false]⟩

/-- Filling front 0 from a current front of pairwise distinct fitness addresses: every
addition is made. -/
theorem extendAll_full {mlog : List (Nat × Int)} {m : StaticLinkedList Nat}
    (hbm : Built m mlog) (N : Nat) (hmnd : (mlog.map Prod.snd).Nodup)
    (hrange : ∀ d ∈ mlog.map Prod.snd, 0 ≤ d ∧ d < N) :
    ∀ (cf : List Ref) (fronts : StaticLinkedList Nat) (flog : List (Nat × Int))
      (placed : List Nat), Built fronts flog → fronts.cap = N → (∀ e ∈ flog, e.1 < 2) →
      (flog.map Prod.snd).reverse = (placed.flatMap fun a => bucket mlog a) →
      (placed ++ cf.map Prod.fst).Nodup →
      ∃ fr flog', extendAll m 0 cf fronts = Outcome.ok fr ∧ Built fr flog' ∧ fr.cap = N ∧
        (∀ e ∈ flog', e.1 < 2) ∧
        (flog'.map Prod.snd).reverse =
          ((placed ++ cf.map Prod.fst).flatMap fun a => bucket mlog a) := by
  intro cf
  induction cf with
  | nil =>
    intro fronts flog placed hb hcap hkeys hdata _
    exact ⟨fronts, flog, rfl, hb, hcap, hkeys, by simpa using hdata⟩
  | cons fit rest ih =>
    intro fronts flog placed hb hcap hkeys hdata hnd
    have hnd1 : placed.Nodup := (List.nodup_append.mp hnd).1
    have hnot : fit.1 ∉ placed := by
      intro hmem
      have := (List.nodup_append.mp hnd).2.2
      exact this hmem (by simp)
    obtain ⟨h1, h2, h3, h4⟩ := fronts_place hbm N hmnd hrange hb hcap hdata hnd1 0 fit hnot
    have hnd2 : ((placed ++ [fit.1]) ++ rest.map Prod.fst).Nodup := by
      simpa [List.append_assoc] using hnd
    obtain ⟨fr, flog', h5, h6, h7, h8, h9⟩ := ih _ _ (placed ++ [fit.1]) h2 h3 (by
      intro e he
      rcases List.mem_append.mp he with h | h
      · simp only [List.mem_reverse, List.mem_map] at h
        obtain ⟨d, _, hd⟩ := h
        rw [← hd]; exact Nat.zero_lt_two
      · exact hkeys e h) h4 hnd2
    refine ⟨fr, flog', ?_, h6, h7, h8, ?_⟩
    · simp only [extendAll, h1, Outcome.ok_bind, h5]
    · rw [h9]; simp [List.append_assoc]

end Deag

namespace Deag

/-! ## No addition of the sorter fails -/

theorem mapLog_range (us : List Ref) :
    ∀ d ∈ (mapLog us 0 []).map Prod.snd, 0 ≤ d ∧ d < us.length := by
  intro d hd
  rw [mapLog_data] at hd
  simp only [List.mem_reverse, List.mem_map, List.mem_range] at hd
  obtain ⟨a, ha, hd⟩ := hd
  subst hd
  exact ⟨Int.ofNat_nonneg a, Int.ofNat_lt.mpr ha⟩

theorem mapLog_length (us : List Ref) : (mapLog us 0 []).length = us.length := by
  have h := congrArg List.length (mapLog_data us)
  simpa using h

/-- C34: in `sortNondominated` on a population of size `N`, once `uniqueByFitness`, the
pairwise pass and `mapIndividualsByFitness` have completed, none of the additions to the
three lists has failed: `dominatedFits` is built from the log of every addition the
pairwise pass attempts, at most `N(N-1)/2` of them; the fitness map is built from a log of
exactly `N` additions, one per individual; filling front 0 completes, and after it and
after any number of rounds of the peeling loop, whether the loop ends or not, the fronts
list is built from the log of every addition attempted, the buckets of pairwise distinct
fitness, and holds at most `N` individuals.  (`Built l log` lists successful additions
only.) -/
theorem sortNondominated_adds_never_fail (individuals : List Fitness) (fits : List Ref)
    (dom : DomState) (m : StaticLinkedList Nat)
    (hfits : uniqueByFitness individuals = Outcome.ok fits)
    (hdom : domOuter fits 0
        { dominatingFits := []
          dominatedFits :=
            NewStaticLinkedList (individuals.length * (individuals.length - 1) / 2)
          currentFront := [] } = Outcome.ok dom)
    (hm : mapIndividualsByFitness fits individuals = Outcome.ok m) :
    (Built dom.dominatedFits (edgesOuter fits 0 []) ∧
      (edgesOuter fits 0 []).length ≤ individuals.length * (individuals.length - 1) / 2) ∧
    ∃ us : List Ref, Built m (mapLog us 0 []) ∧
      (mapLog us 0 []).length = individuals.length ∧
      ∃ fronts0,
        extendAll m 0 dom.currentFront (NewStaticLinkedList individuals.length) =
          Outcome.ok fronts0 ∧
        (∀ (target : Int) (n : Nat) (cur : List Ref) (st : PeelState),
          peelRounds fits m dom.dominatedFits 1 target n dom.currentFront
              { dominatingFits := dom.dominatingFits
                nextFront := []
                paretoSorted := (fronts0.GetSize 0).1
                fronts := fronts0 } = Outcome.ok (cur, st) →
          FrontsFull (mapLog us 0 []) st.dominatingFits st.fronts ∧
            st.fronts.total ≤ individuals.length) ∧
        ∀ (target : Int) (fuel : Nat) (st : PeelState),
          peelLoop fits m dom.dominatedFits 1 target fuel dom.currentFront
              { dominatingFits := dom.dominatingFits
                nextFront := []
                paretoSorted := (fronts0.GetSize 0).1
                fronts := fronts0 } = Outcome.ok st →
          FrontsFull (mapLog us 0 []) st.dominatingFits st.fronts ∧
            st.fronts.total ≤ individuals.length := by
  have hlen := uniqueByFitness_length individuals fits hfits
  have hfnd := uniqueByFitness_inv individuals fits hfits
  obtain ⟨⟨cf, hcf, hcfsub, hcfzero⟩, _⟩ := domOuter_inv fits 0 _ dom hfnd hdom
  simp only [List.nil_append] at hcf
  obtain ⟨us, hbm, _, hall⟩ := mapLoop_inv fits individuals 0
    (NewStaticLinkedList individuals.length) m [] (Built.new _)
    (by simp [NewStaticLinkedList]) hm
  have hus : us.length = individuals.length := hall.length_eq
  have hmnd := mapLog_data_nodup us
  have hrange : ∀ d ∈ (mapLog us 0 []).map Prod.snd, 0 ≤ d ∧ d < individuals.length := by
    rw [← hus]; exact mapLog_range us
  have hcfnd : (dom.currentFront.map Prod.fst).Nodup := by
    rw [hcf]; exact hfnd.sublist (hcfsub.map _)
  obtain ⟨fronts0, flog0, hext, hb0, hcap0, hkeys0, hdata0⟩ :=
    extendAll_full hbm individuals.length hmnd hrange dom.currentFront
      (NewStaticLinkedList individuals.length) [] [] (Built.new _) rfl
      (by intro e he; cases he) (by simp) (by simpa using hcfnd)
  have hinv0 : FrontsFull (mapLog us 0 []) dom.dominatingFits fronts0 := by
    refine ⟨flog0, dom.currentFront.map Prod.fst, hb0, hkeys0, hcfnd, by simpa using hdata0, ?_⟩
    intro a ha
    obtain ⟨x, hx, hxa⟩ := List.mem_map.mp ha
    rw [hcf] at hx
    rw [← hxa, hcfzero x hx]
  have htotal : ∀ st : PeelState, FrontsFull (mapLog us 0 []) st.dominatingFits st.fronts →
      st.fronts.cap = individuals.length → st.fronts.total ≤ individuals.length := by
    intro st hinv hcap
    obtain ⟨flog, _, hb, _⟩ := hinv
    have := hb.basic.2.1
    omega
  have hrounds : ∀ (target : Int) (n : Nat) (cur : List Ref) (st : PeelState),
      peelRounds fits m dom.dominatedFits 1 target n dom.currentFront
          { dominatingFits := dom.dominatingFits
            nextFront := []
            paretoSorted := (fronts0.GetSize 0).1
            fronts := fronts0 } = Outcome.ok (cur, st) →
      FrontsFull (mapLog us 0 []) st.dominatingFits st.fronts ∧
        st.fronts.total ≤ individuals.length := by
    intro target n cur st h
    obtain ⟨h1, h2⟩ := peelRounds_full hbm individuals.length hmnd hrange fits
      dom.dominatedFits target n dom.currentFront cur _ st hinv0 hcap0 h
    exact ⟨h1, htotal st h1 h2⟩
  refine ⟨⟨?_, ?_⟩, us, hbm, by rw [mapLog_length, hus], fronts0, hext, hrounds, ?_⟩
  · exact (domOuter_edges fits 0 _ dom [] (Built.new _)
      (by simpa [NewStaticLinkedList] using pairs_mono hlen) hdom).1
  · have := (domOuter_edges fits 0 _ dom [] (Built.new _)
      (by simpa [NewStaticLinkedList] using pairs_mono hlen) hdom).2
    simp only [List.length_nil, Nat.zero_add] at this
    exact le_trans this (pairs_mono hlen)
  · intro target fuel st h
    obtain ⟨cur, hc⟩ := peelLoop_rounds fits m dom.dominatedFits 1 target fuel _ _ st h
    exact hrounds target fuel cur st hc

theorem sortNondominated_adds_never_fail_witness :
    (Built domABC.dominatedFits (edgesOuter fitsABC 0 []) ∧
      (edgesOuter fitsABC 0 []).length ≤ popABC.length * (popABC.length - 1) / 2) ∧
    ∃ us : List Ref, Built mapABC (mapLog us 0 []) ∧
      (mapLog us 0 []).length = popABC.length ∧
      ∃ fronts0,
        extendAll mapABC 0 domABC.currentFront (NewStaticLinkedList popABC.length) =
          Outcome.ok fronts0 ∧
        (∀ (target : Int) (n : Nat) (cur : List Ref) (st : PeelState),
          peelRounds fitsABC mapABC domABC.dominatedFits 1 target n domABC.currentFront
              { dominatingFits := domABC.dominatingFits
                nextFront := []
                paretoSorted := (fronts0.GetSize 0).1
                fronts := fronts0 } = Outcome.ok (cur, st) →
          FrontsFull (mapLog us 0 []) st.dominatingFits st.fronts ∧
            st.fronts.total ≤ popABC.length) ∧
        ∀ (target : Int) (fuel : Nat) (st : PeelState),
          peelLoop fitsABC mapABC domABC.dominatedFits 1 target fuel domABC.currentFront
              { dominatingFits := domABC.dominatingFits
                nextFront := []
                paretoSorted := (fronts0.GetSize 0).1
                fronts := fronts0 } = Outcome.ok st →
          FrontsFull (mapLog us 0 []) st.dominatingFits st.fronts ∧
            st.fronts.total ≤ popABC.length :=
  sortNondominated_adds_never_fail popABC fitsABC domABC mapABC (by decide!) (by decide!)
    (by decide!)

end Deag

namespace Deag

/-! ## A population of equal fitness -/

theorem Built.asReached {κ : Type} [DecidableEq κ] {l : StaticLinkedList κ}
    {log : List (κ × Int)} (h : Built l log) : Reached l log := by
  induction h with
  | new capacity => exact Reached.new capacity
  | add k d _ hlt ih => exact Reached.add k d ih hlt

theorem peelLoop_done (fits : List Ref) (m df : StaticLinkedList Nat) (fi : Nat)
    (target : Int) (fuel : Nat) (cur : List Ref) (st : PeelState)
    (h : ¬ st.paretoSorted < target) :
    peelLoop fits m df fi target fuel cur st = Outcome.ok st := by
  cases fuel with
  | zero => simp only [peelLoop, h, if_false]
  | succ fuel => simp only [peelLoop, h, if_false]

theorem int_nodup_length_eq (ds : List Int) (n : Nat) (hnd : ds.Nodup)
    (h : ∀ d ∈ ds, 0 ≤ d ∧ d < n) (hall : ∀ p : Nat, p < n → (p : Int) ∈ ds) :
    ds.length = n := by
  have h1 := int_nodup_length_le ds n hnd h
  have hsub : (List.range n).map Int.ofNat ⊆ ds := by
    intro d hd
    obtain ⟨p, hp, hpd⟩ := List.mem_map.mp hd
    rw [← hpd]
    exact hall p (List.mem_range.mp hp)
  have hnd2 : ((List.range n).map Int.ofNat).Nodup :=
    (List.nodup_range n).map Int.ofNat_injective
  have h2 := (List.subperm_of_subset hnd2 hsub).length_le
  simp only [List.length_map, List.length_range] at h2
  omega

/-- C33: on a non-empty population of evaluated fitness in which all individuals have
`Equal` fitness and for every `k >= 1`, `sortNondominated(pop, k, false)` returns, with any
fuel, exactly one front; the front has as many members as the population, no position of
the population occurs in it twice, and its members are exactly the individuals of the
population at their positions. -/
theorem sortNondominated_all_equal (fuel : Nat) (individuals : List Fitness) (k : Int)
    (M : Nat) (hne : individuals ≠ []) (hwf : ∀ f ∈ individuals, f.Evaluated M)
    (heq : ∀ f ∈ individuals, ∀ g ∈ individuals, f.Equal g = Outcome.ok true)
    (hk : 1 ≤ k) :
    ∃ front, sortNondominated fuel individuals k false = Outcome.ok [front] ∧
      front.length = individuals.length ∧ (front.map Prod.fst).Nodup ∧
      ∀ p f, (p, f) ∈ front ↔ individuals.get? p = some f := by
  obtain ⟨fits, dom, m, mlog, hfits, hdom, hm, hbm, hnd, hchar, hrange, hdsne⟩ :=
    firstFront_phases individuals hne hwf
  generalize hds : (dom.currentFront.flatMap fun u => bucket mlog u.1) = ds at *
  have hnodom : ∀ f ∈ individuals, ∀ g ∈ individuals, g.Dominates f none ≠ Outcome.ok true := by
    intro f hf g hg
    obtain ⟨e, he, hiff⟩ := Equal_spec g f (hwf g hg) (hwf f hf)
    rw [heq g hg f hf] at he
    simp only [Outcome.ok.injEq] at he
    have hwv : g.wvalues = f.wvalues := hiff.mp he.symm
    simp only [Fitness.Dominates, ← hwv]
    rw [dominatesAll_self g.wvalues g.wvalues 0 false rfl]
    simp
  have hall : ∀ p f, individuals.get? p = some f → (p : Int) ∈ ds := by
    intro p f hpf
    exact (hchar p f hpf).mpr (hnodom f (List.get?_mem hpf))
  have hlenN : ds.length = individuals.length := by
    apply int_nodup_length_eq ds individuals.length hnd hrange
    intro p hp
    exact hall p _ (List.get?_eq_get hp)
  have hext := extendAll_built hbm 0 dom.currentFront (NewStaticLinkedList individuals.length)
  rw [hds] at hext
  have hb0 := ((Built.new individuals.length : Built (NewStaticLinkedList individuals.length)
    ([] : List (Nat × Int))).addAll 0 ds).1
  have hcap : (NewStaticLinkedList individuals.length : StaticLinkedList Nat).cap =
      individuals.length := rfl
  rw [hcap, addAllLog_of_le _ _ _ _ (by simp [hlenN])] at hb0
  have hslice := staticLinkedList2Slice_built hb0 individuals (by
    intro e he
    simp only [List.append_nil, List.mem_reverse, List.mem_map] at he
    obtain ⟨d, _, hd⟩ := he
    rw [← hd]; exact Nat.zero_lt_two)
  have hhead : (addAll 0 ds (NewStaticLinkedList individuals.length)).head.length = 1 := by
    have hk := hb0.head_keys
    rw [← List.length_map _ Prod.fst]
    have hsub : ∀ a ∈ (addAll 0 ds (NewStaticLinkedList individuals.length)).head.map Prod.fst,
        a = 0 := by
      intro a ha
      have := (hk.2 a).mp ha
      simp only [List.append_nil, List.map_reverse, List.map_map, List.mem_reverse,
        List.mem_map, Function.comp_apply] at this
      obtain ⟨_, _, h⟩ := this
      exact h.symm
    have hmem : 0 ∈ (addAll 0 ds (NewStaticLinkedList individuals.length)).head.map Prod.fst := by
      apply (hk.2 0).mpr
      obtain ⟨d, hd⟩ := List.exists_mem_of_ne_nil ds hdsne
      simp only [List.append_nil, List.map_reverse, List.map_map, List.mem_reverse,
        List.mem_map, Function.comp_apply]
      exact ⟨d, hd, trivial⟩
    have hle : ((addAll 0 ds (NewStaticLinkedList individuals.length)).head.map Prod.fst).length
        ≤ 1 := nodup_nat_length_le _ 1 hk.1 (fun a ha => by rw [hsub a ha]; decide)
    have hpos := List.length_pos_of_mem hmem
    omega
  rw [hhead, bucket_zero_log] at hslice
  have hsize : ((addAll 0 ds (NewStaticLinkedList individuals.length)).GetSize 0).1 =
      (individuals.length : Int) := by
    have hs := hb0.asReached.sizeMap 0
    rw [bucket_zero_log] at hs
    have hrne : ds.reverse ≠ [] := by simpa using hdsne
    simp only [hrne, if_false, List.length_reverse, hlenN] at hs
    simp only [StaticLinkedList.GetSize, hs]
  obtain ⟨front, hfront, hfnd, hfmem⟩ := collect_front individuals ds hnd hrange
  have hk0 : ¬ k = 0 := by omega
  have hdone := peelLoop_done fits m dom.dominatedFits 1
    (if (individuals.length : Int) < k then (individuals.length : Int) else k) fuel
    dom.currentFront
    { dominatingFits := dom.dominatingFits
      nextFront := []
      paretoSorted := ((addAll 0 ds (NewStaticLinkedList individuals.length)).GetSize 0).1
      fronts := addAll 0 ds (NewStaticLinkedList individuals.length) }
    (by
      dsimp only
      rw [hsize]
      split <;> omega)
  refine ⟨front, ?_, ?_, hfnd, ?_⟩
  · simp only [sortNondominated, hk0, if_false, hfits, Outcome.ok_bind, hdom, hm, hext,
      Bool.not_false, if_true, hdone, hslice, hfront]
  · obtain ⟨hmap, _⟩ := collect_inv individuals _ front hfront
    have := congrArg List.length hmap
    simp only [List.length_map, List.length_reverse] at this
    omega
  · intro p f
    rw [hfmem]
    exact ⟨fun h => h.1, fun h => ⟨h, hall p f h⟩⟩

theorem sortNondominated_all_equal_witness :
    ∃ front, sortNondominated 0 [fitMin2 2 3, fitB, fitMin2 2 3] 2 false = Outcome.ok [front] ∧
      front.length = [fitMin2 2 3, fitB, fitMin2 2 3].length ∧ (front.map Prod.fst).Nodup ∧
      ∀ p f, (p, f) ∈ front ↔ [fitMin2 2 3, fitB, fitMin2 2 3].get? p = some f :=
  sortNondominated_all_equal 0 [fitMin2 2 3, fitB, fitMin2 2 3] 2 2 (by decide) (by decide)
    (by decide!) (by decide)

end Deag

namespace Deag

/-! ## Control loops: what `Init` and `Evolve` leave unchanged -/

theorem isTerminated_false (gen maxGen maxFES currentFES size : Int)
    (hof : Option DefaultHallOfFame)
    (h : isTerminated gen maxGen maxFES currentFES size hof = Outcome.ok false) :
    ¬ gen ≥ maxGen ∧ ¬ (maxFES > 0 ∧ currentFES + size > maxFES) := by
  unfold isTerminated at h
  by_cases h1 : gen ≥ maxGen
  · simp [h1] at h
  · by_cases h2 : maxFES > 0 ∧ currentFES + size > maxFES
    · simp [h2.1, h2.2] at h
    · exact ⟨h1, h2⟩

theorem evaluateFrom_length (evaluator : Float64Individual → Outcome (List ℚ)) :
    ∀ (population r : List (Option Float64Individual)),
      evaluateFrom evaluator population = Outcome.ok r → r.length = population.length := by
  intro population
  induction population with
  | nil =>
    intro r h
    simp only [evaluateFrom, Outcome.ok.injEq] at h
    subst h; rfl
  | cons x rest ih =>
    intro r h
    cases x with
    | none => simp [evaluateFrom] at h
    | some fInd =>
      simp only [evaluateFrom] at h
      obtain ⟨fit, _, h⟩ := Outcome.bind_eq_ok h
      obtain ⟨f1, _, h⟩ := Outcome.bind_eq_ok h
      obtain ⟨r1, hr1, h⟩ := Outcome.bind_eq_ok h
      simp only [Outcome.ok.injEq] at h
      subst h
      simp [ih r1 hr1]

theorem makeIndividuals_length {α : Type} (size : Int) (offsprings : List (Option α))
    (h : makeIndividuals size = Outcome.ok offsprings) : (offsprings.length : Int) = size := by
  unfold makeIndividuals at h
  split at h
  · cases h
  · simp only [Outcome.ok.injEq] at h
    subst h
    simp only [List.length_replicate]
    omega

namespace Rand1

theorem log_frame (evol evol1 : Rand1) (h : evol.log = Outcome.ok evol1) :
    evol1.population = evol.population ∧ evol1.size = evol.size ∧
      evol1.maxFES = evol.maxFES ∧ evol1.currentFES = evol.currentFES ∧
      evol1.gen = evol.gen ∧ evol1.maxGen = evol.maxGen := by
  simp only [log] at h
  obtain ⟨datas, _, h⟩ := Outcome.bind_eq_ok h
  obtain ⟨lb, _, h⟩ := Outcome.bind_eq_ok h
  obtain ⟨hf, _, h⟩ := Outcome.bind_eq_ok h
  simp only [Outcome.ok.injEq] at h
  subst h
  exact ⟨rfl, rfl, rfl, rfl, rfl, rfl⟩

theorem evolveFrom_length (evol : Rand1) :
    ∀ (agents : List (Option Float64Individual)) (i : Nat)
      (offsprings : List (Option Float64Individual)) (src : List Draw)
      (r : List (Option Float64Individual) × List Draw),
      evol.evolveFrom agents i offsprings src = Outcome.ok r →
      r.1.length = offsprings.length := by
  intro agents
  induction agents with
  | nil =>
    intro i offsprings src r h
    simp only [evolveFrom, Outcome.ok.injEq] at h
    subst h; rfl
  | cons a rest ih =>
    intro i offsprings src r h
    simp only [evolveFrom] at h
    obtain ⟨o, _, h⟩ := Outcome.bind_eq_ok h
    obtain ⟨offs1, hoffs, h⟩ := Outcome.bind_eq_ok h
    rw [ih _ _ _ _ h, setIndex_length _ _ _ _ hoffs]

/-- What a call of `Init` that returns leaves. -/
theorem Init_frame (evol evol1 : Rand1) (population : List (Option Float64Individual))
    (h : evol.Init population = Outcome.ok evol1) :
    evol1.maxFES = evol.maxFES ∧ evol1.maxGen = evol.maxGen ∧ evol1.gen = 0 ∧
      evol1.size = (population.length : Int) ∧ evol1.population.length = population.length ∧
      evol1.hof ≠ none ∧
      (evol1.currentFES = 0 ∨
        (evol1.currentFES = (population.length : Int) ∧
          ¬ (evol.maxFES > 0 ∧ (population.length : Int) > evol.maxFES))) := by
  simp only [Init] at h
  obtain ⟨lb, _, h⟩ := Outcome.bind_eq_ok h
  obtain ⟨hof1, hhof, h⟩ := Outcome.bind_eq_ok h
  obtain ⟨t, ht, h⟩ := Outcome.bind_eq_ok h
  have hne : hof1 ≠ none := by
    split at hhof
    · obtain ⟨hh, _, hhof⟩ := Outcome.bind_eq_ok hhof
      simp only [Outcome.ok.injEq] at hhof
      rw [← hhof]; simp
    · rename_i hn
      simp only [Outcome.ok.injEq] at hhof
      rw [← hhof]
      intro hc
      rw [hc] at hn
      exact hn rfl
  cases t with
  | false =>
    simp only [Bool.not_false, if_true] at h
    obtain ⟨evol2, hev, h⟩ := Outcome.bind_eq_ok h
    simp only [evaluate] at hev
    obtain ⟨pop, hpop, hev⟩ := Outcome.bind_eq_ok hev
    simp only [Outcome.ok.injEq] at hev
    subst hev
    obtain ⟨h1, h2, h3, h4, h5, h6⟩ := log_frame _ _ h
    have hl := evaluateFrom_length _ _ _ hpop
    have hnt := (isTerminated_false _ _ _ _ _ _ ht).2
    simp only at h1 h2 h3 h4 h5 h6 hl
    have hh : evol1.hof ≠ none := by
      simp only [log] at h
      obtain ⟨datas, _, h⟩ := Outcome.bind_eq_ok h
      obtain ⟨lb1, _, h⟩ := Outcome.bind_eq_ok h
      obtain ⟨hf, _, h⟩ := Outcome.bind_eq_ok h
      simp only [Outcome.ok.injEq] at h
      rw [← h]; simp
    refine ⟨h3, h6, h5, h2, by rw [h1, hl], hh, Or.inr ⟨by rw [h4]; omega, ?_⟩⟩
    intro hc
    exact hnt ⟨hc.1, by omega⟩
  | true =>
    simp only [Bool.not_true, Bool.false_eq_true, if_false, Outcome.ok.injEq] at h
    subst h
    exact ⟨rfl, rfl, rfl, rfl, rfl, hne, Or.inl rfl⟩

/-- What a call of `Evolve` that returns leaves. -/
theorem Evolve_frame (evol evol1 : Rand1) (src : List Draw) (g : Int)
    (h : evol.Evolve src = Outcome.ok (evol1, g)) :
    g = evol.gen + 1 ∧ evol1.gen = evol.gen + 1 ∧ evol1.maxFES = evol.maxFES ∧
      evol1.maxGen = evol.maxGen ∧ evol1.size = evol.size ∧
      ((isTerminated (evol.gen + 1) evol.maxGen evol.maxFES evol.currentFES evol.size
            evol.hof = Outcome.ok true ∧ evol1 = { evol with gen := evol.gen + 1 }) ∨
        (isTerminated (evol.gen + 1) evol.maxGen evol.maxFES evol.currentFES evol.size
            evol.hof = Outcome.ok false ∧
          evol1.currentFES = evol.currentFES + evol.size ∧
          (evol1.population.length : Int) = evol.size)) := by
  simp only [Evolve] at h
  obtain ⟨t, ht, h⟩ := Outcome.bind_eq_ok h
  cases t with
  | false =>
    simp only [Bool.not_false, if_true] at h
    obtain ⟨offsprings, hoff, h⟩ := Outcome.bind_eq_ok h
    obtain ⟨r, hr, h⟩ := Outcome.bind_eq_ok h
    obtain ⟨evol2, hlog, h⟩ := Outcome.bind_eq_ok h
    simp only [Outcome.ok.injEq, Prod.mk.injEq] at h
    obtain ⟨he, hg⟩ := h
    subst he
    obtain ⟨h1, h2, h3, h4, h5, h6⟩ := log_frame _ _ hlog
    simp only at h1 h2 h3 h4 h5 h6
    have hl := evolveFrom_length _ _ _ _ _ _ hr
    have hm := makeIndividuals_length _ _ hoff
    refine ⟨by rw [← hg, h5], h5, h3, h6, h2, Or.inr ⟨ht, h4, ?_⟩⟩
    rw [h1, hl]; exact hm
  | true =>
    simp only [Bool.not_true, Bool.false_eq_true, if_false, Outcome.ok.injEq,
      Prod.mk.injEq] at h
    obtain ⟨he, hg⟩ := h
    subst he
    exact ⟨hg.symm, rfl, rfl, rfl, rfl, Or.inl ⟨ht, rfl⟩⟩

end Rand1

end Deag

namespace Deag

/-! ## Control loops: what `Init` and `Evolve` leave unchanged, for `Best1` and `PSO` -/

theorem evaluateParticles_length (evaluator : Float64Individual → Outcome (List ℚ)) :
    ∀ (population r : List (Option Particle)),
      evaluateParticles evaluator population = Outcome.ok r →
      r.length = population.length := by
  intro population
  induction population with
  | nil =>
    intro r h
    simp only [evaluateParticles, Outcome.ok.injEq] at h
    subst h; rfl
  | cons x rest ih =>
    intro r h
    cases x with
    | none => simp [evaluateParticles] at h
    | some fInd =>
      simp only [evaluateParticles] at h
      obtain ⟨fit, _, h⟩ := Outcome.bind_eq_ok h
      obtain ⟨f1, _, h⟩ := Outcome.bind_eq_ok h
      obtain ⟨r1, hr1, h⟩ := Outcome.bind_eq_ok h
      simp only [Outcome.ok.injEq] at h
      subst h
      simp [ih r1 hr1]

namespace Best1

theorem log_frame_best (evol evol1 : Best1) (h : evol.log = Outcome.ok evol1) :
    evol1.population = evol.population ∧ evol1.size = evol.size ∧
      evol1.maxFES = evol.maxFES ∧ evol1.currentFES = evol.currentFES ∧
      evol1.gen = evol.gen ∧ evol1.maxGen = evol.maxGen := by
  simp only [log] at h
  obtain ⟨datas, _, h⟩ := Outcome.bind_eq_ok h
  obtain ⟨lb, _, h⟩ := Outcome.bind_eq_ok h
  obtain ⟨hf, _, h⟩ := Outcome.bind_eq_ok h
  simp only [Outcome.ok.injEq] at h
  subst h
  exact ⟨rfl, rfl, rfl, rfl, rfl, rfl⟩

theorem evolveFrom_length_best (evol : Best1) (xBest : Option Float64Individual) :
    ∀ (agents : List (Option Float64Individual)) (i : Nat)
      (offsprings : List (Option Float64Individual)) (src : List Draw)
      (r : List (Option Float64Individual) × List Draw),
      evol.evolveFrom xBest agents i offsprings src = Outcome.ok r →
      r.1.length = offsprings.length := by
  intro agents
  induction agents with
  | nil =>
    intro i offsprings src r h
    simp only [evolveFrom, Outcome.ok.injEq] at h
    subst h; rfl
  | cons a rest ih =>
    intro i offsprings src r h
    simp only [evolveFrom] at h
    obtain ⟨o, _, h⟩ := Outcome.bind_eq_ok h
    obtain ⟨offs1, hoffs, h⟩ := Outcome.bind_eq_ok h
    rw [ih _ _ _ _ h, setIndex_length _ _ _ _ hoffs]

/-- What a call of `Init` that returns leaves. -/
theorem Init_frame_best (evol evol1 : Best1) (population : List (Option Float64Individual))
    (h : evol.Init population = Outcome.ok evol1) :
    evol1.maxFES = evol.maxFES ∧ evol1.maxGen = evol.maxGen ∧ evol1.gen = 0 ∧
      evol1.size = (population.length : Int) ∧ evol1.population.length = population.length ∧
      evol1.hof ≠ none ∧
      (evol1.currentFES = 0 ∨
        (evol1.currentFES = (population.length : Int) ∧
          ¬ (evol.maxFES > 0 ∧ (population.length : Int) > evol.maxFES))) := by
  simp only [Init] at h
  obtain ⟨lb, _, h⟩ := Outcome.bind_eq_ok h
  obtain ⟨hof1, hhof, h⟩ := Outcome.bind_eq_ok h
  obtain ⟨t, ht, h⟩ := Outcome.bind_eq_ok h
  have hne : hof1 ≠ none := by
    split at hhof
    · obtain ⟨hh, _, hhof⟩ := Outcome.bind_eq_ok hhof
      simp only [Outcome.ok.injEq] at hhof
      rw [← hhof]; simp
    · rename_i hn
      simp only [Outcome.ok.injEq] at hhof
      rw [← hhof]
      intro hc
      rw [hc] at hn
      exact hn rfl
  cases t with
  | false =>
    simp only [Bool.not_false, if_true] at h
    obtain ⟨evol2, hev, h⟩ := Outcome.bind_eq_ok h
    simp only [evaluate] at hev
    obtain ⟨pop, hpop, hev⟩ := Outcome.bind_eq_ok hev
    simp only [Outcome.ok.injEq] at hev
    subst hev
    obtain ⟨h1, h2, h3, h4, h5, h6⟩ := log_frame_best _ _ h
    have hl := evaluateFrom_length _ _ _ hpop
    have hnt := (isTerminated_false _ _ _ _ _ _ ht).2
    simp only at h1 h2 h3 h4 h5 h6 hl
    have hh : evol1.hof ≠ none := by
      simp only [log] at h
      obtain ⟨datas, _, h⟩ := Outcome.bind_eq_ok h
      obtain ⟨lb1, _, h⟩ := Outcome.bind_eq_ok h
      obtain ⟨hf, _, h⟩ := Outcome.bind_eq_ok h
      simp only [Outcome.ok.injEq] at h
      rw [← h]; simp
    refine ⟨h3, h6, h5, h2, by rw [h1, hl], hh, Or.inr ⟨by rw [h4]; omega, ?_⟩⟩
    intro hc
    exact hnt ⟨hc.1, by omega⟩
  | true =>
    simp only [Bool.not_true, Bool.false_eq_true, if_false, Outcome.ok.injEq] at h
    subst h
    exact ⟨rfl, rfl, rfl, rfl, rfl, hne, Or.inl rfl⟩

/-- What a call of `Evolve` that returns leaves. -/
theorem Evolve_frame_best (evol evol1 : Best1) (src : List Draw) (g : Int)
    (h : evol.Evolve src = Outcome.ok (evol1, g)) :
    g = evol.gen + 1 ∧ evol1.gen = evol.gen + 1 ∧ evol1.maxFES = evol.maxFES ∧
      evol1.maxGen = evol.maxGen ∧ evol1.size = evol.size ∧
      ((isTerminated (evol.gen + 1) evol.maxGen evol.maxFES evol.currentFES evol.size
            evol.hof = Outcome.ok true ∧ evol1 = { evol with gen := evol.gen + 1 }) ∨
        (isTerminated (evol.gen + 1) evol.maxGen evol.maxFES evol.currentFES evol.size
            evol.hof = Outcome.ok false ∧
          evol1.currentFES = evol.currentFES + evol.size ∧
          (evol1.population.length : Int) = evol.size)) := by
  simp only [Evolve] at h
  obtain ⟨t, ht, h⟩ := Outcome.bind_eq_ok h
  cases t with
  | false =>
    simp only [Bool.not_false, if_true] at h
    obtain ⟨offsprings, hoff, h⟩ := Outcome.bind_eq_ok h
    obtain ⟨xBest, _, h⟩ := Outcome.bind_eq_ok h
    obtain ⟨r, hr, h⟩ := Outcome.bind_eq_ok h
    obtain ⟨evol2, hlog, h⟩ := Outcome.bind_eq_ok h
    simp only [Outcome.ok.injEq, Prod.mk.injEq] at h
    obtain ⟨he, hg⟩ := h
    subst he
    obtain ⟨h1, h2, h3, h4, h5, h6⟩ := log_frame_best _ _ hlog
    simp only at h1 h2 h3 h4 h5 h6
    have hl := evolveFrom_length_best _ _ _ _ _ _ _ hr
    have hm := makeIndividuals_length _ _ hoff
    refine ⟨by rw [← hg, h5], h5, h3, h6, h2, Or.inr ⟨ht, h4, ?_⟩⟩
    rw [h1, hl]; exact hm
  | true =>
    simp only [Bool.not_true, Bool.false_eq_true, if_false, Outcome.ok.injEq,
      Prod.mk.injEq] at h
    obtain ⟨he, hg⟩ := h
    subst he
    exact ⟨hg.symm, rfl, rfl, rfl, rfl, Or.inl ⟨ht, rfl⟩⟩

end Best1

namespace PSO

theorem log_frame_pso (evol evol1 : PSO) (h : evol.log = Outcome.ok evol1) :
    evol1.population = evol.population ∧ evol1.size = evol.size ∧
      evol1.maxFES = evol.maxFES ∧ evol1.currentFES = evol.currentFES ∧
      evol1.gen = evol.gen ∧ evol1.maxGen = evol.maxGen := by
  simp only [log] at h
  obtain ⟨datas, _, h⟩ := Outcome.bind_eq_ok h
  obtain ⟨lb, _, h⟩ := Outcome.bind_eq_ok h
  obtain ⟨hf, _, h⟩ := Outcome.bind_eq_ok h
  simp only [Outcome.ok.injEq] at h
  subst h
  exact ⟨rfl, rfl, rfl, rfl, rfl, rfl⟩

theorem evolveFrom_length_pso (evol : PSO) (gBest : Option Float64Individual) :
    ∀ (agents : List (Option Particle)) (i : Nat) (tGBest : Option Float64Individual)
      (offsprings : List (Option Particle)) (src : List Draw)
      (r : List (Option Particle) × List Draw),
      evol.evolveFrom gBest agents i tGBest offsprings src = Outcome.ok r →
      r.1.length = offsprings.length := by
  intro agents
  induction agents with
  | nil =>
    intro i tGBest offsprings src r h
    simp only [evolveFrom, Outcome.ok.injEq] at h
    subst h; rfl
  | cons a rest ih =>
    intro i tGBest offsprings src r h
    simp only [evolveFrom] at h
    obtain ⟨o, _, h⟩ := Outcome.bind_eq_ok h
    obtain ⟨offs1, hoffs, h⟩ := Outcome.bind_eq_ok h
    rw [ih _ _ _ _ _ h, setIndex_length _ _ _ _ hoffs]

/-- What a call of `Init` that returns leaves. -/
theorem Init_frame_pso (evol evol1 : PSO) (population : List (Option Particle))
    (h : evol.Init population = Outcome.ok evol1) :
    evol1.maxFES = evol.maxFES ∧ evol1.maxGen = evol.maxGen ∧ evol1.gen = 0 ∧
      evol1.size = (population.length : Int) ∧ evol1.population.length = population.length ∧
      (evol1.currentFES = 0 ∨
        (evol1.currentFES = (population.length : Int) ∧
          ¬ (evol.maxFES > 0 ∧ (population.length : Int) > evol.maxFES))) := by
  simp only [Init] at h
  obtain ⟨lb, _, h⟩ := Outcome.bind_eq_ok h
  obtain ⟨t, ht, h⟩ := Outcome.bind_eq_ok h
  cases t with
  | false =>
    simp only [Bool.not_false, if_true] at h
    obtain ⟨evol2, hev, h⟩ := Outcome.bind_eq_ok h
    simp only [evaluate] at hev
    obtain ⟨pop, hpop, hev⟩ := Outcome.bind_eq_ok hev
    simp only [Outcome.ok.injEq] at hev
    subst hev
    obtain ⟨h1, h2, h3, h4, h5, h6⟩ := log_frame_pso _ _ h
    have hl := evaluateParticles_length _ _ _ hpop
    have hnt := (isTerminated_false _ _ _ _ _ _ ht).2
    simp only at h1 h2 h3 h4 h5 h6 hl
    refine ⟨h3, h6, h5, h2, by rw [h1, hl], Or.inr ⟨by rw [h4]; omega, ?_⟩⟩
    intro hc
    exact hnt ⟨hc.1, by omega⟩
  | true =>
    simp only [Bool.not_true, Bool.false_eq_true, if_false, Outcome.ok.injEq] at h
    subst h
    exact ⟨rfl, rfl, rfl, rfl, rfl, Or.inl rfl⟩

/-- What a call of `Evolve` that returns leaves. -/
theorem Evolve_frame_pso (evol evol1 : PSO) (src : List Draw) (g : Int)
    (h : evol.Evolve src = Outcome.ok (evol1, g)) :
    g = evol.gen + 1 ∧ evol1.gen = evol.gen + 1 ∧ evol1.maxFES = evol.maxFES ∧
      evol1.maxGen = evol.maxGen ∧ evol1.size = evol.size ∧
      ((isTerminated (evol.gen + 1) evol.maxGen evol.maxFES evol.currentFES evol.size
            evol.hof = Outcome.ok true ∧ evol1 = { evol with gen := evol.gen + 1 }) ∨
        (isTerminated (evol.gen + 1) evol.maxGen evol.maxFES evol.currentFES evol.size
            evol.hof = Outcome.ok false ∧
          evol1.currentFES = evol.currentFES + evol.size ∧
          (evol1.population.length : Int) = evol.size)) := by
  simp only [Evolve] at h
  obtain ⟨t, ht, h⟩ := Outcome.bind_eq_ok h
  cases t with
  | false =>
    simp only [Bool.not_false, if_true] at h
    obtain ⟨offsprings, hoff, h⟩ := Outcome.bind_eq_ok h
    obtain ⟨gBest, _, h⟩ := Outcome.bind_eq_ok h
    obtain ⟨r, hr, h⟩ := Outcome.bind_eq_ok h
    obtain ⟨evol2, hlog, h⟩ := Outcome.bind_eq_ok h
    simp only [Outcome.ok.injEq, Prod.mk.injEq] at h
    obtain ⟨he, hg⟩ := h
    subst he
    obtain ⟨h1, h2, h3, h4, h5, h6⟩ := log_frame_pso _ _ hlog
    simp only at h1 h2 h3 h4 h5 h6
    have hl := evolveFrom_length_pso _ _ _ _ _ _ _ _ hr
    have hm := makeIndividuals_length _ _ hoff
    refine ⟨by rw [← hg, h5], h5, h3, h6, h2, Or.inr ⟨ht, h4, ?_⟩⟩
    rw [h1, hl]; exact hm
  | true =>
    simp only [Bool.not_true, Bool.false_eq_true, if_false, Outcome.ok.injEq,
      Prod.mk.injEq] at h
    obtain ⟨he, hg⟩ := h
    subst he
    exact ⟨hg.symm, rfl, rfl, rfl, rfl, Or.inl ⟨ht, rfl⟩⟩

end PSO

end Deag

namespace Deag

/-! ## Control loops: the evaluation budget -/

theorem rand1Pair_init : rand1Start.Init popPair = Outcome.ok rand1Pair := by
  have h : ((rand1Start.Init popPair).bind fun e => Outcome.ok e.gen) = Outcome.ok 0 := by
    decide!
  obtain ⟨e, he, _⟩ := Outcome.bind_eq_ok h
  simp only [rand1Pair, he]

theorem rand1Quad_init : rand1Start.Init popQuad = Outcome.ok rand1Quad := by
  have h : ((rand1Start.Init popQuad).bind fun e => Outcome.ok e.gen) = Outcome.ok 0 := by
    decide!
  obtain ⟨e, he, _⟩ := Outcome.bind_eq_ok h
  simp only [rand1Quad, he]

/-- C36: in every state that `NewDERand1`, `NewDEBest1` or `NewPSO` followed by calls of
`Init` and `Evolve` that return can leave, with `maxFES > 0` the evaluation counter is at
most `maxFES`. -/
theorem currentFES_never_exceeds_maxFES :
    (∀ evol : Rand1, evol.Reachable → 0 < evol.maxFES → evol.currentFES ≤ evol.maxFES) ∧
    (∀ evol : Best1, evol.Reachable → 0 < evol.maxFES → evol.currentFES ≤ evol.maxFES) ∧
    (∀ evol : PSO, evol.Reachable → 0 < evol.maxFES → evol.currentFES ≤ evol.maxFES) := by
  refine ⟨?_, ?_, ?_⟩
  · intro evol hr
    induction hr with
    | new f cr maxGen maxFES stat hof evaluator =>
      intro h
      simp only [Rand1.NewDERand1] at h ⊢
      omega
    | @init evol evol1 population _ hinit _ =>
      intro h
      obtain ⟨h1, _, _, _, _, _, h7⟩ := Rand1.Init_frame evol evol1 population hinit
      rcases h7 with h7 | ⟨h7, h8⟩
      · omega
      · rw [h1] at h ⊢
        rw [h7]
        by_contra hc
        exact h8 ⟨h, by omega⟩
    | @evolve evol evol1 g src _ hev ih =>
      intro h
      obtain ⟨_, _, h3, _, _, h6⟩ := Rand1.Evolve_frame evol evol1 src g hev
      rcases h6 with ⟨_, he⟩ | ⟨ht, h7, _⟩
      · subst he
        exact ih h
      · have hnt := (isTerminated_false _ _ _ _ _ _ ht).2
        rw [h3] at h ⊢
        rw [h7]
        by_contra hc
        exact hnt ⟨h, by omega⟩
  · intro evol hr
    induction hr with
    | new f cr maxGen maxFES stat hof evaluator =>
      intro h
      simp only [Best1.NewDEBest1] at h ⊢
      omega
    | @init evol evol1 population _ hinit _ =>
      intro h
      obtain ⟨h1, _, _, _, _, _, h7⟩ := Best1.Init_frame_best evol evol1 population hinit
      rcases h7 with h7 | ⟨h7, h8⟩
      · omega
      · rw [h1] at h ⊢
        rw [h7]
        by_contra hc
        exact h8 ⟨h, by omega⟩
    | @evolve evol evol1 g src _ hev ih =>
      intro h
      obtain ⟨_, _, h3, _, _, h6⟩ := Best1.Evolve_frame_best evol evol1 src g hev
      rcases h6 with ⟨_, he⟩ | ⟨ht, h7, _⟩
      · subst he
        exact ih h
      · have hnt := (isTerminated_false _ _ _ _ _ _ ht).2
        rw [h3] at h ⊢
        rw [h7]
        by_contra hc
        exact hnt ⟨h, by omega⟩
  · intro evol hr
    induction hr with
    | new c1 c2 maxGen maxFES stat hof evaluator =>
      intro h
      simp only [PSO.NewPSO] at h ⊢
      omega
    | @init evol evol1 population _ hinit _ =>
      intro h
      obtain ⟨h1, _, _, _, _, h7⟩ := PSO.Init_frame_pso evol evol1 population hinit
      rcases h7 with h7 | ⟨h7, h8⟩
      · omega
      · rw [h1] at h ⊢
        rw [h7]
        by_contra hc
        exact h8 ⟨h, by omega⟩
    | @evolve evol evol1 g src _ hev ih =>
      intro h
      obtain ⟨_, _, h3, _, _, h6⟩ := PSO.Evolve_frame_pso evol evol1 src g hev
      rcases h6 with ⟨_, he⟩ | ⟨ht, h7, _⟩
      · subst he
        exact ih h
      · have hnt := (isTerminated_false _ _ _ _ _ _ ht).2
        rw [h3] at h ⊢
        rw [h7]
        by_contra hc
        exact hnt ⟨h, by omega⟩

theorem currentFES_never_exceeds_maxFES_witness :
    ∃ (evol : Rand1) (g : Int), rand1Start.Init popQuad = Outcome.ok rand1Quad ∧
      rand1Quad.Evolve drawsQuad = Outcome.ok (evol, g) ∧ evol.currentFES = 8 ∧
      evol.maxFES = 100 ∧ evol.currentFES ≤ evol.maxFES := by
  have h : ((rand1Quad.Evolve drawsQuad).bind fun r =>
      Outcome.ok (r.1.currentFES, r.1.maxFES)) = Outcome.ok (8, 100) := by decide!
  obtain ⟨r, hr, h⟩ := Outcome.bind_eq_ok h
  simp only [Outcome.ok.injEq, Prod.mk.injEq] at h
  obtain ⟨evol, g⟩ := r
  refine ⟨evol, g, rand1Quad_init, hr, h.1, h.2, ?_⟩
  exact currentFES_never_exceeds_maxFES.1 evol
    (Rand1.Reachable.evolve drawsQuad
      (Rand1.Reachable.init popQuad (Rand1.Reachable.new (1 / 2) (1 / 2) 10 100 none none sphere)
        rand1Quad_init) hr)
    (by rw [h.2]; decide)

end Deag

namespace Deag

/-! ## Control loops: one call of `Evolve` -/

theorem isPermOfRange_two (p : List Nat) (h : isPermOfRange p 2 = true) :
    p = [0, 1] ∨ p = [1, 0] := by
  simp only [isPermOfRange, Bool.and_eq_true, decide_eq_true_eq] at h
  obtain ⟨hl, hm⟩ := h
  match p, hl with
  | [a, b], _ =>
    simp [List.range_succ] at hm
    obtain ⟨h0, h1⟩ := hm
    rcases h0 with h0 | h0 <;> rcases h1 with h1 | h1
    · omega
    · left; rw [← h0, ← h1]
    · right; rw [← h0, ← h1]
    · omega

theorem mutateFrom_no_second (f : ℚ) (b : List ℚ) (x : ℚ) (rest : List ℚ) (j : Nat)
    (tChrom : List ℚ) : mutateFrom f [] b (x :: rest) j tChrom = Outcome.panic := by
  have hi : index ([] : List ℚ) (j : Int) = Outcome.panic := by
    simp [index]
  simp only [mutateFrom, hi, Outcome.panic_bind]

/-- C32 (as the code has it): for `Rand1`, `Best1` and `PSO` alike, a call of `Evolve()`
for which `IsTerminated()` holds after the increment of `gen` returns `gen + 1` and leaves
everything but `gen` as it was; every call that returns has increased `gen` by one and
returns the new `gen`; and a call that returns although `IsTerminated()` did not hold
leaves a population of exactly `size` entries, the same `size`, and the evaluation counter
larger by `size`. -/
theorem Evolve_effect :
    (∀ (evol : Rand1) (src : List Draw),
      (({ evol with gen := evol.gen + 1 } : Rand1).IsTerminated = Outcome.ok true →
        evol.Evolve src = Outcome.ok ({ evol with gen := evol.gen + 1 }, evol.gen + 1)) ∧
      ∀ (evol1 : Rand1) (g : Int), evol.Evolve src = Outcome.ok (evol1, g) →
        g = evol.gen + 1 ∧ evol1.gen = evol.gen + 1 ∧
          (({ evol with gen := evol.gen + 1 } : Rand1).IsTerminated = Outcome.ok false →
            (evol1.population.length : Int) = evol.size ∧ evol1.size = evol.size ∧
              evol1.currentFES = evol.currentFES + evol.size)) ∧
    (∀ (evol : Best1) (src : List Draw),
      (({ evol with gen := evol.gen + 1 } : Best1).IsTerminated = Outcome.ok true →
        evol.Evolve src = Outcome.ok ({ evol with gen := evol.gen + 1 }, evol.gen + 1)) ∧
      ∀ (evol1 : Best1) (g : Int), evol.Evolve src = Outcome.ok (evol1, g) →
        g = evol.gen + 1 ∧ evol1.gen = evol.gen + 1 ∧
          (({ evol with gen := evol.gen + 1 } : Best1).IsTerminated = Outcome.ok false →
            (evol1.population.length : Int) = evol.size ∧ evol1.size = evol.size ∧
              evol1.currentFES = evol.currentFES + evol.size)) ∧
    (∀ (evol : PSO) (src : List Draw),
      (({ evol with gen := evol.gen + 1 } : PSO).IsTerminated = Outcome.ok true →
        evol.Evolve src = Outcome.ok ({ evol with gen := evol.gen + 1 }, evol.gen + 1)) ∧
      ∀ (evol1 : PSO) (g : Int), evol.Evolve src = Outcome.ok (evol1, g) →
        g = evol.gen + 1 ∧ evol1.gen = evol.gen + 1 ∧
          (({ evol with gen := evol.gen + 1 } : PSO).IsTerminated = Outcome.ok false →
            (evol1.population.length : Int) = evol.size ∧ evol1.size = evol.size ∧
              evol1.currentFES = evol.currentFES + evol.size)) := by
  refine ⟨?_, ?_, ?_⟩
  · intro evol src
    constructor
    · intro ht
      simp only [Rand1.IsTerminated] at ht
      simp only [Rand1.Evolve, ht, Outcome.ok_bind, Bool.not_true, Bool.false_eq_true, if_false]
    · intro evol1 g h
      obtain ⟨h1, h2, _, _, h5, h6⟩ := Rand1.Evolve_frame evol evol1 src g h
      refine ⟨h1, h2, fun ht => ?_⟩
      simp only [Rand1.IsTerminated] at ht
      rcases h6 with ⟨ht', _⟩ | ⟨_, h7, h8⟩
      · rw [ht] at ht'; cases ht'
      · exact ⟨h8, h5, h7⟩
  · intro evol src
    constructor
    · intro ht
      simp only [Best1.IsTerminated] at ht
      simp only [Best1.Evolve, ht, Outcome.ok_bind, Bool.not_true, Bool.false_eq_true, if_false]
    · intro evol1 g h
      obtain ⟨h1, h2, _, _, h5, h6⟩ := Best1.Evolve_frame_best evol evol1 src g h
      refine ⟨h1, h2, fun ht => ?_⟩
      simp only [Best1.IsTerminated] at ht
      rcases h6 with ⟨ht', _⟩ | ⟨_, h7, h8⟩
      · rw [ht] at ht'; cases ht'
      · exact ⟨h8, h5, h7⟩
  · intro evol src
    constructor
    · intro ht
      simp only [PSO.IsTerminated] at ht
      simp only [PSO.Evolve, ht, Outcome.ok_bind, Bool.not_true, Bool.false_eq_true, if_false]
    · intro evol1 g h
      obtain ⟨h1, h2, _, _, h5, h6⟩ := PSO.Evolve_frame_pso evol evol1 src g h
      refine ⟨h1, h2, fun ht => ?_⟩
      simp only [PSO.IsTerminated] at ht
      rcases h6 with ⟨ht', _⟩ | ⟨_, h7, h8⟩
      · rw [ht] at ht'; cases ht'
      · exact ⟨h8, h5, h7⟩

theorem Evolve_effect_witness :
    (({ rand1Running with gen := 9 } : Rand1).Evolve [] =
        Outcome.ok ({ rand1Running with gen := 9 + 1 }, 9 + 1)) ∧
      ∃ (evol1 : Rand1) (g : Int), rand1Quad.Evolve drawsQuad = Outcome.ok (evol1, g) ∧
        g = rand1Quad.gen + 1 ∧ evol1.gen = rand1Quad.gen + 1 ∧
        (evol1.population.length : Int) = rand1Quad.size ∧ evol1.size = rand1Quad.size ∧
        evol1.currentFES = rand1Quad.currentFES + rand1Quad.size ∧ rand1Quad.size = 4 := by
  refine ⟨(Evolve_effect.1 { rand1Running with gen := 9 } []).1 (by decide!), ?_⟩
  have h : ((rand1Quad.Evolve drawsQuad).bind fun r => Outcome.ok r.2) = Outcome.ok 1 := by
    decide!
  obtain ⟨r, hr, _⟩ := Outcome.bind_eq_ok h
  obtain ⟨evol1, g⟩ := r
  obtain ⟨h1, h2, h3⟩ := (Evolve_effect.1 rand1Quad drawsQuad).2 evol1 g hr
  obtain ⟨h4, h5, h6⟩ := h3 (by decide!)
  exact ⟨evol1, g, hr, h1, h2, h4, h5, h6, by decide!⟩

/-- C32 (as stated) fails on `rand1Pair`, the state `Init` leaves on a population of two
individuals: `IsTerminated()` does not hold after the increment, and `Evolve()` returns for
no random draws whatever, so it returns no generation number; with the permutation
`[1, 0]` drawn for the first agent it panics, the mutation reading `rChroms[1][0]` where
`rChroms[1]` is `nil`, since only one individual other than the agent exists. -/
theorem Evolve_panics_on_two_individuals :
    rand1Start.Init popPair = Outcome.ok rand1Pair ∧
      ({ rand1Pair with gen := rand1Pair.gen + 1 } : Rand1).IsTerminated = Outcome.ok false ∧
      (∀ (src : List Draw) (r : Rand1 × Int), rand1Pair.Evolve src ≠ Outcome.ok r) ∧
      ((rand1Pair.Evolve [Draw.perm [1, 0]]).bind fun r => Outcome.ok r.2) = Outcome.panic := by
  refine ⟨rand1Pair_init, by decide!, ?_, by decide!⟩
  intro src r h
  have ht : isTerminated (rand1Pair.gen + 1) rand1Pair.maxGen rand1Pair.maxFES
      rand1Pair.currentFES rand1Pair.size rand1Pair.hof = Outcome.ok false := by decide!
  have hsize : makeIndividuals rand1Pair.size =
      Outcome.ok ([none, none] : List (Option Float64Individual)) := by decide!
  have hpop : rand1Pair.population =
      [some { chromosome := [1]
              fitness := some { weights := [-1], wvalues := [1 * 1 * -1], values := [1 * 1],
                                valid := true } },
        some { chromosome := [2]
               fitness := some { weights := [-1], wvalues := [-4], values := [4],
                                 valid := true } }] := by decide!
  simp only [Rand1.Evolve, ht, Outcome.ok_bind, Bool.not_false, if_true, hsize] at h
  obtain ⟨r1, hr1, _⟩ := Outcome.bind_eq_ok h
  rw [hpop] at hr1
  simp only [Rand1.evolveFrom] at hr1
  obtain ⟨o, ho, _⟩ := Outcome.bind_eq_ok hr1
  simp only [Rand1.offspring, hpop] at ho
  obtain ⟨p, hp, ho⟩ := Outcome.bind_eq_ok ho
  obtain ⟨rChroms, hpick, ho⟩ := Outcome.bind_eq_ok ho
  have hperm : p.1 = [0, 1] ∨ p.1 = [1, 0] := by
    cases src with
    | nil => simp [randPerm] at hp
    | cons d rest =>
      cases d with
      | perm q =>
        simp only [randPerm, List.length_cons, List.length_nil] at hp
        split at hp
        · rename_i hq
          simp only [Outcome.ok.injEq] at hp
          rw [← hp]
          exact isPermOfRange_two q hq
        · cases hp
      | intn v => simp [randPerm] at hp
      | float x => simp [randPerm] at hp
  have hrc : rChroms = [[2]] := by
    rcases hperm with hq | hq
    · rw [hq] at hpick
      have : pickOthers
          [some { chromosome := [1]
                  fitness := some { weights := [-1], wvalues := [1 * 1 * -1],
                                    values := [1 * 1], valid := true } },
            some { chromosome := [2]
                   fitness := some { weights := [-1], wvalues := [-4], values := [4],
                                     valid := true } }] 0 3 [0, 1] [] =
          Outcome.ok [[2]] := by decide!
      rw [this] at hpick
      simp only [Outcome.ok.injEq] at hpick
      exact hpick.symm
    · rw [hq] at hpick
      have : pickOthers
          [some { chromosome := [1]
                  fitness := some { weights := [-1], wvalues := [1 * 1 * -1],
                                    values := [1 * 1], valid := true } },
            some { chromosome := [2]
                   fitness := some { weights := [-1], wvalues := [-4], values := [4],
                                     valid := true } }] 0 3 [1, 0] [] =
          Outcome.ok [[2]] := by decide!
      rw [this] at hpick
      simp only [Outcome.ok.injEq] at hpick
      exact hpick.symm
  subst hrc
  obtain ⟨t, _, ho⟩ := Outcome.bind_eq_ok ho
  obtain ⟨tChrom, hmut, _⟩ := Outcome.bind_eq_ok ho
  have hm : mutateFrom rand1Pair.f [] [] [2] 0 t.chromosome = Outcome.panic :=
    mutateFrom_no_second _ _ _ _ _ _
  simp only [List.getD_cons_zero, List.getD_cons_succ, List.getD_nil] at hmut
  rw [hm] at hmut
  cases hmut

end Deag

namespace Deag

/-! ## Control loops: `Init` -/

theorem SetValues_scored (M : Nat) (f : Fitness) (v : List ℚ) (hM : 0 < M)
    (hw : f.weights.length = M) (hv : v.length = M)
    (hstart : f.wvalues = [] ∨ (f.wvalues.length = M ∧ f.values.length = M)) :
    ∃ f1, f.SetValues v = Outcome.ok f1 ∧ f1.Scored M := by
  have hgen : ∀ st : List ℚ × List ℚ, st.1.length = f.weights.length →
      st.2.length = f.weights.length →
      Fitness.setValuesFrom f.weights v 0 st =
        Outcome.ok (List.zipWith (fun a b => a * b) v f.weights, v) := by
    intro st h1 h2
    have := setValuesFrom_general f.weights v 0 st h1 h2 (by rw [hv, hw]; omega)
    simpa using this
  have hres : f.SetValues v =
      Outcome.ok { weights := f.weights, wvalues := List.zipWith (fun a b => a * b) v f.weights,
                   values := v, valid := true } := by
    unfold Fitness.SetValues
    by_cases hnil : f.wvalues = []
    · simp only [hnil, if_true]
      rw [hgen _ (by simp) (by simp)]
      rfl
    · simp only [hnil, if_false]
      rcases hstart with h0 | ⟨h1, h2⟩
      · exact absurd h0 hnil
      · rw [hgen _ (by rw [h1, hw]) (by rw [h2, hw])]
        rfl
  exact ⟨_, hres, hM, hw, hv, rfl, rfl⟩

/-- On a population of evaluable entries the loop of `evaluate` completes: no entry is
`nil` afterwards, every individual carries a scored fitness, the chromosomes are as they
were. -/
theorem evaluateFrom_total (evaluator : Float64Individual → Outcome (List ℚ)) (M : Nat)
    (hM : 0 < M) :
    ∀ population : List (Option Float64Individual),
      (∀ x ∈ population, Evaluable evaluator M x) →
      ∃ (r : List (Option Float64Individual)) (inds : List Float64Individual),
        evaluateFrom evaluator population = Outcome.ok r ∧ nonNil r = some inds ∧
          (∀ y ∈ inds, y.Scored M) ∧
          r.map (fun x => x.map fun i => i.chromosome) =
            population.map (fun x => x.map fun i => i.chromosome) := by
  intro population
  induction population with
  | nil => intro _; exact ⟨[], [], rfl, rfl, by simp, rfl⟩
  | cons x rest ih =>
    intro h
    obtain ⟨ind, f, v, hx, hf, hw, hstart, hev, hv⟩ := h x (by simp)
    obtain ⟨r, inds, hr, hnn, hsc, hch⟩ := ih (fun y hy => h y (by simp [hy]))
    obtain ⟨f1, hf1, hs1⟩ := SetValues_scored M f v hM hw hv hstart
    subst hx
    refine ⟨some { ind with fitness := some f1 } :: r, { ind with fitness := some f1 } :: inds,
      ?_, ?_, ?_, ?_⟩
    · simp only [evaluateFrom, hev, Outcome.ok_bind, hf, ptrSetValues, hf1, hr]
    · simp only [nonNil, hnn, Option.map_some']
    · intro y hy
      rcases List.mem_cons.mp hy with hy | hy
      · subst hy; exact ⟨f1, rfl, hs1⟩
      · exact hsc y hy
    · simp only [List.map_cons, Option.map_some', hch]

theorem isTerminated_fresh (maxGen maxFES size : Int) (h : DefaultHallOfFame)
    (hsize : h.size = 0) (hgen : 1 ≤ maxGen) (hcap : ¬ (0 < maxFES ∧ size > maxFES)) :
    isTerminated 0 maxGen maxFES 0 size (some h) = Outcome.ok false := by
  have h1 : ¬ (0 : Int) ≥ maxGen := by omega
  have hflag : (decide ((0 : Int) ≥ maxGen) ||
      (decide (maxFES > 0) && decide (0 + size > maxFES))) = false := by
    simp only [Bool.or_eq_false_iff, decide_eq_false_iff_not, Bool.and_eq_false_imp,
      decide_eq_true_eq]
    exact ⟨h1, fun ha hb => hcap ⟨ha, by omega⟩⟩
  have hl : ¬ h.Len > 0 := by simp [DefaultHallOfFame.Len, hsize]
  simp only [isTerminated, hflag, Bool.false_eq_true, if_false, hofLen, Outcome.ok_bind, hl]

theorem isTerminated_nil (gen maxGen maxFES currentFES size : Int) (hgen : gen < maxGen)
    (hcap : ¬ (0 < maxFES ∧ currentFES + size > maxFES)) :
    isTerminated gen maxGen maxFES currentFES size none = Outcome.panic := by
  have h1 : ¬ gen ≥ maxGen := by omega
  have hflag : (decide (gen ≥ maxGen) ||
      (decide (maxFES > 0) && decide (currentFES + size > maxFES))) = false := by
    simp only [Bool.or_eq_false_iff, decide_eq_false_iff_not, Bool.and_eq_false_imp,
      decide_eq_true_eq]
    exact ⟨h1, fun ha hb => hcap ⟨ha, hb⟩⟩
  simp only [isTerminated, hflag, Bool.false_eq_true, if_false, hofLen, Outcome.panic_bind]

/-- C31: `Rand1.Init` and `Best1.Init` on a loop constructed without hall of fame, with
`maxGen >= 1`, an evaluation cap that admits one pass, a population of evaluable entries
and a `stat` that is `nil` or compiles, complete; they leave a hall of fame, `gen = 0`, the
population stored (same length, same chromosomes) with `size = len(P)`, and the evaluation
counter equal to `len(P)`.  `PSO.Init` on a loop constructed without hall of fame, with
`maxGen >= 1` and a cap that admits one pass, panics whatever the population: it makes no
hall of fame and `IsTerminated` calls `Len` on the `nil` one. -/
theorem Init_completes_except_PSO :
    (∀ (evol : Rand1) (population : List (Option Float64Individual)) (M : Nat),
      evol.hof = none → 1 ≤ evol.maxGen →
      ¬ (0 < evol.maxFES ∧ (population.length : Int) > evol.maxFES) → 0 < M →
      (∀ x ∈ population, Evaluable evol.evaluator M x) →
      (∀ c, evol.stat = some c → ∀ pop, ∃ d, c pop = Outcome.ok d) →
      ∃ evol1, evol.Init population = Outcome.ok evol1 ∧ evol1.hof ≠ none ∧ evol1.gen = 0 ∧
        evol1.population.length = population.length ∧
        evol1.population.map (fun x => x.map fun i => i.chromosome) =
          population.map (fun x => x.map fun i => i.chromosome) ∧
        evol1.size = (population.length : Int) ∧
        evol1.currentFES = (population.length : Int)) ∧
    (∀ (evol : Best1) (population : List (Option Float64Individual)) (M : Nat),
      evol.hof = none → 1 ≤ evol.maxGen →
      ¬ (0 < evol.maxFES ∧ (population.length : Int) > evol.maxFES) → 0 < M →
      (∀ x ∈ population, Evaluable evol.evaluator M x) →
      (∀ c, evol.stat = some c → ∀ pop, ∃ d, c pop = Outcome.ok d) →
      ∃ evol1, evol.Init population = Outcome.ok evol1 ∧ evol1.hof ≠ none ∧ evol1.gen = 0 ∧
        evol1.population.length = population.length ∧
        evol1.population.map (fun x => x.map fun i => i.chromosome) =
          population.map (fun x => x.map fun i => i.chromosome) ∧
        evol1.size = (population.length : Int) ∧
        evol1.currentFES = (population.length : Int)) ∧
    (∀ (evol : PSO) (population : List (Option Particle)),
      evol.hof = none → 1 ≤ evol.maxGen →
      ¬ (0 < evol.maxFES ∧ (population.length : Int) > evol.maxFES) →
      evol.Init population = Outcome.panic) := by
  refine ⟨?_, ?_, ?_⟩
  · intro evol population M hhof hgen hcap hM hpop hstat
    obtain ⟨h0, hnew, hfresh, hmax, hsim⟩ := New_fresh 1 none (by decide)
    have hsz : h0.size = 0 := by simpa using hfresh.1
    obtain ⟨r, inds, hr, hnn, hsc, hch⟩ :=
      evaluateFrom_total evol.evaluator M hM population hpop
    obtain ⟨h2, l2, hup, _⟩ := Update_spec h0 [] inds hfresh (by omega)
      (fun x hx => by cases hx) hsc
    obtain ⟨d, hd⟩ : ∃ d, compileStat evol.stat r = Outcome.ok d := by
      cases hs : evol.stat with
      | none => exact ⟨Dict.empty, rfl⟩
      | some c => exact hstat c hs r
    have hng : ¬ evol.maxGen < 0 := by omega
    have hlen := evaluateFrom_length _ _ _ hr
    refine ⟨
      { population := r, f := evol.f, cr := evol.cr, stat := evol.stat, hof := some h2
        logbook := some (DefaultLogbook.fresh.Record
          ((d.set GEN (DictValue.int 0)).set FES (DictValue.int (population.length : Int))))
        size := (population.length : Int), maxFES := evol.maxFES
        currentFES := 0 + (population.length : Int), gen := 0, maxGen := evol.maxGen
        evaluator := evol.evaluator }, ?_, ?_, ?_, ?_, ?_, ?_, ?_⟩
    · simp only [Rand1.Init, NewDefaultLogbook, hng, if_false, Outcome.ok_bind, hhof,
        Option.isNone_none, if_true, hnew, isTerminated_fresh _ _ _ h0 hsz hgen hcap,
        Bool.not_false, Rand1.evaluate, hr, Rand1.log, hd, logRecord, hofUpdate, hnn, hup]
    · simp
    · rfl
    · exact hlen
    · exact hch
    · rfl
    · show (0 : Int) + (population.length : Int) = (population.length : Int)
      omega
  · intro evol population M hhof hgen hcap hM hpop hstat
    obtain ⟨h0, hnew, hfresh, hmax, hsim⟩ := New_fresh 1 none (by decide)
    have hsz : h0.size = 0 := by simpa using hfresh.1
    obtain ⟨r, inds, hr, hnn, hsc, hch⟩ :=
      evaluateFrom_total evol.evaluator M hM population hpop
    obtain ⟨h2, l2, hup, _⟩ := Update_spec h0 [] inds hfresh (by omega)
      (fun x hx => by cases hx) hsc
    obtain ⟨d, hd⟩ : ∃ d, compileStat evol.stat r = Outcome.ok d := by
      cases hs : evol.stat with
      | none => exact ⟨Dict.empty, rfl⟩
      | some c => exact hstat c hs r
    have hng : ¬ evol.maxGen < 0 := by omega
    have hlen := evaluateFrom_length _ _ _ hr
    refine ⟨
      { population := r, f := evol.f, cr := evol.cr, stat := evol.stat, hof := some h2
        logbook := some (DefaultLogbook.fresh.Record
          ((d.set GEN (DictValue.int 0)).set FES (DictValue.int (population.length : Int))))
        size := (population.length : Int), maxFES := evol.maxFES
        currentFES := 0 + (population.length : Int), gen := 0, maxGen := evol.maxGen
        evaluator := evol.evaluator }, ?_, ?_, ?_, ?_, ?_, ?_, ?_⟩
    · simp only [Best1.Init, NewDefaultLogbook, hng, if_false, Outcome.ok_bind, hhof,
        Option.isNone_none, if_true, hnew, isTerminated_fresh _ _ _ h0 hsz hgen hcap,
        Bool.not_false, Best1.evaluate, hr, Best1.log, hd, logRecord, hofUpdate, hnn, hup]
    · simp
    · rfl
    · exact hlen
    · exact hch
    · rfl
    · show (0 : Int) + (population.length : Int) = (population.length : Int)
      omega
  · intro evol population hhof hgen hcap
    have hng : ¬ evol.maxGen < 0 := by omega
    have ht := isTerminated_nil 0 evol.maxGen evol.maxFES 0 (population.length : Int)
      (by omega) (fun hc => hcap ⟨hc.1, by omega⟩)
    simp only [PSO.Init, NewDefaultLogbook, hng, if_false, Outcome.ok_bind, hhof, ht,
      Outcome.panic_bind]

theorem Init_completes_except_PSO_witness :
    (∃ evol1, rand1Start.Init popQuad = Outcome.ok evol1 ∧ evol1.hof ≠ none ∧ evol1.gen = 0 ∧
        evol1.population.length = popQuad.length ∧
        evol1.population.map (fun x => x.map fun i => i.chromosome) =
          popQuad.map (fun x => x.map fun i => i.chromosome) ∧
        evol1.size = (popQuad.length : Int) ∧ evol1.currentFES = (popQuad.length : Int)) ∧
      (PSO.NewPSO 2 2 10 100 none none sphere).Init
          [some { toFloat64Individual := { chromosome := [1], fitness := Fitness.NewFitness [-1] }
                  speed := [0], pbest := none, smin := -1, smax := 1 }] = Outcome.panic :=
  ⟨Init_completes_except_PSO.1 rand1Start popQuad 1 rfl (by decide) (by decide) (by decide)
      (by
        intro x hx
        simp only [popQuad, List.mem_cons, List.mem_singleton, List.not_mem_nil,
          or_false] at hx
        rcases hx with hx | hx | hx | hx <;> subst hx
        · exact ⟨_, _, [1 * 1], rfl, rfl, rfl, Or.inl rfl, by decide!, rfl⟩
        · exact ⟨_, _, [2 * 2], rfl, rfl, rfl, Or.inl rfl, by decide!, rfl⟩
        · exact ⟨_, _, [3 * 3], rfl, rfl, rfl, Or.inl rfl, by decide!, rfl⟩
        · exact ⟨_, _, [4 * 4], rfl, rfl, rfl, Or.inl rfl, by decide!, rfl⟩)
      (by intro c hc; cases hc),
    Init_completes_except_PSO.2.2 _ _ rfl (by decide) (by decide)⟩

end Deag

namespace Deag

/-! ## Comparisons of `float64` values -/

theorem Float64.lt_antisymm {a b : Float64} (h : Float64.lt a b = true) :
    Float64.lt b a = false := by
  cases a <;> cases b <;> simp_all [Float64.lt]
  exact le_of_lt h

theorem Float64.lt_self (a : Float64) : Float64.lt a a = false := by
  cases a <;> simp [Float64.lt]

theorem Float64.not_lt_iff_ge {a b : Float64} (ha : a ≠ Float64.nan) (hb : b ≠ Float64.nan) :
    Float64.lt a b = false ↔ Float64.ge a b = true := by
  cases a <;> cases b <;> simp_all [Float64.lt, Float64.ge, Float64.le, Float64.eq]
  exact le_iff_lt_or_eq

theorem Float64.ge_not_lt {a b : Float64} (h : Float64.ge a b = true) :
    Float64.lt a b = false := by
  cases a <;> cases b <;> simp_all [Float64.lt, Float64.ge, Float64.le, Float64.eq]
  exact le_iff_lt_or_eq.mpr h

theorem Float64.lt_chain {a b c : Float64} (hb : b ≠ Float64.nan)
    (h1 : Float64.lt b a = false) (h2 : Float64.lt c b = false) : Float64.lt c a = false := by
  cases a <;> cases b <;> cases c <;> simp_all [Float64.lt]
  exact le_trans h1 h2

theorem Float64.getD_ne_nan {l : List Float64} (h : ∀ v ∈ l, v ≠ Float64.nan) (i : Nat)
    (hi : i < l.length) : l.getD i Float64.nan ≠ Float64.nan := by
  rw [List.getD_eq_getElem _ _ hi]
  exact h _ (List.getElem_mem hi)

/-! ## Dominance over `float64` values -/

theorem dominatesAll_float (other : List Float64) :
    ∀ (rest : List Float64) (i : Nat) (ne : Bool), i + rest.length = other.length →
      ∃ r, IEEE.Fitness.dominatesAll other rest i ne = Outcome.ok r ∧
        (r = true ↔
          ((∀ j, j < rest.length →
              Float64.lt (rest.getD j Float64.nan) (other.getD (i + j) Float64.nan) = false) ∧
            (ne = true ∨ ∃ j, j < rest.length ∧
              Float64.gt (rest.getD j Float64.nan) (other.getD (i + j) Float64.nan) = true))) := by
  intro rest
  induction rest with
  | nil => intro i ne _; exact ⟨ne, by simp [IEEE.Fitness.dominatesAll]⟩
  | cons wv rest ih =>
    intro i ne h
    have hi : i < other.length := by simp at h; omega
    have hget : other.get? i = some (other.getD i Float64.nan) := by
      rw [List.getD_eq_getElem _ _ hi]; simp [List.getElem?_eq_getElem hi]
    have hlen : (i + 1) + rest.length = other.length := by simp at h; omega
    have e1 : ∀ j, other.getD (i + (j + 1)) Float64.nan = other.getD (i + 1 + j) Float64.nan := by
      intro j; congr 1; omega
    rw [IEEE.Fitness.dominatesAll, hget]
    dsimp only
    rw [forall_lt_cons, exists_lt_cons]
    simp only [List.getD_cons_zero, List.getD_cons_succ, Nat.add_zero, e1]
    by_cases h1 : Float64.gt wv (other.getD i Float64.nan) = true
    · rw [if_pos h1]
      obtain ⟨r, hr, hiff⟩ := ih (i + 1) true hlen
      refine ⟨r, hr, hiff.trans ?_⟩
      constructor
      · rintro ⟨ha, _⟩; exact ⟨⟨Float64.lt_antisymm h1, ha⟩, Or.inr (Or.inl h1)⟩
      · rintro ⟨⟨_, ha⟩, _⟩; exact ⟨ha, Or.inl rfl⟩
    · rw [if_neg h1]
      by_cases h2 : Float64.lt wv (other.getD i Float64.nan) = true
      · rw [if_pos h2]
        refine ⟨false, rfl, ?_⟩
        constructor
        · intro hf; cases hf
        · rintro ⟨⟨h0, _⟩, _⟩
          rw [h0] at h2; cases h2
      · rw [if_neg h2]
        obtain ⟨r, hr, hiff⟩ := ih (i + 1) ne hlen
        refine ⟨r, hr, hiff.trans ?_⟩
        constructor
        · rintro ⟨ha, hb⟩
          refine ⟨⟨by simpa using h2, ha⟩, ?_⟩
          rcases hb with hb | hb
          · exact Or.inl hb
          · exact Or.inr (Or.inr hb)
        · rintro ⟨⟨_, ha⟩, hb⟩
          refine ⟨ha, ?_⟩
          rcases hb with hb | hb | hb
          · exact Or.inl hb
          · exact absurd hb h1
          · exact Or.inr hb

theorem index_float (xs : List Float64) (i : Int) (h0 : 0 ≤ i) (h1 : i < xs.length) :
    index xs i = Outcome.ok (xs.getD i.toNat Float64.nan) := by
  have hlt : i.toNat < xs.length := by omega
  have : ¬ (i < 0) := by omega
  simp [index, this, List.getD_eq_getElem _ _ hlt, List.getElem?_eq_getElem hlt]

theorem dominatesObj_float (mine other : List Float64) (hlen : mine.length = other.length) :
    ∀ (obj : List Int) (ne : Bool), (∀ i ∈ obj, 0 ≤ i ∧ i < mine.length) →
      ∃ r, IEEE.Fitness.dominatesObj mine other obj ne = Outcome.ok r ∧
        (r = true ↔
          ((∀ i ∈ obj, Float64.lt (mine.getD i.toNat Float64.nan)
              (other.getD i.toNat Float64.nan) = false) ∧
            (ne = true ∨ ∃ i ∈ obj, Float64.gt (mine.getD i.toNat Float64.nan)
              (other.getD i.toNat Float64.nan) = true))) := by
  intro obj
  induction obj with
  | nil => intro ne _; exact ⟨ne, by simp [IEEE.Fitness.dominatesObj]⟩
  | cons i rest ih =>
    intro ne hr
    have hi := hr i (by simp)
    have hrest : ∀ j ∈ rest, 0 ≤ j ∧ j < mine.length := fun j hj => hr j (by simp [hj])
    rw [IEEE.Fitness.dominatesObj, index_float mine i hi.1 hi.2,
      index_float other i hi.1 (hlen ▸ hi.2)]
    simp only [Outcome.ok_bind, List.forall_mem_cons, List.exists_mem_cons_iff]
    by_cases h1 : Float64.gt (mine.getD i.toNat Float64.nan)
        (other.getD i.toNat Float64.nan) = true
    · rw [if_pos h1]
      obtain ⟨r, hr, hiff⟩ := ih true hrest
      refine ⟨r, hr, hiff.trans ?_⟩
      constructor
      · rintro ⟨ha, _⟩; exact ⟨⟨Float64.lt_antisymm h1, ha⟩, Or.inr (Or.inl h1)⟩
      · rintro ⟨⟨_, ha⟩, _⟩; exact ⟨ha, Or.inl rfl⟩
    · rw [if_neg h1]
      by_cases h2 : Float64.lt (mine.getD i.toNat Float64.nan)
          (other.getD i.toNat Float64.nan) = true
      · rw [if_pos h2]
        refine ⟨false, rfl, ?_⟩
        constructor
        · intro hf; cases hf
        · rintro ⟨⟨h0, _⟩, _⟩
          rw [h0] at h2; cases h2
      · rw [if_neg h2]
        obtain ⟨r, hr, hiff⟩ := ih ne hrest
        refine ⟨r, hr, hiff.trans ?_⟩
        constructor
        · rintro ⟨ha, hb⟩
          refine ⟨⟨by simpa using h2, ha⟩, ?_⟩
          rcases hb with hb | hb
          · exact Or.inl hb
          · exact Or.inr (Or.inr hb)
        · rintro ⟨⟨_, ha⟩, hb⟩
          refine ⟨ha, ?_⟩
          rcases hb with hb | hb | hb
          · exact Or.inl hb
          · exact absurd hb h1
          · exact Or.inr hb

/-- C1 (as the code has it): for `float64` fitness vectors `a`, `b` with the same number of
weighted values, `a.Dominates(b, nil)` returns (without panic) true exactly when no
weighted value of `a` is `<` the corresponding one of `b` and one is `>`; when no weighted
value of `a` or `b` is NaN that is: every weighted value of `a` is `>=` the corresponding
one of `b` and one is `>`.  With an index list whose entries are valid objective indices
the same holds restricted to the listed indices. -/
theorem Dominates_no_worse_one_better (a b : IEEE.Fitness)
    (h : a.wvalues.length = b.wvalues.length) :
    (∃ r, a.Dominates b none = Outcome.ok r ∧
      (r = true ↔
        (∀ i, i < a.wvalues.length →
          Float64.lt (a.wvalues.getD i Float64.nan) (b.wvalues.getD i Float64.nan) = false) ∧
          ∃ i, i < a.wvalues.length ∧
            Float64.gt (a.wvalues.getD i Float64.nan) (b.wvalues.getD i Float64.nan) = true) ∧
      (a.NoNaN → b.NoNaN →
        (r = true ↔
          (∀ i, i < a.wvalues.length →
            Float64.ge (a.wvalues.getD i Float64.nan) (b.wvalues.getD i Float64.nan) = true) ∧
            ∃ i, i < a.wvalues.length ∧
              Float64.gt (a.wvalues.getD i Float64.nan) (b.wvalues.getD i Float64.nan) =
                true))) ∧
    ∀ obj : List Int, (∀ i ∈ obj, 0 ≤ i ∧ i < a.wvalues.length) →
      ∃ r, a.Dominates b (some obj) = Outcome.ok r ∧
        (r = true ↔
          (∀ i ∈ obj, Float64.lt (a.wvalues.getD i.toNat Float64.nan)
            (b.wvalues.getD i.toNat Float64.nan) = false) ∧
            ∃ i ∈ obj, Float64.gt (a.wvalues.getD i.toNat Float64.nan)
              (b.wvalues.getD i.toNat Float64.nan) = true) ∧
        (a.NoNaN → b.NoNaN →
          (r = true ↔
            (∀ i ∈ obj, Float64.ge (a.wvalues.getD i.toNat Float64.nan)
              (b.wvalues.getD i.toNat Float64.nan) = true) ∧
              ∃ i ∈ obj, Float64.gt (a.wvalues.getD i.toNat Float64.nan)
                (b.wvalues.getD i.toNat Float64.nan) = true)) := by
  constructor
  · obtain ⟨r, hr, hiff⟩ := dominatesAll_float b.wvalues a.wvalues 0 false (by simpa using h)
    have hiff1 : r = true ↔
        (∀ i, i < a.wvalues.length →
          Float64.lt (a.wvalues.getD i Float64.nan) (b.wvalues.getD i Float64.nan) = false) ∧
          ∃ i, i < a.wvalues.length ∧
            Float64.gt (a.wvalues.getD i Float64.nan) (b.wvalues.getD i Float64.nan) = true := by
      simpa using hiff
    refine ⟨r, hr, hiff1, ?_⟩
    intro ha hb
    rw [hiff1]
    refine and_congr_left fun _ => forall_congr' fun i => forall_congr' fun hi => ?_
    exact Float64.not_lt_iff_ge (Float64.getD_ne_nan ha i hi)
      (Float64.getD_ne_nan hb i (h ▸ hi))
  · intro obj hobj
    obtain ⟨r, hr, hiff⟩ := dominatesObj_float a.wvalues b.wvalues h obj false hobj
    have hiff1 : r = true ↔
        (∀ i ∈ obj, Float64.lt (a.wvalues.getD i.toNat Float64.nan)
            (b.wvalues.getD i.toNat Float64.nan) = false) ∧
          ∃ i ∈ obj, Float64.gt (a.wvalues.getD i.toNat Float64.nan)
            (b.wvalues.getD i.toNat Float64.nan) = true := by
      simpa using hiff
    refine ⟨r, hr, hiff1, ?_⟩
    intro ha hb
    rw [hiff1]
    refine and_congr_left fun _ => forall_congr' fun i => forall_congr' fun hi => ?_
    have hi' := hobj i hi
    exact Float64.not_lt_iff_ge (Float64.getD_ne_nan ha i.toNat (by omega))
      (Float64.getD_ne_nan hb i.toNat (by omega))

theorem Dominates_no_worse_one_better_witness :
    (∃ r, IEEE.fitTwo.Dominates IEEE.fitOne none = Outcome.ok r ∧
      (r = true ↔
        (∀ i, i < IEEE.fitTwo.wvalues.length →
          Float64.lt (IEEE.fitTwo.wvalues.getD i Float64.nan)
            (IEEE.fitOne.wvalues.getD i Float64.nan) = false) ∧
          ∃ i, i < IEEE.fitTwo.wvalues.length ∧
            Float64.gt (IEEE.fitTwo.wvalues.getD i Float64.nan)
              (IEEE.fitOne.wvalues.getD i Float64.nan) = true) ∧
      (IEEE.fitTwo.NoNaN → IEEE.fitOne.NoNaN →
        (r = true ↔
          (∀ i, i < IEEE.fitTwo.wvalues.length →
            Float64.ge (IEEE.fitTwo.wvalues.getD i Float64.nan)
              (IEEE.fitOne.wvalues.getD i Float64.nan) = true) ∧
            ∃ i, i < IEEE.fitTwo.wvalues.length ∧
              Float64.gt (IEEE.fitTwo.wvalues.getD i Float64.nan)
                (IEEE.fitOne.wvalues.getD i Float64.nan) =
                true))) ∧
    ∀ obj : List Int, (∀ i ∈ obj, 0 ≤ i ∧ i < IEEE.fitTwo.wvalues.length) →
      ∃ r, IEEE.fitTwo.Dominates IEEE.fitOne (some obj) = Outcome.ok r ∧
        (r = true ↔
          (∀ i ∈ obj, Float64.lt (IEEE.fitTwo.wvalues.getD i.toNat Float64.nan)
            (IEEE.fitOne.wvalues.getD i.toNat Float64.nan) = false) ∧
            ∃ i ∈ obj, Float64.gt (IEEE.fitTwo.wvalues.getD i.toNat Float64.nan)
              (IEEE.fitOne.wvalues.getD i.toNat Float64.nan) = true) ∧
        (IEEE.fitTwo.NoNaN → IEEE.fitOne.NoNaN →
          (r = true ↔
            (∀ i ∈ obj, Float64.ge (IEEE.fitTwo.wvalues.getD i.toNat Float64.nan)
              (IEEE.fitOne.wvalues.getD i.toNat Float64.nan) = true) ∧
              ∃ i ∈ obj, Float64.gt (IEEE.fitTwo.wvalues.getD i.toNat Float64.nan)
                (IEEE.fitOne.wvalues.getD i.toNat Float64.nan) = true)) :=
  Dominates_no_worse_one_better IEEE.fitTwo IEEE.fitOne (by decide)

/-- C1 (as stated) fails on NaN: the weighted values `(NaN, 2)` dominate `(1, 1)`, with
`nil` and with the index list `[0, 1]`, although the first weighted value is not `>=` the
corresponding one, because both `NaN > 1` and `NaN < 1` are false. -/
theorem Dominates_NaN_not_pareto :
    (IEEE.fitOf [Float64.nan, Float64.fin 2]).Dominates
        (IEEE.fitOf [Float64.fin 1, Float64.fin 1]) none = Outcome.ok true ∧
      (IEEE.fitOf [Float64.nan, Float64.fin 2]).Dominates
        (IEEE.fitOf [Float64.fin 1, Float64.fin 1]) (some [0, 1]) = Outcome.ok true ∧
      Float64.ge Float64.nan (Float64.fin 1) = false := by
  decide!

end Deag

namespace Deag

/-! ## `LessEqual` and `Greater` over `float64` values -/

theorem lessEqualFrom_float (other : List Float64) :
    ∀ (rest : List Float64) (i : Nat), i + rest.length = other.length →
      ∃ r, IEEE.Fitness.lessEqualFrom other rest i = Outcome.ok r ∧
        (r = true ↔ ∀ j, j < rest.length →
          Float64.lt (other.getD (i + j) Float64.nan) (rest.getD j Float64.nan) = false) := by
  intro rest
  induction rest with
  | nil => intro i _; exact ⟨true, rfl, by simp⟩
  | cons fit rest ih =>
    intro i h
    have hi : i < other.length := by simp at h; omega
    have hget : other.get? i = some (other.getD i Float64.nan) := by
      rw [List.getD_eq_getElem _ _ hi]; simp [List.getElem?_eq_getElem hi]
    have hlen : (i + 1) + rest.length = other.length := by simp at h; omega
    have e1 : ∀ j, other.getD (i + (j + 1)) Float64.nan = other.getD (i + 1 + j) Float64.nan := by
      intro j; congr 1; omega
    rw [IEEE.Fitness.lessEqualFrom, hget]
    dsimp only
    rw [forall_lt_cons]
    simp only [List.getD_cons_zero, List.getD_cons_succ, Nat.add_zero, e1]
    by_cases h1 : Float64.lt (other.getD i Float64.nan) fit = true
    · rw [if_pos h1]
      refine ⟨false, rfl, ?_⟩
      constructor
      · intro hf; cases hf
      · rintro ⟨h0, _⟩; rw [h0] at h1; cases h1
    · rw [if_neg h1]
      obtain ⟨r, hr, hiff⟩ := ih (i + 1) hlen
      refine ⟨r, hr, hiff.trans ?_⟩
      constructor
      · intro ha; exact ⟨by simpa using h1, ha⟩
      · rintro ⟨_, ha⟩; exact ha

theorem LessEqual_float {M : Nat} (a b : IEEE.Fitness) (ha : a.Evaluated M)
    (hb : b.Evaluated M) :
    ∃ r, a.LessEqual b = Outcome.ok r ∧
      (r = true ↔ ∀ i, i < M →
        Float64.lt (b.wvalues.getD i Float64.nan) (a.wvalues.getD i Float64.nan) = false) := by
  obtain ⟨r, hr, hiff⟩ := lessEqualFrom_float b.wvalues a.wvalues 0 (by simp [ha.2, hb.2])
  refine ⟨r, hr, ?_⟩
  rw [hiff, ha.2]
  simp

/-- C27 (as the code has it): for `float64` fitness `a`, `b` with `M` objectives each,
`a.LessEqual(b)` returns whether no weighted value of `b` is `<` the corresponding one of
`a`; when no weighted value of `a` or `b` is NaN that is: every weighted value of `a` is
`<=` the corresponding one of `b`.  `a.Greater(b)` returns the negation of
`a.LessEqual(b)`, and when neither `a.LessEqual(b)` nor `b.LessEqual(a)` holds both
`a.Greater(b)` and `b.Greater(a)` do. -/
theorem LessEqual_none_below (M : Nat) (a b : IEEE.Fitness) (ha : a.Evaluated M)
    (hb : b.Evaluated M) :
    ∃ r, a.LessEqual b = Outcome.ok r ∧
      (r = true ↔ ∀ i, i < M →
        Float64.lt (b.wvalues.getD i Float64.nan) (a.wvalues.getD i Float64.nan) = false) ∧
      (a.NoNaN → b.NoNaN →
        (r = true ↔ ∀ i, i < M →
          Float64.le (a.wvalues.getD i Float64.nan) (b.wvalues.getD i Float64.nan) = true)) ∧
      a.Greater b = Outcome.ok (!r) ∧
      (a.LessEqual b = Outcome.ok false → b.LessEqual a = Outcome.ok false →
        a.Greater b = Outcome.ok true ∧ b.Greater a = Outcome.ok true) := by
  obtain ⟨r, hr, hiff⟩ := LessEqual_float a b ha hb
  refine ⟨r, hr, hiff, ?_, by simp only [IEEE.Fitness.Greater, hr, Outcome.ok_bind], ?_⟩
  · intro hna hnb
    rw [hiff]
    refine forall_congr' fun i => forall_congr' fun hi => ?_
    exact Float64.not_lt_iff_ge (Float64.getD_ne_nan hnb i (hb.2 ▸ hi))
      (Float64.getD_ne_nan hna i (ha.2 ▸ hi))
  · intro h1 h2
    simp only [IEEE.Fitness.Greater, h1, h2, Outcome.ok_bind, Bool.not_false, and_self]

theorem LessEqual_none_below_witness :
    ∃ r, (IEEE.fitOf [Float64.nan, Float64.fin 3]).LessEqual
        (IEEE.fitOf [Float64.fin 1, Float64.posInf]) = Outcome.ok r ∧
      (r = true ↔ ∀ i, i < 2 →
        Float64.lt ((IEEE.fitOf [Float64.fin 1, Float64.posInf]).wvalues.getD i Float64.nan)
          ((IEEE.fitOf [Float64.nan, Float64.fin 3]).wvalues.getD i Float64.nan) = false) ∧
      ((IEEE.fitOf [Float64.nan, Float64.fin 3]).NoNaN →
        (IEEE.fitOf [Float64.fin 1, Float64.posInf]).NoNaN →
        (r = true ↔ ∀ i, i < 2 →
          Float64.le ((IEEE.fitOf [Float64.nan, Float64.fin 3]).wvalues.getD i Float64.nan)
            ((IEEE.fitOf [Float64.fin 1, Float64.posInf]).wvalues.getD i Float64.nan) =
              true)) ∧
      (IEEE.fitOf [Float64.nan, Float64.fin 3]).Greater
        (IEEE.fitOf [Float64.fin 1, Float64.posInf]) = Outcome.ok (!r) ∧
      ((IEEE.fitOf [Float64.nan, Float64.fin 3]).LessEqual
          (IEEE.fitOf [Float64.fin 1, Float64.posInf]) = Outcome.ok false →
        (IEEE.fitOf [Float64.fin 1, Float64.posInf]).LessEqual
          (IEEE.fitOf [Float64.nan, Float64.fin 3]) = Outcome.ok false →
        (IEEE.fitOf [Float64.nan, Float64.fin 3]).Greater
          (IEEE.fitOf [Float64.fin 1, Float64.posInf]) = Outcome.ok true ∧
        (IEEE.fitOf [Float64.fin 1, Float64.posInf]).Greater
          (IEEE.fitOf [Float64.nan, Float64.fin 3]) = Outcome.ok true) :=
  LessEqual_none_below 2 (IEEE.fitOf [Float64.nan, Float64.fin 3])
    (IEEE.fitOf [Float64.fin 1, Float64.posInf]) (by decide) (by decide)

/-- C27 (as stated) fails on NaN: the fitness with the weighted value NaN is `LessEqual` to
the one with the weighted value 1, and not `Greater`, although `NaN <= 1` is false. -/
theorem LessEqual_NaN_not_componentwise :
    (IEEE.fitOf [Float64.nan]).LessEqual (IEEE.fitOf [Float64.fin 1]) = Outcome.ok true ∧
      (IEEE.fitOf [Float64.nan]).Greater (IEEE.fitOf [Float64.fin 1]) = Outcome.ok false ∧
      Float64.le Float64.nan (Float64.fin 1) = false := by
  decide!

/-- C28 (as the code has it): on `float64` fitness with `M` objectives each, `LessEqual` is
reflexive; it is transitive through a middle fitness no weighted value of which is NaN; and
with a single objective any two are comparable. -/
theorem LessEqual_refl_trans (M : Nat) (a b c : IEEE.Fitness) (ha : a.Evaluated M)
    (hb : b.Evaluated M) (hc : c.Evaluated M) :
    a.LessEqual a = Outcome.ok true ∧
      (b.NoNaN → a.LessEqual b = Outcome.ok true → b.LessEqual c = Outcome.ok true →
        a.LessEqual c = Outcome.ok true) ∧
      (M = 1 → a.LessEqual b = Outcome.ok true ∨ b.LessEqual a = Outcome.ok true) := by
  obtain ⟨raa, haa, iaa⟩ := LessEqual_float a a ha ha
  obtain ⟨rab, hab, iab⟩ := LessEqual_float a b ha hb
  obtain ⟨rbc, hbc, ibc⟩ := LessEqual_float b c hb hc
  obtain ⟨rac, hac, iac⟩ := LessEqual_float a c ha hc
  obtain ⟨rba, hba, iba⟩ := LessEqual_float b a hb ha
  refine ⟨?_, ?_, ?_⟩
  · rw [haa, iaa.mpr (fun i _ => Float64.lt_self _)]
  · intro hnb h1 h2
    rw [hab] at h1
    rw [hbc] at h2
    simp only [Outcome.ok.injEq] at h1 h2
    rw [hac, iac.mpr (fun i hi =>
      Float64.lt_chain (Float64.getD_ne_nan hnb i (hb.2 ▸ hi)) (iab.mp h1 i hi)
        (ibc.mp h2 i hi))]
  · intro hM
    subst hM
    by_cases h : Float64.lt (b.wvalues.getD 0 Float64.nan) (a.wvalues.getD 0 Float64.nan) = true
    · right
      rw [hba, iba.mpr (fun i hi => by
        have : i = 0 := by omega
        subst this; exact Float64.lt_antisymm h)]
    · left
      rw [hab, iab.mpr (fun i hi => by
        have : i = 0 := by omega
        subst this; simpa using h)]

theorem LessEqual_refl_trans_witness :
    (IEEE.fitOf [Float64.fin 1]).LessEqual (IEEE.fitOf [Float64.fin 1]) = Outcome.ok true ∧
      ((IEEE.fitOf [Float64.fin 2]).NoNaN →
        (IEEE.fitOf [Float64.fin 1]).LessEqual (IEEE.fitOf [Float64.fin 2]) = Outcome.ok true →
        (IEEE.fitOf [Float64.fin 2]).LessEqual (IEEE.fitOf [Float64.posInf]) = Outcome.ok true →
        (IEEE.fitOf [Float64.fin 1]).LessEqual (IEEE.fitOf [Float64.posInf]) =
          Outcome.ok true) ∧
      (1 = 1 →
        (IEEE.fitOf [Float64.fin 1]).LessEqual (IEEE.fitOf [Float64.fin 2]) = Outcome.ok true ∨
        (IEEE.fitOf [Float64.fin 2]).LessEqual (IEEE.fitOf [Float64.fin 1]) =
          Outcome.ok true) :=
  LessEqual_refl_trans 1 (IEEE.fitOf [Float64.fin 1]) (IEEE.fitOf [Float64.fin 2])
    (IEEE.fitOf [Float64.posInf]) (by decide) (by decide) (by decide)

/-- C28 (as stated) fails twice.  The two-objective fitness with weighted values `(1, 0)`
and `(0, 1)` are not comparable: neither is `LessEqual` to the other.  And `LessEqual` is
not transitive through NaN: the weighted value 2 is `LessEqual` to NaN and NaN to 1, yet 2
is not `LessEqual` to 1. -/
theorem LessEqual_not_total_nor_transitive :
    (IEEE.fitOf [Float64.fin 1, Float64.fin 0]).LessEqual
        (IEEE.fitOf [Float64.fin 0, Float64.fin 1]) = Outcome.ok false ∧
      (IEEE.fitOf [Float64.fin 0, Float64.fin 1]).LessEqual
        (IEEE.fitOf [Float64.fin 1, Float64.fin 0]) = Outcome.ok false ∧
      (IEEE.fitOf [Float64.fin 2]).LessEqual (IEEE.fitOf [Float64.nan]) = Outcome.ok true ∧
      (IEEE.fitOf [Float64.nan]).LessEqual (IEEE.fitOf [Float64.fin 1]) = Outcome.ok true ∧
      (IEEE.fitOf [Float64.fin 2]).LessEqual (IEEE.fitOf [Float64.fin 1]) = Outcome.ok false := by
  decide!

end Deag

namespace Deag

/-! ## Pareto front archive: no member dominates another -/

theorem searchLoop_range (f : Nat → Outcome Bool) :
    ∀ (fuel i j r : Nat), i ≤ j → searchLoop f fuel i j = Outcome.ok r → i ≤ r ∧ r ≤ j := by
  intro fuel
  induction fuel with
  | zero =>
    intro i j r hij h
    simp only [searchLoop, Outcome.ok.injEq] at h
    omega
  | succ fuel ih =>
    intro i j r hij h
    simp only [searchLoop] at h
    split at h
    · obtain ⟨b, _, h⟩ := Outcome.bind_eq_ok h
      cases b with
      | false =>
        simp only [Bool.not_false, if_true] at h
        have := ih _ _ _ (by omega) h
        omega
      | true =>
        simp only [Bool.not_true, Bool.false_eq_true, if_false] at h
        have := ih _ _ _ (by omega) h
        omega
    · simp only [Outcome.ok.injEq] at h
      omega

theorem setIndex_get {α : Type} (xs r : List α) (i : Int) (v : α)
    (h : setIndex xs i v = Outcome.ok r) :
    0 ≤ i ∧ i.toNat < xs.length ∧ r = xs.set i.toNat v := by
  unfold setIndex at h
  split at h
  · cases h
  · split at h
    · simp only [Outcome.ok.injEq] at h
      exact ⟨by omega, by assumption, h.symm⟩
    · cases h

/-- What the shifting loop of `Insert` leaves at every position: the entries at `idx + 1`
to `n` are those that stood one place to the left, all others are untouched. -/
theorem insertShift_get (idx : Nat) :
    ∀ (n : Nat) (items r : List (Option Float64Individual)),
      DefaultHallOfFame.insertShift idx n items = Outcome.ok r →
      ∀ p, r.get? p = if idx < p ∧ p ≤ n then items.get? (p - 1) else items.get? p := by
  intro n
  induction n with
  | zero =>
    intro items r h p
    simp only [DefaultHallOfFame.insertShift, Outcome.ok.injEq] at h
    subst h
    have : ¬ (idx < p ∧ p ≤ 0) := by omega
    rw [if_neg this]
  | succ n ih =>
    intro items r h p
    simp only [DefaultHallOfFame.insertShift] at h
    split at h
    · rename_i hgt
      obtain ⟨v, hv, h⟩ := Outcome.bind_eq_ok h
      obtain ⟨items1, h1, h⟩ := Outcome.bind_eq_ok h
      have hp := ih items1 r h p
      obtain ⟨_, hlt, hset⟩ := setIndex_get _ _ _ _ h1
      have hn1 : ((n : Int) + 1).toNat = n + 1 := by omega
      rw [hn1] at hlt hset
      have hvn : items.get? n = some v := by
        unfold index at hv
        have h0 : ¬ ((n : Int) < 0) := by omega
        simp only [h0, if_false, Int.toNat_ofNat] at hv
        cases hg : items.get? n with
        | none => rw [hg] at hv; cases hv
        | some w => rw [hg] at hv; simp only [Outcome.ok.injEq] at hv; rw [hv]
      have hget1 : ∀ q, items1.get? q = if q = n + 1 then some v else items.get? q := by
        intro q
        rw [hset, List.get?_eq_getElem?, List.getElem?_set]
        by_cases hq : n + 1 = q
        · subst hq
          simp [hlt]
        · have hq' : ¬ q = n + 1 := fun e => hq e.symm
          simp [hq, hq']
      rw [hp]
      by_cases hc : idx < p ∧ p ≤ n
      · rw [if_pos hc, if_pos ⟨hc.1, by omega⟩, hget1, if_neg (by omega)]
      · rw [if_neg hc, hget1]
        by_cases hpn : p = n + 1
        · rw [if_pos hpn, if_pos ⟨by omega, by omega⟩, hpn]
          simpa using hvn.symm
        · rw [if_neg hpn, if_neg (by omega)]
    · rename_i hgt
      simp only [Outcome.ok.injEq] at h
      subst h
      have : ¬ (idx < p ∧ p ≤ n + 1) := by omega
      rw [if_neg this]

theorem index_eq_ok {α : Type} (xs : List α) (i : Int) (x : α) :
    index xs i = Outcome.ok x ↔ 0 ≤ i ∧ xs.get? i.toNat = some x := by
  unfold index
  by_cases h : i < 0
  · simp only [h, if_true]
    constructor
    · intro h'; cases h'
    · rintro ⟨h0, _⟩; omega
  · simp only [h, if_false]
    cases hg : xs.get? i.toNat with
    | none => simp
    | some y =>
      simp only [Outcome.ok.injEq, Option.some.injEq]
      constructor
      · intro h'; exact ⟨by omega, h'⟩
      · rintro ⟨_, h'⟩; exact h'

/-- Every entry that `Insert` leaves below `Len()` is the copy of the new individual or an
entry that stood below `Len()` before. -/
theorem Insert_members (hof hof2 : DefaultHallOfFame) (ind c : Float64Individual)
    (hc : ind.Clone = Outcome.ok c) (h : hof.Insert ind = Outcome.ok hof2) :
    ∀ (p : Int) (z : Option Float64Individual), 0 ≤ p → p < hof2.size →
      index hof2.items p = Outcome.ok z →
      z = some c ∨ ∃ q : Int, 0 ≤ q ∧ q < hof.size ∧ index hof.items q = Outcome.ok z := by
  unfold DefaultHallOfFame.Insert at h
  rw [hc] at h
  simp only [Outcome.ok_bind] at h
  obtain ⟨idx, hidx, h⟩ := Outcome.bind_eq_ok h
  have hs1 : (if hof.size < hof.maxsize then hof.size + 1 else hof.size) ≤ hof.size + 1 := by
    split <;> omega
  generalize (if hof.size < hof.maxsize then hof.size + 1 else hof.size) = s1 at h hs1
  obtain ⟨items1, h1, h⟩ := Outcome.bind_eq_ok h
  obtain ⟨items2, h2, h⟩ := Outcome.bind_eq_ok h
  simp only [Outcome.ok.injEq] at h
  subst h
  have hr := searchLoop_range _ _ _ _ _ (Nat.zero_le _) hidx
  have hshift := insertShift_get idx _ _ _ h1
  obtain ⟨_, hlt, hset⟩ := setIndex_get _ _ _ _ h2
  simp only [Int.toNat_ofNat] at hlt hset
  intro p z hp0 hp hz
  rw [index_eq_ok] at hz
  obtain ⟨_, hz⟩ := hz
  change items2.get? p.toNat = some z at hz
  change p < s1 at hp
  rw [hset, List.get?_eq_getElem?, List.getElem?_set] at hz
  by_cases hpi : idx = p.toNat
  · rw [if_pos hpi] at hz
    simp only [hlt, if_true, Option.some.injEq] at hz
    exact Or.inl hz.symm
  · rw [if_neg hpi, ← List.get?_eq_getElem?, hshift] at hz
    right
    by_cases hcond : idx < p.toNat ∧ p.toNat ≤ (s1 - 1).toNat
    · rw [if_pos hcond] at hz
      refine ⟨p - 1, by omega, by omega, ?_⟩
      rw [index_eq_ok]
      refine ⟨by omega, ?_⟩
      have : (p - 1).toNat = p.toNat - 1 := by omega
      rw [this]; exact hz
    · rw [if_neg hcond] at hz
      have hlt2 : p.toNat < idx := by
        by_contra hge
        apply hcond
        exact ⟨by omega, by omega⟩
      refine ⟨p, hp0, by omega, ?_⟩
      rw [index_eq_ok]
      exact ⟨hp0, hz⟩

/-- A scan of the archive that completes has marked nothing for removal (the slice
`toRemove` has length zero, so marking panics); unless it stopped at an entry that
dominates the individual or is its twin, every entry of `items` is an individual that
neither dominates the new one nor is dominated by it. -/
theorem scanItems_outcome (similar : Float64Individual → Option Float64Individual → Bool)
    (ind : Float64Individual) :
    ∀ (items : List (Option Float64Individual)) (i : Int) (st st1 : ScanState),
      st.toRemove = [] → st.dominatesOne = false →
      DefaultParetoFront.scanItems similar ind items i st = Outcome.ok st1 →
      st1.toRemove = [] ∧ st1.count = st.count ∧
        (st1.isDominated = true ∨ st1.hasTwin = true ∨
          (st1.isDominated = st.isDominated ∧ st1.hasTwin = st.hasTwin ∧
            ∀ hofer ∈ items, ∃ h, hofer = some h ∧
              ptrDominates h.fitness ind.fitness = Outcome.ok false ∧
              ptrDominates ind.fitness h.fitness = Outcome.ok false)) := by
  intro items
  induction items with
  | nil =>
    intro i st st1 htr _ h
    simp only [DefaultParetoFront.scanItems, Outcome.ok.injEq] at h
    subst h
    exact ⟨htr, rfl, Or.inr (Or.inr ⟨rfl, rfl, fun _ hx => by cases hx⟩)⟩
  | cons hofer rest ih =>
    intro i st st1 htr hdo h
    simp only [DefaultParetoFront.scanItems] at h
    obtain ⟨hofFitness, hf, h⟩ := Outcome.bind_eq_ok h
    cases hofer with
    | none => simp only [getFitness] at hf; cases hf
    | some hf0 =>
      simp only [getFitness, Outcome.ok.injEq] at hf
      subst hf
      rw [hdo] at h
      simp only [Bool.false_eq_true, if_false] at h
      obtain ⟨c1, hc1, h⟩ := Outcome.bind_eq_ok h
      cases c1 with
      | true =>
        simp only [if_true, Outcome.ok.injEq] at h
        subst h
        exact ⟨htr, rfl, Or.inl rfl⟩
      | false =>
        simp only [Bool.false_eq_true, if_false] at h
        obtain ⟨c2, hc2, h⟩ := Outcome.bind_eq_ok h
        cases c2 with
        | true =>
          simp only [if_true, htr] at h
          obtain ⟨marked, hm, _⟩ := Outcome.bind_eq_ok h
          obtain ⟨_, hlt, _⟩ := setIndex_get _ _ _ _ hm
          simp at hlt
        | false =>
          simp only [Bool.false_eq_true, if_false] at h
          obtain ⟨c3, _, h⟩ := Outcome.bind_eq_ok h
          split at h
          · simp only [Outcome.ok.injEq] at h
            subst h
            exact ⟨htr, rfl, Or.inr (Or.inl rfl)⟩
          · obtain ⟨h1, h2, h3⟩ := ih (i + 1) st st1 htr hdo h
            refine ⟨h1, h2, ?_⟩
            rcases h3 with h3 | h3 | ⟨h3, h4, h5⟩
            · exact Or.inl h3
            · exact Or.inr (Or.inl h3)
            · refine Or.inr (Or.inr ⟨h3, h4, ?_⟩)
              intro x hx
              rcases List.mem_cons.mp hx with rfl | hx
              · exact ⟨hf0, rfl, hc1, hc2⟩
              · exact h5 x hx

theorem ptrDominates_self (x : Float64Individual) :
    ptrDominates x.fitness x.fitness ≠ Outcome.ok true := by
  cases hx : x.fitness with
  | none => simp [ptrDominates]
  | some f => simp [ptrDominates, Dominates_irrefl]

/-- Invariant of the loop of `Update`: no entry below `Len()` dominates an entry below
`Len()`. -/
theorem paretoLoop_nondominated {M : Nat} :
    ∀ (individuals : List Float64Individual) (hof hof1 : DefaultHallOfFame),
      (∀ x ∈ individuals, x.Scored M) →
      (∀ (i j : Int) (x y : Float64Individual), 0 ≤ i → i < hof.size → 0 ≤ j → j < hof.size →
        index hof.items i = Outcome.ok (some x) → index hof.items j = Outcome.ok (some y) →
        ptrDominates x.fitness y.fitness ≠ Outcome.ok true) →
      DefaultParetoFront.updateLoop individuals [] hof = Outcome.ok hof1 →
      ∀ (i j : Int) (x y : Float64Individual), 0 ≤ i → i < hof1.size → 0 ≤ j →
        j < hof1.size → index hof1.items i = Outcome.ok (some x) →
        index hof1.items j = Outcome.ok (some y) →
        ptrDominates x.fitness y.fitness ≠ Outcome.ok true := by
  intro individuals
  induction individuals with
  | nil =>
    intro hof hof1 _ hinv h
    simp only [DefaultParetoFront.updateLoop, Outcome.ok.injEq] at h
    subst h
    exact hinv
  | cons ind rest ih =>
    intro hof hof1 hsc hinv h
    simp only [DefaultParetoFront.updateLoop] at h
    obtain ⟨st, hst, h⟩ := Outcome.bind_eq_ok h
    obtain ⟨htr, hcount, hcases⟩ := scanItems_outcome hof.similar ind hof.items 0 _ st rfl rfl hst
    simp only at hcount
    rw [htr, hcount] at h
    simp only [Int.toNat_zero, DefaultParetoFront.removeMarked, Outcome.ok_bind] at h
    obtain ⟨hof2, h2, h⟩ := Outcome.bind_eq_ok h
    refine ih hof2 hof1 (fun x hx => hsc x (List.mem_cons_of_mem _ hx)) ?_ h
    by_cases hins : (!st.isDominated && !st.hasTwin) = true
    · rw [if_pos hins] at h2
      simp only [Bool.and_eq_true, Bool.not_eq_true'] at hins
      have hall : ∀ hofer ∈ hof.items, ∃ h, hofer = some h ∧
          ptrDominates h.fitness ind.fitness = Outcome.ok false ∧
          ptrDominates ind.fitness h.fitness = Outcome.ok false := by
        rcases hcases with hd | ht | ⟨_, _, hall⟩
        · rw [hins.1] at hd; cases hd
        · rw [hins.2] at ht; cases ht
        · exact hall
      have hclone := (hsc ind (List.mem_cons_self _ _)).clone_ind
      have hmem := Insert_members hof hof2 ind ind hclone h2
      have hold : ∀ (q : Int) (z : Float64Individual), index hof.items q = Outcome.ok (some z) →
          ptrDominates z.fitness ind.fitness = Outcome.ok false ∧
          ptrDominates ind.fitness z.fitness = Outcome.ok false := by
        intro q z hq
        rw [index_eq_ok] at hq
        obtain ⟨w, hw, h1, h3⟩ := hall (some z) (List.get?_mem hq.2)
        simp only [Option.some.injEq] at hw
        subst hw
        exact ⟨h1, h3⟩
      intro i j x y hi0 hi hj0 hj hx hy
      rcases hmem i (some x) hi0 hi hx with hxc | ⟨qi, hqi0, hqi, hxq⟩
      · simp only [Option.some.injEq] at hxc
        subst hxc
        rcases hmem j (some y) hj0 hj hy with hyc | ⟨qj, hqj0, hqj, hyq⟩
        · simp only [Option.some.injEq] at hyc
          subst hyc
          exact ptrDominates_self _
        · rw [(hold qj y hyq).2]; simp
      · rcases hmem j (some y) hj0 hj hy with hyc | ⟨qj, hqj0, hqj, hyq⟩
        · simp only [Option.some.injEq] at hyc
          subst hyc
          rw [(hold qi x hxq).1]; simp
        · exact hinv qi qj x y hqi0 hqi hqj0 hqj hxq hyq
    · rw [if_neg hins] at h2
      simp only [Outcome.ok.injEq] at h2
      subst h2
      exact hinv

theorem paretoUpdates_nondominated {M : Nat} :
    ∀ (pops : List (List Float64Individual)) (pf pf1 : DefaultParetoFront),
      (∀ p ∈ pops, ∀ x ∈ p, x.Scored M) →
      (∀ (i j : Int) (x y : Float64Individual), 0 ≤ i → i < pf.hall.size → 0 ≤ j →
        j < pf.hall.size → index pf.hall.items i = Outcome.ok (some x) →
        index pf.hall.items j = Outcome.ok (some y) →
        ptrDominates x.fitness y.fitness ≠ Outcome.ok true) →
      pf.updates pops = Outcome.ok pf1 →
      ∀ (i j : Int) (x y : Float64Individual), 0 ≤ i → i < pf1.hall.size → 0 ≤ j →
        j < pf1.hall.size → index pf1.hall.items i = Outcome.ok (some x) →
        index pf1.hall.items j = Outcome.ok (some y) →
        ptrDominates x.fitness y.fitness ≠ Outcome.ok true := by
  intro pops
  induction pops with
  | nil =>
    intro pf pf1 _ hinv h
    simp only [DefaultParetoFront.updates, Outcome.ok.injEq] at h
    subst h
    exact hinv
  | cons p rest ih =>
    intro pf pf1 hsc hinv h
    simp only [DefaultParetoFront.updates] at h
    obtain ⟨pf2, h2, h3⟩ := Outcome.bind_eq_ok h
    unfold DefaultParetoFront.Update at h2
    obtain ⟨hof, hrun, h2⟩ := Outcome.bind_eq_ok h2
    simp only [Outcome.ok.injEq] at h2
    subst h2
    exact ih _ pf1 (fun q hq => hsc q (List.mem_cons_of_mem _ hq))
      (paretoLoop_nondominated p pf.hall hof (hsc p (List.mem_cons_self _ _)) hinv hrun) h3

/-- C21: a front made by `NewDefaultParetoFront` has no member that dominates another; and
whenever no member of a front dominates another, in whatever state its archive is, the
same holds after any sequence of `Update` calls that complete, the populations being
individuals with a scored fitness of `M` objectives. -/
theorem paretoFront_stays_nondominated (M : Nat) (pops : List (List Float64Individual))
    (pf0 pf : DefaultParetoFront) (hpops : ∀ p ∈ pops, ∀ x ∈ p, x.Scored M)
    (h0 : pf0.NoDomination) (hrun : pf0.updates pops = Outcome.ok pf) :
    pf.NoDomination ∧
      ∀ similar pfNew, DefaultParetoFront.NewDefaultParetoFront similar = Outcome.ok pfNew →
        pfNew.NoDomination := by
  constructor
  · have hstrong := paretoUpdates_nondominated pops pf0 pf hpops (by
      intro i j x y hi0 hi hj0 hj hx hy
      by_cases hij : i = j
      · subst hij
        rw [hx] at hy
        simp only [Outcome.ok.injEq, Option.some.injEq] at hy
        subst hy
        exact ptrDominates_self _
      · exact h0 i j x y hi0 hi hj0 hj hij hx hy) hrun
    intro i j x y hi0 hi hj0 hj _ hx hy
    exact hstrong i j x y hi0 hi hj0 hj hx hy
  · intro similar pfNew hnew i j x y hi0 hi
    obtain ⟨_, hsize⟩ := NewDefaultParetoFront_items similar pfNew hnew
    have : pfNew.hall.Len = 0 := hsize
    omega

/-- Witness of C21 on the front `frontCleared`, whose archive has room for two entries:
`Update` with the individuals `(3, 3)`, `(2, 4)` and `(0, 0)` completes and leaves the two
members `(3, 3)` and `(2, 4)`, neither of which dominates the other; `(0, 0)` is dominated
and left out. -/
theorem paretoFront_stays_nondominated_witness :
    ∃ pf, frontCleared.updates [[indTwo 3 3 [2], indTwo 2 4 [3], indTwo 0 0 [4]]] =
        Outcome.ok pf ∧
      pf.hall.view = (2, [some (indTwo 3 3 [2]), some (indTwo 2 4 [3])]) ∧
      pf.NoDomination := by
  have h : ((frontCleared.updates [[indTwo 3 3 [2], indTwo 2 4 [3], indTwo 0 0 [4]]]).bind
      fun pf => Outcome.ok pf.hall.view) =
        Outcome.ok (2, [some (indTwo 3 3 [2]), some (indTwo 2 4 [3])]) := by
    decide!
  obtain ⟨pf, hrun, hv⟩ := Outcome.bind_eq_ok h
  simp only [Outcome.ok.injEq] at hv
  have h0 : frontCleared.NoDomination := by
    intro i j x y hi0 hi
    have hlen : frontCleared.hall.Len = 0 := by decide!
    omega
  exact ⟨pf, hrun, hv,
    (paretoFront_stays_nondominated 2 [[indTwo 3 3 [2], indTwo 2 4 [3], indTwo 0 0 [4]]]
      frontCleared pf (by decide!) h0 hrun).1⟩

end Deag

namespace Deag

/-! ## Hall of fame: the default similarity predicate on other representations -/

/-- The default similarity predicate on individuals that are not `*Float64Individual`s.  A
new hall of fame of capacity 2 with the default similarity predicate is updated with two
single-objective individuals (weight `-1`) of raw values 1 and 3 and different chromosomes,
neither of which `IsEqual` finds equal to the other.  For two `*pso.Particle`s the hall
ends with the individual of value 1 twice: the promoted `IsEqual` is false on every
particle, so the first individual, already inserted before the loop, is inserted again.
For two `*Float64ESIndividual`s it ends with one item: `IsEqual` is true on the `nil` entry
behind it, so the second individual is passed over.  For two `*Float64Individual`s it ends
with both. -/
theorem Update_depends_on_representation :
    (((Iface.DefaultHallOfFame.NewDefaultHallOfFame 2 none).bind fun h =>
        (h.Update [Iface.particleOf 1 [0], Iface.particleOf 3 [1]]).bind fun h1 =>
          Outcome.ok h1.view) =
      Outcome.ok (2, [Iface.particleOf 1 [0], Iface.particleOf 1 [0]])) ∧
    (Iface.particleOf 1 [0]).IsEqual (Iface.particleOf 3 [1]) = Outcome.ok false ∧
    (Iface.particleOf 3 [1]).IsEqual (Iface.particleOf 1 [0]) = Outcome.ok false ∧
    (((Iface.DefaultHallOfFame.NewDefaultHallOfFame 2 none).bind fun h =>
        (h.Update [Iface.strategyOf 1 [0], Iface.strategyOf 3 [1]]).bind fun h1 =>
          Outcome.ok h1.view) =
      Outcome.ok (1, [Iface.strategyOf 1 [0], Member.base Individual.nil])) ∧
    (Iface.strategyOf 1 [0]).IsEqual (Iface.strategyOf 3 [1]) = Outcome.ok false ∧
    (Iface.strategyOf 3 [1]).IsEqual (Iface.strategyOf 1 [0]) = Outcome.ok false ∧
    (((Iface.DefaultHallOfFame.NewDefaultHallOfFame 2 none).bind fun h =>
        (h.Update [Iface.plainOf 1 [0], Iface.plainOf 3 [1]]).bind fun h1 =>
          Outcome.ok h1.view) =
      Outcome.ok (2, [Iface.plainOf 1 [0], Iface.plainOf 3 [1]])) := by
  decide!

end Deag

namespace Deag

/-! ## The two embeddings of the sorter agree where no weighted value is NaN -/

theorem Float64.squash_strictMono : StrictMono fun q : ℚ => q / (1 + |q|) := by
  intro a b hab
  have ha : (0 : ℚ) < 1 + |a| := by positivity
  have hb : (0 : ℚ) < 1 + |b| := by positivity
  show a / (1 + |a|) < b / (1 + |b|)
  rw [div_lt_div_iff₀ ha hb]
  rcases abs_cases a with ⟨h1, h2⟩ | ⟨h1, h2⟩ <;> rcases abs_cases b with ⟨h3, h4⟩ | ⟨h3, h4⟩ <;>
    rw [h1, h3] <;> nlinarith

theorem Float64.squash_fin_lt_one (q : ℚ) : q / (1 + |q|) < 1 := by
  have ha : (0 : ℚ) < 1 + |q| := by positivity
  rw [div_lt_one ha]
  have := le_abs_self q
  linarith

theorem Float64.squash_fin_gt_neg_one (q : ℚ) : -1 < q / (1 + |q|) := by
  have ha : (0 : ℚ) < 1 + |q| := by positivity
  rw [lt_div_iff₀ ha]
  have := neg_abs_le q
  linarith

theorem Float64.lt_squash {a b : Float64} (ha : a ≠ Float64.nan) (hb : b ≠ Float64.nan) :
    Float64.lt a b = decide (a.squash < b.squash) := by
  cases a <;> cases b <;> simp_all [Float64.lt, Float64.squash]
  · rename_i x y
    exact (Float64.squash_strictMono.lt_iff_lt (a := x) (b := y)).symm
  · exact Float64.squash_fin_lt_one _
  · exact le_of_lt (Float64.squash_fin_gt_neg_one _)
  · exact le_of_lt (Float64.squash_fin_lt_one _)
  · exact Float64.squash_fin_gt_neg_one _

theorem Float64.eq_squash {a b : Float64} (ha : a ≠ Float64.nan) (hb : b ≠ Float64.nan) :
    Float64.eq a b = decide (a.squash = b.squash) := by
  cases a <;> cases b <;> simp_all [Float64.eq, Float64.squash]
  · rename_i x y
    exact (Float64.squash_strictMono.injective.eq_iff (a := x) (b := y)).symm
  · exact ne_of_lt (Float64.squash_fin_lt_one _)
  · exact ne_of_gt (Float64.squash_fin_gt_neg_one _)
  · exact (ne_of_lt (Float64.squash_fin_lt_one _)).symm
  · norm_num
  · exact (ne_of_gt (Float64.squash_fin_gt_neg_one _)).symm
  · norm_num

theorem Float64.lt_iff_squash {a b : Float64} (ha : a ≠ Float64.nan) (hb : b ≠ Float64.nan) :
    Float64.lt a b = true ↔ a.squash < b.squash := by
  rw [Float64.lt_squash ha hb, decide_eq_true_eq]

theorem Float64.ne_iff_squash {a b : Float64} (ha : a ≠ Float64.nan) (hb : b ≠ Float64.nan) :
    Float64.ne a b = true ↔ a.squash ≠ b.squash := by
  simp [Float64.ne, Float64.eq_squash ha hb]

theorem Outcome.map_ok {α β : Type} (g : α → β) (a : α) :
    (Outcome.ok a).map g = Outcome.ok (g a) := rfl

theorem Outcome.map_panic {α β : Type} (g : α → β) :
    (Outcome.panic : Outcome α).map g = Outcome.panic := rfl

theorem Outcome.map_outOfFuel {α β : Type} (g : α → β) :
    (Outcome.outOfFuel : Outcome α).map g = Outcome.outOfFuel := rfl

theorem Outcome.map_eq_ok {α β : Type} {g : α → β} {x : Outcome α} {b : β}
    (h : x.map g = Outcome.ok b) : ∃ a, x = Outcome.ok a ∧ g a = b := by
  cases x with
  | ok a => exact ⟨a, rfl, by simpa [Outcome.map, Outcome.bind] using h⟩
  | panic => cases h
  | outOfFuel => cases h

theorem index_map {α β : Type} (g : α → β) (xs : List α) (i : Int) :
    index (xs.map g) i = (index xs i).map g := by
  unfold index
  by_cases h : i < 0
  · simp [h, Outcome.map_panic]
  · simp only [h, if_false, List.get?_eq_getElem?, List.getElem?_map]
    cases xs[i.toNat]? <;> rfl

theorem GetWValues_squash (f : IEEE.Fitness) :
    f.squash.GetWValues = f.GetWValues.map Float64.squash := by
  unfold Fitness.GetWValues IEEE.Fitness.GetWValues IEEE.Fitness.squash
  by_cases h : f.weights = []
  · simp [h]
  · simp [h]

theorem GetWValues_noNaN {f : IEEE.Fitness} (h : f.NoNaN) :
    ∀ v ∈ f.GetWValues, v ≠ Float64.nan := by
  unfold IEEE.Fitness.GetWValues
  split
  · intro v hv; cases hv
  · exact h

theorem get?_map_squash (l : List Float64) (k : Nat) :
    (l.map Float64.squash).get? k = (l.get? k).map Float64.squash := by
  simp [List.get?_eq_getElem?]

theorem fitnessLessFrom_squash (valJ : List Float64) (hJ : ∀ v ∈ valJ, v ≠ Float64.nan) :
    ∀ (rest : List Float64) (k : Nat), (∀ v ∈ rest, v ≠ Float64.nan) →
      fitnessLessFrom (valJ.map Float64.squash) (rest.map Float64.squash) k =
        IEEE.fitnessLessFrom valJ rest k := by
  intro rest
  induction rest with
  | nil => intro k _; rfl
  | cons vi rest ih =>
    intro k hr
    have hvi := hr vi (List.mem_cons_self _ _)
    simp only [List.map_cons, fitnessLessFrom, IEEE.fitnessLessFrom, get?_map_squash]
    cases hg : valJ.get? k with
    | none => rfl
    | some vj =>
      have hvj := hJ vj (List.get?_mem hg)
      simp only [Option.map_some']
      by_cases hne : Float64.ne vi vj = true
      · rw [if_pos hne, if_pos ((Float64.ne_iff_squash hvi hvj).mp hne),
          Float64.lt_squash hvi hvj]
      · rw [if_neg hne, if_neg (fun h => hne ((Float64.ne_iff_squash hvi hvj).mpr h))]
        exact ih (k + 1) (fun v hv => hr v (List.mem_cons_of_mem _ hv))

theorem searchPredFrom_squash (ind : List Float64) (hI : ∀ v ∈ ind, v ≠ Float64.nan) :
    ∀ (rest : List Float64) (k : Nat), (∀ v ∈ rest, v ≠ Float64.nan) →
      searchPredFrom (ind.map Float64.squash) (rest.map Float64.squash) k =
        IEEE.searchPredFrom ind rest k := by
  intro rest
  induction rest with
  | nil => intro k _; rfl
  | cons wv rest ih =>
    intro k hr
    have hwv := hr wv (List.mem_cons_self _ _)
    simp only [List.map_cons, searchPredFrom, IEEE.searchPredFrom, get?_map_squash]
    cases hg : ind.get? k with
    | none => rfl
    | some iv =>
      have hiv := hI iv (List.get?_mem hg)
      simp only [Option.map_some']
      by_cases hne : Float64.ne wv iv = true
      · rw [if_pos hne, if_pos ((Float64.ne_iff_squash hwv hiv).mp hne), Float64.gt,
          Float64.lt_squash hiv hwv]
      · rw [if_neg hne, if_neg (fun h => hne ((Float64.ne_iff_squash hwv hiv).mpr h))]
        exact ih (k + 1) (fun v hv => hr v (List.mem_cons_of_mem _ hv))

theorem equalFrom_squash (other : List Float64) (hO : ∀ v ∈ other, v ≠ Float64.nan) :
    ∀ (rest : List Float64) (i : Nat), (∀ v ∈ rest, v ≠ Float64.nan) →
      Fitness.equalFrom (other.map Float64.squash) (rest.map Float64.squash) i =
        IEEE.Fitness.equalFrom other rest i := by
  intro rest
  induction rest with
  | nil => intro i _; rfl
  | cons fit rest ih =>
    intro i hr
    have hfit := hr fit (List.mem_cons_self _ _)
    simp only [List.map_cons, Fitness.equalFrom, IEEE.Fitness.equalFrom, get?_map_squash]
    cases hg : other.get? i with
    | none => rfl
    | some o =>
      have ho := hO o (List.get?_mem hg)
      simp only [Option.map_some']
      by_cases hne : Float64.ne o fit = true
      · rw [if_pos hne, if_pos ((Float64.ne_iff_squash ho hfit).mp hne)]
      · rw [if_neg hne, if_neg (fun h => hne ((Float64.ne_iff_squash ho hfit).mpr h))]
        exact ih (i + 1) (fun v hv => hr v (List.mem_cons_of_mem _ hv))

theorem dominatesAll_squash (other : List Float64) (hO : ∀ v ∈ other, v ≠ Float64.nan) :
    ∀ (rest : List Float64) (i : Nat) (ne : Bool), (∀ v ∈ rest, v ≠ Float64.nan) →
      Fitness.dominatesAll (other.map Float64.squash) (rest.map Float64.squash) i ne =
        IEEE.Fitness.dominatesAll other rest i ne := by
  intro rest
  induction rest with
  | nil => intro i ne _; rfl
  | cons wv rest ih =>
    intro i ne hr
    have hwv := hr wv (List.mem_cons_self _ _)
    have hrest : ∀ v ∈ rest, v ≠ Float64.nan := fun v hv => hr v (List.mem_cons_of_mem _ hv)
    simp only [List.map_cons, Fitness.dominatesAll, IEEE.Fitness.dominatesAll, get?_map_squash]
    cases hg : other.get? i with
    | none => rfl
    | some o =>
      have ho := hO o (List.get?_mem hg)
      simp only [Option.map_some']
      by_cases hgt : Float64.gt wv o = true
      · rw [if_pos hgt, if_pos (show wv.squash > o.squash from (Float64.lt_iff_squash ho hwv).mp hgt)]
        exact ih (i + 1) true hrest
      · rw [if_neg hgt, if_neg (fun h : wv.squash > o.squash =>
          hgt ((Float64.lt_iff_squash ho hwv).mpr h))]
        by_cases hlt : Float64.lt wv o = true
        · rw [if_pos hlt, if_pos ((Float64.lt_iff_squash hwv ho).mp hlt)]
        · rw [if_neg hlt, if_neg (fun h => hlt ((Float64.lt_iff_squash hwv ho).mpr h))]
          exact ih (i + 1) ne hrest

theorem Equal_squash (a b : IEEE.Fitness) (ha : a.NoNaN) (hb : b.NoNaN) :
    a.squash.Equal b.squash = a.Equal b :=
  equalFrom_squash b.wvalues hb a.wvalues 0 ha

theorem Dominates_squash (a b : IEEE.Fitness) (ha : a.NoNaN) (hb : b.NoNaN) :
    a.squash.Dominates b.squash none = a.Dominates b none :=
  dominatesAll_squash b.wvalues hb a.wvalues 0 false ha

theorem fitnessSorterLess_squash (x y : IEEE.Ref) (hx : x.2.NoNaN) (hy : y.2.NoNaN) :
    fitnessSorterLess (IEEE.Ref.squash x) (IEEE.Ref.squash y) = IEEE.fitnessSorterLess x y := by
  unfold fitnessSorterLess IEEE.fitnessSorterLess IEEE.Ref.squash
  simp only [GetWValues_squash]
  exact fitnessLessFrom_squash _ (GetWValues_noNaN hy) _ 0 (GetWValues_noNaN hx)

end Deag

namespace Deag

/-! ## The sorter over `float64` values and the sorter over the rationals -/

section SortMap
variable {α β : Type}

theorem insertSorted_map (g : α → β) (less : α → α → Outcome Bool)
    (less' : β → β → Outcome Bool) (P : α → Prop)
    (hl : ∀ x y, P x → P y → less' (g x) (g y) = less x y) (x : α) (hx : P x) :
    ∀ done : List α, (∀ y ∈ done, P y) →
      insertSorted less' (g x) (done.map g) = (insertSorted less x done).map (List.map g) := by
  intro done
  induction done with
  | nil => intro _; rfl
  | cons y ys ih =>
    intro hd
    have hy := hd y (List.mem_cons_self _ _)
    simp only [List.map_cons, insertSorted, hl x y hx hy]
    cases hb : less x y with
    | panic => rfl
    | outOfFuel => rfl
    | ok b =>
      simp only [Outcome.ok_bind]
      cases b with
      | false => rfl
      | true =>
        simp only [if_true]
        rw [ih (fun z hz => hd z (List.mem_cons_of_mem _ hz))]
        cases insertSorted less x ys <;> rfl

theorem insertionSort_map (g : α → β) (less : α → α → Outcome Bool)
    (less' : β → β → Outcome Bool) (P : α → Prop)
    (hl : ∀ x y, P x → P y → less' (g x) (g y) = less x y) :
    ∀ l done : List α, (∀ y ∈ l, P y) → (∀ y ∈ done, P y) →
      insertionSort less' (l.map g) (done.map g) =
        (insertionSort less l done).map (List.map g) := by
  intro l
  induction l with
  | nil =>
    intro done _ _
    simp [insertionSort, Outcome.map_ok]
  | cons x rest ih =>
    intro done hl' hd
    have hx := hl' x (List.mem_cons_self _ _)
    simp only [List.map_cons, insertionSort, insertSorted_map g less less' P hl x hx done hd]
    cases hs : insertSorted less x done with
    | panic => rfl
    | outOfFuel => rfl
    | ok d =>
      simp only [Outcome.map_ok, Outcome.ok_bind]
      apply ih d (fun z hz => hl' z (List.mem_cons_of_mem _ hz))
      intro z hz
      have hperm := insertSorted_perm less x done d hs
      rcases List.mem_cons.mp (hperm.mem_iff.mp hz) with rfl | hz'
      · exact hx
      · exact hd z hz'

theorem sortSort_map (g : α → β) (less : α → α → Outcome Bool)
    (less' : β → β → Outcome Bool) (P : α → Prop)
    (hl : ∀ x y, P x → P y → less' (g x) (g y) = less x y) (l : List α)
    (hP : ∀ y ∈ l, P y) :
    sortSort less' (l.map g) = (sortSort less l).map (List.map g) := by
  have := insertionSort_map g less less' P hl l [] hP (fun _ h => by cases h)
  simpa [sortSort] using this

end SortMap

theorem enumFrom_squash (l : List IEEE.Fitness) :
    ∀ i, enumFrom i (l.map IEEE.Fitness.squash) = (enumFrom i l).map IEEE.Ref.squash := by
  induction l with
  | nil => intro i; rfl
  | cons a l ih => intro i; simp [enumFrom, ih, IEEE.Ref.squash]

theorem uniqueFrom_float_mem :
    ∀ (rest : List IEEE.Ref) (cur : IEEE.Ref) (r : List IEEE.Ref),
      IEEE.uniqueFrom cur rest = Outcome.ok r → ∀ u ∈ r, u = cur ∨ u ∈ rest := by
  intro rest
  induction rest with
  | nil =>
    intro cur r h u hu
    simp only [IEEE.uniqueFrom, Outcome.ok.injEq] at h
    subst h
    exact Or.inl (List.mem_singleton.mp hu)
  | cons x rest ih =>
    intro cur r h u hu
    simp only [IEEE.uniqueFrom] at h
    obtain ⟨e, _, h⟩ := Outcome.bind_eq_ok h
    cases e with
    | false =>
      simp only [Bool.not_false, if_true] at h
      obtain ⟨r1, h1, h⟩ := Outcome.bind_eq_ok h
      simp only [Outcome.ok.injEq] at h
      subst h
      rcases List.mem_cons.mp hu with rfl | hu
      · exact Or.inl rfl
      · rcases ih x r1 h1 u hu with rfl | h2
        · exact Or.inr (List.mem_cons_self _ _)
        · exact Or.inr (List.mem_cons_of_mem _ h2)
    | true =>
      simp only [Bool.not_true, Bool.false_eq_true, if_false] at h
      rcases ih cur r h u hu with rfl | h2
      · exact Or.inl rfl
      · exact Or.inr (List.mem_cons_of_mem _ h2)

theorem uniqueFrom_squash :
    ∀ (rest : List IEEE.Ref) (cur : IEEE.Ref), cur.2.NoNaN → (∀ x ∈ rest, x.2.NoNaN) →
      uniqueFrom (IEEE.Ref.squash cur) (rest.map IEEE.Ref.squash) =
        (IEEE.uniqueFrom cur rest).map (List.map IEEE.Ref.squash) := by
  intro rest
  induction rest with
  | nil => intro cur _ _; rfl
  | cons x rest ih =>
    intro cur hc hr
    have hx := hr x (List.mem_cons_self _ _)
    have hrest : ∀ y ∈ rest, y.2.NoNaN := fun y hy => hr y (List.mem_cons_of_mem _ hy)
    simp only [List.map_cons, uniqueFrom, IEEE.uniqueFrom]
    have he : (IEEE.Ref.squash cur).2.Equal (IEEE.Ref.squash x).2 = cur.2.Equal x.2 :=
      Equal_squash cur.2 x.2 hc hx
    rw [he]
    cases cur.2.Equal x.2 with
    | panic => rfl
    | outOfFuel => rfl
    | ok e =>
      simp only [Outcome.ok_bind]
      cases e with
      | false =>
        simp only [Bool.not_false, if_true]
        rw [ih x hx hrest]
        cases IEEE.uniqueFrom x rest <;> rfl
      | true =>
        simp only [Bool.not_true, Bool.false_eq_true, if_false]
        exact ih cur hc hrest

theorem enumFrom_noNaN (l : List IEEE.Fitness) (h : ∀ f ∈ l, f.NoNaN) (i : Nat) :
    ∀ x ∈ enumFrom i l, x.2.NoNaN := by
  intro x hx
  obtain ⟨p, f⟩ := x
  obtain ⟨j, _, hj⟩ := (mem_enumFrom l i p f).mp hx
  exact h f (List.get?_mem hj)

theorem uniqueByFitness_float_noNaN (individuals : List IEEE.Fitness)
    (h : ∀ f ∈ individuals, f.NoNaN) (fits : List IEEE.Ref)
    (hf : IEEE.uniqueByFitness individuals = Outcome.ok fits) : ∀ u ∈ fits, u.2.NoNaN := by
  unfold IEEE.uniqueByFitness at hf
  obtain ⟨sorted, hs, hf⟩ := Outcome.bind_eq_ok hf
  have hperm := sortSort_perm _ _ _ hs
  have hsn : ∀ x ∈ sorted, x.2.NoNaN := fun x hx =>
    enumFrom_noNaN individuals h 0 x (hperm.mem_iff.mp hx)
  cases sorted with
  | nil => cases hf
  | cons x rest =>
    intro u hu
    rcases uniqueFrom_float_mem rest x fits hf u hu with rfl | hm
    · exact hsn _ (List.mem_cons_self _ _)
    · exact hsn u (List.mem_cons_of_mem _ hm)

theorem uniqueByFitness_squash (individuals : List IEEE.Fitness)
    (h : ∀ f ∈ individuals, f.NoNaN) :
    uniqueByFitness (individuals.map IEEE.Fitness.squash) =
      (IEEE.uniqueByFitness individuals).map (List.map IEEE.Ref.squash) := by
  unfold uniqueByFitness IEEE.uniqueByFitness
  rw [enumFrom_squash, sortSort_map IEEE.Ref.squash IEEE.fitnessSorterLess fitnessSorterLess
    (fun x => x.2.NoNaN) (fun x y hx hy => fitnessSorterLess_squash x y hx hy) _
    (enumFrom_noNaN individuals h 0)]
  cases hs : sortSort IEEE.fitnessSorterLess (enumFrom 0 individuals) with
  | panic => rfl
  | outOfFuel => rfl
  | ok sorted =>
    have hperm := sortSort_perm _ _ _ hs
    have hsn : ∀ x ∈ sorted, x.2.NoNaN := fun x hx =>
      enumFrom_noNaN individuals h 0 x (hperm.mem_iff.mp hx)
    simp only [Outcome.map_ok, Outcome.ok_bind]
    cases sorted with
    | nil => rfl
    | cons x rest =>
      simp only [List.map_cons]
      exact uniqueFrom_squash rest x (hsn _ (List.mem_cons_self _ _))
        (fun y hy => hsn y (List.mem_cons_of_mem _ hy))

theorem domInner_squash (fitI : IEEE.Ref) (i : Nat) (hI : fitI.2.NoNaN) :
    ∀ (rest : List IEEE.Ref) (j : Nat) (st : IEEE.DomState), (∀ x ∈ rest, x.2.NoNaN) →
      domInner (IEEE.Ref.squash fitI) i (rest.map IEEE.Ref.squash) j st.squash =
        (IEEE.domInner fitI i rest j st).map IEEE.DomState.squash := by
  intro rest
  induction rest with
  | nil => intro j st _; rfl
  | cons fitJ rest ih =>
    intro j st hr
    have hJ := hr fitJ (List.mem_cons_self _ _)
    have hrest : ∀ y ∈ rest, y.2.NoNaN := fun y hy => hr y (List.mem_cons_of_mem _ hy)
    simp only [List.map_cons, domInner, IEEE.domInner]
    have e1 : (IEEE.Ref.squash fitI).2.Dominates (IEEE.Ref.squash fitJ).2 none =
        fitI.2.Dominates fitJ.2 none := Dominates_squash fitI.2 fitJ.2 hI hJ
    have e2 : (IEEE.Ref.squash fitJ).2.Dominates (IEEE.Ref.squash fitI).2 none =
        fitJ.2.Dominates fitI.2 none := Dominates_squash fitJ.2 fitI.2 hJ hI
    rw [e1, e2]
    cases fitI.2.Dominates fitJ.2 none with
    | panic => rfl
    | outOfFuel => rfl
    | ok d1 =>
      simp only [Outcome.ok_bind]
      cases d1 with
      | true =>
        simp only [if_true]
        exact ih (j + 1)
          { dominatingFits :=
              mapSet st.dominatingFits fitJ.1 (mapGetD st.dominatingFits fitJ.1 + 1)
            dominatedFits := (st.dominatedFits.Add fitI.1 j).1
            currentFront := st.currentFront } hrest
      | false =>
        simp only [Bool.false_eq_true, if_false]
        cases fitJ.2.Dominates fitI.2 none with
        | panic => rfl
        | outOfFuel => rfl
        | ok d2 =>
          simp only [Outcome.ok_bind]
          cases d2 with
          | true =>
            simp only [if_true]
            exact ih (j + 1)
              { dominatingFits :=
                  mapSet st.dominatingFits fitI.1 (mapGetD st.dominatingFits fitI.1 + 1)
                dominatedFits := (st.dominatedFits.Add fitJ.1 i).1
                currentFront := st.currentFront } hrest
          | false =>
            simp only [Bool.false_eq_true, if_false]
            exact ih (j + 1) st hrest

theorem domOuter_squash :
    ∀ (fits : List IEEE.Ref) (i : Nat) (st : IEEE.DomState), (∀ x ∈ fits, x.2.NoNaN) →
      domOuter (fits.map IEEE.Ref.squash) i st.squash =
        (IEEE.domOuter fits i st).map IEEE.DomState.squash := by
  intro fits
  induction fits with
  | nil => intro i st _; rfl
  | cons fitI rest ih =>
    intro i st hr
    have hI := hr fitI (List.mem_cons_self _ _)
    have hrest : ∀ y ∈ rest, y.2.NoNaN := fun y hy => hr y (List.mem_cons_of_mem _ hy)
    simp only [List.map_cons, domOuter, IEEE.domOuter, domInner_squash fitI i hI rest 0 st hrest]
    cases IEEE.domInner fitI i rest 0 st with
    | panic => rfl
    | outOfFuel => rfl
    | ok st1 =>
      simp only [Outcome.map_ok, Outcome.ok_bind]
      have : (if mapGetD st1.squash.dominatingFits (IEEE.Ref.squash fitI).1 = 0
          then { st1.squash with currentFront := st1.squash.currentFront ++ [IEEE.Ref.squash fitI] }
          else st1.squash) =
          IEEE.DomState.squash (if mapGetD st1.dominatingFits fitI.1 = 0
            then { st1 with currentFront := st1.currentFront ++ [fitI] }
            else st1) := by
        by_cases hc : mapGetD st1.dominatingFits fitI.1 = 0
        · have hc' : mapGetD st1.squash.dominatingFits (IEEE.Ref.squash fitI).1 = 0 := hc
          rw [if_pos hc, if_pos hc']
          simp [IEEE.DomState.squash]
        · have hc' : ¬ mapGetD st1.squash.dominatingFits (IEEE.Ref.squash fitI).1 = 0 := hc
          rw [if_neg hc, if_neg hc']
      rw [this]
      exact ih (i + 1) _ hrest

end Deag

namespace Deag

theorem index_mem {α : Type} (xs : List α) (i : Int) (x : α) (h : index xs i = Outcome.ok x) :
    x ∈ xs :=
  List.get?_mem ((index_eq_ok xs i x).mp h).2

theorem mapLoop_squash (fits : List IEEE.Ref) (hf : ∀ u ∈ fits, u.2.NoNaN) :
    ∀ (individuals : List IEEE.Fitness) (i : Nat) (mapping : StaticLinkedList Nat),
      (∀ f ∈ individuals, f.NoNaN) →
      mapLoop (fits.map IEEE.Ref.squash) (individuals.map IEEE.Fitness.squash) i mapping =
        IEEE.mapLoop fits individuals i mapping := by
  intro individuals
  induction individuals with
  | nil => intro i mapping _; rfl
  | cons indFit rest ih =>
    intro i mapping hp
    have hind := hp indFit (List.mem_cons_self _ _)
    have hrest : ∀ f ∈ rest, f.NoNaN := fun f hf' => hp f (List.mem_cons_of_mem _ hf')
    simp only [List.map_cons, mapLoop, IEEE.mapLoop, List.length_map]
    have hsearch : (sortSearch fits.length fun j =>
        (index (fits.map IEEE.Ref.squash) j).bind fun u =>
          searchPredFrom indFit.squash.GetWValues u.2.GetWValues 0) =
        sortSearch fits.length fun j =>
          (index fits j).bind fun u =>
            IEEE.searchPredFrom indFit.GetWValues u.2.GetWValues 0 := by
      unfold sortSearch
      apply searchLoop_congr _ _ fits.length _ _ _ _ (le_refl _)
      intro j _
      simp only [index_map]
      cases hu : index fits (j : Int) with
      | panic => rfl
      | outOfFuel => rfl
      | ok u =>
        simp only [Outcome.map_ok, Outcome.ok_bind]
        have hun := hf u (index_mem _ _ _ hu)
        show searchPredFrom indFit.squash.GetWValues u.2.squash.GetWValues 0 = _
        rw [GetWValues_squash, GetWValues_squash]
        exact searchPredFrom_squash _ (GetWValues_noNaN hind) _ 0 (GetWValues_noNaN hun)
    rw [hsearch]
    cases sortSearch fits.length fun j =>
        (index fits j).bind fun u =>
          IEEE.searchPredFrom indFit.GetWValues u.2.GetWValues 0 with
    | panic => rfl
    | outOfFuel => rfl
    | ok loc =>
      simp only [Outcome.ok_bind, List.get?_eq_getElem?, List.getElem?_map]
      cases hg : fits[loc]? with
      | none => rfl
      | some u =>
        have hun := hf u (List.getElem?_mem hg)
        simp only [Option.map_some']
        have he : (IEEE.Ref.squash u).2.Equal indFit.squash = u.2.Equal indFit :=
          Equal_squash u.2 indFit hun hind
        rw [he]
        cases u.2.Equal indFit with
        | panic => rfl
        | outOfFuel => rfl
        | ok e =>
          simp only [Outcome.ok_bind]
          cases e with
          | true =>
            simp only [if_true]
            exact ih (i + 1) _ hrest
          | false => rfl

theorem mapIndividualsByFitness_squash (fits : List IEEE.Ref) (hf : ∀ u ∈ fits, u.2.NoNaN)
    (individuals : List IEEE.Fitness) (h : ∀ f ∈ individuals, f.NoNaN) :
    mapIndividualsByFitness (fits.map IEEE.Ref.squash) (individuals.map IEEE.Fitness.squash) =
      IEEE.mapIndividualsByFitness fits individuals := by
  unfold mapIndividualsByFitness IEEE.mapIndividualsByFitness
  rw [List.length_map]
  exact mapLoop_squash fits hf individuals 0 _ h

theorem extendAll_squash (mapFitInd : StaticLinkedList Nat) (frontIndex : Nat) :
    ∀ (front : List IEEE.Ref) (fronts : StaticLinkedList Nat),
      extendAll mapFitInd frontIndex (front.map IEEE.Ref.squash) fronts =
        IEEE.extendAll mapFitInd frontIndex front fronts := by
  intro front
  induction front with
  | nil => intro fronts; rfl
  | cons fit rest ih =>
    intro fronts
    simp only [List.map_cons, extendAll, IEEE.extendAll]
    have : extendFront mapFitInd frontIndex (IEEE.Ref.squash fit) fronts =
        IEEE.extendFront mapFitInd frontIndex fit fronts := rfl
    rw [this]
    cases IEEE.extendFront mapFitInd frontIndex fit fronts with
    | panic => rfl
    | outOfFuel => rfl
    | ok f => exact ih f

theorem peelChain_squash (fits : List IEEE.Ref) (mapFitInd dominatedFits : StaticLinkedList Nat)
    (frontIndex : Nat) :
    ∀ (steps : Nat) (fitDIdx next : Int) (st : IEEE.PeelState),
      peelChain (fits.map IEEE.Ref.squash) mapFitInd dominatedFits frontIndex steps fitDIdx next
          st.squash =
        (IEEE.peelChain fits mapFitInd dominatedFits frontIndex steps fitDIdx next st).map
          IEEE.PeelState.squash := by
  intro steps
  induction steps with
  | zero =>
    intro fitDIdx next st
    simp only [peelChain, IEEE.peelChain]
    split <;> rfl
  | succ steps ih =>
    intro fitDIdx next st
    simp only [peelChain, IEEE.peelChain]
    split
    · rfl
    · simp only [index_map]
      cases index fits fitDIdx with
      | panic => rfl
      | outOfFuel => rfl
      | ok fitD =>
        simp only [Outcome.map_ok, Outcome.ok_bind]
        by_cases hc : mapGetD st.dominatingFits fitD.1 - 1 = 0
        · have hc' : mapGetD st.squash.dominatingFits (IEEE.Ref.squash fitD).1 - 1 = 0 := hc
          rw [if_pos hc, if_pos hc']
          have : extendFront mapFitInd frontIndex (IEEE.Ref.squash fitD) st.squash.fronts =
              IEEE.extendFront mapFitInd frontIndex fitD st.fronts := rfl
          rw [this]
          cases IEEE.extendFront mapFitInd frontIndex fitD st.fronts with
          | panic => rfl
          | outOfFuel => rfl
          | ok fr =>
            simp only [Outcome.ok_bind]
            exact ih _ _
              { dominatingFits :=
                  mapSet st.dominatingFits fitD.1 (mapGetD st.dominatingFits fitD.1 - 1)
                nextFront := st.nextFront ++ [fitD]
                paretoSorted := st.paretoSorted + (mapFitInd.GetSize fitD.1).1
                fronts := fr }
              |> fun h => by simpa [IEEE.PeelState.squash] using h
        · have hc' : ¬ mapGetD st.squash.dominatingFits (IEEE.Ref.squash fitD).1 - 1 = 0 := hc
          rw [if_neg hc, if_neg hc']
          simp only [Outcome.ok_bind]
          exact ih _ _
            { st with
              dominatingFits :=
                mapSet st.dominatingFits fitD.1 (mapGetD st.dominatingFits fitD.1 - 1) }

theorem peelFront_squash (fits : List IEEE.Ref) (mapFitInd dominatedFits : StaticLinkedList Nat)
    (frontIndex : Nat) :
    ∀ (front : List IEEE.Ref) (st : IEEE.PeelState),
      peelFront (fits.map IEEE.Ref.squash) mapFitInd dominatedFits frontIndex
          (front.map IEEE.Ref.squash) st.squash =
        (IEEE.peelFront fits mapFitInd dominatedFits frontIndex front st).map
          IEEE.PeelState.squash := by
  intro front
  induction front with
  | nil => intro st; rfl
  | cons fitP rest ih =>
    intro st
    simp only [List.map_cons, peelFront, IEEE.peelFront]
    have hk : (IEEE.Ref.squash fitP).1 = fitP.1 := rfl
    rw [hk]
    by_cases hc : (dominatedFits.GetFirstDataIndex fitP.1).2 = true
    · rw [if_pos hc, if_pos hc, peelChain_squash]
      cases IEEE.peelChain fits mapFitInd dominatedFits frontIndex (dominatedFits.total + 1)
          (dominatedFits.GetData (dominatedFits.GetFirstDataIndex fitP.1).1).1
          (dominatedFits.GetData (dominatedFits.GetFirstDataIndex fitP.1).1).2 st with
      | panic => rfl
      | outOfFuel => rfl
      | ok st1 =>
        simp only [Outcome.map_ok, Outcome.ok_bind]
        exact ih st1
    · rw [if_neg hc, if_neg hc]
      simp only [Outcome.ok_bind]
      exact ih st

theorem peelLoop_squash (fits : List IEEE.Ref) (mapFitInd dominatedFits : StaticLinkedList Nat)
    (frontIndex : Nat) (N : Int) :
    ∀ (fuel : Nat) (front : List IEEE.Ref) (st : IEEE.PeelState),
      peelLoop (fits.map IEEE.Ref.squash) mapFitInd dominatedFits frontIndex N fuel
          (front.map IEEE.Ref.squash) st.squash =
        (IEEE.peelLoop fits mapFitInd dominatedFits frontIndex N fuel front st).map
          IEEE.PeelState.squash := by
  intro fuel
  induction fuel with
  | zero =>
    intro front st
    simp only [peelLoop, IEEE.peelLoop]
    have : st.squash.paretoSorted = st.paretoSorted := rfl
    rw [this]
    split <;> rfl
  | succ fuel ih =>
    intro front st
    simp only [peelLoop, IEEE.peelLoop]
    have : st.squash.paretoSorted = st.paretoSorted := rfl
    rw [this]
    split
    · rw [peelFront_squash]
      cases IEEE.peelFront fits mapFitInd dominatedFits frontIndex front st with
      | panic => rfl
      | outOfFuel => rfl
      | ok st1 =>
        simp only [Outcome.map_ok, Outcome.ok_bind]
        exact ih st1.nextFront { st1 with nextFront := [] }
    · rfl

theorem frontChain_squash (fronts : StaticLinkedList Nat) (individuals : List IEEE.Fitness) :
    ∀ (steps : Nat) (next : Int),
      frontChain fronts (individuals.map IEEE.Fitness.squash) steps next =
        (IEEE.frontChain fronts individuals steps next).map (List.map IEEE.Ref.squash) := by
  intro steps
  induction steps with
  | zero =>
    intro next
    simp only [frontChain, IEEE.frontChain]
    split <;> rfl
  | succ steps ih =>
    intro next
    simp only [frontChain, IEEE.frontChain]
    split
    · rfl
    · simp only [index_map, ih]
      cases index individuals (fronts.GetData next).1 with
      | panic => rfl
      | outOfFuel => rfl
      | ok ind =>
        simp only [Outcome.map_ok, Outcome.ok_bind]
        cases IEEE.frontChain fronts individuals steps (fronts.GetData next).2 <;> rfl

theorem frontsFrom_squash (fronts : StaticLinkedList Nat) (individuals : List IEEE.Fitness) :
    ∀ (todo i : Nat),
      frontsFrom fronts (individuals.map IEEE.Fitness.squash) todo i =
        (IEEE.frontsFrom fronts individuals todo i).map
          (List.map (List.map IEEE.Ref.squash)) := by
  intro todo
  induction todo with
  | zero => intro i; rfl
  | succ todo ih =>
    intro i
    simp only [frontsFrom, IEEE.frontsFrom, ih]
    by_cases hc : (fronts.GetFirstDataIndex i).2 = true
    · rw [if_pos hc, if_pos hc, frontChain_squash]
      cases IEEE.frontChain fronts individuals (fronts.total + 1)
          (fronts.GetFirstDataIndex i).1 with
      | panic => rfl
      | outOfFuel => rfl
      | ok front =>
        simp only [Outcome.map_ok, Outcome.ok_bind]
        cases IEEE.frontsFrom fronts individuals todo (i + 1) <;> rfl
    · rw [if_neg hc, if_neg hc]
      simp only [Outcome.ok_bind]
      cases IEEE.frontsFrom fronts individuals todo (i + 1) <;> rfl

/-- Where no weighted value of the population is NaN, the sorter over `float64` values and
the sorter over the rationals, run on the population carried over by `squash`, do the
same: the same outcome, and the same fronts position by position. -/
theorem sortNondominated_squash (fuel : Nat) (individuals : List IEEE.Fitness) (k : Int)
    (firstFrontOnly : Bool) (h : ∀ f ∈ individuals, f.NoNaN) :
    sortNondominated fuel (individuals.map IEEE.Fitness.squash) k firstFrontOnly =
      (IEEE.sortNondominated fuel individuals k firstFrontOnly).map
        (List.map (List.map IEEE.Ref.squash)) := by
  unfold sortNondominated IEEE.sortNondominated
  by_cases hk : k = 0
  · simp [hk, Outcome.map_ok]
  · simp only [hk, if_false, List.length_map]
    rw [uniqueByFitness_squash individuals h]
    cases hfits : IEEE.uniqueByFitness individuals with
    | panic => rfl
    | outOfFuel => rfl
    | ok fits =>
      have hfn := uniqueByFitness_float_noNaN individuals h fits hfits
      simp only [Outcome.map_ok, Outcome.ok_bind]
      have hdom := domOuter_squash fits 0
        { dominatingFits := []
          dominatedFits :=
            NewStaticLinkedList (individuals.length * (individuals.length - 1) / 2)
          currentFront := [] } hfn
      have hst : IEEE.DomState.squash
          { dominatingFits := []
            dominatedFits :=
              NewStaticLinkedList (individuals.length * (individuals.length - 1) / 2)
            currentFront := [] } =
          { dominatingFits := []
            dominatedFits :=
              NewStaticLinkedList (individuals.length * (individuals.length - 1) / 2)
            currentFront := [] } := rfl
      rw [hst] at hdom
      rw [hdom]
      cases IEEE.domOuter fits 0
          { dominatingFits := []
            dominatedFits :=
              NewStaticLinkedList (individuals.length * (individuals.length - 1) / 2)
            currentFront := [] } with
      | panic => rfl
      | outOfFuel => rfl
      | ok dom =>
        simp only [Outcome.map_ok, Outcome.ok_bind]
        rw [mapIndividualsByFitness_squash fits hfn individuals h]
        cases IEEE.mapIndividualsByFitness fits individuals with
        | panic => rfl
        | outOfFuel => rfl
        | ok mapFitInd =>
          simp only [Outcome.ok_bind]
          have hcf : dom.squash.currentFront = dom.currentFront.map IEEE.Ref.squash := rfl
          rw [hcf, extendAll_squash]
          cases IEEE.extendAll mapFitInd 0 dom.currentFront
              (NewStaticLinkedList individuals.length) with
          | panic => rfl
          | outOfFuel => rfl
          | ok fronts0 =>
            simp only [Outcome.ok_bind]
            cases firstFrontOnly with
            | true =>
              simp only [Bool.not_true, Bool.false_eq_true, if_false, Outcome.ok_bind]
              unfold staticLinkedList2Slice IEEE.staticLinkedList2Slice
              exact frontsFrom_squash _ _ _ _
            | false =>
              simp only [Bool.not_false, if_true]
              have hpl := peelLoop_squash fits mapFitInd dom.dominatedFits 1
                (if (individuals.length : Int) < k then (individuals.length : Int) else k) fuel
                dom.currentFront
                { dominatingFits := dom.dominatingFits
                  nextFront := []
                  paretoSorted := (fronts0.GetSize 0).1
                  fronts := fronts0 }
              have hds : dom.squash.dominatedFits = dom.dominatedFits := rfl
              have hdf : dom.squash.dominatingFits = dom.dominatingFits := rfl
              rw [hds, hdf]
              have hst : IEEE.PeelState.squash
                  { dominatingFits := dom.dominatingFits
                    nextFront := []
                    paretoSorted := (fronts0.GetSize 0).1
                    fronts := fronts0 } =
                  { dominatingFits := dom.dominatingFits
                    nextFront := []
                    paretoSorted := (fronts0.GetSize 0).1
                    fronts := fronts0 } := rfl
              rw [hst] at hpl
              rw [hpl]
              cases IEEE.peelLoop fits mapFitInd dom.dominatedFits 1
                  (if (individuals.length : Int) < k then (individuals.length : Int) else k) fuel
                  dom.currentFront
                  { dominatingFits := dom.dominatingFits
                    nextFront := []
                    paretoSorted := (fronts0.GetSize 0).1
                    fronts := fronts0 } with
              | panic => rfl
              | outOfFuel => rfl
              | ok st =>
                simp only [Outcome.map_ok, Outcome.ok_bind]
                unfold staticLinkedList2Slice IEEE.staticLinkedList2Slice
                exact frontsFrom_squash _ _ _ _

end Deag

namespace Deag

/-! ## The first front over `float64` values -/

theorem frontChain_float_mem (fronts : StaticLinkedList Nat) (individuals : List IEEE.Fitness) :
    ∀ (steps : Nat) (next : Int) (front : List IEEE.Ref),
      IEEE.frontChain fronts individuals steps next = Outcome.ok front →
      ∀ x ∈ front, individuals.get? x.1 = some x.2 := by
  intro steps
  induction steps with
  | zero =>
    intro next front h x hx
    simp only [IEEE.frontChain] at h
    split at h
    · simp only [Outcome.ok.injEq] at h
      subst h; cases hx
    · cases h
  | succ steps ih =>
    intro next front h x hx
    simp only [IEEE.frontChain] at h
    split at h
    · simp only [Outcome.ok.injEq] at h
      subst h; cases hx
    · obtain ⟨ind, hind, h⟩ := Outcome.bind_eq_ok h
      obtain ⟨rest, hrest, h⟩ := Outcome.bind_eq_ok h
      simp only [Outcome.ok.injEq] at h
      subst h
      rcases List.mem_cons.mp hx with rfl | hx
      · exact ((index_eq_ok _ _ _).mp hind).2
      · exact ih _ rest hrest x hx

theorem frontsFrom_float_mem (fronts : StaticLinkedList Nat) (individuals : List IEEE.Fitness) :
    ∀ (todo i : Nat) (res : List (List IEEE.Ref)),
      IEEE.frontsFrom fronts individuals todo i = Outcome.ok res →
      ∀ front ∈ res, ∀ x ∈ front, individuals.get? x.1 = some x.2 := by
  intro todo
  induction todo with
  | zero =>
    intro i res h front hf
    simp only [IEEE.frontsFrom, Outcome.ok.injEq] at h
    subst h; cases hf
  | succ todo ih =>
    intro i res h front hf
    simp only [IEEE.frontsFrom] at h
    obtain ⟨f0, h0, h⟩ := Outcome.bind_eq_ok h
    obtain ⟨rest, hrest, h⟩ := Outcome.bind_eq_ok h
    simp only [Outcome.ok.injEq] at h
    subst h
    rcases List.mem_cons.mp hf with rfl | hf
    · split at h0
      · exact frontChain_float_mem fronts individuals _ _ _ h0
      · simp only [Outcome.ok.injEq] at h0
        subst h0
        intro x hx; cases hx
    · exact ih _ rest hrest front hf

/-- Every individual that the sorter over `float64` values returns stands in the
population at the position it is returned with. -/
theorem sortNondominated_float_mem (fuel : Nat) (individuals : List IEEE.Fitness) (k : Int)
    (firstFrontOnly : Bool) (res : List (List IEEE.Ref))
    (h : IEEE.sortNondominated fuel individuals k firstFrontOnly = Outcome.ok res) :
    ∀ front ∈ res, ∀ x ∈ front, individuals.get? x.1 = some x.2 := by
  unfold IEEE.sortNondominated at h
  split at h
  · simp only [Outcome.ok.injEq] at h
    subst h
    intro front hf; cases hf
  · obtain ⟨fits, _, h⟩ := Outcome.bind_eq_ok h
    obtain ⟨dom, _, h⟩ := Outcome.bind_eq_ok h
    obtain ⟨mapFitInd, _, h⟩ := Outcome.bind_eq_ok h
    obtain ⟨fronts0, _, h⟩ := Outcome.bind_eq_ok h
    obtain ⟨fronts, _, h⟩ := Outcome.bind_eq_ok h
    exact frontsFrom_float_mem fronts individuals _ _ res h

/-- C2 (as the code has it): on a non-empty population of evaluated `float64` fitness with
equal objective count, no weighted value of which is NaN, and for `k >= 1`,
`sortNondominated(pop, k, true)` returns exactly one front; no position occurs in it twice,
and an individual of the population is in it exactly when no individual of the population
dominates it. -/
theorem sortNondominated_firstFront_noNaN (fuel : Nat) (individuals : List IEEE.Fitness)
    (k : Int) (M : Nat) (hne : individuals ≠ []) (hwf : ∀ f ∈ individuals, f.Evaluated M)
    (hnan : ∀ f ∈ individuals, f.NoNaN) (hk : 1 ≤ k) :
    ∃ front, IEEE.sortNondominated fuel individuals k true = Outcome.ok [front] ∧
      (front.map Prod.fst).Nodup ∧
      ∀ p f, (p, f) ∈ front ↔
        (individuals.get? p = some f ∧
          ∀ g ∈ individuals, g.Dominates f none ≠ Outcome.ok true) := by
  obtain ⟨front', h', hnd', hmem'⟩ := sortNondominated_firstFrontOnly fuel
    (individuals.map IEEE.Fitness.squash) k M (by simpa using hne)
    (by
      intro f hf
      obtain ⟨g, hg, rfl⟩ := List.mem_map.mp hf
      have := hwf g hg
      exact ⟨by simpa [IEEE.Fitness.squash] using this.1,
        by simpa [IEEE.Fitness.squash] using this.2⟩) hk
  rw [sortNondominated_squash fuel individuals k true hnan] at h'
  obtain ⟨res, hres, hmap⟩ := Outcome.map_eq_ok h'
  have hpos := sortNondominated_float_mem fuel individuals k true res hres
  cases res with
  | nil => cases hmap
  | cons front rest =>
    cases rest with
    | cons _ _ => simp at hmap
    | nil =>
      simp only [List.map_cons, List.map_nil, List.cons.injEq, and_true] at hmap
      have hfr := hpos front (List.mem_singleton_self _)
      have hfst : front'.map Prod.fst = front.map Prod.fst := by
        rw [← hmap, List.map_map]
        rfl
      refine ⟨front, hres, by rw [← hfst]; exact hnd', ?_⟩
      intro p f
      have hdom : ∀ g ∈ individuals, f ∈ individuals →
          (g.squash.Dominates f.squash none ≠ Outcome.ok true ↔
            g.Dominates f none ≠ Outcome.ok true) := by
        intro g hg hf
        rw [Dominates_squash g f (hnan g hg) (hnan f hf)]
      have hget : individuals.get? p = some f →
          (individuals.map IEEE.Fitness.squash).get? p = some f.squash := by
        intro h
        simp only [List.get?_eq_getElem?, List.getElem?_map] at h ⊢
        rw [h]; rfl
      constructor
      · intro hin
        have hp := hfr (p, f) hin
        have hin' : (p, f.squash) ∈ front' := by
          rw [← hmap]
          exact List.mem_map.mpr ⟨(p, f), hin, rfl⟩
        obtain ⟨_, hall⟩ := (hmem' p f.squash).mp hin'
        refine ⟨hp, ?_⟩
        intro g hg
        exact (hdom g hg (List.get?_mem hp)).mp
          (hall g.squash (List.mem_map.mpr ⟨g, hg, rfl⟩))
      · rintro ⟨hp, hall⟩
        have hin' : (p, f.squash) ∈ front' := by
          apply (hmem' p f.squash).mpr
          refine ⟨hget hp, ?_⟩
          intro g' hg'
          obtain ⟨g, hg, rfl⟩ := List.mem_map.mp hg'
          exact (hdom g hg (List.get?_mem hp)).mpr (hall g hg)
        rw [← hmap] at hin'
        obtain ⟨x, hx, hxe⟩ := List.mem_map.mp hin'
        have hx1 : x.1 = p := congrArg Prod.fst hxe
        have hxp := hfr x hx
        rw [hx1, hp] at hxp
        simp only [Option.some.injEq] at hxp
        have : x = (p, f) := by
          cases x
          simp only at hx1 hxp
          rw [hx1, ← hxp]
        rw [← this]
        exact hx

/-- Witness of C2 on the population `popInf` of three two-objective individuals with
infinite weighted values and `k = 3`. -/
theorem sortNondominated_firstFront_noNaN_witness :
    ∃ front, IEEE.sortNondominated 0 IEEE.popInf 3 true = Outcome.ok [front] ∧
      (front.map Prod.fst).Nodup ∧
      ∀ p f, (p, f) ∈ front ↔
        (IEEE.popInf.get? p = some f ∧
          ∀ g ∈ IEEE.popInf, g.Dominates f none ≠ Outcome.ok true) :=
  sortNondominated_firstFront_noNaN 0 IEEE.popInf 3 2 (by decide) (by decide) (by decide)
    (by decide)

/-- C2 (as stated) fails on NaN: on the population of one individual with an evaluated
fitness whose single weighted value is NaN, `sortNondominated(pop, k, true)` returns no
front for any `k` other than zero.  The predicate that `mapIndividualsByFitness` hands to
`sort.Search` is false at the only position (`NaN != NaN` holds and `NaN > NaN` does not),
the search returns 1 and the function reaches its `panic`. -/
theorem sortNondominated_NaN_panics :
    IEEE.popNaN ≠ [] ∧ (∀ f ∈ IEEE.popNaN, f.Evaluated 1) ∧
      ∀ (fuel : Nat) (k : Int) (firstFrontOnly : Bool), k ≠ 0 →
        IEEE.sortNondominated fuel IEEE.popNaN k firstFrontOnly = Outcome.panic := by
  refine ⟨by decide, by decide, ?_⟩
  intro fuel k firstFrontOnly hk
  have h1 : IEEE.uniqueByFitness IEEE.popNaN = Outcome.ok [(0, IEEE.fitOf [Float64.nan])] := by
    decide
  have h2 : IEEE.domOuter [(0, IEEE.fitOf [Float64.nan])] 0
      { dominatingFits := []
        dominatedFits := NewStaticLinkedList (IEEE.popNaN.length * (IEEE.popNaN.length - 1) / 2)
        currentFront := [] } =
      Outcome.ok
        { dominatingFits := []
          dominatedFits := NewStaticLinkedList 0
          currentFront := [(0, IEEE.fitOf [Float64.nan])] } := by
    decide
  have h3 : IEEE.mapIndividualsByFitness [(0, IEEE.fitOf [Float64.nan])] IEEE.popNaN =
      Outcome.panic := by
    decide
  simp only [IEEE.sortNondominated, hk, if_false, h1, Outcome.ok_bind, h2, h3,
    Outcome.panic_bind]

end Deag

namespace Deag

/-! ## The hall of fame of `*Float64Individual`s inside the hall of fame of every representation -/

theorem setIndex_map {α β : Type} (g : α → β) (xs : List α) (i : Int) (v : α) :
    setIndex (xs.map g) i (g v) = (setIndex xs i v).map (List.map g) := by
  unfold setIndex
  by_cases h : i < 0
  · simp [h, Outcome.map_panic]
  · simp only [h, if_false, List.length_map]
    by_cases h2 : i.toNat < xs.length
    · simp [h2, Outcome.map_ok, List.map_set]
    · simp [h2, Outcome.map_panic]

theorem insertShift_lift (idx : Nat) :
    ∀ (n : Nat) (items : List (Option Float64Individual)),
      Iface.DefaultHallOfFame.insertShift idx n (items.map Iface.entry) =
        (DefaultHallOfFame.insertShift idx n items).map (List.map Iface.entry) := by
  intro n
  induction n with
  | zero => intro items; rfl
  | succ n ih =>
    intro items
    simp only [Iface.DefaultHallOfFame.insertShift, DefaultHallOfFame.insertShift]
    split
    · rw [index_map]
      cases index items (n : Int) with
      | panic => rfl
      | outOfFuel => rfl
      | ok v =>
        simp only [Outcome.map_ok, Outcome.ok_bind, setIndex_map]
        cases setIndex items ((n : Int) + 1) v with
        | panic => rfl
        | outOfFuel => rfl
        | ok items1 =>
          simp only [Outcome.map_ok, Outcome.ok_bind]
          exact ih items1
    · rfl

theorem removeShift_lift :
    ∀ (n : Nat) (i : Int) (items : List (Option Float64Individual)),
      Iface.DefaultHallOfFame.removeShift n i (items.map Iface.entry) =
        (DefaultHallOfFame.removeShift n i items).map (List.map Iface.entry) := by
  intro n
  induction n with
  | zero => intro i items; rfl
  | succ n ih =>
    intro i items
    simp only [Iface.DefaultHallOfFame.removeShift, DefaultHallOfFame.removeShift, index_map]
    cases index items (i + 1) with
    | panic => rfl
    | outOfFuel => rfl
    | ok v =>
      simp only [Outcome.map_ok, Outcome.ok_bind, setIndex_map]
      cases setIndex items i v with
      | panic => rfl
      | outOfFuel => rfl
      | ok items1 =>
        simp only [Outcome.map_ok, Outcome.ok_bind]
        exact ih (i + 1) items1

theorem GetFitness_entry (it : Option Float64Individual) :
    (Iface.entry it).GetFitness = getFitness it := by
  cases it <;> rfl

theorem IsEqual_entry (x : Float64Individual) (it : Option Float64Individual) :
    (Iface.entry (some x)).IsEqual (Iface.entry it) = Outcome.ok (x.IsEqual it) := by
  cases it <;> rfl

theorem Insert_lift (hof : DefaultHallOfFame) (ind : Float64Individual) :
    (Iface.lift hof).Insert (Iface.entry (some ind)) = (hof.Insert ind).map Iface.lift := by
  unfold Iface.DefaultHallOfFame.Insert DefaultHallOfFame.Insert
  have hclone : (Iface.entry (some ind)).Clone =
      ind.Clone.bind fun c => Outcome.ok (Iface.entry (some c)) := rfl
  rw [hclone]
  cases ind.Clone with
  | panic => rfl
  | outOfFuel => rfl
  | ok c =>
    simp only [Outcome.ok_bind]
    have hfit : (Iface.entry (some c)).GetFitness = Outcome.ok c.fitness := rfl
    rw [hfit]
    simp only [Outcome.ok_bind]
    have hpred : (fun i : Nat =>
        (index (Iface.lift hof).items (i : Int)).bind fun it =>
          it.GetFitness.bind fun f => ptrLess f c.fitness) =
        fun i : Nat =>
          (index hof.items (i : Int)).bind fun it =>
            (getFitness it).bind fun f => ptrLess f c.fitness := by
      funext i
      show (index (hof.items.map Iface.entry) (i : Int)).bind _ = _
      rw [index_map]
      cases index hof.items (i : Int) with
      | panic => rfl
      | outOfFuel => rfl
      | ok it =>
        simp only [Outcome.map_ok, Outcome.ok_bind, GetFitness_entry]
    rw [hpred]
    have hsz : (Iface.lift hof).size = hof.size := rfl
    have hmx : (Iface.lift hof).maxsize = hof.maxsize := rfl
    have hit : (Iface.lift hof).items = hof.items.map Iface.entry := rfl
    rw [hsz, hmx, hit]
    cases sortSearch hof.size.toNat fun i : Nat =>
        (index hof.items (i : Int)).bind fun it =>
          (getFitness it).bind fun f => ptrLess f c.fitness with
    | panic => rfl
    | outOfFuel => rfl
    | ok idx =>
      simp only [Outcome.ok_bind, insertShift_lift]
      cases DefaultHallOfFame.insertShift idx
          ((if hof.size < hof.maxsize then hof.size + 1 else hof.size) - 1).toNat hof.items with
      | panic => rfl
      | outOfFuel => rfl
      | ok items1 =>
        simp only [Outcome.map_ok, Outcome.ok_bind]
        have := setIndex_map Iface.entry items1 (idx : Int) (some c)
        rw [this]
        cases setIndex items1 (idx : Int) (some c) with
        | panic => rfl
        | outOfFuel => rfl
        | ok items2 => rfl

theorem Remove_lift (hof : DefaultHallOfFame) (i : Int) :
    (Iface.lift hof).Remove i = (hof.Remove i).map Iface.lift := by
  unfold Iface.DefaultHallOfFame.Remove DefaultHallOfFame.Remove
  have hsz : (Iface.lift hof).size = hof.size := rfl
  have hit : (Iface.lift hof).items = hof.items.map Iface.entry := rfl
  rw [hsz, hit]
  split
  · rw [removeShift_lift]
    cases DefaultHallOfFame.removeShift (hof.size - 1 - i).toNat i hof.items with
    | panic => rfl
    | outOfFuel => rfl
    | ok items1 => rfl
  · rfl

theorem updateCond_lift (hof : DefaultHallOfFame) (ind : Float64Individual) :
    (Iface.lift hof).updateCond (Iface.entry (some ind)) = hof.updateCond ind := by
  unfold Iface.DefaultHallOfFame.updateCond DefaultHallOfFame.updateCond
  have hfit : (Iface.entry (some ind)).GetFitness = Outcome.ok ind.fitness := rfl
  have hsz : (Iface.lift hof).size = hof.size := rfl
  have hmx : (Iface.lift hof).maxsize = hof.maxsize := rfl
  have hit : (Iface.lift hof).items = hof.items.map Iface.entry := rfl
  rw [hfit, hsz, hmx, hit]
  simp only [Outcome.ok_bind, index_map]
  cases index hof.items (hof.size - 1) with
  | panic => rfl
  | outOfFuel => rfl
  | ok it => simp only [Outcome.map_ok, Outcome.ok_bind, GetFitness_entry]

theorem similarScan_lift (ind : Float64Individual) :
    ∀ items : List (Option Float64Individual),
      Iface.DefaultHallOfFame.similarScan (fun x y => x.IsEqual y) (Iface.entry (some ind))
          (items.map Iface.entry) =
        Outcome.ok (!(items.any fun it => ind.IsEqual it)) := by
  intro items
  induction items with
  | nil => rfl
  | cons it rest ih =>
    simp only [List.map_cons, Iface.DefaultHallOfFame.similarScan, IsEqual_entry,
      Outcome.ok_bind, List.any_cons]
    cases ind.IsEqual it with
    | true => simp
    | false => simpa using ih

theorem Insert_similar (hof h : DefaultHallOfFame) (ind : Float64Individual)
    (hi : hof.Insert ind = Outcome.ok h) : h.similar = hof.similar := by
  unfold DefaultHallOfFame.Insert at hi
  obtain ⟨c, _, hi⟩ := Outcome.bind_eq_ok hi
  obtain ⟨idx, _, hi⟩ := Outcome.bind_eq_ok hi
  obtain ⟨items1, _, hi⟩ := Outcome.bind_eq_ok hi
  obtain ⟨items2, _, hi⟩ := Outcome.bind_eq_ok hi
  simp only [Outcome.ok.injEq] at hi
  rw [← hi]

theorem Remove_similar (hof h : DefaultHallOfFame) (i : Int)
    (hr : hof.Remove i = Outcome.ok h) : h.similar = hof.similar := by
  unfold DefaultHallOfFame.Remove at hr
  split at hr
  · obtain ⟨items1, _, hr⟩ := Outcome.bind_eq_ok hr
    simp only [Outcome.ok.injEq] at hr
    rw [← hr]
  · simp only [Outcome.ok.injEq] at hr
    rw [hr]

theorem updateLoop_lift :
    ∀ (individuals : List Float64Individual) (hof : DefaultHallOfFame),
      (hof.similar = fun x y => x.IsEqual y) →
      Iface.DefaultHallOfFame.updateLoop (individuals.map fun x => Iface.entry (some x))
          (Iface.lift hof) =
        (DefaultHallOfFame.updateLoop individuals hof).map Iface.lift := by
  intro individuals
  induction individuals with
  | nil => intro hof _; rfl
  | cons ind rest ih =>
    intro hof hs
    simp only [List.map_cons, Iface.DefaultHallOfFame.updateLoop,
      DefaultHallOfFame.updateLoop, updateCond_lift]
    cases hof.updateCond ind with
    | panic => rfl
    | outOfFuel => rfl
    | ok c =>
      simp only [Outcome.ok_bind]
      cases c with
      | false =>
        simp only [Bool.false_eq_true, if_false]
        exact ih hof hs
      | true =>
        simp only [if_true]
        have hscan : Iface.DefaultHallOfFame.similarScan (Iface.lift hof).similar
            (Iface.entry (some ind)) (Iface.lift hof).items =
            Outcome.ok (!(hof.items.any (hof.similar ind))) := by
          rw [hs]
          exact similarScan_lift ind hof.items
        rw [hscan]
        simp only [Outcome.ok_bind]
        cases hany : hof.items.any (hof.similar ind) with
        | true =>
          simp only [Bool.not_true, Bool.false_eq_true, if_false, if_true]
          exact ih hof hs
        | false =>
          simp only [Bool.not_false, if_true, Bool.false_eq_true, if_false]
          have hsz : (Iface.lift hof).size = hof.size := rfl
          have hmx : (Iface.lift hof).maxsize = hof.maxsize := rfl
          rw [hsz, hmx]
          by_cases hfull : hof.size ≥ hof.maxsize
          · rw [if_pos hfull, if_pos hfull, Remove_lift]
            cases hrem : hof.Remove hof.maxsize with
            | panic => rfl
            | outOfFuel => rfl
            | ok hof1 =>
              simp only [Outcome.map_ok, Outcome.ok_bind, Insert_lift]
              cases hins : hof1.Insert ind with
              | panic => rfl
              | outOfFuel => rfl
              | ok hof2 =>
                simp only [Outcome.map_ok, Outcome.ok_bind]
                exact ih hof2 (by
                  rw [Insert_similar hof1 hof2 ind hins, Remove_similar hof hof1 _ hrem, hs])
          · rw [if_neg hfull, if_neg hfull]
            simp only [Outcome.ok_bind, Insert_lift]
            cases hins : hof.Insert ind with
            | panic => rfl
            | outOfFuel => rfl
            | ok hof2 =>
              simp only [Outcome.map_ok, Outcome.ok_bind]
              exact ih hof2 (by rw [Insert_similar hof hof2 ind hins, hs])

/-- On `*Float64Individual`s and with the default similarity predicate the hall of fame of
every representation does what the hall of fame of `*Float64Individual`s does: `Update`
has the same outcome and leaves the same entries. -/
theorem Update_lift (hof : DefaultHallOfFame) (hs : hof.similar = fun x y => x.IsEqual y)
    (individuals : List Float64Individual) :
    (Iface.lift hof).Update (individuals.map fun x => Iface.entry (some x)) =
      (hof.Update individuals).map Iface.lift := by
  unfold Iface.DefaultHallOfFame.Update DefaultHallOfFame.Update
  cases individuals with
  | nil => rfl
  | cons first rest =>
    have hsz : (Iface.lift hof).size = hof.size := rfl
    have hmx : (Iface.lift hof).maxsize = hof.maxsize := rfl
    simp only [List.map_cons, hsz, hmx]
    by_cases hc : hof.size = 0 ∧ hof.maxsize ≠ 0
    · rw [if_pos hc, if_pos hc, Insert_lift]
      cases hins : hof.Insert first with
      | panic => rfl
      | outOfFuel => rfl
      | ok hof1 =>
        simp only [Outcome.map_ok, Outcome.ok_bind]
        have := updateLoop_lift (first :: rest) hof1
          (by rw [Insert_similar hof hof1 first hins, hs])
        simpa using this
    · rw [if_neg hc, if_neg hc]
      simp only [Outcome.ok_bind]
      have := updateLoop_lift (first :: rest) hof hs
      simpa using this

end Deag

namespace Deag

/-! ## Hall of fame: which individuals `Update` keeps, by representation -/

/-- C18: with `*Float64Individual`s the claim holds.  `Update(P)` on a newly created hall
of fame of capacity `m ≥ 1` with the default similarity predicate, for a population `P` of
single-objective scored `*Float64Individual`s that are pairwise not similar, completes; the
hall then holds `min(m, |P|)` individuals `kept` of `P`, in non-increasing order of
weighted value, and no individual of `P` left out (`others`) has a larger weighted value
than a kept one.  With other representations it fails.  For two `*pso.Particle`s of raw
values 1 and 3 (weight `-1`), which `IsEqual` finds not equal, a hall of capacity 2 ends
with the individual of value 1 twice; for two such `*Float64ESIndividual`s it ends with one
item. -/
theorem Update_keeps_largest_by_representation (m : Int) (hm : 1 ≤ m)
    (P : List Float64Individual) (hP : ∀ x ∈ P, x.Scored 1)
    (hdis : P.Pairwise fun a b => a.IsEqual (some b) = false) :
    (∃ (hof : Iface.DefaultHallOfFame) (kept others : List Float64Individual),
      ((Iface.DefaultHallOfFame.NewDefaultHallOfFame m none).bind fun h =>
        h.Update (P.map fun x => Iface.entry (some x))) = Outcome.ok hof ∧
      hof.Len = min m (P.length : Int) ∧ (kept.length : Int) = hof.Len ∧
      (∀ (i : Nat) (x : Float64Individual), kept.get? i = some x →
        hof.Get (i : Int) = Outcome.ok (Iface.entry (some x))) ∧
      (kept.Pairwise fun a b => b.wvalue ≤ a.wvalue) ∧ (kept ++ others).Perm P ∧
      ∀ x ∈ kept, ∀ y ∈ others, y.wvalue ≤ x.wvalue) ∧
    (((Iface.DefaultHallOfFame.NewDefaultHallOfFame 2 none).bind fun h =>
        (h.Update [Iface.particleOf 1 [0], Iface.particleOf 3 [1]]).bind fun h1 =>
          Outcome.ok h1.view) =
      Outcome.ok (2, [Iface.particleOf 1 [0], Iface.particleOf 1 [0]])) ∧
    (Iface.particleOf 1 [0]).IsEqual (Iface.particleOf 3 [1]) = Outcome.ok false ∧
    (Iface.particleOf 3 [1]).IsEqual (Iface.particleOf 1 [0]) = Outcome.ok false ∧
    (((Iface.DefaultHallOfFame.NewDefaultHallOfFame 2 none).bind fun h =>
        (h.Update [Iface.strategyOf 1 [0], Iface.strategyOf 3 [1]]).bind fun h1 =>
          Outcome.ok h1.view) =
      Outcome.ok (1, [Iface.strategyOf 1 [0], Member.base Individual.nil])) ∧
    (Iface.strategyOf 1 [0]).IsEqual (Iface.strategyOf 3 [1]) = Outcome.ok false ∧
    (Iface.strategyOf 3 [1]).IsEqual (Iface.strategyOf 1 [0]) = Outcome.ok false := by
  obtain ⟨hpart, hp1, hp2, hes, he1, he2, _⟩ := Update_depends_on_representation
  refine ⟨?_, hpart, hp1, hp2, hes, he1, he2⟩
  have hm0 : ¬ m < 0 := by omega
  obtain ⟨hof, kept, others, hu, hlen, hk, hget, hsorted, hperm, hle⟩ :=
    Update_keeps_largest m hm P hP hdis
      { maxsize := m, size := 0, items := List.replicate m.toNat none,
        similar := fun x y => x.IsEqual y }
      (by simp [DefaultHallOfFame.NewDefaultHallOfFame, hm0])
  refine ⟨Iface.lift hof, kept, others, ?_, hlen, hk, ?_, hsorted, hperm, hle⟩
  · have hnew : Iface.DefaultHallOfFame.NewDefaultHallOfFame m none =
        Outcome.ok (Iface.lift
          { maxsize := m, size := 0, items := List.replicate m.toNat none,
            similar := fun x y => x.IsEqual y }) := by
      simp [Iface.DefaultHallOfFame.NewDefaultHallOfFame, hm0, Iface.lift, Iface.entry]
    rw [hnew, Outcome.ok_bind, Update_lift _ rfl, hu]
    rfl
  · intro i x hx
    have := hget i x hx
    unfold DefaultHallOfFame.Get at this
    unfold Iface.DefaultHallOfFame.Get
    show index (hof.items.map Iface.entry) (i : Int) = _
    rw [index_map, this]
    rfl

/-- Witness of C18 on the example of the claim: weight `-1`, raw values 3, 1, 4, 1 and
capacity 2. -/
theorem Update_keeps_largest_by_representation_witness :
    (∃ (hof : Iface.DefaultHallOfFame) (kept others : List Float64Individual),
      ((Iface.DefaultHallOfFame.NewDefaultHallOfFame 2 none).bind fun h =>
        h.Update ([indOne (-1) 3 [0], indOne (-1) 1 [1], indOne (-1) 4 [2],
          indOne (-1) 1 [3]].map fun x => Iface.entry (some x))) = Outcome.ok hof ∧
      hof.Len = min 2 (([indOne (-1) 3 [0], indOne (-1) 1 [1], indOne (-1) 4 [2],
        indOne (-1) 1 [3]].length : Nat) : Int) ∧
      (kept.length : Int) = hof.Len ∧
      (∀ (i : Nat) (x : Float64Individual), kept.get? i = some x →
        hof.Get (i : Int) = Outcome.ok (Iface.entry (some x))) ∧
      (kept.Pairwise fun a b => b.wvalue ≤ a.wvalue) ∧
      (kept ++ others).Perm
        [indOne (-1) 3 [0], indOne (-1) 1 [1], indOne (-1) 4 [2], indOne (-1) 1 [3]] ∧
      ∀ x ∈ kept, ∀ y ∈ others, y.wvalue ≤ x.wvalue) ∧
    (((Iface.DefaultHallOfFame.NewDefaultHallOfFame 2 none).bind fun h =>
        (h.Update [Iface.particleOf 1 [0], Iface.particleOf 3 [1]]).bind fun h1 =>
          Outcome.ok h1.view) =
      Outcome.ok (2, [Iface.particleOf 1 [0], Iface.particleOf 1 [0]])) ∧
    (Iface.particleOf 1 [0]).IsEqual (Iface.particleOf 3 [1]) = Outcome.ok false ∧
    (Iface.particleOf 3 [1]).IsEqual (Iface.particleOf 1 [0]) = Outcome.ok false ∧
    (((Iface.DefaultHallOfFame.NewDefaultHallOfFame 2 none).bind fun h =>
        (h.Update [Iface.strategyOf 1 [0], Iface.strategyOf 3 [1]]).bind fun h1 =>
          Outcome.ok h1.view) =
      Outcome.ok (1, [Iface.strategyOf 1 [0], Member.base Individual.nil])) ∧
    (Iface.strategyOf 1 [0]).IsEqual (Iface.strategyOf 3 [1]) = Outcome.ok false ∧
    (Iface.strategyOf 3 [1]).IsEqual (Iface.strategyOf 1 [0]) = Outcome.ok false :=
  Update_keeps_largest_by_representation 2 (by decide)
    [indOne (-1) 3 [0], indOne (-1) 1 [1], indOne (-1) 4 [2], indOne (-1) 1 [3]] (by decide!)
    (by decide!)

end Deag

namespace Deag

/-! ## `LessEqual` and `Less` over `float64` values and over the rationals -/

theorem Float64.le_iff_squash {a b : Float64} (ha : a ≠ Float64.nan) (hb : b ≠ Float64.nan) :
    Float64.le a b = true ↔ a.squash ≤ b.squash := by
  simp only [Float64.le, Bool.or_eq_true, Float64.lt_iff_squash ha hb,
    Float64.eq_squash ha hb, decide_eq_true_eq]
  exact le_iff_lt_or_eq.symm

theorem lessEqualFrom_squash (other : List Float64) (hO : ∀ v ∈ other, v ≠ Float64.nan) :
    ∀ (rest : List Float64) (i : Nat), (∀ v ∈ rest, v ≠ Float64.nan) →
      Fitness.lessEqualFrom (other.map Float64.squash) (rest.map Float64.squash) i =
        IEEE.Fitness.lessEqualFrom other rest i := by
  intro rest
  induction rest with
  | nil => intro i _; rfl
  | cons fit rest ih =>
    intro i hr
    have hfit := hr fit (List.mem_cons_self _ _)
    simp only [List.map_cons, Fitness.lessEqualFrom, IEEE.Fitness.lessEqualFrom,
      get?_map_squash]
    cases hg : other.get? i with
    | none => rfl
    | some o =>
      have ho := hO o (List.get?_mem hg)
      simp only [Option.map_some']
      by_cases hlt : Float64.lt o fit = true
      · rw [if_pos hlt, if_pos ((Float64.lt_iff_squash ho hfit).mp hlt)]
      · rw [if_neg hlt, if_neg (fun h => hlt ((Float64.lt_iff_squash ho hfit).mpr h))]
        exact ih (i + 1) (fun v hv => hr v (List.mem_cons_of_mem _ hv))

theorem lessFrom_squash (other : List Float64) (hO : ∀ v ∈ other, v ≠ Float64.nan) :
    ∀ (rest : List Float64) (i : Nat), (∀ v ∈ rest, v ≠ Float64.nan) →
      Fitness.lessFrom (other.map Float64.squash) (rest.map Float64.squash) i =
        IEEE.Fitness.lessFrom other rest i := by
  intro rest
  induction rest with
  | nil => intro i _; rfl
  | cons fit rest ih =>
    intro i hr
    have hfit := hr fit (List.mem_cons_self _ _)
    simp only [List.map_cons, Fitness.lessFrom, IEEE.Fitness.lessFrom, get?_map_squash]
    cases hg : other.get? i with
    | none => rfl
    | some o =>
      have ho := hO o (List.get?_mem hg)
      simp only [Option.map_some']
      by_cases hle : Float64.le o fit = true
      · rw [if_pos hle, if_pos ((Float64.le_iff_squash ho hfit).mp hle)]
      · rw [if_neg hle, if_neg (fun h => hle ((Float64.le_iff_squash ho hfit).mpr h))]
        exact ih (i + 1) (fun v hv => hr v (List.mem_cons_of_mem _ hv))

/-- Where no weighted value is NaN the comparisons over `float64` values and over the
rationals answer alike. -/
theorem comparisons_squash (a b : IEEE.Fitness) (ha : a.NoNaN) (hb : b.NoNaN) :
    a.squash.LessEqual b.squash = a.LessEqual b ∧ a.squash.Less b.squash = a.Less b ∧
      a.squash.Greater b.squash = a.Greater b ∧
      a.squash.GreaterEqual b.squash = a.GreaterEqual b ∧
      a.squash.Equal b.squash = a.Equal b ∧
      a.squash.Dominates b.squash none = a.Dominates b none := by
  have h1 : a.squash.LessEqual b.squash = a.LessEqual b :=
    lessEqualFrom_squash b.wvalues hb a.wvalues 0 ha
  have h2 : a.squash.Less b.squash = a.Less b := lessFrom_squash b.wvalues hb a.wvalues 0 ha
  refine ⟨h1, h2, ?_, ?_, Equal_squash a b ha hb, Dominates_squash a b ha hb⟩
  · simp only [Fitness.Greater, IEEE.Fitness.Greater, h1]
  · simp only [Fitness.GreaterEqual, IEEE.Fitness.GreaterEqual, h2]

end Deag
